import Mathlib

/-!
# StegX : the steganographic embedding engine

A shallow embedding of the LSB engine (`src/src/algo/lsb.c`), the EOC engine
(`src/src/algo/eoc.c`), the inspection of the host and the capacity advisor
(`src/src/sugg_algo.c`).

Conventions of the embedding.

* A byte array or a file is a `List Nat`; a byte is a number below 256.
  Machine arithmetic is written with an explicit `% 2 ^ w`.
* A C function that can abort (a failed `assert`) or leave the defined
  behaviour of C (an access outside an array, the use of a value that a failed
  unchecked `fread` left indeterminate, a division by zero) returns `none`.
* The pseudo-random generator (`rand.h`, `protection.h`) is not part of the
  sources that are modelled here; it is the parameter `Rand`.
-/

namespace StegX

/-! ## Keyed scrambler : the interface used by the engines -/

/-- The generator behind `create_seed`, `stegx_srand` and `stegx_rand`.
The generator state is a number. `stegx_srand` replaces the state by one that
depends on the seed alone, `stegx_rand` returns the drawn value (as the
non-negative number that enters the unsigned arithmetic of the callers)
together with the next state. -/
structure Rand where
  /-- Seed derived from the password bytes. -/
  create_seed : List Nat → Nat
  /-- State of the generator right after seeding. -/
  stegx_srand : Nat → Nat
  /-- One draw : the value and the state after the draw. -/
  stegx_rand : Nat → Nat × Nat

/-- The two modes of a session (`mode_e`). -/
inductive mode_e where
  | STEGX_MODE_INSERT
  | STEGX_MODE_EXTRACT
  deriving DecidableEq, Repr

/-- Modelled from the spec: the marker `DONE` of `protection.h` (a slot of the
scratch array that has been consumed). The first scan of `protect_data_lsb`
compares the slot with the literal `1`. -/
def DONE : Nat := 1

/-- Modelled from the spec: the marker `NOT_DONE` of `protection.h` (a slot of
the scratch array that has not been consumed yet). -/
def NOT_DONE : Nat := 0

/-! ## LSB engine : scrambled substitution (`protect_data_lsb`) -/

/-- The loop `while (done[m] == DONE) m++;` run on the part of `done` that
starts at index `m`. Leaving the array is an access out of bounds. -/
def skip_done : List Nat → Nat → Option Nat
  | [], _ => none
  | d :: ds, m => if d = DONE then skip_done ds (m + 1) else some m

/-- The loop `while (l < rang) { if (done[m] == DONE) m++; else { l++; m++; } }`
run on the part of `done` that starts at index `m`; returns the final
`(m, l)`. -/
def scan_rang (rang : Nat) : List Nat → Nat → Nat → Option (Nat × Nat)
  | [], m, l => if l < rang then none else some (m, l)
  | d :: ds, m, l =>
    if l < rang then
      (if d = DONE then scan_rang rang ds (m + 1) l
       else scan_rang rang ds (m + 1) (l + 1))
    else some (m, l)

/-- The search of lines 83-117 of `lsb.c` : the index `m` of the slot that is
selected for the rank `rang`, from `l = m = 0`. -/
def select_unit (done : List Nat) (rang : Nat) : Option Nat :=
  -- if (rang == 0) while (done[m] == 1) m++;
  match (if rang = 0 then skip_done done 0 else some 0) with
  | none => none
  | some m0 =>
    -- while (l < rang) ...
    match scan_rang rang (done.drop m0) m0 0 with
    | none => none
    | some (m1, l) =>
      -- if ((rang == l) && (done[m] == DONE)) while (done[m] == DONE) m++;
      match done[m1]? with
      | none => none
      | some d =>
        if rang = l ∧ d = DONE then skip_done (done.drop m1) m1 else some m1

/-- The variables of `protect_data_lsb`. `seed` is the state of the generator;
`trace` is a ghost variable that records, in order, every index `m` at which
line 121 executes `done[m] = DONE`. -/
structure lsb_state where
  pixels : List Nat
  data : List Nat
  done : List Nat
  hidden_length_recalcul : Nat
  mask_hidden : Nat
  seed : Nat
  trace : List Nat
  deriving DecidableEq, Repr

/-- One turn of the loop on `j` (lines 83-142 of `lsb.c`) for the payload byte
`i` and the pair of bits `j`. -/
def lsb_pair (R : Rand) (mode : mode_e) (i j : Nat) (s : lsb_state) :
    Option lsb_state :=
  -- assert(hidden_length_recalcul != 1);
  if s.hidden_length_recalcul = 1 then none
  else
    let modulus := (s.hidden_length_recalcul + 2 ^ 32 - 1) % 2 ^ 32
    let rang := (R.stegx_rand s.seed).1 % modulus
    match select_unit s.done rang with
    | none => none
    | some m =>
      match s.pixels[m]?, s.data[i]? with
      | some p, some d =>
        match mode with
        | mode_e.STEGX_MODE_INSERT =>
          some { s with
            pixels := s.pixels.set m
              (((p &&& 0xFC) + ((d &&& s.mask_hidden) >>> (6 - 2 * j))) % 256)
            done := s.done.set m DONE
            hidden_length_recalcul := modulus
            mask_hidden := s.mask_hidden >>> 2
            seed := (R.stegx_rand s.seed).2
            trace := s.trace ++ [m] }
        | mode_e.STEGX_MODE_EXTRACT =>
          some { s with
            data := s.data.set i ((d + ((p &&& 0x03) <<< (6 - 2 * j)) % 256) % 256)
            done := s.done.set m DONE
            hidden_length_recalcul := modulus
            mask_hidden := s.mask_hidden >>> 2
            seed := (R.stegx_rand s.seed).2
            trace := s.trace ++ [m] }
      | _, _ => none

/-- One turn of the loop on `i` (lines 79-144 of `lsb.c`) : the four pairs of
bits of the payload byte `i`. -/
def lsb_byte (R : Rand) (mode : mode_e) (s : lsb_state) (i : Nat) :
    Option lsb_state :=
  (List.range 4).foldlM (fun t j => lsb_pair R mode i j t)
    { s with mask_hidden := 0xC0 }

/-- The loop of lines 57-59 of `lsb.c` : `data[i] = 0` for `i < data_length`. -/
def zero_data (data : List Nat) (data_length : Nat) : List Nat :=
  (List.range data_length).foldl (fun d i => d.set i 0) data

/-- The function `protect_data_lsb` of `lsb.c`. `seed0` is the state of the
generator when the function is called. The result holds the arrays `pixels`
and `data` as the function leaves them; the C function then returns 0. -/
def protect_data_lsb (R : Rand) (pixels : List Nat) (pixels_length : Nat)
    (data : List Nat) (data_length : Nat) (passwd : List Nat) (mode : mode_e)
    (seed0 : Nat) : Option lsb_state :=
  let done := List.replicate pixels_length NOT_DONE
  let data1 := match mode with
    | mode_e.STEGX_MODE_EXTRACT => zero_data data data_length
    | mode_e.STEGX_MODE_INSERT => data
  let entry : lsb_state :=
    { pixels := pixels
      data := data1
      done := done
      hidden_length_recalcul := (pixels_length + 1) % 2 ^ 32
      mask_hidden := 0
      seed := seed0
      trace := [] }
  -- stegx_srand(create_seed(passwd));
  (List.range data_length).foldlM (lsb_byte R mode)
    { entry with seed := R.stegx_srand (R.create_seed passwd) }

/-- A small linear congruential generator, used to evaluate the model on
concrete inputs. -/
def lcg : Rand where
  create_seed := fun pw => pw.foldl (fun a c => (a * 31 + c) % 2 ^ 32) 7
  stegx_srand := fun s => s % 2 ^ 32
  stegx_rand := fun g =>
    let g1 := (g * 1103515245 + 12345) % 2 ^ 32
    ((g1 / 65536) % 32768, g1)

/-! ## Session data (`info_s`) -/

/-- The host formats (`type_e`), as the sources name them. -/
inductive type_e where
  | BMP_COMPRESSED
  | BMP_UNCOMPRESSED
  | PNG
  | WAV_PCM
  | WAV_NO_PCM
  | FLV
  | MP3
  | AVI_COMPRESSED
  | AVI_UNCOMPRESSED
  | UNKNOWN
  deriving DecidableEq, Repr

/-- The algorithms (`algo_e`), in the order of the table `can_use_algo` of
`stegx_suggest_algo`. -/
inductive algo_e where
  | STEGX_ALGO_LSB
  | STEGX_ALGO_EOF
  | STEGX_ALGO_METADATA
  | STEGX_ALGO_EOC
  | STEGX_ALGO_JUNK_CHUNK
  deriving DecidableEq, Repr

/-- The error codes (`enum err_code`), in the order of the table of
`errors.c`. -/
inductive err_code where
  | ERR_NONE
  | ERR_HOST
  | ERR_HIDDEN
  | ERR_PASSWD
  | ERR_RES_EXTRACT
  | ERR_RES_INSERT
  | ERR_READ
  | ERR_CHECK_COMPAT
  | ERR_SUGG_ALGOS
  | ERR_CHOICE_ALGO
  | ERR_INSERT
  | ERR_EXTRACT
  | ERR_DETECT_ALGOS
  | ERR_LENGTH_HIDDEN
  | ERR_NEED_PASSWD
  | ERR_HIDDEN_FILE_EMPTY
  | ERR_OTHER
  deriving DecidableEq, Repr

/-- Member `bmp` of `host.file_info` : the fields that `fill_host_info` sets. -/
structure bmp_s where
  header_size : Nat
  data_size : Nat
  pixel_length : Nat
  pixel_number : Nat
  deriving DecidableEq, Repr

/-- Member `wav` of `host.file_info`. -/
structure wav_s where
  header_size : Nat
  data_size : Nat
  chunk_size : Nat
  deriving DecidableEq, Repr

/-- Member `png` of `host.file_info`. -/
structure png_s where
  header_size : Nat
  data_size : Nat
  deriving DecidableEq, Repr

/-- Member `flv` of `host.file_info` (`struct flv` of `flv.h`). -/
structure flv_s where
  nb_video_tag : Nat
  nb_metadata_tag : Nat
  file_size : Nat
  deriving DecidableEq, Repr

/-- Member `mp3` of `host.file_info`. -/
structure mp3_s where
  fr_frst_adr : Nat
  fr_nb : Nat
  eof : Nat
  deriving DecidableEq, Repr

/-- Modelled from the spec: `host.file_info`, declared in `common.h` which is
not part of the sources : one member per format, a single one being live. -/
inductive file_info_u where
  | bmp (v : bmp_s)
  | wav (v : wav_s)
  | png (v : png_s)
  | flv (v : flv_s)
  | mp3 (v : mp3_s)
  | avi
  deriving DecidableEq, Repr

/-- The read `file_info.bmp.header_size`. The LSB engine performs it for a WAV
host too : the members `bmp` and `wav` both start with the header size and the
data size, which is what this read relies on. -/
def file_info_u.bmp_header_size : file_info_u → Nat
  | .bmp v => v.header_size
  | .wav v => v.header_size
  | .png v => v.header_size
  | _ => 0

/-- The read `file_info.bmp.data_size` (see `bmp_header_size`). -/
def file_info_u.bmp_data_size : file_info_u → Nat
  | .bmp v => v.data_size
  | .wav v => v.data_size
  | .png v => v.data_size
  | _ => 0

/-- The read `file_info.bmp.pixel_length`. -/
def file_info_u.bmp_pixel_length : file_info_u → Nat
  | .bmp v => v.pixel_length
  | _ => 0

/-- The read `file_info.bmp.pixel_number`. -/
def file_info_u.bmp_pixel_number : file_info_u → Nat
  | .bmp v => v.pixel_number
  | _ => 0

/-- The read `file_info.wav.data_size`. -/
def file_info_u.wav_data_size : file_info_u → Nat
  | .wav v => v.data_size
  | .bmp v => v.data_size
  | .png v => v.data_size
  | _ => 0

/-- The read `file_info.wav.chunk_size`. -/
def file_info_u.wav_chunk_size : file_info_u → Nat
  | .wav v => v.chunk_size
  | _ => 0

/-- The read `file_info.flv.nb_video_tag`. -/
def file_info_u.flv_nb_video_tag : file_info_u → Nat
  | .flv v => v.nb_video_tag
  | _ => 0

/-- The read `file_info.mp3.fr_nb`. -/
def file_info_u.mp3_fr_nb : file_info_u → Nat
  | .mp3 v => v.fr_nb
  | _ => 0

/-- The read `file_info.mp3.fr_frst_adr`. -/
def file_info_u.mp3_fr_frst_adr : file_info_u → Nat
  | .mp3 v => v.fr_frst_adr
  | _ => 0

/-- The host of a session (`infos->host`) : the content of the host file, its
format and the metadata of the format. -/
structure host_info_s where
  host : List Nat
  type : type_e
  file_info : file_info_u
  deriving DecidableEq, Repr

/-- Modelled from the spec: the enumeration `method_e` of `stegx_common.h`,
which is not part of the sources : whether the user gave a password. -/
inductive method_e where
  | STEGX_WITH_PASSWD
  | STEGX_WITHOUT_PASSWD
  deriving DecidableEq, Repr

/-- Modelled from the spec: the session `info_s`, declared in `common.h` which
is not part of the sources. `hidden` is the content of the payload file. The
result file is not a field : the functions return what they write to it.
`passwd` is the string of the password, without its terminator. -/
structure info_s where
  mode : mode_e
  algo : algo_e
  host : host_info_s
  hidden : List Nat
  hidden_length : Nat
  passwd : List Nat
  method : method_e := method_e.STEGX_WITH_PASSWD
  deriving DecidableEq, Repr

/-- What a call leaves : the value returned, the bytes written to the result
file `infos->res` and the global `stegx_errno`. -/
structure call_result where
  ret : Int
  res : List Nat
  stegx_errno : err_code
  deriving DecidableEq, Repr

/-! ## LSB engine : BMP and WAV hosts (`insert_lsb`, `extract_lsb`) -/

/-- A loop that reads `n` bytes one by one from `src` and writes each to the
result : `(true, rest of src, result)`, or `false` with what has been done when
`fread` meets the end of the file. -/
def copy_loop : Nat → List Nat → List Nat → Bool × List Nat × List Nat
  | 0, src, res => (true, src, res)
  | _ + 1, [], res => (false, [], res)
  | n + 1, b :: src, res => copy_loop n src (res ++ [b])

/-- A loop that reads `n` bytes one by one from `src` into an array :
`(true, rest of src, array)`, or `false` when `fread` meets the end of the
file. -/
def read_loop : Nat → List Nat → List Nat → Bool × List Nat × List Nat
  | 0, src, arr => (true, src, arr)
  | _ + 1, [], arr => (false, [], arr)
  | n + 1, b :: src, arr => read_loop n src (arr ++ [b])

/-- The loop `for (i = 0; i < 4; i++)` of lines 198-216 of `lsb.c`, for the
values of `i` that remain : each host byte read receives one pair of bits of
`byte_read_hidden` and is written to the result. -/
def insert_pairs (byte_read_hidden : Nat) :
    List Nat → Nat → List Nat → List Nat → Bool × List Nat × List Nat
  | [], _, host, res => (true, host, res)
  | _ :: _, _, [], res => (false, [], res)
  | i :: is, mask_hidden, byte_read_host :: host, res =>
    insert_pairs byte_read_hidden is (mask_hidden >>> 2) host
      (res ++ [((byte_read_host &&& 0xFC) +
        ((byte_read_hidden &&& mask_hidden) >>> (6 - 2 * i))) % 256])

/-- The loop `while (nb_cpy < hidden_length)` of lines 190-218 of `lsb.c`, with
`n` turns left : `(0, rest of the host, result)` when it ends, or the value
that `insert_lsb` returns at once (2 : the payload is exhausted, 1 : the host
is exhausted). -/
def direct_insert_loop (R : Rand) :
    Nat → Nat → List Nat → List Nat → List Nat → Int × List Nat × List Nat
  | 0, _, host, _, res => (0, host, res)
  | _ + 1, _, host, [], res => (2, host, res)
  | n + 1, seed, host, b :: hidden, res =>
    -- byte_read_hidden ^= stegx_rand() % UINT8_MAX;
    let byte_read_hidden := (b ^^^ ((R.stegx_rand seed).1 % 255)) % 256
    match insert_pairs byte_read_hidden [0, 1, 2, 3] 0xC0 host res with
    | (false, host1, res1) => (1, host1, res1)
    | (true, host1, res1) =>
      direct_insert_loop R n (R.stegx_rand seed).2 host1 hidden res1

/-- The test of lines 184-185 and 352-353 of `lsb.c` : substitution in file
order. `LENGTH_FILE_MAX` is a constant of a header that is not part of the
sources. -/
def lsb_direct (LENGTH_FILE_MAX : Nat) (infos : info_s) : Bool :=
  (decide (infos.hidden_length > LENGTH_FILE_MAX) || decide (infos.host.type = type_e.WAV_PCM))
    || decide (infos.host.file_info.bmp_data_size > LENGTH_FILE_MAX)

/-- The branch of `insert_lsb` for the hosts BMP and WAV (lines 162-276 of
`lsb.c`). `write_signature` (not part of the sources) gives the value it
returns and the bytes it appends to the result. -/
def insert_lsb_bmp_wav (R : Rand) (write_signature : info_s → Int × List Nat)
    (LENGTH_FILE_MAX : Nat) (infos : info_s) (stegx_errno : err_code) :
    Option call_result :=
  let header_size := infos.host.file_info.bmp_header_size
  let data_size := infos.host.file_info.bmp_data_size
  -- copy of the header
  match copy_loop header_size infos.host.host [] with
  | (false, _, res0) => some ⟨1, res0, stegx_errno⟩
  | (true, host0, res0) =>
    let finish (res : List Nat) : Option call_result :=
      -- if (write_signature(infos) == 1) { stegx_errno = ERR_INSERT; return 1; }
      if (write_signature infos).1 = 1 then
        some ⟨1, res ++ (write_signature infos).2, err_code.ERR_INSERT⟩
      else some ⟨0, res ++ (write_signature infos).2, stegx_errno⟩
    if lsb_direct LENGTH_FILE_MAX infos then
      match direct_insert_loop R infos.hidden_length
          (R.stegx_srand (R.create_seed infos.passwd)) host0 infos.hidden res0 with
      | (0, host1, res1) =>
        -- uint32_t rest_host_cpy = data_size - nb_cpy * 4;
        let rest_host_cpy :=
          (data_size + 2 ^ 32 - (infos.hidden_length * 4) % 2 ^ 32) % 2 ^ 32
        match copy_loop rest_host_cpy host1 res1 with
        | (false, _, res2) => some ⟨1, res2, stegx_errno⟩
        | (true, _, res2) => finish res2
      | (code, _, res1) => some ⟨code, res1, stegx_errno⟩
    else
      match read_loop data_size host0 [] with
      | (false, _, _) => some ⟨1, res0, stegx_errno⟩
      | (true, _, pixels) =>
        match read_loop infos.hidden_length infos.hidden [] with
        | (false, _, _) => some ⟨1, res0, stegx_errno⟩
        | (true, _, data) =>
          match protect_data_lsb R pixels data_size data infos.hidden_length
              infos.passwd infos.mode 0 with
          | none => none
          | some s => finish (res0 ++ s.pixels)

/-- The loop `for (i = 0; i < 4; i++)` of lines 364-377 of `lsb.c`, for the
values of `i` that remain : `byte_created` gathers the two low bits of each
host byte read. -/
def extract_pairs : List Nat → Nat → List Nat → Option Nat × List Nat
  | [], byte_created, host => (some byte_created, host)
  | _ :: _, _, [] => (none, [])
  | i :: is, byte_created, byte_read_host :: host =>
    extract_pairs is
      ((byte_created + ((byte_read_host &&& 0x03) <<< (6 - 2 * i)) % 256) % 256) host

/-- The loop `while (nb_cpy < hidden_length)` of lines 361-382 of `lsb.c`, with
`n` turns left : the value returned (0, or 1 when the host is exhausted) and
the bytes written. -/
def direct_extract_loop (R : Rand) : Nat → Nat → List Nat → List Nat → Int × List Nat
  | 0, _, _, res => (0, res)
  | n + 1, seed, host, res =>
    match extract_pairs [0, 1, 2, 3] 0 host with
    | (none, _) => (1, res)
    | (some byte_created, host1) =>
      -- byte_created ^= stegx_rand() % UINT8_MAX;
      direct_extract_loop R n (R.stegx_rand seed).2 host1
        (res ++ [(byte_created ^^^ ((R.stegx_rand seed).1 % 255)) % 256])

/-- The branch of `extract_lsb` for the hosts BMP and WAV (lines 342-412 of
`lsb.c`). `infos.host.host` is the file that holds the hidden data. -/
def extract_lsb_bmp_wav (R : Rand) (LENGTH_FILE_MAX : Nat) (infos : info_s)
    (stegx_errno : err_code) : Option call_result :=
  let header_size := infos.host.file_info.bmp_header_size
  let data_size := infos.host.file_info.bmp_data_size
  -- fseek(infos->host.host, header_size, SEEK_SET)
  let host0 := infos.host.host.drop header_size
  if lsb_direct LENGTH_FILE_MAX infos then
    match direct_extract_loop R infos.hidden_length
        (R.stegx_srand (R.create_seed infos.passwd)) host0 [] with
    | (code, res) => some ⟨code, res, stegx_errno⟩
  else
    match read_loop data_size host0 [] with
    | (false, _, _) => some ⟨1, [], stegx_errno⟩
    | (true, _, pixels) =>
      match protect_data_lsb R pixels data_size (List.replicate infos.hidden_length 0)
          infos.hidden_length infos.passwd infos.mode 0 with
      | none => none
      | some s => some ⟨0, s.data.take infos.hidden_length, stegx_errno⟩

/-! ## LSB engine : MP3 hosts -/

/-- MP3 : the masks of `lsb.c` that clear the header bit where a payload bit is
hidden. -/
def mp3_mask : List Nat := [0xFFFFFFFB, 0xFFFFFFF7, 0xFFFFFEFF]

/-- MP3 : the position of the header bit that goes with each mask. -/
def mp3_shift : List Nat := [2, 3, 8]

/-- Modelled from the spec: the constant `MP3_HDR_NB_BITS_MODIF` of a header
that is not part of the sources, the number of header bits rewritten per frame.
It is the size of the tables `mp3_mask` and `mp3_shift`. -/
def MP3_HDR_NB_BITS_MODIF : Nat := 3

/-- What the MP3 branches take from outside `lsb.c` : the generator of the C
library (`srand`, `rand`) and the helpers of the MP3 format, which are not part
of the sources. `mp3_mpeg_fr_body hdr` is the number of bytes of a frame after
its 4-byte header, as derived from the header `hdr`. -/
structure Mp3Env where
  srand : Nat → Nat
  rand : Nat → Nat × Nat
  mp3_mpeg_hdr_test : Nat → Bool
  mp3_mpeg_fr_body : Nat → Nat
  mp3_id3v1_hdr_test : Nat → Bool
  mp3_id3v1_tag_write : List Nat → List Nat → Int × List Nat × List Nat
  stegx_htobe32 : Nat → Nat

/-- Modelled from the spec: `mp3_mpeg_fr_write`, not part of the sources :
copies the body of the frame, whose length derives from the header, from the
host to the result; non-zero when the host ends before the frame does. -/
def mp3_mpeg_fr_write (M : Mp3Env) (hdr : Nat) (host res : List Nat) :
    Int × List Nat × List Nat :=
  match copy_loop (M.mp3_mpeg_fr_body hdr) host res with
  | (true, host1, res1) => (0, host1, res1)
  | (false, host1, res1) => (1, host1, res1)

/-- Modelled from the spec: `mp3_mpeg_fr_seek`, not part of the sources : skips
the body of the frame, whose length derives from the header. -/
def mp3_mpeg_fr_seek (M : Mp3Env) (hdr : Nat) (host : List Nat) : Int × List Nat :=
  (0, host.drop (M.mp3_mpeg_fr_body hdr))

/-- The value of four bytes read as a big-endian 32-bit number
(`stegx_be32toh` applied to what `fread` stored). -/
def be32 (b0 b1 b2 b3 : Nat) : Nat :=
  (b0 % 256) * 2 ^ 24 + (b1 % 256) * 2 ^ 16 + (b2 % 256) * 2 ^ 8 + b3 % 256

/-- The four bytes that `fwrite` emits for a 32-bit number put in big-endian
order by `stegx_htobe32`. -/
def be32_bytes (v : Nat) : List Nat :=
  [(v / 2 ^ 24) % 256, (v / 2 ^ 16) % 256, (v / 2 ^ 8) % 256, v % 256]

/-- The variables of the MP3 loops of `insert_lsb` : the header being
processed and its counter, the payload byte `b` and its counter, the state of
`rand`, what remains of the payload file and its end-of-file indicator. -/
structure mp3_ins_state where
  hdr : Nat
  hdr_cnt : Nat
  b : Nat
  b_cnt : Nat
  seed : Nat
  hidden : List Nat
  feof_hidden : Bool
  deriving DecidableEq, Repr

/-- The inner loop of lines 301-307 of `lsb.c`; each turn starts with the
evaluation of the condition, which reads a payload byte when `b_cnt` is 0.
`fuel` bounds the number of evaluations of the condition (4 suffice). -/
def mp3_insert_bits (M : Mp3Env) : Nat → mp3_ins_state → mp3_ins_state
  | 0, st => st
  | fuel + 1, st =>
    -- b_cnt = !b_cnt ? fread(&b, sizeof(b), 1, infos->hidden) * 8 : b_cnt
    let st1 : mp3_ins_state :=
      if st.b_cnt = 0 then
        match st.hidden with
        | [] => { st with b_cnt := 0, feof_hidden := true }
        | x :: rest => { st with b := x, b_cnt := 8, hidden := rest }
      else st
    if st1.b_cnt ≠ 0 ∧ st1.hdr_cnt < MP3_HDR_NB_BITS_MODIF then
      -- if (b_cnt == 8) b ^= rand() % UINT8_MAX;
      let st2 : mp3_ins_state :=
        if st1.b_cnt = 8 then
          { st1 with b := (st1.b ^^^ ((M.rand st1.seed).1 % 255)) % 256
                     seed := (M.rand st1.seed).2 }
        else st1
      -- hdr = (hdr & mp3_mask[hdr_cnt]) | ((b & 1) << mp3_shift[hdr_cnt]);
      let hdr := ((st2.hdr &&& mp3_mask.getD st2.hdr_cnt 0) |||
        ((st2.b &&& 1) <<< mp3_shift.getD st2.hdr_cnt 0)) % 2 ^ 32
      -- b >>= 1, b_cnt--, hdr_cnt++
      mp3_insert_bits M fuel
        { st2 with hdr := hdr, b := st2.b >>> 1, b_cnt := st2.b_cnt - 1,
                   hdr_cnt := st2.hdr_cnt + 1 }
    else st1

/-- What the loop on the frames of `insert_lsb` leaves. -/
structure mp3_ins_exit where
  /-- 0 when the loop ended, else the value that `insert_lsb` returns. -/
  code : Int
  host : List Nat
  res : List Nat
  hdr : Nat
  hidden : List Nat
  feof_hidden : Bool
  deriving DecidableEq, Repr

/-- The loop on the frames of lines 297-311 of `lsb.c`. `fuel` bounds the
number of turns; every turn consumes at least 4 bytes of the host. When fewer
than 4 bytes remain `fread` fails, the loop ends and `hdr` keeps its value. -/
def mp3_insert_frames (M : Mp3Env) :
    Nat → List Nat → List Nat → Nat → Nat → Nat → Nat → List Nat → Bool → Option mp3_ins_exit
  | 0, _, _, _, _, _, _, _, _ => none
  | fuel + 1, host, res, hdr_var, b, b_cnt, seed, hidden, eof =>
    match host with
    | b0 :: b1 :: b2 :: b3 :: host1 =>
      let hdr := be32 b0 b1 b2 b3
      if M.mp3_mpeg_hdr_test hdr then
        let st := mp3_insert_bits M (MP3_HDR_NB_BITS_MODIF + 1)
          { hdr := hdr, hdr_cnt := 0, b := b, b_cnt := b_cnt, seed := seed,
            hidden := hidden, feof_hidden := eof }
        match mp3_mpeg_fr_write M st.hdr host1 (res ++ be32_bytes st.hdr) with
        | (0, host2, res2) =>
          mp3_insert_frames M fuel host2 res2 (M.stegx_htobe32 st.hdr) st.b st.b_cnt
            st.seed st.hidden st.feof_hidden
        | (_, host2, res2) => some ⟨1, host2, res2, st.hdr, st.hidden, st.feof_hidden⟩
      else some ⟨0, host1, res, hdr, hidden, eof⟩
    | _ => some ⟨0, [], res, hdr_var, hidden, eof⟩

/-- The branch of `insert_lsb` for the MP3 hosts (lines 279-327 of `lsb.c`).
A host shorter than the address of its first frame is outside the model. -/
def insert_lsb_mp3 (R : Rand) (M : Mp3Env) (write_signature : info_s → Int × List Nat)
    (infos : info_s) (stegx_errno : err_code) : Option call_result :=
  let fr_frst_adr := infos.host.file_info.mp3_fr_frst_adr
  let eof := match infos.host.file_info with
    | .mp3 v => v.eof
    | _ => 0
  if infos.host.host.length < fr_frst_adr then none
  else
    let res0 := infos.host.host.take fr_frst_adr
    let host0 := infos.host.host.drop fr_frst_adr
    match mp3_insert_frames M (host0.length + 1) host0 res0 0 0 0
        (M.srand (R.create_seed infos.passwd)) infos.hidden false with
    | none => none
    | some x =>
      if x.code ≠ 0 then some ⟨x.code, x.res, stegx_errno⟩
      else
        -- if (mp3_id3v1_hdr_test(hdr)) ...
        let tag : Int × List Nat × List Nat :=
          if M.mp3_id3v1_hdr_test x.hdr then
            M.mp3_id3v1_tag_write x.host (x.res ++ be32_bytes x.hdr)
          else (0, x.host, x.res)
        if tag.1 ≠ 0 then some ⟨1, tag.2.2, stegx_errno⟩
        -- assert(ftell(h) == hs->eof); assert(feof(infos->hidden));
        else if infos.host.host.length - tag.2.1.length ≠ eof ∨ x.feof_hidden = false then none
        else if (write_signature infos).1 ≠ 0 then
          some ⟨1, tag.2.2 ++ (write_signature infos).2, err_code.ERR_INSERT⟩
        else some ⟨0, tag.2.2 ++ (write_signature infos).2, stegx_errno⟩

/-- The variables of the MP3 loops of `extract_lsb` : the byte `b` being
rebuilt and its counter, the number `s` of bytes written, the state of `rand`
and the bytes written to the result. -/
structure mp3_ext_state where
  b : Nat
  b_cnt : Nat
  s : Nat
  seed : Nat
  res : List Nat
  deriving DecidableEq, Repr

/-- The loop on `hdr_cnt` of lines 436-443 of `lsb.c`, for the values of
`hdr_cnt` that remain. A complete byte is written when the next bit is about
to be read. -/
def mp3_extract_bits (M : Mp3Env) (hdr : Nat) : List Nat → mp3_ext_state → mp3_ext_state
  | [], st => st
  | hdr_cnt :: rest, st =>
    -- for (; !b_cnt ; b = 0, s++) { b ^= rand() % UINT8_MAX; b_cnt = fwrite(...) * 8; }
    let st1 : mp3_ext_state :=
      if st.b_cnt = 0 then
        { b := 0
          b_cnt := 8
          s := (st.s + 1) % 2 ^ 32
          seed := (M.rand st.seed).2
          res := st.res ++ [(st.b ^^^ ((M.rand st.seed).1 % 255)) % 256] }
      else st
    -- b |= ((hdr & ~mp3_mask[hdr_cnt]) >> mp3_shift[hdr_cnt]) << (8 - b_cnt);
    let bit := (hdr &&& (0xFFFFFFFF ^^^ mp3_mask.getD hdr_cnt 0)) >>> mp3_shift.getD hdr_cnt 0
    mp3_extract_bits M hdr rest
      { st1 with b := (st1.b ||| (bit <<< (8 - st1.b_cnt))) % 256
                 b_cnt := st1.b_cnt - 1 }

/-- The loop on the frames of lines 433-447 of `lsb.c` : the value returned and
the bytes written. `fuel` bounds the number of turns; every turn consumes at
least 4 bytes of the host. -/
def mp3_extract_frames (M : Mp3Env) (hidden_length : Nat) :
    Nat → List Nat → mp3_ext_state → Option (Int × List Nat)
  | 0, _, _ => none
  | fuel + 1, host, st =>
    match host with
    | b0 :: b1 :: b2 :: b3 :: host1 =>
      -- fread(&hdr, sizeof(hdr), 1, h) && s < infos->hidden_length
      if st.s < hidden_length then
        let hdr := be32 b0 b1 b2 b3
        let st1 := mp3_extract_bits M hdr (List.range MP3_HDR_NB_BITS_MODIF) st
        match mp3_mpeg_fr_seek M hdr host1 with
        | (0, host2) => mp3_extract_frames M hidden_length fuel host2 st1
        | (_, _) => some (1, st1.res)
      else some (0, st.res)
    | _ => some (0, st.res)

/-- The branch of `extract_lsb` for the MP3 hosts (lines 415-451 of `lsb.c`). -/
def extract_lsb_mp3 (R : Rand) (M : Mp3Env) (infos : info_s) (stegx_errno : err_code) :
    Option call_result :=
  -- fseek(h, hs->fr_frst_adr, SEEK_SET)
  let host0 := infos.host.host.drop infos.host.file_info.mp3_fr_frst_adr
  match mp3_extract_frames M infos.hidden_length (host0.length + 1) host0
      { b := 0, b_cnt := 8, s := 0, seed := M.srand (R.create_seed infos.passwd), res := [] } with
  | none => none
  | some (code, res) => some ⟨code, res, stegx_errno⟩

/-- What the LSB engine takes from outside `lsb.c`. -/
structure LsbEnv where
  R : Rand
  M : Mp3Env
  write_signature : info_s → Int × List Nat
  LENGTH_FILE_MAX : Nat

/-- The function `insert_lsb` of `lsb.c`. -/
def insert_lsb (E : LsbEnv) (infos : info_s) (stegx_errno : err_code) : Option call_result :=
  -- assert(infos->mode == STEGX_MODE_INSERT); assert(infos->algo == STEGX_ALGO_LSB);
  if infos.mode ≠ mode_e.STEGX_MODE_INSERT ∨ infos.algo ≠ algo_e.STEGX_ALGO_LSB then none
  else if infos.host.type = type_e.BMP_UNCOMPRESSED ∨ infos.host.type = type_e.WAV_PCM then
    insert_lsb_bmp_wav E.R E.write_signature E.LENGTH_FILE_MAX infos stegx_errno
  else if infos.host.type = type_e.MP3 then
    insert_lsb_mp3 E.R E.M E.write_signature infos stegx_errno
  -- assert(type == BMP_UNCOMPRESSED || type == WAV_PCM || type == MP3)
  else none

/-- The function `extract_lsb` of `lsb.c`. -/
def extract_lsb (E : LsbEnv) (infos : info_s) (stegx_errno : err_code) : Option call_result :=
  -- assert(infos->mode == STEGX_MODE_EXTRACT); assert(infos->algo == STEGX_ALGO_LSB);
  if infos.mode ≠ mode_e.STEGX_MODE_EXTRACT ∨ infos.algo ≠ algo_e.STEGX_ALGO_LSB then none
  else if infos.host.type = type_e.BMP_UNCOMPRESSED ∨ infos.host.type = type_e.WAV_PCM then
    extract_lsb_bmp_wav E.R E.LENGTH_FILE_MAX infos stegx_errno
  else if infos.host.type = type_e.MP3 then
    extract_lsb_mp3 E.R E.M infos stegx_errno
  else some ⟨1, [], stegx_errno⟩

/-- An environment used to evaluate the model on concrete inputs : `lcg` for
both generators, a frame header is one whose 11 high bits are set, frames have
no body, there is no ID3v1 tag, and `write_signature` appends the bytes `sig`. -/
def test_env (sig : List Nat) : LsbEnv where
  R := lcg
  M :=
    { srand := lcg.stegx_srand
      rand := lcg.stegx_rand
      mp3_mpeg_hdr_test := fun h => decide (h / 2 ^ 21 = 0x7FF)
      mp3_mpeg_fr_body := fun _ => 0
      mp3_id3v1_hdr_test := fun _ => false
      mp3_id3v1_tag_write := fun host res => (0, host, res)
      stegx_htobe32 := fun h => h }
  write_signature := fun _ => (0, sig)
  LENGTH_FILE_MAX := 65536

/-! ## EOC engine (`eoc.c`) -/

/-- What the EOC engine takes from outside `eoc.c` : the generator,
`protect_data` (the array it is given, its length, the password, the mode; the
array as it leaves it) and `write_signature`. -/
structure EocEnv where
  R : Rand
  protect_data : List Nat → Nat → List Nat → mode_e → List Nat
  write_signature : info_s → Int × List Nat

/-- The loops `byte_cpy ^= stegx_rand() % UINT8_MAX` of `insert_eoc` and
`extract_eoc` : every byte of the list is masked with the next draw. -/
def eoc_mask (R : Rand) : Nat → List Nat → List Nat
  | _, [] => []
  | seed, b :: bs =>
    ((b ^^^ ((R.stegx_rand seed).1 % 255)) % 256) :: eoc_mask R (R.stegx_rand seed).2 bs

/-- The table of the blocks : entry `i` is the number of the payload block that
the video tag number `i` carries. Below 256 video tags it is the array `data`
(filled with `0 .. n - 1`, then handed to `protect_data`), otherwise the array
`data2` (filled with `0 .. n - 1`). -/
def eoc_table (E : EocEnv) (nb_video_tag : Nat) (passwd : List Nat) : List Nat :=
  if nb_video_tag < 256 then
    E.protect_data (List.range nb_video_tag) nb_video_tag passwd mode_e.STEGX_MODE_INSERT
  else List.range nb_video_tag

/-- The share of a block (`limit`, `write_data` and the increment of the
sizes) : `data_per_vtag`, plus `reste` for the block `nb_video_tag - 1`. -/
def eoc_share (nb_video_tag data_per_vtag reste nb_block : Nat) : Nat :=
  if nb_block = nb_video_tag - 1 then (reste + data_per_vtag) % 2 ^ 32 else data_per_vtag

/-- The loop `do ... while (cpt_video_tag < nb_video_tag)` of lines 87-187 of
`eoc.c` : the value returned so far (0, or 1 when a recomputed size does not
fit in 24 bits), what remains of the host and the result. `fuel` bounds the
number of turns; every turn consumes at least 5 bytes of the host. The reads
of the loop are not checked : a read past the end of a file is outside the
model. -/
def insert_eoc_loop (R : Rand) (passwd hidden table : List Nat)
    (nb_video_tag data_per_vtag reste : Nat) :
    Nat → List Nat → List Nat → Nat → Option (Int × List Nat × List Nat)
  | 0, _, _, _ => none
  | fuel + 1, host, res, cpt_video_tag =>
    match host with
    | tag_type :: b0 :: b1 :: b2 :: b3 :: host1 =>
      -- data_size = stegx_be32toh(data_size) >> 8
      let data_size := be32 b0 b1 b2 b3 / 2 ^ 8
      if tag_type ≠ 9 then
        if host1.length < data_size + 6 + 4 then none
        else
          insert_eoc_loop R passwd hidden table nb_video_tag data_per_vtag reste fuel
            (host1.drop (data_size + 6 + 4))
            (res ++ [tag_type, b0, b1, b2, b3] ++ host1.take (data_size + 6 + 4))
            cpt_video_tag
      else
        match table[cpt_video_tag]? with
        | none => none
        | some nb_block =>
          let share := eoc_share nb_video_tag data_per_vtag reste nb_block
          -- data_size += ...; data_size++;
          let data_size_new := ((data_size + share) % 2 ^ 32 + 1) % 2 ^ 32
          if data_size_new > 0xFFFFFF then some (1, host1, res ++ [tag_type])
          else
            let payload := (hidden.drop ((nb_block * data_per_vtag) % 2 ^ 32)).take share
            if host1.length < data_size + 6 + 4 ∨ payload.length < share then none
            else
              let prev_tag_size :=
                match (host1.drop (data_size + 6)).take 4 with
                | [p0, p1, p2, p3] => be32 p0 p1 p2 p3
                | _ => 0
              -- prev_tag_size += ...; prev_tag_size++;
              let prev_tag_size_new := ((prev_tag_size + share) % 2 ^ 32 + 1) % 2 ^ 32
              let res1 := res ++ [tag_type] ++
                [(data_size_new / 2 ^ 16) % 256, (data_size_new / 2 ^ 8) % 256,
                  data_size_new % 256, b3 % 256] ++
                host1.take (data_size + 6) ++ [28] ++
                eoc_mask R (R.stegx_srand (R.create_seed passwd)) payload
              -- if (data_size > 0xFFFFFFFF) return 1;
              if data_size_new > 0xFFFFFFFF then some (1, host1.drop (data_size + 6 + 4), res1)
              else if cpt_video_tag + 1 < nb_video_tag then
                insert_eoc_loop R passwd hidden table nb_video_tag data_per_vtag reste fuel
                  (host1.drop (data_size + 6 + 4)) (res1 ++ be32_bytes prev_tag_size_new)
                  (cpt_video_tag + 1)
              else some (0, host1.drop (data_size + 6 + 4), res1 ++ be32_bytes prev_tag_size_new)
    | _ => none

/-- The function `insert_eoc` of `eoc.c`. The division by a number of video
tags equal to 0 is undefined. The value that `write_signature` returns is not
looked at. -/
def insert_eoc (E : EocEnv) (infos : info_s) (stegx_errno : err_code) : Option call_result :=
  -- assert(infos->mode == STEGX_MODE_INSERT); assert(infos->algo == STEGX_ALGO_EOC);
  if infos.mode ≠ mode_e.STEGX_MODE_INSERT ∨ infos.algo ≠ algo_e.STEGX_ALGO_EOC then none
  else
    let nb_video_tag := infos.host.file_info.flv_nb_video_tag
    if nb_video_tag = 0 then none
    else
      let data_per_vtag := infos.hidden_length / nb_video_tag
      let reste := infos.hidden_length % nb_video_tag
      let table := eoc_table E nb_video_tag infos.passwd
      -- copy of the 13 bytes of the header
      match copy_loop 13 infos.host.host [] with
      | (false, _, res0) => some ⟨1, res0, stegx_errno⟩
      | (true, host0, res0) =>
        match insert_eoc_loop E.R infos.passwd infos.hidden table nb_video_tag
            data_per_vtag reste (host0.length + 1) host0 res0 0 with
        | none => none
        | some (0, host1, res1) =>
          -- the end of the host, then the signature
          some ⟨0, res1 ++ host1 ++ (E.write_signature infos).2, stegx_errno⟩
        | some (code, _, res1) => some ⟨code, res1, stegx_errno⟩

/-- The loop `while (data[cursor] != nb_block) cursor++;` run on the part of
the table that starts at `cursor`. Leaving the table is an access out of
bounds. -/
def eoc_find_cursor : List Nat → Nat → Nat → Option Nat
  | [], _, _ => none
  | d :: ds, nb_block, cursor =>
    if d ≠ nb_block then eoc_find_cursor ds nb_block (cursor + 1) else some cursor

/-- The loop `while (cursor != cpt_video_tag)` of `extract_eoc` : what remains
of the host, `cpt_video_tag` and `data_size` when it ends. `fuel` bounds the
number of turns; every turn consumes at least 5 bytes of the host. -/
def eoc_walk (cursor : Nat) : Nat → List Nat → Nat → Nat → Option (List Nat × Nat × Nat)
  | 0, _, _, _ => none
  | fuel + 1, host, cpt_video_tag, data_size =>
    if cursor = cpt_video_tag then some (host, cpt_video_tag, data_size)
    else
      match host with
      | tag_type :: b0 :: b1 :: b2 :: b3 :: host1 =>
        let cpt1 := if tag_type = 9 then (cpt_video_tag + 1) % 2 ^ 32 else cpt_video_tag
        let data_size1 := be32 b0 b1 b2 b3 / 2 ^ 8
        if cursor ≠ cpt1 then eoc_walk cursor fuel (host1.drop (data_size1 + 10)) cpt1 data_size1
        else eoc_walk cursor fuel host1 cpt1 data_size1
      | _ => none

/-- The variables of the loop on the blocks of `extract_eoc`. `pos` is what
remains of the host after the cursor of the file. -/
structure eoc_ext_state where
  pos : List Nat
  cursor : Nat
  cpt_video_tag : Nat
  data_size : Nat
  nb_block : Nat
  res : List Nat
  deriving DecidableEq, Repr

/-- One turn of the loop `do ... while (nb_block < nb_video_tag)` of lines
245-310 of `eoc.c`. `datab` tells which of the two tables is in use. -/
def extract_eoc_block (R : Rand) (passwd host table : List Nat) (datab : Bool)
    (nb_video_tag data_per_vtag reste : Nat) (st : eoc_ext_state) : Option eoc_ext_state :=
  -- without data2 : back to the end of the header, cursor = 0, cpt_video_tag = -1
  let pos0 := if datab then st.pos else host.drop 13
  let cursor0 := if datab then st.cursor else 0
  let cpt0 := if datab then st.cpt_video_tag else 2 ^ 32 - 1
  match eoc_find_cursor (table.drop cursor0) st.nb_block cursor0 with
  | none => none
  | some cursor =>
    match eoc_walk cursor (pos0.length + 1) pos0 cpt0 st.data_size with
    | none => none
    | some (pos1, cpt1, data_size) =>
      -- data_jump = data_size - reste - data_per_vtag + 6, or data_size - data_per_vtag + 6
      let data_jump :=
        if st.nb_block = nb_video_tag - 1 then
          (((data_size + 2 ^ 32 - reste) % 2 ^ 32 + 2 ^ 32 - data_per_vtag) % 2 ^ 32 + 6) % 2 ^ 32
        else ((data_size + 2 ^ 32 - data_per_vtag) % 2 ^ 32 + 6) % 2 ^ 32
      let write_data := eoc_share nb_video_tag data_per_vtag reste st.nb_block
      let pos2 := pos1.drop data_jump
      if pos2.length < write_data then none
      else
        some { pos := (pos2.drop write_data).drop 4
               cursor := cursor
               cpt_video_tag := cpt1
               data_size := data_size
               nb_block := (st.nb_block + 1) % 2 ^ 32
               res := st.res ++
                 eoc_mask R (R.stegx_srand (R.create_seed passwd)) (pos2.take write_data) }

/-- The loop `do ... while (nb_block < nb_video_tag)` of `extract_eoc`, with at
most `fuel` turns. -/
def extract_eoc_loop (R : Rand) (passwd host table : List Nat) (datab : Bool)
    (nb_video_tag data_per_vtag reste : Nat) : Nat → eoc_ext_state → Option eoc_ext_state
  | 0, _ => none
  | fuel + 1, st =>
    match extract_eoc_block R passwd host table datab nb_video_tag data_per_vtag reste st with
    | none => none
    | some st1 =>
      if st1.nb_block < nb_video_tag then
        extract_eoc_loop R passwd host table datab nb_video_tag data_per_vtag reste fuel st1
      else some st1

/-- The function `extract_eoc` of `eoc.c`. `infos.host.host` is the file that
holds the hidden data. -/
def extract_eoc (E : EocEnv) (infos : info_s) (stegx_errno : err_code) : Option call_result :=
  -- assert(infos->mode == STEGX_MODE_EXTRACT); assert(infos->algo == STEGX_ALGO_EOC);
  if infos.mode ≠ mode_e.STEGX_MODE_EXTRACT ∨ infos.algo ≠ algo_e.STEGX_ALGO_EOC then none
  else
    let nb_video_tag := infos.host.file_info.flv_nb_video_tag
    if nb_video_tag = 0 then none
    else
      let data_per_vtag := infos.hidden_length / nb_video_tag
      let reste := infos.hidden_length % nb_video_tag
      let table := eoc_table E nb_video_tag infos.passwd
      match extract_eoc_loop E.R infos.passwd infos.host.host table
          (decide (¬ nb_video_tag < 256)) nb_video_tag data_per_vtag reste nb_video_tag
          { pos := infos.host.host.drop 13, cursor := 0, cpt_video_tag := 2 ^ 32 - 1,
            data_size := 0, nb_block := 0, res := [] } with
      | none => none
      | some st => some ⟨0, st.res, stegx_errno⟩

/-! ## Well-formed FLV hosts (proof devices for the EOC engine) -/

/-- A tag of an FLV file : the type, the 24-bit size of the payload, the byte
that follows the size in the 4-byte field of the size, the 6 other bytes of
the tag header, the payload and the previous-tag-size that follows it. -/
structure flv_tag where
  tag_type : Nat
  size : Nat
  ts : Nat
  hdr6 : List Nat
  payload : List Nat
  prev : Nat
  deriving DecidableEq, Repr

/-- The bytes of a tag in the file. -/
def flv_tag.bytes (t : flv_tag) : List Nat :=
  [t.tag_type, (t.size / 2 ^ 16) % 256, (t.size / 2 ^ 8) % 256, t.size % 256, t.ts] ++
    t.hdr6 ++ t.payload ++ be32_bytes t.prev

/-- The fields of a tag have the widths of the format. -/
def flv_tag.wf (t : flv_tag) : Prop :=
  t.size < 2 ^ 24 ∧ t.ts < 256 ∧ t.hdr6.length = 6 ∧ t.payload.length = t.size ∧
    t.prev < 2 ^ 32

instance (t : flv_tag) : Decidable t.wf := by
  unfold flv_tag.wf; infer_instance

/-- The bytes of a sequence of tags. -/
def flv_bytes : List flv_tag → List Nat
  | [] => []
  | t :: ts => t.bytes ++ flv_bytes ts

/-- The number of video tags of a sequence of tags. -/
def video_count : List flv_tag → Nat
  | [] => 0
  | t :: ts => (if t.tag_type = 9 then 1 else 0) + video_count ts

/-- The size field that `insert_eoc` computes for the video tag `t` that
carries the block `nb_block`. -/
def eoc_new_size (nb_video_tag data_per_vtag reste nb_block : Nat) (t : flv_tag) : Nat :=
  ((t.size + eoc_share nb_video_tag data_per_vtag reste nb_block) % 2 ^ 32 + 1) % 2 ^ 32

/-- The previous-tag-size that `insert_eoc` computes for the video tag `t` that
carries the block `nb_block`. -/
def eoc_new_prev (nb_video_tag data_per_vtag reste nb_block : Nat) (t : flv_tag) : Nat :=
  ((t.prev + eoc_share nb_video_tag data_per_vtag reste nb_block) % 2 ^ 32 + 1) % 2 ^ 32

/-- The payload bytes of the block `nb_block`. -/
def eoc_block (hidden : List Nat) (nb_video_tag data_per_vtag reste nb_block : Nat) : List Nat :=
  (hidden.drop ((nb_block * data_per_vtag) % 2 ^ 32)).take
    (eoc_share nb_video_tag data_per_vtag reste nb_block)

/-- The bytes that follow the 5 first bytes of a rewritten video tag : the rest
of the tag header, the original payload, the padding byte, the masked block
and the new previous-tag-size. -/
def eoc_video_body (R : Rand) (passwd hidden : List Nat)
    (nb_video_tag data_per_vtag reste nb_block : Nat) (t : flv_tag) : List Nat :=
  t.hdr6 ++ t.payload ++ [28] ++
    eoc_mask R (R.stegx_srand (R.create_seed passwd))
      (eoc_block hidden nb_video_tag data_per_vtag reste nb_block) ++
    be32_bytes (eoc_new_prev nb_video_tag data_per_vtag reste nb_block t)

/-- The bytes of a rewritten video tag. -/
def eoc_video_out (R : Rand) (passwd hidden : List Nat)
    (nb_video_tag data_per_vtag reste nb_block : Nat) (t : flv_tag) : List Nat :=
  [t.tag_type,
    (eoc_new_size nb_video_tag data_per_vtag reste nb_block t / 2 ^ 16) % 256,
    (eoc_new_size nb_video_tag data_per_vtag reste nb_block t / 2 ^ 8) % 256,
    eoc_new_size nb_video_tag data_per_vtag reste nb_block t % 256, t.ts % 256] ++
    eoc_video_body R passwd hidden nb_video_tag data_per_vtag reste nb_block t

/-- The bytes that `insert_eoc` writes for a sequence of tags whose first video
tag has the number `cpt` : the other tags as they are, the video tags
rewritten. -/
def eoc_out (R : Rand) (passwd hidden table : List Nat)
    (nb_video_tag data_per_vtag reste : Nat) : List flv_tag → Nat → List Nat
  | [], _ => []
  | t :: ts, cpt =>
    if t.tag_type ≠ 9 then
      t.bytes ++ eoc_out R passwd hidden table nb_video_tag data_per_vtag reste ts cpt
    else
      eoc_video_out R passwd hidden nb_video_tag data_per_vtag reste (table.getD cpt 0) t ++
        eoc_out R passwd hidden table nb_video_tag data_per_vtag reste ts (cpt + 1)

/-- Every recomputed size, as `insert_eoc` computes it on 32 bits, passes the
test `data_size > 0xFFFFFF` of line 132. -/
def eoc_fits (table : List Nat) (nb_video_tag data_per_vtag reste : Nat) :
    List flv_tag → Nat → Prop
  | [], _ => True
  | t :: ts, cpt =>
    if t.tag_type ≠ 9 then eoc_fits table nb_video_tag data_per_vtag reste ts cpt
    else
      eoc_new_size nb_video_tag data_per_vtag reste (table.getD cpt 0) t ≤ 0xFFFFFF ∧
        eoc_fits table nb_video_tag data_per_vtag reste ts (cpt + 1)

/-- The sequence of tags is not empty and its last tag is a video tag. -/
def ends_with_video : List flv_tag → Prop
  | [] => False
  | [t] => t.tag_type = 9
  | _ :: t :: ts => ends_with_video (t :: ts)

/-- What the proofs on the EOC engine assume of a session : the host is a
13-byte header, a sequence of well-formed tags that ends with the last video
tag, and whatever follows; the number of video tags is the one of the session;
it and `hidden_length` are 32-bit numbers; the payload has `hidden_length`
bytes; the table of the blocks is a permutation of `0 .. n - 1`. -/
structure EocHost (E : EocEnv) (infos : info_s) (hdr : List Nat) (tags : List flv_tag)
    (rest : List Nat) : Prop where
  host_eq : infos.host.host = hdr ++ flv_bytes tags ++ rest
  length_hdr : hdr.length = 13
  wf : ∀ t ∈ tags, t.wf
  ends : ends_with_video tags
  count : infos.host.file_info.flv_nb_video_tag = video_count tags
  count_lt : infos.host.file_info.flv_nb_video_tag < 2 ^ 32
  length_hidden : infos.hidden.length = infos.hidden_length
  hidden_lt : infos.hidden_length < 2 ^ 32
  hidden_bytes : ∀ b ∈ infos.hidden, b < 256
  perm : (eoc_table E infos.host.file_info.flv_nb_video_tag infos.passwd).Perm
    (List.range infos.host.file_info.flv_nb_video_tag)

/-- Every size recomputed for a video tag of the sequence fits in 24 bits as an
exact number, without any wrap-around on 32 bits. -/
def eoc_exact (table : List Nat) (nb_video_tag data_per_vtag reste : Nat) :
    List flv_tag → Nat → Prop
  | [], _ => True
  | t :: ts, cpt =>
    if t.tag_type ≠ 9 then eoc_exact table nb_video_tag data_per_vtag reste ts cpt
    else
      t.size + eoc_share nb_video_tag data_per_vtag reste (table.getD cpt 0) + 1 ≤ 0xFFFFFF ∧
        eoc_exact table nb_video_tag data_per_vtag reste ts (cpt + 1)

/-- The payload bytes of the blocks `0 .. k - 1`, in this order. -/
def eoc_blocks (hidden : List Nat) (nb_video_tag data_per_vtag reste : Nat) : Nat → List Nat
  | 0 => []
  | k + 1 => eoc_blocks hidden nb_video_tag data_per_vtag reste k ++
      eoc_block hidden nb_video_tag data_per_vtag reste k

/-! ## Concrete EOC sessions (to evaluate the model) -/

/-- An environment to evaluate the EOC engine : the generator `lcg`, a
`protect_data` that rotates the array by the length of the password, a
signature of 2 bytes. -/
def eoc_test_env : EocEnv where
  R := lcg
  protect_data := fun d _ pw _ => d.rotate pw.length
  write_signature := fun _ => (0, [200, 201])

/-- A header of 13 bytes : `FLV`, version 1, flags, header size 9 and the
first previous-tag-size. -/
def eoc_test_hdr : List Nat := [70, 76, 86, 1, 5, 0, 0, 0, 9, 0, 0, 0, 0]

/-- Three video tags with payloads of 2, 0 and 3 bytes, and an audio tag
after the first one. -/
def eoc_test_tags : List flv_tag :=
  [⟨9, 2, 7, [1, 2, 3, 4, 5, 6], [100, 101], 13⟩,
   ⟨8, 1, 7, [1, 2, 3, 4, 5, 6], [55], 12⟩,
   ⟨9, 0, 7, [1, 2, 3, 4, 5, 6], [], 11⟩,
   ⟨9, 3, 8, [1, 2, 3, 4, 5, 6], [110, 111, 112], 14⟩]

/-- A script tag without payload, after the last video tag. -/
def eoc_test_rest : List Nat := [18, 0, 0, 0, 0, 0, 0, 0, 0, 0, 0, 0, 0, 0, 11]

/-- The stream that `insert_eoc` writes for `eoc_test_session`. -/
def eoc_test_stream : List Nat :=
  [70, 76, 86, 1, 5, 0, 0, 0, 9, 0, 0, 0, 0,
   9, 0, 0, 7, 7, 1, 2, 3, 4, 5, 6, 100, 101, 28, 182, 150, 69, 146, 0, 0, 0, 18,
   8, 0, 0, 1, 7, 1, 2, 3, 4, 5, 6, 55, 0, 0, 0, 12,
   9, 0, 0, 3, 7, 1, 2, 3, 4, 5, 6, 28, 178, 146, 0, 0, 0, 14,
   9, 0, 0, 6, 8, 1, 2, 3, 4, 5, 6, 110, 111, 112, 28, 176, 148, 0, 0, 0, 17,
   18, 0, 0, 0, 0, 0, 0, 0, 0, 0, 0, 0, 0, 0, 11, 200, 201]

/-- An insertion of 8 bytes in the host made of `eoc_test_hdr`,
`eoc_test_tags` and `eoc_test_rest`, with the password `pw`. -/
def eoc_test_session : info_s where
  mode := mode_e.STEGX_MODE_INSERT
  algo := algo_e.STEGX_ALGO_EOC
  host := ⟨eoc_test_hdr ++ flv_bytes eoc_test_tags ++ eoc_test_rest, type_e.FLV,
    file_info_u.flv ⟨3, 0, 94⟩⟩
  hidden := [1, 2, 3, 4, 5, 6, 7, 8]
  hidden_length := 8
  passwd := [112, 119]

/-- An insertion, in a host whose only tag is the video tag `t`, of a payload
of `L` bytes equal to 0, with the password `pw`. -/
def eoc_single_session (t : flv_tag) (L : Nat) : info_s where
  mode := mode_e.STEGX_MODE_INSERT
  algo := algo_e.STEGX_ALGO_EOC
  host := ⟨eoc_test_hdr ++ flv_bytes [t], type_e.FLV,
    file_info_u.flv ⟨1, 0, 13 + t.bytes.length⟩⟩
  hidden := List.replicate L 0
  hidden_length := L
  passwd := [112, 119]

/-! ## Inspection of the host (`fill_host_info` of `sugg_algo.c`) -/

/-- What `fill_host_info` takes from outside `sugg_algo.c` : the value of the
bytes that `fread` stores in a `uint32_t` or a `uint16_t` used without
conversion (the byte order of the machine), the four bytes `wr32 v` that store
the value `v` of a `uint32_t` in this byte order, the constants of the headers
of the formats BMP, PNG and WAV, and the helpers of the MP3 format, none of
which is part of the sources. `mp3_mpeg_fr_find_first` gives the address of
the first frame, `none` standing for -1; `mp3_id3v1_tag_seek` gives the value
returned and the offset of the file after the call. -/
structure HostEnv where
  rd32 : List Nat → Nat
  rd16 : List Nat → Nat
  wr32 : Nat → List Nat
  BMP_DEF_LENGTH : Nat
  BMP_DEF_PIC : Nat
  BMP_DEF_PIX_LENGTH : Nat
  BMP_DEF_NB_PIXEL : Nat
  PNG_DEF_IHDR : Nat
  LENGTH_SIG_PNG : Nat
  SIG_IEND : Nat
  LENGTH_CRC : Nat
  LENGTH_IEND : Nat
  WAV_SUBCHK1_ADDR : Nat
  WAV_DATA_SIGN : Nat
  WAV_FMT_SIGN : Nat
  WAV_FMT_BPS_OFF : Nat
  M : Mp3Env
  mp3_mpeg_fr_find_first : List Nat → Option Nat
  mp3_id3v1_tag_seek : List Nat → Nat → Int × Nat

/-- A `fread` of `n` bytes at the offset `pos` of a file : the bytes, or `none`
when the file ends before the last of them. -/
def fread_at (file : List Nat) (pos n : Nat) : Option (List Nat) :=
  if pos + n ≤ file.length then some ((file.drop pos).take n) else none

/-- The value of a list of four bytes read as a big-endian number. -/
def be32_list : List Nat → Nat
  | [b0, b1, b2, b3] => be32 b0 b1 b2 b3
  | _ => 0

/-- The branch of `fill_host_info` for the BMP hosts (lines 163-198 of
`sugg_algo.c`) : the value returned and the member `bmp`. A field that has not
been assigned yet keeps what the member held. -/
def fill_host_info_bmp (H : HostEnv) (host : List Nat) (fi : file_info_u) :
    Int × file_info_u :=
  match fread_at host H.BMP_DEF_LENGTH 4, fread_at host H.BMP_DEF_PIC 4 with
  | some lp, some bp =>
    let length_pic := H.rd32 lp % 2 ^ 32
    let begin_pic := H.rd32 bp % 2 ^ 32
    -- header_size = begin_pic; data_size = length_pic - begin_pic;
    let v1 : bmp_s := ⟨begin_pic, (length_pic + 2 ^ 32 - begin_pic) % 2 ^ 32,
      fi.bmp_pixel_length, fi.bmp_pixel_number⟩
    match fread_at host H.BMP_DEF_PIX_LENGTH 2 with
    | none => (1, file_info_u.bmp v1)
    | some pl =>
      let v2 : bmp_s := { v1 with pixel_length := H.rd16 pl % 2 ^ 16 }
      match fread_at host H.BMP_DEF_NB_PIXEL 4, fread_at host (H.BMP_DEF_NB_PIXEL + 4) 4 with
      | some pw, some ph =>
        -- pixel_number = pixel_width * pixel_height;
        (0, file_info_u.bmp
          { v2 with pixel_number := ((H.rd32 pw % 2 ^ 32) * (H.rd32 ph % 2 ^ 32)) % 2 ^ 32 })
      | _, _ => (1, file_info_u.bmp v2)
  | _, _ => (1, fi)

/-- The loop `while (chunk_id != SIG_IEND)` of the PNG branch : the value that
`fill_host_info` returns at once (1) or 0 when the loop ends, and the offset of
the file. `fuel` bounds the number of turns; every turn reads 8 bytes. -/
def fill_host_info_png_loop (H : HostEnv) (host : List Nat) :
    Nat → Nat → Nat → Nat → Option (Int × Nat)
  | 0, _, _, _ => none
  | fuel + 1, pos, chunk_size, chunk_id =>
    if chunk_id = H.SIG_IEND then some (0, pos)
    else
      -- fseek(infos->host.host, chunk_size + LENGTH_CRC, SEEK_CUR)
      let pos1 := pos + (chunk_size + H.LENGTH_CRC) % 2 ^ 32
      match fread_at host pos1 4, fread_at host (pos1 + 4) 4 with
      | some cs, some id =>
        fill_host_info_png_loop H host fuel (pos1 + 8) (be32_list cs) (H.rd32 id % 2 ^ 32)
      | _, _ => some (1, pos1)

/-- The branch of `fill_host_info` for the PNG hosts (lines 201-232). -/
def fill_host_info_png (H : HostEnv) (host : List Nat) (fi : file_info_u) :
    Option (Int × file_info_u) :=
  match fread_at host H.PNG_DEF_IHDR 4 with
  | none => some (1, fi)
  | some il =>
    -- png.header_size = PNG_DEF_IHDR + ihdr_length;
    let header_size := (H.PNG_DEF_IHDR + be32_list il) % 2 ^ 32
    let fi1 := file_info_u.png ⟨header_size, fi.bmp_data_size⟩
    match fread_at host H.LENGTH_SIG_PNG 4, fread_at host (H.LENGTH_SIG_PNG + 4) 4 with
    | some cs, some id =>
      match fill_host_info_png_loop H host (host.length + 1) (H.LENGTH_SIG_PNG + 8)
          (be32_list cs) (H.rd32 id % 2 ^ 32) with
      | none => none
      | some (0, pos) =>
        -- file_length = ftell(...) + LENGTH_IEND; data_size = file_length - header_size;
        let file_length := (pos + H.LENGTH_IEND) % 2 ^ 32
        some (0, file_info_u.png ⟨header_size, (file_length + 2 ^ 32 - header_size) % 2 ^ 32⟩)
      | some (code, _) => some (code, fi1)
    | _, _ => some (1, fi1)

/-- The loop `while (chunk_id != WAV_DATA_SIGN)` of the WAV branch : the value
returned at once (1) or 0 when the loop ends, the offset of the file,
`chunk_size` and the field `wav.chunk_size` (the bits per sample, read when the
subchunk `fmt` is met). The field is 32 bits wide and lines 261-263 read
`sizeof(uint16_t)` bytes at its address : the two bytes read take the place of
the first two bytes that store the field, the other two keep what they held.
`fuel` bounds the number of turns. -/
def fill_host_info_wav_loop (H : HostEnv) (host : List Nat) :
    Nat → Nat → Nat → Nat → Nat → Option (Int × Nat × Nat × Nat)
  | 0, _, _, _, _ => none
  | fuel + 1, pos, chunk_size, chunk_id, bps =>
    if chunk_id = H.WAV_DATA_SIGN then some (0, pos, chunk_size, bps)
    else
      -- fseek(infos->host.host, chunk_size, SEEK_CUR)
      let pos1 := pos + chunk_size
      match fread_at host pos1 4, fread_at host (pos1 + 4) 4 with
      | some id, some cs =>
        let chunk_id1 := H.rd32 id % 2 ^ 32
        let chunk_size1 := H.rd32 cs % 2 ^ 32
        if chunk_id1 = H.WAV_FMT_SIGN then
          -- chunk_size -= WAV_FMT_BPS_OFF + sizeof(uint16_t);
          let chunk_size2 := (chunk_size1 + 2 ^ 32 - (H.WAV_FMT_BPS_OFF + 2) % 2 ^ 32) % 2 ^ 32
          let pos2 := pos1 + 8 + H.WAV_FMT_BPS_OFF
          match fread_at host pos2 2 with
          | none => some (1, pos2, chunk_size2, bps)
          | some b =>
            -- fread(&(infos->host.file_info.wav.chunk_size), sizeof(uint16_t), 1, ...)
            fill_host_info_wav_loop H host fuel (pos2 + 2) chunk_size2 chunk_id1
              (H.rd32 (b ++ (H.wr32 bps).drop 2) % 2 ^ 32)
        else fill_host_info_wav_loop H host fuel (pos1 + 8) chunk_size1 chunk_id1 bps
      | _, _ => some (1, pos1, chunk_size, bps)

/-- The branch of `fill_host_info` for the WAV hosts (lines 235-265). -/
def fill_host_info_wav (H : HostEnv) (host : List Nat) (fi : file_info_u) :
    Option (Int × file_info_u) :=
  -- uint32_t chunk_id = 0, chunk_size = WAV_SUBCHK1_ADDR;
  match fill_host_info_wav_loop H host (host.length + 1) 0 (H.WAV_SUBCHK1_ADDR % 2 ^ 32) 0
      fi.wav_chunk_size with
  | none => none
  | some (0, pos, chunk_size, bps) =>
    -- wav.header_size = ftell(...); wav.data_size = chunk_size;
    some (0, file_info_u.wav ⟨pos % 2 ^ 32, chunk_size, bps⟩)
  | some (code, _, _, bps) =>
    some (code, file_info_u.wav ⟨fi.bmp_header_size, fi.bmp_data_size, bps⟩)

/-- The loop on the tags of the FLV branch (lines 287-308), on what remains of
the file : what remains when the loop ends and the member `flv`. The reads of
the size and of the previous-tag-size are not checked : a read past the end of
the file is outside the model. `fuel` bounds the number of turns; every turn
consumes at least one byte. -/
def fill_host_info_flv_loop : Nat → List Nat → flv_s → Option (List Nat × flv_s)
  | 0, _, _ => none
  | _ + 1, [], v => some ([], v)
  | fuel + 1, tag_type :: host1, v =>
    let v1 : flv_s :=
      if tag_type = 18 then { v with nb_metadata_tag := (v.nb_metadata_tag + 1) % 2 ^ 32 }
      else if tag_type = 9 then { v with nb_video_tag := (v.nb_video_tag + 1) % 2 ^ 32 }
      else v
    -- else if (!(tag_type == AUDIO_TAG || tag_type == SCRIPT_DATA_TAG)) break;
    if tag_type ≠ 18 ∧ tag_type ≠ 9 ∧ ¬ (tag_type = 8 ∨ tag_type = 24) then some (host1, v)
    else
      match host1 with
      | b0 :: b1 :: b2 :: b3 :: host2 =>
        -- data_size = stegx_be32toh(data_size); data_size >>= 8;
        let data_size := be32 b0 b1 b2 b3 / 2 ^ 8
        -- fseek(infos->host.host, data_size + 6, SEEK_CUR);
        match host2.drop (data_size + 6) with
        | p0 :: p1 :: p2 :: p3 :: host3 =>
          -- file_size += prev_tag_size + 4;
          fill_host_info_flv_loop fuel host3
            { v1 with file_size := (v1.file_size + (be32 p0 p1 p2 p3 + 4) % 2 ^ 32) % 2 ^ 32 }
        | _ => none
      | _ => none

/-- The branch of `fill_host_info` for the FLV hosts (lines 268-317) : the
value returned and the member `flv`. The reads of the header are not checked
either. -/
def fill_host_info_flv (mode : mode_e) (host : List Nat) : Option (Int × flv_s) :=
  -- fseek(infos->host.host, 4, SEEK_SET); then check_tags and header_size
  match host.drop 4 with
  | _ :: h0 :: h1 :: h2 :: h3 :: host1 =>
    -- file_size += header_size; fseek(..., 4, SEEK_CUR); file_size += 4;
    let v0 : flv_s := ⟨0, 0, (be32 h0 h1 h2 h3 % 2 ^ 32 + 4) % 2 ^ 32⟩
    match fill_host_info_flv_loop (host1.length + 1) (host1.drop 4) v0 with
    | none => none
    | some (rest, v) =>
      -- if (infos->mode == STEGX_MODE_INSERT && fread(&check_tags, ...)) return 1;
      if mode = mode_e.STEGX_MODE_INSERT ∧ rest ≠ [] then some (1, v) else some (0, v)
  | _ => none

/-- The read `file_info.mp3.eof`. -/
def file_info_u.mp3_eof : file_info_u → Nat
  | .mp3 v => v.eof
  | _ => 0

/-- The loop that counts the frames of the MP3 branch (line 332) : the offset
of the file, `hdr`, the number of frames and the end-of-file indicator when it
ends. A read of fewer than 4 bytes fails, leaves `hdr` as it was and puts the
offset at the end of the file. `fuel` bounds the number of turns. -/
def fill_host_info_mp3_loop (H : HostEnv) (host : List Nat) :
    Nat → Nat → Nat → Nat → Option (Nat × Nat × Nat × Bool)
  | 0, _, _, _ => none
  | fuel + 1, pos, hdr, n =>
    match fread_at host pos 4 with
    | none => some (max pos host.length, hdr, n, true)
    | some bs =>
      let hdr1 := be32_list bs
      if H.M.mp3_mpeg_hdr_test hdr1 then
        -- mp3_mpeg_fr_seek(hdr, h)
        fill_host_info_mp3_loop H host fuel (pos + 4 + H.M.mp3_mpeg_fr_body hdr1) hdr1 (n + 1)
      else some (pos + 4, hdr1, n, false)

/-- The branch of `fill_host_info` for the MP3 hosts (lines 320-349). When the
first frame is not found the function returns 1; the value -1 that it has
stored in `fr_frst_adr` is not represented. -/
def fill_host_info_mp3 (H : HostEnv) (host : List Nat) (fi : file_info_u) :
    Option (Int × file_info_u) :=
  match H.mp3_mpeg_fr_find_first host with
  | none => some (1, fi)
  | some f =>
    match fill_host_info_mp3_loop H host (host.length + 1) f 0 0 with
    | none => none
    | some (pos, hdr, n, feof) =>
      let v1 : mp3_s := ⟨f, n, fi.mp3_eof⟩
      if H.M.mp3_id3v1_hdr_test hdr then
        -- mp3_id3v1_hdr_test(hdr) && mp3_id3v1_tag_seek(h)
        if (H.mp3_id3v1_tag_seek host pos).1 ≠ 0 then some (1, file_info_u.mp3 v1)
        else some (0, file_info_u.mp3 { v1 with eof := (H.mp3_id3v1_tag_seek host pos).2 })
      else if feof then some (0, file_info_u.mp3 { v1 with eof := pos })
      -- infos->host.file_info.mp3.eof -= sizeof(hdr);
      else some (0, file_info_u.mp3 { v1 with eof := pos - 4 })

/-- The function `fill_host_info` of `sugg_algo.c` : the value returned and the
session, of which only `host.file_info` changes. -/
def fill_host_info (H : HostEnv) (infos : info_s) : Option (Int × info_s) :=
  let set (r : Int × file_info_u) : Int × info_s :=
    (r.1, { infos with host := { infos.host with file_info := r.2 } })
  if infos.host.type = type_e.BMP_COMPRESSED ∨ infos.host.type = type_e.BMP_UNCOMPRESSED then
    some (set (fill_host_info_bmp H infos.host.host infos.host.file_info))
  else if infos.host.type = type_e.PNG then
    (fill_host_info_png H infos.host.host infos.host.file_info).map set
  else if infos.host.type = type_e.WAV_PCM ∨ infos.host.type = type_e.WAV_NO_PCM then
    (fill_host_info_wav H infos.host.host infos.host.file_info).map set
  else if infos.host.type = type_e.FLV then
    (fill_host_info_flv infos.mode infos.host.host).map
      fun r => set (r.1, file_info_u.flv r.2)
  else if infos.host.type = type_e.MP3 then
    (fill_host_info_mp3 H infos.host.host infos.host.file_info).map set
  else if infos.host.type = type_e.AVI_COMPRESSED ∨
      infos.host.type = type_e.AVI_UNCOMPRESSED then
    some (0, infos)
  else some (1, infos)

/-- The number of metadata tags (type 18) of a sequence of tags. -/
def metadata_count : List flv_tag → Nat
  | [] => 0
  | t :: ts => (if t.tag_type = 18 then 1 else 0) + metadata_count ts

/-- The tag has one of the four types that `fill_host_info` goes over. -/
def flv_tag.known (t : flv_tag) : Prop :=
  t.tag_type = 8 ∨ t.tag_type = 9 ∨ t.tag_type = 18 ∨ t.tag_type = 24

instance (t : flv_tag) : Decidable t.known := by
  unfold flv_tag.known; infer_instance

/-- What the loop of `fill_host_info` does to the member `flv` when it goes
over the tag `t`. -/
def flv_tag.count (t : flv_tag) (v : flv_s) : flv_s :=
  { nb_video_tag := if t.tag_type = 9 then (v.nb_video_tag + 1) % 2 ^ 32 else v.nb_video_tag
    nb_metadata_tag :=
      if t.tag_type = 18 then (v.nb_metadata_tag + 1) % 2 ^ 32 else v.nb_metadata_tag
    file_size := (v.file_size + (t.prev + 4) % 2 ^ 32) % 2 ^ 32 }

/-- An insertion session whose FLV host is the header `eoc_test_hdr` followed
by 286331153 audio tags without payload (15 bytes each). -/
def flv_long_session : info_s where
  mode := mode_e.STEGX_MODE_INSERT
  algo := algo_e.STEGX_ALGO_EOC
  host := ⟨eoc_test_hdr ++ flv_bytes (List.replicate 286331153 ⟨8, 0, 0, [0, 0, 0, 0, 0, 0], [], 11⟩),
    type_e.FLV, file_info_u.flv ⟨0, 0, 0⟩⟩
  hidden := [1]
  hidden_length := 0
  passwd := []

/-- The host of `eoc_test_session`, whose last tag is a metadata tag, followed
by one byte 0, in an insertion session. -/
def flv_trailing_session : info_s where
  mode := mode_e.STEGX_MODE_INSERT
  algo := algo_e.STEGX_ALGO_EOC
  host := ⟨eoc_test_hdr ++
      flv_bytes (eoc_test_tags ++ [⟨18, 0, 0, [0, 0, 0, 0, 0, 0], [], 11⟩]) ++ [0],
    type_e.FLV, file_info_u.flv ⟨0, 0, 0⟩⟩
  hidden := [1, 2, 3]
  hidden_length := 0
  passwd := [112, 119]

/-- The session `eoc_test_session` with an empty payload file. -/
def flv_empty_payload_session : info_s :=
  { eoc_test_session with hidden := [], hidden_length := 7 }

/-- Values of the constants and helpers that `fill_host_info` takes from
outside, to evaluate the model : reads in little-endian order, the offsets of
the fields of the headers, MP3 frames starting at the offset 0. -/
def test_host_env : HostEnv where
  rd32 := fun bs => bs.getD 0 0 + 2 ^ 8 * bs.getD 1 0 + 2 ^ 16 * bs.getD 2 0 + 2 ^ 24 * bs.getD 3 0
  rd16 := fun bs => bs.getD 0 0 + 2 ^ 8 * bs.getD 1 0
  wr32 := fun v => [v % 256, v / 2 ^ 8 % 256, v / 2 ^ 16 % 256, v / 2 ^ 24 % 256]
  BMP_DEF_LENGTH := 2
  BMP_DEF_PIC := 10
  BMP_DEF_PIX_LENGTH := 28
  BMP_DEF_NB_PIXEL := 18
  PNG_DEF_IHDR := 8
  LENGTH_SIG_PNG := 8
  SIG_IEND := 0x444E4549
  LENGTH_CRC := 4
  LENGTH_IEND := 4
  WAV_SUBCHK1_ADDR := 12
  WAV_DATA_SIGN := 0x61746164
  WAV_FMT_SIGN := 0x20746D66
  WAV_FMT_BPS_OFF := 14
  M := (test_env []).M
  mp3_mpeg_fr_find_first := fun _ => some 0
  mp3_id3v1_tag_seek := fun _ pos => (0, pos + 124)

/-! ## Capacity advisor (`sugg_algo.c`) -/

/-- The function `can_use_lsb` : 0 when LSB is proposed, 1 otherwise.
`hidden_length` is a `uint32_t`, so `hidden_length * 8` is computed modulo
`2 ^ 32` before it is compared with the 64-bit capacity. The fields of the
members `bmp` and `wav` are taken to be 32 bits wide, `fr_nb` is a `long int`.
The division by `chunk_size / 8` is undefined when this divisor is 0. -/
def can_use_lsb (infos : info_s) : Option Int :=
  if infos.host.type = type_e.BMP_UNCOMPRESSED ∧ infos.host.file_info.bmp_pixel_length > 8 then
    -- uint64_t nb_bits_pic = (pixel_length * pixel_number) / 8; nb_bits_pic /= 4;
    let nb_bits_pic :=
      ((infos.host.file_info.bmp_pixel_length * infos.host.file_info.bmp_pixel_number)
        % 2 ^ 32) / 8 / 4
    if (infos.hidden_length * 8) % 2 ^ 32 ≤ nb_bits_pic then some 0 else some 1
  else if infos.host.type = type_e.WAV_PCM then
    if infos.host.file_info.wav_chunk_size / 8 = 0 then none
    else
      let nb_bits_modif :=
        ((infos.host.file_info.wav_data_size / (infos.host.file_info.wav_chunk_size / 8)) * 2)
          % 2 ^ 32
      if (infos.hidden_length * 8) % 2 ^ 32 ≤ nb_bits_modif then some 0 else some 1
  else if infos.host.type = type_e.MP3 ∧
      infos.host.file_info.mp3_fr_nb * MP3_HDR_NB_BITS_MODIF ≥
        (infos.hidden_length * 8) % 2 ^ 32 then some 0
  else some 1

/-- Modelled from the spec: the macro `IS_FILE_TYPE` of a header that is not
part of the sources : the type is one of the recognised formats. -/
def IS_FILE_TYPE (t : type_e) : Bool := decide (t ≠ type_e.UNKNOWN)

/-- The function `can_use_eof`. -/
def can_use_eof (infos : info_s) : Int :=
  if infos.host.type = type_e.AVI_COMPRESSED ∨ infos.host.type = type_e.AVI_UNCOMPRESSED then 1
  else if IS_FILE_TYPE infos.host.type then 0 else 1

/-- The function `can_use_metadata`. `BMP_METADATA_MAX` is a constant of a
header that is not part of the sources; the sum is computed on 32 bits. -/
def can_use_metadata (BMP_METADATA_MAX : Nat) (infos : info_s) : Int :=
  if infos.host.type = type_e.BMP_COMPRESSED ∨ infos.host.type = type_e.BMP_UNCOMPRESSED then
    let length := (infos.hidden_length + infos.host.file_info.bmp_header_size
      + infos.host.file_info.bmp_header_size) % 2 ^ 32
    if length > BMP_METADATA_MAX then 1 else 0
  else if infos.host.type = type_e.PNG then 0
  else 1

/-- The function `can_use_eoc`. -/
def can_use_eoc (infos : info_s) : Int :=
  if infos.host.type = type_e.FLV then 0 else 1

/-- The function `can_use_junk_chunk`. -/
def can_use_junk_chunk (infos : info_s) : Int :=
  if infos.host.type = type_e.AVI_COMPRESSED ∨ infos.host.type = type_e.AVI_UNCOMPRESSED
  then 0 else 1

/-- The global variables of the library : `stegx_errno` and the table
`stegx_propos_algos`, indexed by the algorithms in the order of `algo_e`. -/
structure globals where
  stegx_errno : err_code
  stegx_propos_algos : List Bool
  deriving DecidableEq, Repr

/-- What a call of the advisor leaves : the value returned, the session and
the global variables. -/
structure sugg_result where
  ret : Int
  infos : info_s
  g : globals
  deriving DecidableEq, Repr

/-- The function `stegx_suggest_algo`. The argument `fill_host_info` is what
the call of the inspection of the host gives (value returned and session with
`host.file_info` filled); the theorems on the inspection take it equal, on the
session, to the function `fill_host_info` modelled above. The size that `ftell`
reports at the end of the payload file is the length of `infos.hidden`. -/
def stegx_suggest_algo (fill_host_info : info_s → Int × info_s) (BMP_METADATA_MAX : Nat)
    (infos : info_s) (g : globals) : Option sugg_result :=
  -- if (infos->mode == STEGX_MODE_EXTRACT || fill_host_info(infos))
  if infos.mode = mode_e.STEGX_MODE_EXTRACT then
    some ⟨1, infos, { g with stegx_errno := err_code.ERR_SUGG_ALGOS }⟩
  else if (fill_host_info infos).1 ≠ 0 then
    some ⟨1, (fill_host_info infos).2, { g with stegx_errno := err_code.ERR_SUGG_ALGOS }⟩
  else
    let infos1 := (fill_host_info infos).2
    let read_hidden_length := infos1.hidden.length
    if read_hidden_length = 0 then
      some ⟨1, infos1, { g with stegx_errno := err_code.ERR_HIDDEN_FILE_EMPTY }⟩
    -- if (read_hidden_length >= UINT32_MAX)
    else if read_hidden_length ≥ 2 ^ 32 - 1 then
      some ⟨1, infos1, { g with stegx_errno := err_code.ERR_LENGTH_HIDDEN }⟩
    else
      let infos2 := { infos1 with hidden_length := read_hidden_length % 2 ^ 32 }
      match can_use_lsb infos2 with
      | none => none
      | some lsb =>
        some ⟨0, infos2, { g with stegx_propos_algos :=
          [decide (lsb = 0), decide (can_use_eof infos2 = 0),
           decide (can_use_metadata BMP_METADATA_MAX infos2 = 0),
           decide (can_use_eoc infos2 = 0), decide (can_use_junk_chunk infos2 = 0)] }⟩

/-- The position of an algorithm in the enumeration `algo_e`, which indexes
the table `stegx_propos_algos`. -/
def algo_e.index : algo_e → Nat
  | .STEGX_ALGO_LSB => 0
  | .STEGX_ALGO_EOF => 1
  | .STEGX_ALGO_METADATA => 2
  | .STEGX_ALGO_EOC => 3
  | .STEGX_ALGO_JUNK_CHUNK => 4

/-- The loop of lines 406-407 of `sugg_algo.c`, with `n` characters left to
draw : `passwd[i] = 32 + (stegx_rand() % 95)`. -/
def default_passwd (R : Rand) : Nat → Nat → List Nat
  | 0, _ => []
  | n + 1, seed =>
    (32 + (R.stegx_rand seed).1 % 95) :: default_passwd R n (R.stegx_rand seed).2

/-- The function `stegx_choose_algo`. `LENGTH_DEFAULT_PASSWD` is a constant of
a header that is not part of the sources, `now` is the value of `time(NULL)`.
The allocation of the password is taken to succeed. An entry that the table
`stegx_propos_algos` does not hold reads as 0, the initial value of the
table. -/
def stegx_choose_algo (R : Rand) (LENGTH_DEFAULT_PASSWD now : Nat) (infos : info_s)
    (algo_choosen : algo_e) (g : globals) : sugg_result :=
  if infos.mode = mode_e.STEGX_MODE_EXTRACT then
    ⟨1, infos, { g with stegx_errno := err_code.ERR_SUGG_ALGOS }⟩
  else
    -- if (infos->method == STEGX_WITHOUT_PASSWD) : a password drawn at random
    let infos1 :=
      if infos.method = method_e.STEGX_WITHOUT_PASSWD then
        { infos with passwd := default_passwd R LENGTH_DEFAULT_PASSWD (R.stegx_srand now) }
      else infos
    if g.stegx_propos_algos.getD algo_choosen.index false then
      ⟨0, { infos1 with algo := algo_choosen }, g⟩
    else ⟨1, infos1, { g with stegx_errno := err_code.ERR_CHOICE_ALGO }⟩

/-! ## Proof devices for the selection of `protect_data_lsb` -/

/-- Number of slots of the scratch array that are not marked `DONE`. -/
def live (done : List Nat) : Nat :=
  done.countP (fun d => decide (d ≠ DONE))

/-- The variables of `protect_data_lsb` that take part in the selection of the
indices. -/
structure sel_state where
  done : List Nat
  hidden_length_recalcul : Nat
  seed : Nat
  trace : List Nat
  deriving DecidableEq, Repr

/-- The selection variables of a state of `protect_data_lsb`. -/
def lsb_state.sel (s : lsb_state) : sel_state :=
  { done := s.done
    hidden_length_recalcul := s.hidden_length_recalcul
    seed := s.seed
    trace := s.trace }

/-- The effect of one turn of the loop on `j` on the selection variables. -/
def sel_pair (R : Rand) (c : sel_state) : Option sel_state :=
  if c.hidden_length_recalcul = 1 then none
  else
    let modulus := (c.hidden_length_recalcul + 2 ^ 32 - 1) % 2 ^ 32
    match select_unit c.done ((R.stegx_rand c.seed).1 % modulus) with
    | none => none
    | some m =>
      some { done := c.done.set m DONE
             hidden_length_recalcul := modulus
             seed := (R.stegx_rand c.seed).2
             trace := c.trace ++ [m] }

/-- The selection variables after `n` turns. -/
def sel_run (R : Rand) : Nat → sel_state → Option sel_state
  | 0, c => some c
  | n + 1, c => (sel_run R n c).bind (sel_pair R)

/-- The selection variables when the loops of `protect_data_lsb` start. -/
def sel_init (R : Rand) (pixels_length : Nat) (passwd : List Nat) : sel_state :=
  { done := List.replicate pixels_length NOT_DONE
    hidden_length_recalcul := (pixels_length + 1) % 2 ^ 32
    seed := R.stegx_srand (R.create_seed passwd)
    trace := [] }

/-- The variables of `protect_data_lsb` when its loops start, `data` being the
payload array after the optional clearing of lines 56-60. -/
def lsb_entry (R : Rand) (pixels : List Nat) (pixels_length : Nat) (data : List Nat)
    (passwd : List Nat) : lsb_state :=
  { pixels := pixels
    data := data
    done := List.replicate pixels_length NOT_DONE
    hidden_length_recalcul := (pixels_length + 1) % 2 ^ 32
    mask_hidden := 0
    seed := R.stegx_srand (R.create_seed passwd)
    trace := [] }

/-- The pair of bits number `j` (most significant pair first) of the payload
byte `d`, as line 126 of `lsb.c` computes it : `(d & mask_hidden) >> (6 - 2j)`
with `mask_hidden = 0xC0 >> 2j`. -/
def pair_of (d j : Nat) : Nat := (d &&& (0xC0 >>> (2 * j))) >>> (6 - 2 * j)

/-- The contribution to the payload byte `i` of the pair `j`, read in `pixels`
at the index that the trace `tr` records for this pair (nothing while the pair has not
been drawn). -/
def ext_term (pixels tr : List Nat) (i j : Nat) : Nat :=
  match tr[4 * i + j]? with
  | some m => ((pixels[m]?.getD 0) &&& 0x03) <<< (6 - 2 * j)
  | none => 0

/-- The value of the payload byte `i` rebuilt from the pairs drawn so far. -/
def ext_val (pixels tr : List Nat) (i : Nat) : Nat :=
  ext_term pixels tr i 0 + ext_term pixels tr i 1 +
    ext_term pixels tr i 2 + ext_term pixels tr i 3

/-! ## Proof devices for the keystream -/

/-- The masking by the keystream, as the specification words it : each byte of
the list is exclusive-ored with the next value of the generator modulo 255. -/
def xor_keystream (rand : Nat → Nat × Nat) : Nat → List Nat → List Nat
  | _, [] => []
  | seed, b :: bs => ((b ^^^ ((rand seed).1 % 255)) % 256) :: xor_keystream rand (rand seed).2 bs

/-- The generator `R` with a keystream made of zeros : masking with it leaves
the bytes as they are. -/
def Rand.mute (R : Rand) : Rand := { R with stegx_rand := fun s => (0, s) }

/-- The MP3 environment `M` with a keystream made of zeros. -/
def Mp3Env.mute (M : Mp3Env) : Mp3Env := { M with rand := fun s => (0, s) }

/-- The state of the generator after `k` draws. -/
def keystream_seed (rand : Nat → Nat × Nat) : Nat → Nat → Nat
  | seed, 0 => seed
  | seed, k + 1 => keystream_seed rand (rand seed).2 k

/-- The link between a run of the MP3 extraction and the run with a keystream
of zeros : the same variables, and the bytes written are the masked bytes of
the other run, `pre` being what the result held and `seed0` the state of the
generator at the start. -/
def mp3_ext_rel (rand : Nat → Nat × Nat) (pre : List Nat) (seed0 : Nat)
    (st st0 : mp3_ext_state) : Prop :=
  st.b = st0.b ∧ st.b_cnt = st0.b_cnt ∧ st.s = st0.s ∧ st.b < 256 ∧
    st.res = pre ++ xor_keystream rand seed0 st0.res ∧
    st.seed = keystream_seed rand seed0 st0.res.length

/-- The link between a run of the MP3 insertion and the run, with a keystream
of zeros, on the masked payload : the same variables, the payload of the
second run is the masked rest of the payload of the first; a byte that has
been read and not masked yet (`b_cnt = 8`) is already masked in the second
run. -/
def mp3_ins_rel (rand : Nat → Nat × Nat) (st st0 : mp3_ins_state) : Prop :=
  st.hdr = st0.hdr ∧ st.hdr_cnt = st0.hdr_cnt ∧ st.b_cnt = st0.b_cnt ∧
    st.feof_hidden = st0.feof_hidden ∧ st.b_cnt ≤ 8 ∧
    if st.b_cnt = 8 then
      st0.b = (st.b ^^^ ((rand st.seed).1 % 255)) % 256 ∧
        st0.hidden = xor_keystream rand (rand st.seed).2 st.hidden
    else st0.b = st.b ∧ st0.hidden = xor_keystream rand st.seed st.hidden

/-- An insertion by LSB in a BMP host with a header of 2 bytes and 4 bytes of
data, all 0, small enough for the scrambled substitution : a payload of one
byte `0xFF`, the password `pw`. -/
def lsb_scrambled_session : info_s where
  mode := mode_e.STEGX_MODE_INSERT
  algo := algo_e.STEGX_ALGO_LSB
  host := ⟨[66, 77, 0, 0, 0, 0], type_e.BMP_UNCOMPRESSED, file_info_u.bmp ⟨2, 4, 24, 1⟩⟩
  hidden := [255]
  hidden_length := 1
  passwd := [112, 119]

/-! ## The default password (`stegx_choose_algo` of `sugg_algo.c`) -/

/-- The loop of lines 406-407 of `sugg_algo.c` run on the array `buf`, with `n`
characters left to write from the index `i` :
`passwd[i] = 32 + (stegx_rand() % 95)`. -/
def default_passwd_fill (R : Rand) : Nat → Nat → Nat → List Nat → List Nat
  | 0, _, _, buf => buf
  | n + 1, i, seed, buf =>
    default_passwd_fill R n (i + 1) (R.stegx_rand seed).2
      (buf.set i (32 + (R.stegx_rand seed).1 % 95))

/-- The array `infos->passwd` after lines 403-407 of `sugg_algo.c` : the
`LENGTH_DEFAULT_PASSWD + 1` bytes equal to 0 that `calloc` returns, over which
the loop has run. -/
def default_passwd_array (R : Rand) (LENGTH_DEFAULT_PASSWD seed : Nat) : List Nat :=
  default_passwd_fill R LENGTH_DEFAULT_PASSWD 0 seed
    (List.replicate (LENGTH_DEFAULT_PASSWD + 1) 0)

/-- The string that an array of `char` holds : the bytes before the first byte
equal to 0. -/
def c_string (buf : List Nat) : List Nat := buf.takeWhile (fun c => decide (c ≠ 0))

/-- A session without a password given by the user. -/
def no_passwd_session : info_s :=
  { eoc_test_session with passwd := [], method := method_e.STEGX_WITHOUT_PASSWD }

/-! ## Proof devices for the finalisation of `insert_lsb` -/

/-- The environment `E` with a writer of the signature that writes nothing and
returns 0 : a run of `insert_lsb` with it returns 0 exactly when the run
reaches the writing of the signature, and its result is what has been written
until then. -/
def LsbEnv.no_signature (E : LsbEnv) : LsbEnv :=
  { E with write_signature := fun _ => (0, []) }

/-- The environment `test_env` with a writer of the signature that fails. -/
def test_env_sig_fails : LsbEnv :=
  { test_env [] with write_signature := fun _ => (1, []) }

/-- An insertion by LSB in a WAV host with a header of 2 bytes and 9 bytes of
data : a payload of 2 bytes, the password `pw`. -/
def lsb_wav_session : info_s where
  mode := mode_e.STEGX_MODE_INSERT
  algo := algo_e.STEGX_ALGO_LSB
  host := ⟨[82, 73, 10, 20, 30, 40, 50, 60, 70, 80, 90], type_e.WAV_PCM,
    file_info_u.wav ⟨2, 9, 16⟩⟩
  hidden := [0xA7, 0x1B]
  hidden_length := 2
  passwd := [112, 119]

/-! ## Concrete EOC sessions for the two variants of the table -/

/-- The environment `eoc_test_env` with a keystream made of zeros : the bytes
of the payload are written as they are. -/
def eoc_plain_env : EocEnv := { eoc_test_env with R := lcg.mute }

/-- A video tag without payload. -/
def eoc_empty_video_tag : flv_tag := ⟨9, 0, 7, [1, 2, 3, 4, 5, 6], [], 11⟩

/-- An insertion of the 3 bytes `0, 1, 2` in a host of 3 video tags without
payload, with the password `pw`. -/
def eoc_small_session : info_s where
  mode := mode_e.STEGX_MODE_INSERT
  algo := algo_e.STEGX_ALGO_EOC
  host := ⟨eoc_test_hdr ++ flv_bytes (List.replicate 3 eoc_empty_video_tag),
    type_e.FLV, file_info_u.flv ⟨3, 0, 58⟩⟩
  hidden := List.range 3
  hidden_length := 3
  passwd := [112, 119]

/-- An insertion of the 256 bytes `0 .. 255` in a host of 256 video tags
without payload, with the password `pw`. -/
def eoc_large_session : info_s where
  mode := mode_e.STEGX_MODE_INSERT
  algo := algo_e.STEGX_ALGO_EOC
  host := ⟨eoc_test_hdr ++ flv_bytes (List.replicate 256 eoc_empty_video_tag),
    type_e.FLV, file_info_u.flv ⟨256, 0, 3853⟩⟩
  hidden := List.range 256
  hidden_length := 256
  passwd := [112, 119]

/-! ## Proof devices for the layout of the stream of `insert_eoc` -/

/-- The stream that `insert_eoc` writes for a sequence of tags, cut into one
segment per tag : the bytes of the tag for a tag that is not a video tag, the
rewritten tag for a video tag. -/
def eoc_segments (R : Rand) (passwd hidden table : List Nat)
    (nb_video_tag data_per_vtag reste : Nat) : List flv_tag → Nat → List (List Nat)
  | [], _ => []
  | t :: ts, cpt =>
    if t.tag_type ≠ 9 then
      t.bytes :: eoc_segments R passwd hidden table nb_video_tag data_per_vtag reste ts cpt
    else
      eoc_video_out R passwd hidden nb_video_tag data_per_vtag reste (table.getD cpt 0) t ::
        eoc_segments R passwd hidden table nb_video_tag data_per_vtag reste ts (cpt + 1)

/-- A video tag whose payload has 4 bytes. -/
def eoc_wrap_tag : flv_tag := ⟨9, 4, 7, [1, 2, 3, 4, 5, 6], [100, 101, 102, 103], 15⟩

/-- An insertion of `2 ^ 32 - 2` bytes in a host whose only tag is
`eoc_wrap_tag`. -/
def eoc_wrap_session : info_s := eoc_single_session eoc_wrap_tag (2 ^ 32 - 2)

/-! ## Proof devices for the frame of `protect_data_lsb` -/

/-- What a part of an insertion run of `protect_data_lsb` leaves of the state
`s` in the state `t` : the payload, the length of the host array and the upper
six bits of every host byte are the same, and the host bytes whose index has
not been selected meanwhile are the same. -/
def lsb_frame (s t : lsb_state) : Prop :=
  t.data = s.data ∧ t.pixels.length = s.pixels.length ∧
    (∀ m : Nat, (t.pixels[m]?).map (fun p => p &&& 0xFC) =
      (s.pixels[m]?).map (fun p => p &&& 0xFC)) ∧
    ∃ ext : List Nat, t.trace = s.trace ++ ext ∧ ∀ m : Nat, m ∉ ext → t.pixels[m]? = s.pixels[m]?

/-! ## Proof devices for the guards of the advisor and of the EOC engine -/

/-- The environment `E` with the writer of the signature `ws`. -/
def EocEnv.with_signature (E : EocEnv) (ws : info_s → Int × List Nat) : EocEnv :=
  { E with write_signature := ws }

/-- The environment `eoc_test_env` with a writer of the signature that fails :
it writes nothing and returns 1. -/
def eoc_sig_fails_env : EocEnv := eoc_test_env.with_signature fun _ => (1, [])

/-- An insertion session on a WAV-PCM host : the 44 bytes of a canonical
header (`RIFF`, `WAVE`, a subchunk `fmt` of 16 bytes, the subchunk `data`)
whose field of the bits per sample, at the offset 34, holds `bps`, followed by
8 bytes of samples. -/
def wav_bps_session (bps : Nat) : info_s where
  mode := mode_e.STEGX_MODE_INSERT
  algo := algo_e.STEGX_ALGO_LSB
  host := ⟨[82, 73, 70, 70, 44, 0, 0, 0, 87, 65, 86, 69, 102, 109, 116, 32, 16, 0, 0, 0,
      1, 0, 1, 0, 68, 172, 0, 0, 34, 86, 0, 0, 1, 0, bps % 256, bps / 256 % 256,
      100, 97, 116, 97, 8, 0, 0, 0, 1, 2, 3, 4, 5, 6, 7, 8],
    type_e.WAV_PCM, file_info_u.wav ⟨0, 0, 0⟩⟩
  hidden := [1]
  hidden_length := 0
  passwd := []

/-- An insertion session on an FLV host without a video tag : the header
`eoc_test_hdr` and one audio tag with a payload of one byte. -/
def flv_audio_session : info_s where
  mode := mode_e.STEGX_MODE_INSERT
  algo := algo_e.STEGX_ALGO_EOC
  host := ⟨eoc_test_hdr ++ flv_bytes [⟨8, 1, 7, [1, 2, 3, 4, 5, 6], [55], 12⟩], type_e.FLV,
    file_info_u.flv ⟨0, 0, 0⟩⟩
  hidden := [1, 2, 3]
  hidden_length := 0
  passwd := [112, 119]

/-- A session on a WAV-PCM host with `data_size` bytes of samples of `bps`
bits, for a payload of `hidden_length` bytes. -/
def wav_capacity_session (data_size bps hidden_length : Nat) : info_s where
  mode := mode_e.STEGX_MODE_INSERT
  algo := algo_e.STEGX_ALGO_LSB
  host := ⟨[], type_e.WAV_PCM, file_info_u.wav ⟨44, data_size, bps⟩⟩
  hidden := []
  hidden_length := hidden_length
  passwd := []

/-! ## Proof devices for the keystream of the EOC engine -/

/-- The value number `j` of the keystream of the EOC engine : the draw number
`j` of the generator, counted from the seeding with the password, modulo 255. -/
def eoc_keystream (R : Rand) (passwd : List Nat) (j : Nat) : Nat :=
  (R.stegx_rand (keystream_seed R.stegx_rand (R.stegx_srand (R.create_seed passwd)) j)).1 % 255

/-- A video tag with a payload of 2 bytes whose previous-tag-size field holds
`2 ^ 32 - 1`. -/
def eoc_prev_max_tag : flv_tag := ⟨9, 2, 7, [1, 2, 3, 4, 5, 6], [100, 101], 2 ^ 32 - 1⟩

/-! ## Proof devices for the bound of the MP3 extraction -/

/-- A session of extraction by LSB on an MP3 host made of 8 frame headers
followed by 4 bytes that are read as a header, for a payload announced of
`hidden_length` bytes. -/
def mp3_extract_session (hidden_length : Nat) : info_s where
  mode := mode_e.STEGX_MODE_EXTRACT
  algo := algo_e.STEGX_ALGO_LSB
  host := ⟨[255, 251, 144, 8, 255, 251, 145, 8, 255, 251, 144, 12, 255, 251, 144, 4,
      255, 251, 145, 4, 255, 251, 144, 12, 255, 251, 144, 0, 255, 251, 144, 0, 1, 2, 3, 4],
    type_e.MP3, file_info_u.mp3 ⟨0, 8, 32⟩⟩
  hidden := []
  hidden_length := hidden_length
  passwd := [112, 119]

/-! ## Proof devices for the MP3 insertion -/

/-- The `n` low bits of `b`, the least significant one first. -/
def byte_bits : Nat → Nat → List Nat
  | _, 0 => []
  | b, n + 1 => (b &&& 1) :: byte_bits (b >>> 1) n

/-- The bits of a list of bytes : the 8 bits of each byte, the least
significant one first, byte after byte. -/
def bit_stream (bs : List Nat) : List Nat := bs.flatMap fun m => byte_bits m 8

/-- The bits that the MP3 insertion has still to hide, as the specification
words it : the bits left of the byte in progress, then the bits of the bytes
that follow, each of them exclusive-ored with the next value of the generator
modulo 255. A byte that has been read and of which no bit has been hidden yet
(`b_cnt = 8`) is not masked yet : it counts with the bytes that follow. -/
def mp3_pending (rand : Nat → Nat × Nat) (st : mp3_ins_state) : List Nat :=
  if st.b_cnt = 0 then bit_stream (xor_keystream rand st.seed st.hidden)
  else if st.b_cnt = 8 then bit_stream (xor_keystream rand st.seed (st.b :: st.hidden))
  else byte_bits st.b st.b_cnt ++ bit_stream (xor_keystream rand st.seed st.hidden)

/-- The header `h` in which the bits of the list have been written in the
slots number `c`, `c + 1`, ... : line 306 of `lsb.c` for each of them. -/
def mp3_embed : Nat → Nat → List Nat → Nat
  | h, _, [] => h
  | h, c, x :: xs =>
    mp3_embed (((h &&& mp3_mask.getD c 0) ||| (x <<< mp3_shift.getD c 0)) % 2 ^ 32) (c + 1) xs

/-- The loop on the frames of the MP3 insertion, as the specification words
it : each header that passes the test receives the next
`MP3_HDR_NB_BITS_MODIF` bits of the stream `bits`, or what is left of it, and
is written with its frame. The result is the value returned so far, what
remains of the host, the stream written and the variable `hdr`. -/
def mp3_spec_frames (M : Mp3Env) :
    Nat → List Nat → List Nat → Nat → List Nat → Option (Int × List Nat × List Nat × Nat)
  | 0, _, _, _, _ => none
  | fuel + 1, host, res, hdr_var, bits =>
    match host with
    | b0 :: b1 :: b2 :: b3 :: host1 =>
      if M.mp3_mpeg_hdr_test (be32 b0 b1 b2 b3) then
        match mp3_mpeg_fr_write M
            (mp3_embed (be32 b0 b1 b2 b3) 0 (bits.take MP3_HDR_NB_BITS_MODIF)) host1
            (res ++ be32_bytes
              (mp3_embed (be32 b0 b1 b2 b3) 0 (bits.take MP3_HDR_NB_BITS_MODIF))) with
        | (0, host2, res2) =>
          mp3_spec_frames M fuel host2 res2
            (M.stegx_htobe32 (mp3_embed (be32 b0 b1 b2 b3) 0 (bits.take MP3_HDR_NB_BITS_MODIF)))
            (bits.drop MP3_HDR_NB_BITS_MODIF)
        | (_, host2, res2) =>
          some (1, host2, res2, mp3_embed (be32 b0 b1 b2 b3) 0 (bits.take MP3_HDR_NB_BITS_MODIF))
      else some (0, host1, res, be32 b0 b1 b2 b3)
    | _ => some (0, [], res, hdr_var)

/-! ## Proof devices for the MP3 round trip -/

/-- The bit that the MP3 extraction reads in the slot `c` of the header `hdr`
(line 442 of `lsb.c`). -/
def mp3_slot_bit (hdr c : Nat) : Nat :=
  (hdr &&& (0xFFFFFFFF ^^^ mp3_mask.getD c 0)) >>> mp3_shift.getD c 0

/-- The state of the MP3 extraction, run with a keystream of zeros over a
stream in which the bytes `Q` are hidden, while it rebuilds the byte number
`j` : the `j` bytes before are written, `k` bits of the byte are in `b`, and
`bits` are the hidden bits that it has not read yet. -/
def mp3_ext_inv (Q bits : List Nat) (st : mp3_ext_state) : Prop :=
  ∃ j k, j < Q.length ∧ k ≤ 8 ∧ st.b = Q.getD j 0 % 2 ^ k ∧ st.b_cnt = 8 - k ∧ st.s = j ∧
    st.res = Q.take j ∧
    bits = byte_bits (Q.getD j 0 >>> k) (8 - k) ++ bit_stream (Q.drop (j + 1))

/-- The state of the MP3 extraction between two headers : every byte of `Q` is
written, or the extraction is rebuilding one of them. -/
def mp3_ext_ok (Q bits : List Nat) (st : mp3_ext_state) : Prop :=
  (st.s = Q.length ∧ st.res = Q) ∨ mp3_ext_inv Q bits st

/-- An insertion by LSB in an MP3 host made of `F = 8` frames without a body,
for a payload of `L = 3` bytes (`3 * F = 8 * L`), with the password `pw`. -/
def mp3_boundary_session : info_s where
  mode := mode_e.STEGX_MODE_INSERT
  algo := algo_e.STEGX_ALGO_LSB
  host := ⟨[255, 251, 144, 0, 255, 251, 144, 0, 255, 251, 144, 0, 255, 251, 144, 0,
      255, 251, 144, 0, 255, 251, 144, 0, 255, 251, 144, 0, 255, 251, 144, 0],
    type_e.MP3, file_info_u.mp3 ⟨0, 8, 32⟩⟩
  hidden := [0x41, 0x42, 0x43]
  hidden_length := 3
  passwd := [112, 119]

/-- The bytes of a sequence of MPEG frames, each one given by the value of its
header and by its body : the header in big-endian order, then the body. -/
def mp3_stream : List (Nat × List Nat) → List Nat
  | [] => []
  | f :: fs => be32_bytes f.1 ++ (f.2 ++ mp3_stream fs)

/-! # Theorems -/

/-! ## Selection of a slot -/

theorem live_nil : live [] = 0 := rfl

theorem live_cons (d : Nat) (ds : List Nat) :
    live (d :: ds) = live ds + if d = DONE then 0 else 1 := by
  unfold live
  rw [List.countP_cons]
  by_cases h : d = DONE <;> simp [h]

theorem live_append (xs ys : List Nat) : live (xs ++ ys) = live xs + live ys := by
  unfold live
  exact List.countP_append _ xs ys

theorem live_replicate (n : Nat) : live (List.replicate n NOT_DONE) = n := by
  unfold live
  rw [List.countP_replicate]
  simp [NOT_DONE, DONE]

theorem live_take_add_drop (ds : List Nat) (k : Nat) :
    live (ds.take k) + live (ds.drop k) = live ds := by
  rw [← live_append, List.take_append_drop]

theorem live_le_length (ds : List Nat) : live ds ≤ ds.length := by
  unfold live
  exact List.countP_le_length _

theorem live_set (ds : List Nat) (m d : Nat) (h : ds[m]? = some d) (hd : d ≠ DONE) :
    live (ds.set m DONE) + 1 = live ds := by
  obtain ⟨hm, hget⟩ := List.getElem?_eq_some.mp h
  unfold live
  rw [List.countP_set _ _ _ _ hm]
  have hpos : 0 < List.countP (fun d => decide (d ≠ DONE)) ds := by
    apply List.countP_pos_iff.mpr
    exact ⟨ds[m], List.getElem_mem hm, by simpa [hget] using hd⟩
  have h1 : decide (ds[m] ≠ DONE) = true := by simpa [hget] using hd
  have h2 : decide (DONE ≠ DONE) = false := by simp
  simp only [h1, h2, if_true]
  simp only [Bool.false_eq_true, if_false]
  omega

theorem skip_done_spec (ds : List Nat) : ∀ m, 0 < live ds →
    ∃ k, skip_done ds m = some (m + k) ∧ live (ds.take k) = 0 ∧
      ∃ d, ds[k]? = some d ∧ d ≠ DONE := by
  induction ds with
  | nil => intro m h; simp [live_nil] at h
  | cons d ds ih =>
    intro m h
    by_cases hd : d = DONE
    · have h1 : 0 < live ds := by
        rw [live_cons] at h; simpa [hd] using h
      obtain ⟨k, hk, hz, e, he, hne⟩ := ih (m + 1) h1
      refine ⟨k + 1, ?_, ?_, e, ?_, hne⟩
      · simp only [skip_done, hd, if_true, hk]
        congr 1; omega
      · rw [List.take_succ_cons, live_cons, hz]; simp [hd]
      · simpa using he
    · refine ⟨0, ?_, ?_, d, ?_, hd⟩
      · simp [skip_done, hd]
      · simp [live_nil]
      · simp

theorem scan_rang_done (rang : Nat) (ds : List Nat) (m l : Nat) (h : ¬ l < rang) :
    scan_rang rang ds m l = some (m, l) := by
  cases ds <;> simp [scan_rang, h]

theorem scan_rang_spec (rang : Nat) (ds : List Nat) : ∀ m l, l ≤ rang →
    rang - l ≤ live ds →
    ∃ k, scan_rang rang ds m l = some (m + k, rang) ∧ k ≤ ds.length ∧
      live (ds.take k) = rang - l := by
  induction ds with
  | nil =>
    intro m l hl h
    rw [live_nil] at h
    have : l = rang := by omega
    subst this
    exact ⟨0, by simp [scan_rang], by simp, by simp [live_nil]⟩
  | cons d ds ih =>
    intro m l hl h
    by_cases hlt : l < rang
    · by_cases hd : d = DONE
      · have h1 : rang - l ≤ live ds := by
          rw [live_cons] at h; simpa [hd] using h
        obtain ⟨k, hk, hlen, hz⟩ := ih (m + 1) l hl h1
        refine ⟨k + 1, ?_, by simpa using hlen, ?_⟩
        · simp only [scan_rang, hlt, hd, if_true, hk]
          congr 2; omega
        · rw [List.take_succ_cons, live_cons, hz]; simp [hd]
      · have h1 : rang - (l + 1) ≤ live ds := by
          rw [live_cons] at h; simp [hd] at h; omega
        obtain ⟨k, hk, hlen, hz⟩ := ih (m + 1) (l + 1) (by omega) h1
        refine ⟨k + 1, ?_, by simpa using hlen, ?_⟩
        · simp only [scan_rang, hlt, hd, if_true, if_false, hk]
          congr 2; omega
        · rw [List.take_succ_cons, live_cons, hz]; simp [hd]; omega
    · have : l = rang := by omega
      subst this
      exact ⟨0, by simp [scan_rang_done], by simp, by simp [live_nil]⟩

theorem select_unit_spec (done : List Nat) (rang : Nat) (h : rang < live done) :
    ∃ m d, select_unit done rang = some m ∧ done[m]? = some d ∧ d ≠ DONE ∧
      live (done.take m) = rang := by
  by_cases h0 : rang = 0
  · subst h0
    obtain ⟨k, hk, hz, d, hd, hne⟩ := skip_done_spec done 0 h
    rw [Nat.zero_add] at hk
    refine ⟨k, d, ?_, hd, hne, hz⟩
    simp [select_unit, hk, scan_rang_done, hd, hne]
  · obtain ⟨k, hk, hlen, hz⟩ := scan_rang_spec rang done 0 0 (Nat.zero_le _) (by omega)
    rw [Nat.zero_add] at hk
    rw [Nat.sub_zero] at hz
    have hlive : 0 < live (done.drop k) := by
      have := live_take_add_drop done k
      omega
    have hk_lt : k < done.length := by
      have := live_le_length (done.drop k)
      rw [List.length_drop] at this
      omega
    by_cases hd : done[k] = DONE
    · obtain ⟨k2, hk2, hz2, d, hd2, hne⟩ := skip_done_spec (done.drop k) k hlive
      refine ⟨k + k2, d, ?_, ?_, hne, ?_⟩
      · simp [select_unit, h0, hk, List.getElem?_eq_getElem hk_lt, hd, hk2]
      · rw [← List.getElem?_drop]; exact hd2
      · rw [List.take_add, live_append, hz, hz2, Nat.add_zero]
    · refine ⟨k, done[k], ?_, List.getElem?_eq_getElem hk_lt, hd, hz⟩
      simp [select_unit, h0, hk, List.getElem?_eq_getElem hk_lt, hd]

/-! ## The selection invariant -/

/-- The selection variables after `k` draws over `N` slots : `k` distinct slots
are marked, they are the recorded ones, and the counter of the remaining slots
is exact. -/
structure SelInv (N k : Nat) (c : sel_state) : Prop where
  length_done : c.done.length = N
  le : k ≤ N
  live_done : live c.done = N - k
  counter : c.hidden_length_recalcul = (N - k + 1) % 2 ^ 32
  length_trace : c.trace.length = k
  nodup : c.trace.Nodup
  marked : ∀ m ∈ c.trace, c.done[m]? = some DONE

theorem SelInv.lt_of_mem {N k : Nat} {c : sel_state} (h : SelInv N k c) {m : Nat}
    (hm : m ∈ c.trace) : m < N := by
  have := h.marked m hm
  obtain ⟨hlt, _⟩ := List.getElem?_eq_some.mp this
  rw [h.length_done] at hlt
  exact hlt

theorem selInv_init (R : Rand) (N : Nat) (passwd : List Nat) :
    SelInv N 0 (sel_init R N passwd) where
  length_done := by simp [sel_init]
  le := Nat.zero_le _
  live_done := by simp [sel_init, live_replicate]
  counter := by simp [sel_init]
  length_trace := by simp [sel_init]
  nodup := by simp [sel_init]
  marked := by simp [sel_init]

/-- One draw under the invariant : the assertion holds, the modulus is the
number of free slots, and the search returns a free slot. -/
theorem draw_spec (R : Rand) {N k : Nat} {c : sel_state} (hN : N < 2 ^ 32)
    (h : SelInv N k c) (hk : k < N) :
    c.hidden_length_recalcul ≠ 1 ∧
    (c.hidden_length_recalcul + 2 ^ 32 - 1) % 2 ^ 32 = N - k ∧
    ∃ m d, select_unit c.done ((R.stegx_rand c.seed).1 % (N - k)) = some m ∧
      c.done[m]? = some d ∧ d ≠ DONE ∧ m < N ∧ m ∉ c.trace ∧
      live (c.done.take m) = (R.stegx_rand c.seed).1 % (N - k) := by
  have hc := h.counter
  have hmod : (c.hidden_length_recalcul + 2 ^ 32 - 1) % 2 ^ 32 = N - k := by
    rw [hc]; omega
  have hne1 : c.hidden_length_recalcul ≠ 1 := by
    rw [hc]; omega
  have hr : (R.stegx_rand c.seed).1 % (N - k) < live c.done := by
    rw [h.live_done]
    exact Nat.mod_lt _ (by omega)
  obtain ⟨m, d, hsel, hget, hd, htake⟩ := select_unit_spec c.done _ hr
  refine ⟨hne1, hmod, m, d, hsel, hget, hd, ?_, ?_, htake⟩
  · obtain ⟨hlt, _⟩ := List.getElem?_eq_some.mp hget
    rw [h.length_done] at hlt
    exact hlt
  · intro hmem
    have := h.marked m hmem
    rw [hget] at this
    exact hd (Option.some.inj this)

theorem sel_pair_spec (R : Rand) {N k : Nat} {c : sel_state} (hN : N < 2 ^ 32)
    (h : SelInv N k c) (hk : k < N) :
    ∃ m d, sel_pair R c = some
        { done := c.done.set m DONE
          hidden_length_recalcul := N - k
          seed := (R.stegx_rand c.seed).2
          trace := c.trace ++ [m] } ∧
      c.done[m]? = some d ∧ d ≠ DONE ∧ m < N ∧ m ∉ c.trace ∧
      live (c.done.take m) = (R.stegx_rand c.seed).1 % (N - k) := by
  obtain ⟨hne1, hmod, m, d, hsel, hget, hd, hlt, hnot, htake⟩ := draw_spec R hN h hk
  refine ⟨m, d, ?_, hget, hd, hlt, hnot, htake⟩
  simp only [sel_pair, hne1, if_false, hmod, hsel]

theorem selInv_step (R : Rand) {N k : Nat} {c c2 : sel_state} (hN : N < 2 ^ 32)
    (h : SelInv N k c) (hk : k < N) (hstep : sel_pair R c = some c2) :
    SelInv N (k + 1) c2 := by
  obtain ⟨m, d, heq, hget, hd, hlt, hnot, _⟩ := sel_pair_spec R hN h hk
  rw [heq] at hstep
  cases hstep
  refine ⟨by simp [h.length_done], hk, ?_, ?_, by simp [h.length_trace], ?_, ?_⟩
  · have := live_set c.done m d hget hd
    have := h.live_done
    show live (c.done.set m DONE) = N - (k + 1)
    omega
  · show N - k = (N - (k + 1) + 1) % 2 ^ 32
    omega
  · show (c.trace ++ [m]).Nodup
    rw [List.nodup_append]
    refine ⟨h.nodup, List.nodup_singleton m, ?_⟩
    intro a ha hb
    simp only [List.mem_singleton] at hb
    subst hb
    exact hnot ha
  · intro a ha
    show (c.done.set m DONE)[a]? = some DONE
    rw [List.getElem?_set]
    have hmlen : m < c.done.length := by rw [h.length_done]; exact hlt
    by_cases hma : m = a
    · rw [if_pos hma, if_pos hmlen]
    · rw [if_neg hma]
      have ha2 : a ∈ c.trace ++ [m] := ha
      rw [List.mem_append, List.mem_singleton] at ha2
      rcases ha2 with ha2 | ha2
      · exact h.marked a ha2
      · exact absurd ha2.symm hma

theorem sel_run_spec (R : Rand) {N : Nat} (passwd : List Nat) (hN : N < 2 ^ 32) :
    ∀ n, n ≤ N → ∃ c, sel_run R n (sel_init R N passwd) = some c ∧ SelInv N n c := by
  intro n
  induction n with
  | zero => intro _; exact ⟨_, rfl, selInv_init R N passwd⟩
  | succ n ih =>
    intro hn
    obtain ⟨c, hc, hinv⟩ := ih (by omega)
    obtain ⟨m, d, heq, _⟩ := sel_pair_spec R hN hinv (by omega)
    refine ⟨_, ?_, selInv_step R hN hinv (by omega) heq⟩
    simp [sel_run, hc, heq]

/-! ## Bit arithmetic of a pair -/

theorem and_three (x : Nat) : x &&& 3 = x % 4 := Nat.and_pow_two_sub_one_eq_mod x 2

theorem low_bits (p q : Nat) (hq : q ≤ 3) : (((p &&& 0xFC) + q) % 256) &&& 3 = q := by
  have h1 : p &&& 0xFC ≤ 0xFC := Nat.and_le_right
  have h2 : (p &&& 0xFC) % 4 = 0 := by
    rw [← and_three, Nat.and_assoc]
    have : (0xFC : Nat) &&& 3 = 0 := by decide
    rw [this, Nat.and_zero]
  rw [and_three]
  omega

theorem pair_of_le (d j : Nat) (hj : j < 4) : pair_of d j ≤ 3 := by
  unfold pair_of
  rw [Nat.shiftRight_eq_div_pow]
  have h1 : d &&& (0xC0 >>> (2 * j)) ≤ 0xC0 >>> (2 * j) := Nat.and_le_right
  interval_cases j <;> simp at h1 ⊢ <;> omega

set_option maxRecDepth 100000 in
theorem pair_of_recombine : ∀ d < 256,
    (pair_of d 0) <<< 6 + (pair_of d 1) <<< 4 + (pair_of d 2) <<< 2 + (pair_of d 3) <<< 0
      = d := by
  decide

/-! ## Insertion run of `protect_data_lsb` -/

/-- State of an insertion run after `k` pairs : the selection variables are
those of `sel_run`, the payload is untouched, and the byte selected for every
pair drawn so far carries this pair in its two low bits. -/
structure InsInv (R : Rand) (N : Nat) (passwd data : List Nat) (k : Nat)
    (s : lsb_state) : Prop where
  run : sel_run R k (sel_init R N passwd) = some s.sel
  inv : SelInv N k s.sel
  length_pixels : s.pixels.length = N
  data_eq : s.data = data
  low : ∀ k2 < k, ∃ m p d, s.trace[k2]? = some m ∧ s.pixels[m]? = some p ∧
    data[k2 / 4]? = some d ∧ p &&& 3 = pair_of d (k2 % 4)

theorem sel_pair_of_select (R : Rand) {c : sel_state} {modulus m : Nat}
    (hne1 : c.hidden_length_recalcul ≠ 1)
    (hmod : (c.hidden_length_recalcul + 2 ^ 32 - 1) % 2 ^ 32 = modulus)
    (hsel : select_unit c.done ((R.stegx_rand c.seed).1 % modulus) = some m) :
    sel_pair R c = some
      { done := c.done.set m DONE
        hidden_length_recalcul := modulus
        seed := (R.stegx_rand c.seed).2
        trace := c.trace ++ [m] } := by
  simp only [sel_pair, hne1, if_false, hmod, hsel]

theorem ins_pair_step (R : Rand) {N k i j : Nat} {passwd data : List Nat}
    {s : lsb_state} (hN : N < 2 ^ 32) (h : InsInv R N passwd data k s)
    (hk : k < N) (hkij : k = 4 * i + j) (hj : j < 4) (hi : i < data.length)
    (hmask : s.mask_hidden = 0xC0 >>> (2 * j)) :
    ∃ t, lsb_pair R mode_e.STEGX_MODE_INSERT i j s = some t ∧
      InsInv R N passwd data (k + 1) t ∧ t.mask_hidden = s.mask_hidden >>> 2 := by
  obtain ⟨hne1, hmod, m, d0, hsel, hget, hd0, hlt, hnot, _⟩ := draw_spec R hN h.inv hk
  have hmlen : m < s.pixels.length := by rw [h.length_pixels]; exact hlt
  have hp : s.pixels[m]? = some s.pixels[m] := List.getElem?_eq_getElem hmlen
  have hdat : s.data[i]? = some data[i] := by
    rw [h.data_eq]; exact List.getElem?_eq_getElem hi
  have hne1b : s.hidden_length_recalcul ≠ 1 := hne1
  have hmodb : (s.hidden_length_recalcul + 2 ^ 32 - 1) % 2 ^ 32 = N - k := hmod
  have hselb : select_unit s.done ((R.stegx_rand s.seed).1 % (N - k)) = some m := hsel
  have hstep := sel_pair_of_select R hne1 hmod hsel
  refine ⟨{ s with
      pixels := s.pixels.set m (((s.pixels[m] &&& 0xFC) + pair_of data[i] j) % 256)
      done := s.done.set m DONE
      hidden_length_recalcul := N - k
      mask_hidden := s.mask_hidden >>> 2
      seed := (R.stegx_rand s.seed).2
      trace := s.trace ++ [m] }, ?_, ?_, rfl⟩
  · simp only [lsb_pair, hne1b, if_false, hmodb, hselb, hp, hdat, hmask, pair_of]
  · refine ⟨?_, selInv_step R hN h.inv hk hstep, ?_, h.data_eq, ?_⟩
    · show sel_run R (k + 1) _ = _
      simp only [sel_run, h.run, Option.some_bind, hstep]
      rfl
    · show (s.pixels.set m _).length = N
      rw [List.length_set]; exact h.length_pixels
    · intro k2 hk2
      have hlen : s.trace.length = k := h.inv.length_trace
      by_cases hlt2 : k2 < k
      · obtain ⟨m2, p2, d2, hm2, hp2, hd2, hbits⟩ := h.low k2 hlt2
        refine ⟨m2, p2, d2, ?_, ?_, hd2, hbits⟩
        · show (s.trace ++ [m])[k2]? = some m2
          rw [List.getElem?_append_left (by omega)]; exact hm2
        · show (s.pixels.set m _)[m2]? = some p2
          have hmem : m2 ∈ s.trace := List.getElem?_mem hm2
          have hne : m ≠ m2 := fun e => hnot (e ▸ hmem)
          rw [List.getElem?_set, if_neg hne]; exact hp2
      · have hk2eq : k2 = k := by omega
        subst hk2eq
        have hj2 : k2 % 4 = j := by omega
        have hi2 : k2 / 4 = i := by omega
        refine ⟨m, ((s.pixels[m] &&& 0xFC) + pair_of data[i] j) % 256, data[i],
          ?_, ?_, ?_, ?_⟩
        · show (s.trace ++ [m])[k2]? = some m
          rw [List.getElem?_append_right (by omega)]
          simp [hlen]
        · show (s.pixels.set m _)[m]? = some _
          rw [List.getElem?_set, if_pos rfl, if_pos hmlen]
        · rw [hi2]; exact List.getElem?_eq_getElem hi
        · rw [hj2]; exact low_bits _ _ (pair_of_le _ _ hj)

/-! ## Extraction run of `protect_data_lsb` -/

theorem ext_term_snoc (P tr : List Nat) (m i j : Nat) :
    ext_term P (tr ++ [m]) i j =
      if 4 * i + j = tr.length then ((P[m]?.getD 0) &&& 0x03) <<< (6 - 2 * j)
      else ext_term P tr i j := by
  unfold ext_term
  by_cases h : 4 * i + j = tr.length
  · rw [if_pos h, List.getElem?_append_right (by omega)]
    simp [h]
  · rw [if_neg h]
    by_cases h2 : 4 * i + j < tr.length
    · rw [List.getElem?_append_left h2]
    · rw [List.getElem?_eq_none (by simp; omega), List.getElem?_eq_none (by omega)]

theorem ext_term_none (P tr : List Nat) (i j : Nat) (h : tr.length ≤ 4 * i + j) :
    ext_term P tr i j = 0 := by
  unfold ext_term
  rw [List.getElem?_eq_none h]

theorem ext_term_le (P tr : List Nat) (i j : Nat) :
    ext_term P tr i j ≤ 3 * 2 ^ (6 - 2 * j) := by
  unfold ext_term
  split
  · rw [Nat.shiftLeft_eq]
    exact Nat.mul_le_mul_right _ Nat.and_le_right
  · exact Nat.zero_le _

/-- State of an extraction run after `k` pairs : the selection variables are
those of `sel_run`, the host bytes are untouched, and every payload byte holds
the pairs read so far. -/
structure ExtInv (R : Rand) (N : Nat) (passwd P : List Nat) (L k : Nat)
    (s : lsb_state) : Prop where
  run : sel_run R k (sel_init R N passwd) = some s.sel
  inv : SelInv N k s.sel
  pixels_eq : s.pixels = P
  length_data : s.data.length = L
  vals : ∀ i < L, s.data[i]? = some (ext_val P s.trace i)

theorem ext_pair_step (R : Rand) {N L k i j : Nat} {passwd P : List Nat}
    {s : lsb_state} (hN : N < 2 ^ 32) (hP : P.length = N)
    (h : ExtInv R N passwd P L k s)
    (hk : k < N) (hkij : k = 4 * i + j) (hj : j < 4) (hi : i < L) :
    ∃ t, lsb_pair R mode_e.STEGX_MODE_EXTRACT i j s = some t ∧
      ExtInv R N passwd P L (k + 1) t := by
  obtain ⟨hne1, hmod, m, d0, hsel, hget, hd0, hlt, hnot, _⟩ := draw_spec R hN h.inv hk
  have hmlen : m < P.length := by rw [hP]; exact hlt
  have hp : s.pixels[m]? = some P[m] := by
    rw [h.pixels_eq]; exact List.getElem?_eq_getElem hmlen
  have hdat : s.data[i]? = some (ext_val P s.trace i) := h.vals i hi
  have hilen : i < s.data.length := by rw [h.length_data]; exact hi
  have hne1b : s.hidden_length_recalcul ≠ 1 := hne1
  have hmodb : (s.hidden_length_recalcul + 2 ^ 32 - 1) % 2 ^ 32 = N - k := hmod
  have hselb : select_unit s.done ((R.stegx_rand s.seed).1 % (N - k)) = some m := hsel
  have hstep := sel_pair_of_select R hne1 hmod hsel
  have hlen : s.trace.length = k := h.inv.length_trace
  refine ⟨{ s with
      data := s.data.set i
        ((ext_val P s.trace i + ((P[m] &&& 0x03) <<< (6 - 2 * j)) % 256) % 256)
      done := s.done.set m DONE
      hidden_length_recalcul := N - k
      mask_hidden := s.mask_hidden >>> 2
      seed := (R.stegx_rand s.seed).2
      trace := s.trace ++ [m] }, ?_, ?_⟩
  · simp only [lsb_pair, hne1b, if_false, hmodb, hselb, hp, hdat]
  · refine ⟨?_, selInv_step R hN h.inv hk hstep, h.pixels_eq, ?_, ?_⟩
    · show sel_run R (k + 1) _ = _
      simp only [sel_run, h.run, Option.some_bind, hstep]
      rfl
    · show (s.data.set i _).length = L
      rw [List.length_set]; exact h.length_data
    · intro i2 hi2
      show (s.data.set i _)[i2]? = some (ext_val P (s.trace ++ [m]) i2)
      rw [List.getElem?_set]
      by_cases hii : i = i2
      · subst hii
        rw [if_pos rfl, if_pos hilen]
        refine congrArg some ?_
        have hx : (P[m]?.getD 0) = P[m] := by
          rw [List.getElem?_eq_getElem hmlen]; rfl
        have b0 := ext_term_le P (s.trace ++ [m]) i 0
        have b1 := ext_term_le P (s.trace ++ [m]) i 1
        have b2 := ext_term_le P (s.trace ++ [m]) i 2
        have b3 := ext_term_le P (s.trace ++ [m]) i 3
        have z0 := ext_term_none P s.trace i
        unfold ext_val
        simp only [ext_term_snoc, hx, hlen] at b0 b1 b2 b3 ⊢
        interval_cases j
        · have := z0 0 (by omega)
          simp at hkij
          simp [hkij] at b0 b1 b2 b3 ⊢
          omega
        · have := z0 1 (by omega)
          simp [hkij] at b0 b1 b2 b3 ⊢
          omega
        · have := z0 2 (by omega)
          simp [hkij] at b0 b1 b2 b3 ⊢
          omega
        · have := z0 3 (by omega)
          simp [hkij] at b0 b1 b2 b3 ⊢
          omega
      · rw [if_neg hii, h.vals i2 hi2]
        refine congrArg some ?_
        unfold ext_val
        simp only [ext_term_snoc, hlen]
        rw [if_neg (by omega), if_neg (by omega), if_neg (by omega), if_neg (by omega)]

/-! ## The two loops of `protect_data_lsb` -/

theorem lsb_byte_eq (R : Rand) (mode : mode_e) (s : lsb_state) (i : Nat) :
    lsb_byte R mode s i =
      (lsb_pair R mode i 0 { s with mask_hidden := 0xC0 }).bind fun t1 =>
      (lsb_pair R mode i 1 t1).bind fun t2 =>
      (lsb_pair R mode i 2 t2).bind fun t3 =>
      lsb_pair R mode i 3 t3 := by
  unfold lsb_byte
  have h4 : List.range 4 = [0, 1, 2, 3] := by decide
  rw [h4]
  simp only [List.foldlM_cons, List.foldlM_nil, Option.bind_eq_bind, Option.pure_def,
    Option.bind_some]

theorem ins_byte_step (R : Rand) {N i : Nat} {passwd data : List Nat}
    {s : lsb_state} (hN : N < 2 ^ 32) (h : InsInv R N passwd data (4 * i) s)
    (hk : 4 * i + 4 ≤ N) (hi : i < data.length) :
    ∃ t, lsb_byte R mode_e.STEGX_MODE_INSERT s i = some t ∧
      InsInv R N passwd data (4 * (i + 1)) t := by
  have h0 : InsInv R N passwd data (4 * i) { s with mask_hidden := 0xC0 } :=
    ⟨h.run, h.inv, h.length_pixels, h.data_eq, h.low⟩
  obtain ⟨t1, e1, h1, m1⟩ :=
    ins_pair_step R (i := i) (j := 0) hN h0 (by omega) rfl (by omega) hi rfl
  obtain ⟨t2, e2, h2, m2⟩ :=
    ins_pair_step R (i := i) (j := 1) hN h1 (by omega) rfl (by omega) hi (by rw [m1])
  obtain ⟨t3, e3, h3, m3⟩ :=
    ins_pair_step R (i := i) (j := 2) hN h2 (by omega) rfl (by omega) hi
      (by rw [m2, m1]; show (192 : Nat) >>> 2 >>> 2 = _; decide)
  obtain ⟨t4, e4, h4, _⟩ :=
    ins_pair_step R (i := i) (j := 3) hN h3 (by omega) rfl (by omega) hi
      (by rw [m3, m2, m1]; show (192 : Nat) >>> 2 >>> 2 >>> 2 = _; decide)
  refine ⟨t4, ?_, h4⟩
  rw [lsb_byte_eq, e1, Option.some_bind, e2, Option.some_bind, e3, Option.some_bind, e4]

theorem ext_byte_step (R : Rand) {N L i : Nat} {passwd P : List Nat}
    {s : lsb_state} (hN : N < 2 ^ 32) (hP : P.length = N)
    (h : ExtInv R N passwd P L (4 * i) s)
    (hk : 4 * i + 4 ≤ N) (hi : i < L) :
    ∃ t, lsb_byte R mode_e.STEGX_MODE_EXTRACT s i = some t ∧
      ExtInv R N passwd P L (4 * (i + 1)) t := by
  have h0 : ExtInv R N passwd P L (4 * i) { s with mask_hidden := 0xC0 } :=
    ⟨h.run, h.inv, h.pixels_eq, h.length_data, h.vals⟩
  obtain ⟨t1, e1, h1⟩ :=
    ext_pair_step R (i := i) (j := 0) hN hP h0 (by omega) rfl (by omega) hi
  obtain ⟨t2, e2, h2⟩ :=
    ext_pair_step R (i := i) (j := 1) hN hP h1 (by omega) rfl (by omega) hi
  obtain ⟨t3, e3, h3⟩ :=
    ext_pair_step R (i := i) (j := 2) hN hP h2 (by omega) rfl (by omega) hi
  obtain ⟨t4, e4, h4⟩ :=
    ext_pair_step R (i := i) (j := 3) hN hP h3 (by omega) rfl (by omega) hi
  refine ⟨t4, ?_, h4⟩
  rw [lsb_byte_eq, e1, Option.some_bind, e2, Option.some_bind, e3, Option.some_bind, e4]

theorem ins_loop (R : Rand) {N : Nat} {passwd data : List Nat} {s0 : lsb_state}
    (hN : N < 2 ^ 32) (h0 : InsInv R N passwd data 0 s0) :
    ∀ n, n ≤ data.length → 4 * n ≤ N →
      ∃ s, (List.range n).foldlM (lsb_byte R mode_e.STEGX_MODE_INSERT) s0 = some s ∧
        InsInv R N passwd data (4 * n) s := by
  intro n
  induction n with
  | zero => intro _ _; exact ⟨s0, rfl, h0⟩
  | succ n ih =>
    intro hn hk
    obtain ⟨s, hs, hinv⟩ := ih (by omega) (by omega)
    obtain ⟨t, ht, hinv2⟩ := ins_byte_step R hN hinv (by omega) (by omega)
    refine ⟨t, ?_, hinv2⟩
    rw [List.range_succ, List.foldlM_append, hs]
    simp only [Option.bind_eq_bind, Option.some_bind, List.foldlM_cons, List.foldlM_nil, ht]
    rfl

theorem ext_loop (R : Rand) {N L : Nat} {passwd P : List Nat} {s0 : lsb_state}
    (hN : N < 2 ^ 32) (hP : P.length = N) (h0 : ExtInv R N passwd P L 0 s0) :
    ∀ n, n ≤ L → 4 * n ≤ N →
      ∃ s, (List.range n).foldlM (lsb_byte R mode_e.STEGX_MODE_EXTRACT) s0 = some s ∧
        ExtInv R N passwd P L (4 * n) s := by
  intro n
  induction n with
  | zero => intro _ _; exact ⟨s0, rfl, h0⟩
  | succ n ih =>
    intro hn hk
    obtain ⟨s, hs, hinv⟩ := ih (by omega) (by omega)
    obtain ⟨t, ht, hinv2⟩ := ext_byte_step R hN hP hinv (by omega) (by omega)
    refine ⟨t, ?_, hinv2⟩
    rw [List.range_succ, List.foldlM_append, hs]
    simp only [Option.bind_eq_bind, Option.some_bind, List.foldlM_cons, List.foldlM_nil, ht]
    rfl

theorem zero_data_length (data : List Nat) (n : Nat) :
    (zero_data data n).length = data.length := by
  induction n with
  | zero => rfl
  | succ n ih =>
    unfold zero_data at ih ⊢
    rw [List.range_succ, List.foldl_append]
    simp [ih]

theorem zero_data_getElem? (data : List Nat) (n i : Nat) (h : i < n) (hn : n ≤ data.length) :
    (zero_data data n)[i]? = some 0 := by
  induction n with
  | zero => omega
  | succ n ih =>
    have hlen := zero_data_length data n
    unfold zero_data at ih hlen ⊢
    rw [List.range_succ, List.foldl_append]
    simp only [List.foldl_cons, List.foldl_nil]
    rw [List.getElem?_set]
    by_cases hni : n = i
    · rw [if_pos hni, if_pos (by rw [hlen]; omega)]
    · rw [if_neg hni]
      exact ih (by omega) (by omega)

/-! ## Runs of `protect_data_lsb` in either mode -/

/-- State of a run (insertion or extraction) after `k` pairs : the selection
variables are those of `sel_run` and the two arrays keep their lengths. -/
structure GenInv (R : Rand) (N : Nat) (passwd : List Nat) (L k : Nat)
    (s : lsb_state) : Prop where
  run : sel_run R k (sel_init R N passwd) = some s.sel
  inv : SelInv N k s.sel
  length_pixels : s.pixels.length = N
  length_data : s.data.length = L

theorem gen_pair_step (R : Rand) (mode : mode_e) {N L k i j : Nat} {passwd : List Nat}
    {s : lsb_state} (hN : N < 2 ^ 32) (h : GenInv R N passwd L k s)
    (hk : k < N) (hi : i < L) :
    ∃ t, lsb_pair R mode i j s = some t ∧ GenInv R N passwd L (k + 1) t := by
  obtain ⟨hne1, hmod, m, d0, hsel, hget, hd0, hlt, hnot, _⟩ := draw_spec R hN h.inv hk
  have hmlen : m < s.pixels.length := by rw [h.length_pixels]; exact hlt
  have hilen : i < s.data.length := by rw [h.length_data]; exact hi
  have hp : s.pixels[m]? = some s.pixels[m] := List.getElem?_eq_getElem hmlen
  have hdat : s.data[i]? = some s.data[i] := List.getElem?_eq_getElem hilen
  have hne1b : s.hidden_length_recalcul ≠ 1 := hne1
  have hmodb : (s.hidden_length_recalcul + 2 ^ 32 - 1) % 2 ^ 32 = N - k := hmod
  have hselb : select_unit s.done ((R.stegx_rand s.seed).1 % (N - k)) = some m := hsel
  have hstep := sel_pair_of_select R hne1 hmod hsel
  have hrun : sel_run R (k + 1) (sel_init R N passwd) = some
      { done := s.done.set m DONE
        hidden_length_recalcul := N - k
        seed := (R.stegx_rand s.seed).2
        trace := s.trace ++ [m] } := by
    simp only [sel_run, h.run, Option.some_bind, hstep]
    rfl
  cases mode with
  | STEGX_MODE_INSERT =>
    refine ⟨{ s with
        pixels := s.pixels.set m
          (((s.pixels[m] &&& 0xFC) + ((s.data[i] &&& s.mask_hidden) >>> (6 - 2 * j))) % 256)
        done := s.done.set m DONE
        hidden_length_recalcul := N - k
        mask_hidden := s.mask_hidden >>> 2
        seed := (R.stegx_rand s.seed).2
        trace := s.trace ++ [m] }, ?_,
      ⟨hrun, selInv_step R hN h.inv hk hstep, ?_, h.length_data⟩⟩
    · simp only [lsb_pair, hne1b, if_false, hmodb, hselb, hp, hdat]
    · show (s.pixels.set m _).length = N
      rw [List.length_set]; exact h.length_pixels
  | STEGX_MODE_EXTRACT =>
    refine ⟨{ s with
        data := s.data.set i
          ((s.data[i] + ((s.pixels[m] &&& 0x03) <<< (6 - 2 * j)) % 256) % 256)
        done := s.done.set m DONE
        hidden_length_recalcul := N - k
        mask_hidden := s.mask_hidden >>> 2
        seed := (R.stegx_rand s.seed).2
        trace := s.trace ++ [m] }, ?_,
      ⟨hrun, selInv_step R hN h.inv hk hstep, h.length_pixels, ?_⟩⟩
    · simp only [lsb_pair, hne1b, if_false, hmodb, hselb, hp, hdat]
    · show (s.data.set i _).length = L
      rw [List.length_set]; exact h.length_data

/-- Once every slot is consumed the assertion of line 85 fails. -/
theorem gen_pair_abort (R : Rand) (mode : mode_e) {N L i j : Nat} {passwd : List Nat}
    {s : lsb_state} (h : GenInv R N passwd L N s) :
    lsb_pair R mode i j s = none := by
  have hc : s.hidden_length_recalcul = 1 := by
    have := h.inv.counter
    simpa using this
  simp [lsb_pair, hc]

theorem gen_byte_step (R : Rand) (mode : mode_e) {N L i : Nat} {passwd : List Nat}
    {s : lsb_state} (hN : N < 2 ^ 32) (h : GenInv R N passwd L (4 * i) s)
    (hk : 4 * i + 4 ≤ N) (hi : i < L) :
    ∃ t, lsb_byte R mode s i = some t ∧ GenInv R N passwd L (4 * (i + 1)) t := by
  have h0 : GenInv R N passwd L (4 * i) { s with mask_hidden := 0xC0 } :=
    ⟨h.run, h.inv, h.length_pixels, h.length_data⟩
  obtain ⟨t1, e1, h1⟩ := gen_pair_step R mode (i := i) (j := 0) hN h0 (by omega) hi
  obtain ⟨t2, e2, h2⟩ := gen_pair_step R mode (i := i) (j := 1) hN h1 (by omega) hi
  obtain ⟨t3, e3, h3⟩ := gen_pair_step R mode (i := i) (j := 2) hN h2 (by omega) hi
  obtain ⟨t4, e4, h4⟩ := gen_pair_step R mode (i := i) (j := 3) hN h3 (by omega) hi
  refine ⟨t4, ?_, h4⟩
  rw [lsb_byte_eq, e1, Option.some_bind, e2, Option.some_bind, e3, Option.some_bind, e4]

/-- The byte during which the slots run out aborts. -/
theorem gen_byte_abort (R : Rand) (mode : mode_e) {N L i : Nat} {passwd : List Nat}
    {s : lsb_state} (hN : N < 2 ^ 32) (h : GenInv R N passwd L (4 * i) s)
    (hlo : 4 * i ≤ N) (hk : N < 4 * i + 4) (hi : i < L) :
    lsb_byte R mode s i = none := by
  have h0 : GenInv R N passwd L (4 * i) { s with mask_hidden := 0xC0 } :=
    ⟨h.run, h.inv, h.length_pixels, h.length_data⟩
  rw [lsb_byte_eq]
  by_cases c0 : N = 4 * i
  · rw [gen_pair_abort R mode (c0 ▸ h0)]; rfl
  obtain ⟨t1, e1, h1⟩ := gen_pair_step R mode (i := i) (j := 0) hN h0 (by omega) hi
  rw [e1, Option.some_bind]
  by_cases c1 : N = 4 * i + 1
  · rw [gen_pair_abort R mode (c1 ▸ h1)]; rfl
  obtain ⟨t2, e2, h2⟩ := gen_pair_step R mode (i := i) (j := 1) hN h1 (by omega) hi
  rw [e2, Option.some_bind]
  by_cases c2 : N = 4 * i + 1 + 1
  · rw [gen_pair_abort R mode (c2 ▸ h2)]; rfl
  obtain ⟨t3, e3, h3⟩ := gen_pair_step R mode (i := i) (j := 2) hN h2 (by omega) hi
  rw [e3, Option.some_bind]
  have c3 : N = 4 * i + 1 + 1 + 1 := by omega
  rw [gen_pair_abort R mode (c3 ▸ h3)]

theorem gen_loop (R : Rand) (mode : mode_e) {N L : Nat} {passwd : List Nat}
    {s0 : lsb_state} (hN : N < 2 ^ 32) (h0 : GenInv R N passwd L 0 s0) :
    ∀ n, n ≤ L → 4 * n ≤ N →
      ∃ s, (List.range n).foldlM (lsb_byte R mode) s0 = some s ∧
        GenInv R N passwd L (4 * n) s := by
  intro n
  induction n with
  | zero => intro _ _; exact ⟨s0, rfl, h0⟩
  | succ n ih =>
    intro hn hk
    obtain ⟨s, hs, hinv⟩ := ih (by omega) (by omega)
    obtain ⟨t, ht, hinv2⟩ := gen_byte_step R mode hN hinv (by omega) (by omega)
    refine ⟨t, ?_, hinv2⟩
    rw [List.range_succ, List.foldlM_append, hs]
    simp only [Option.bind_eq_bind, Option.some_bind, List.foldlM_cons, List.foldlM_nil, ht]
    rfl

theorem gen_loop_abort (R : Rand) (mode : mode_e) {N L : Nat} {passwd : List Nat}
    {s0 : lsb_state} (hN : N < 2 ^ 32) (h0 : GenInv R N passwd L 0 s0)
    (hcap : N < 4 * L) :
    (List.range L).foldlM (lsb_byte R mode) s0 = none := by
  obtain ⟨s, hs, hinv⟩ := gen_loop R mode hN h0 (N / 4) (by omega) (by omega)
  have hab := gen_byte_abort R mode hN hinv (by omega) (by omega) (by omega)
  have hL : L = (N / 4 + 1) + (L - (N / 4 + 1)) := by omega
  rw [hL, List.range_add, List.foldlM_append, List.range_succ, List.foldlM_append, hs]
  simp only [Option.bind_eq_bind, Option.some_bind, List.foldlM_cons, List.foldlM_nil, hab]
  rfl

/-! ## `protect_data_lsb` as a whole -/

theorem protect_data_lsb_insert_eq (R : Rand) (pixels data passwd : List Nat)
    (N L seed0 : Nat) :
    protect_data_lsb R pixels N data L passwd mode_e.STEGX_MODE_INSERT seed0 =
      (List.range L).foldlM (lsb_byte R mode_e.STEGX_MODE_INSERT)
        (lsb_entry R pixels N data passwd) := rfl

theorem protect_data_lsb_extract_eq (R : Rand) (pixels data passwd : List Nat)
    (N L seed0 : Nat) :
    protect_data_lsb R pixels N data L passwd mode_e.STEGX_MODE_EXTRACT seed0 =
      (List.range L).foldlM (lsb_byte R mode_e.STEGX_MODE_EXTRACT)
        (lsb_entry R pixels N (zero_data data L) passwd) := rfl

theorem genInv_entry (R : Rand) (pixels data passwd : List Nat) (N L : Nat)
    (hpix : pixels.length = N) (hdata : data.length = L) :
    GenInv R N passwd L 0 (lsb_entry R pixels N data passwd) :=
  ⟨rfl, selInv_init R N passwd, hpix, hdata⟩

theorem protect_gen_spec (R : Rand) (mode : mode_e) (pixels data passwd : List Nat)
    (N L seed0 : Nat) (hN : N < 2 ^ 32) (hpix : pixels.length = N)
    (hdata : data.length = L) (hcap : 4 * L ≤ N) :
    ∃ s, protect_data_lsb R pixels N data L passwd mode seed0 = some s ∧
      GenInv R N passwd L (4 * L) s := by
  cases mode with
  | STEGX_MODE_INSERT =>
    rw [protect_data_lsb_insert_eq]
    exact gen_loop R _ hN (genInv_entry R pixels data passwd N L hpix hdata) L
      (Nat.le_refl _) hcap
  | STEGX_MODE_EXTRACT =>
    rw [protect_data_lsb_extract_eq]
    exact gen_loop R _ hN (genInv_entry R pixels _ passwd N L hpix
      ((zero_data_length data L).trans hdata)) L (Nat.le_refl _) hcap

/-- With more pairs to hide than host bytes the run stops on the assertion of
line 85. -/
theorem protect_abort (R : Rand) (mode : mode_e) (pixels data passwd : List Nat)
    (N L seed0 : Nat) (hN : N < 2 ^ 32) (hpix : pixels.length = N)
    (hdata : data.length = L) (hcap : N < 4 * L) :
    protect_data_lsb R pixels N data L passwd mode seed0 = none := by
  cases mode with
  | STEGX_MODE_INSERT =>
    rw [protect_data_lsb_insert_eq]
    exact gen_loop_abort R _ hN (genInv_entry R pixels data passwd N L hpix hdata) hcap
  | STEGX_MODE_EXTRACT =>
    rw [protect_data_lsb_extract_eq]
    exact gen_loop_abort R _ hN (genInv_entry R pixels _ passwd N L hpix
      ((zero_data_length data L).trans hdata)) hcap

theorem protect_insert_spec (R : Rand) (pixels data passwd : List Nat)
    (N L seed0 : Nat) (hN : N < 2 ^ 32) (hpix : pixels.length = N)
    (hdata : data.length = L) (hcap : 4 * L ≤ N) :
    ∃ s, protect_data_lsb R pixels N data L passwd mode_e.STEGX_MODE_INSERT seed0 = some s ∧
      InsInv R N passwd data (4 * L) s := by
  rw [protect_data_lsb_insert_eq]
  have h0 : InsInv R N passwd data 0 (lsb_entry R pixels N data passwd) :=
    ⟨rfl, selInv_init R N passwd, hpix, rfl, fun k2 hk2 => absurd hk2 (Nat.not_lt_zero _)⟩
  exact ins_loop R hN h0 L (by omega) hcap

theorem protect_extract_spec (R : Rand) (pixels data passwd : List Nat)
    (N L seed0 : Nat) (hN : N < 2 ^ 32) (hpix : pixels.length = N)
    (hdata : data.length = L) (hcap : 4 * L ≤ N) :
    ∃ s, protect_data_lsb R pixels N data L passwd mode_e.STEGX_MODE_EXTRACT seed0 = some s ∧
      ExtInv R N passwd pixels L (4 * L) s := by
  rw [protect_data_lsb_extract_eq]
  have h0 : ExtInv R N passwd pixels L 0 (lsb_entry R pixels N (zero_data data L) passwd) := by
    refine ⟨rfl, selInv_init R N passwd, rfl, (zero_data_length data L).trans hdata, ?_⟩
    intro i hi
    show (zero_data data L)[i]? = some (ext_val pixels [] i)
    rw [zero_data_getElem? data L i hi (by omega)]
    rfl
  exact ext_loop R hN hpix h0 L (Nat.le_refl _) hcap

/-- The pair read back at a slot that the insertion filled. -/
theorem ext_term_of_low {pixels tr data : List Nat} {i j m p d : Nat}
    (hj : j < 4) (hm : tr[4 * i + j]? = some m) (hp : pixels[m]? = some p)
    (hd : data[(4 * i + j) / 4]? = some d)
    (hbits : p &&& 3 = pair_of d ((4 * i + j) % 4)) :
    data[i]? = some d ∧ ext_term pixels tr i j = (pair_of d j) <<< (6 - 2 * j) := by
  have h1 : (4 * i + j) / 4 = i := by omega
  have h2 : (4 * i + j) % 4 = j := by omega
  rw [h1] at hd
  rw [h2] at hbits
  refine ⟨hd, ?_⟩
  unfold ext_term
  rw [hm]
  simp only [hp, Option.getD_some]
  rw [hbits]

/-! ## Direct substitution (BMP and WAV hosts) -/

theorem copy_loop_spec : ∀ (n : Nat) (src res : List Nat), n ≤ src.length →
    copy_loop n src res = (true, src.drop n, res ++ src.take n) := by
  intro n
  induction n with
  | zero => intro src res _; simp [copy_loop]
  | succ n ih =>
    intro src res h
    cases src with
    | nil => simp at h
    | cons b src =>
      simp only [copy_loop, List.drop_succ_cons, List.take_succ_cons]
      rw [ih src (res ++ [b]) (by simpa using h)]
      simp

theorem pair_of_zero (m : Nat) : (m &&& 0xC0) >>> 6 = pair_of m 0 := rfl
theorem pair_of_one (m : Nat) : (m &&& 0x30) >>> 4 = pair_of m 1 := rfl
theorem pair_of_two (m : Nat) : (m &&& 0x0C) >>> 2 = pair_of m 2 := rfl
theorem pair_of_three (m : Nat) : (m &&& 0x03) >>> 0 = pair_of m 3 := rfl

/-- The four host bytes that carry the masked byte `m`. -/
theorem insert_pairs_four (m h0 h1 h2 h3 : Nat) (host res : List Nat) :
    insert_pairs m [0, 1, 2, 3] 0xC0 (h0 :: h1 :: h2 :: h3 :: host) res =
      (true, host, res ++ [((h0 &&& 0xFC) + pair_of m 0) % 256,
        ((h1 &&& 0xFC) + pair_of m 1) % 256, ((h2 &&& 0xFC) + pair_of m 2) % 256,
        ((h3 &&& 0xFC) + pair_of m 3) % 256]) := by
  simp only [insert_pairs, List.append_assoc, List.singleton_append, List.cons_append,
    List.nil_append]
  rfl

/-- Reading back the four bytes written for `m` rebuilds `m`. -/
theorem extract_pairs_four (m h0 h1 h2 h3 : Nat) (hm : m < 256) (host : List Nat) :
    extract_pairs [0, 1, 2, 3] 0
      (((h0 &&& 0xFC) + pair_of m 0) % 256 :: ((h1 &&& 0xFC) + pair_of m 1) % 256 ::
        ((h2 &&& 0xFC) + pair_of m 2) % 256 :: ((h3 &&& 0xFC) + pair_of m 3) % 256 :: host) =
      (some m, host) := by
  have l0 := low_bits h0 _ (pair_of_le m 0 (by decide))
  have l1 := low_bits h1 _ (pair_of_le m 1 (by decide))
  have l2 := low_bits h2 _ (pair_of_le m 2 (by decide))
  have l3 := low_bits h3 _ (pair_of_le m 3 (by decide))
  have b0 := pair_of_le m 0 (by decide)
  have b1 := pair_of_le m 1 (by decide)
  have b2 := pair_of_le m 2 (by decide)
  have b3 := pair_of_le m 3 (by decide)
  have hr := pair_of_recombine m hm
  simp only [Nat.shiftLeft_eq] at hr
  simp only [extract_pairs, l0, l1, l2, l3, Nat.shiftLeft_eq]
  refine Prod.ext (congrArg some ?_) rfl
  show (((((0 + pair_of m 0 * 2 ^ (6 - 2 * 0) % 256) % 256 +
    pair_of m 1 * 2 ^ (6 - 2 * 1) % 256) % 256 +
    pair_of m 2 * 2 ^ (6 - 2 * 2) % 256) % 256 +
    pair_of m 3 * 2 ^ (6 - 2 * 3) % 256) % 256) = m
  norm_num at hr ⊢
  omega

theorem xor_mask_twice (b r : Nat) (hb : b < 256) (hr : r < 256) :
    (((b ^^^ r) % 256) ^^^ r) % 256 = b := by
  have h1 : b ^^^ r < 2 ^ 8 := Nat.xor_lt_two_pow (by omega) (by omega)
  have h2 : b ^^^ r < 256 := h1
  rw [Nat.mod_eq_of_lt h2, Nat.xor_assoc, Nat.xor_self, Nat.xor_zero, Nat.mod_eq_of_lt hb]

/-- The direct loops : what the insertion loop writes for a payload is read
back by the extraction loop, with the generator in the same state. -/
theorem direct_loops_round_trip (R : Rand) : ∀ (hidden : List Nat) (seed : Nat)
    (host res : List Nat), (∀ b ∈ hidden, b < 256) → 4 * hidden.length ≤ host.length →
    ∃ enc, enc.length = 4 * hidden.length ∧
      direct_insert_loop R hidden.length seed host hidden res =
        (0, host.drop (4 * hidden.length), res ++ enc) ∧
      ∀ (tail out : List Nat),
        direct_extract_loop R hidden.length seed (enc ++ tail) out = (0, out ++ hidden) := by
  intro hidden
  induction hidden with
  | nil =>
    intro seed host res _ _
    exact ⟨[], rfl, by simp [direct_insert_loop], fun tail out => by simp [direct_extract_loop]⟩
  | cons b hidden ih =>
    intro seed host res hb hlen
    match host, hlen with
    | h0 :: h1 :: h2 :: h3 :: host, hlen =>
      have hb0 : b < 256 := hb b (List.mem_cons_self _ _)
      have hr : (R.stegx_rand seed).1 % 255 < 256 :=
        Nat.lt_of_lt_of_le (Nat.mod_lt _ (by decide)) (by decide)
      have hm : (b ^^^ ((R.stegx_rand seed).1 % 255)) % 256 < 256 := Nat.mod_lt _ (by decide)
      obtain ⟨enc, henc, hins, hext⟩ := ih (R.stegx_rand seed).2 host
        (res ++ [((h0 &&& 0xFC) + pair_of ((b ^^^ ((R.stegx_rand seed).1 % 255)) % 256) 0) % 256,
          ((h1 &&& 0xFC) + pair_of ((b ^^^ ((R.stegx_rand seed).1 % 255)) % 256) 1) % 256,
          ((h2 &&& 0xFC) + pair_of ((b ^^^ ((R.stegx_rand seed).1 % 255)) % 256) 2) % 256,
          ((h3 &&& 0xFC) + pair_of ((b ^^^ ((R.stegx_rand seed).1 % 255)) % 256) 3) % 256])
        (fun x hx => hb x (List.mem_cons_of_mem _ hx))
        (by simp only [List.length_cons] at hlen ⊢; omega)
      refine ⟨[((h0 &&& 0xFC) + pair_of ((b ^^^ ((R.stegx_rand seed).1 % 255)) % 256) 0) % 256,
          ((h1 &&& 0xFC) + pair_of ((b ^^^ ((R.stegx_rand seed).1 % 255)) % 256) 1) % 256,
          ((h2 &&& 0xFC) + pair_of ((b ^^^ ((R.stegx_rand seed).1 % 255)) % 256) 2) % 256,
          ((h3 &&& 0xFC) + pair_of ((b ^^^ ((R.stegx_rand seed).1 % 255)) % 256) 3) % 256]
          ++ enc, ?_, ?_, ?_⟩
      · simp only [List.length_append, List.length_cons, List.length_nil, henc]
        omega
      · simp only [List.length_cons, direct_insert_loop, insert_pairs_four, hins]
        refine Prod.ext rfl (Prod.ext ?_ ?_)
        · show List.drop (4 * hidden.length) host =
            List.drop (4 * (hidden.length + 1)) (h0 :: h1 :: h2 :: h3 :: host)
          have : 4 * (hidden.length + 1) = 4 * hidden.length + 1 + 1 + 1 + 1 := by omega
          rw [this]
          rfl
        · simp
      · intro tail out
        simp only [List.length_cons, direct_extract_loop, List.cons_append, List.nil_append,
          extract_pairs_four _ _ _ _ _ hm, xor_mask_twice b _ hb0 hr, hext]
        simp

theorem insert_lsb_bmp_wav_direct (R : Rand) (write_signature : info_s → Int × List Nat)
    (LENGTH_FILE_MAX : Nat) (infos : info_s) (e : err_code)
    (hdirect : lsb_direct LENGTH_FILE_MAX infos = true)
    (hlen : infos.hidden.length = infos.hidden_length)
    (hbytes : ∀ b ∈ infos.hidden, b < 256)
    (hsize : infos.host.file_info.bmp_data_size < 2 ^ 32)
    (hcap : 4 * infos.hidden_length ≤ infos.host.file_info.bmp_data_size)
    (hhost : infos.host.file_info.bmp_header_size + infos.host.file_info.bmp_data_size
      ≤ infos.host.host.length)
    (hsig : (write_signature infos).1 = 0) :
    ∃ enc tail, enc.length = 4 * infos.hidden_length ∧
      insert_lsb_bmp_wav R write_signature LENGTH_FILE_MAX infos e =
        some ⟨0, infos.host.host.take infos.host.file_info.bmp_header_size ++ enc ++ tail, e⟩ ∧
      ∀ (tail2 out : List Nat),
        direct_extract_loop R infos.hidden_length
          (R.stegx_srand (R.create_seed infos.passwd)) (enc ++ tail2) out =
          (0, out ++ infos.hidden) := by
  have hdrop : 4 * infos.hidden.length ≤
      (infos.host.host.drop infos.host.file_info.bmp_header_size).length := by
    rw [List.length_drop]; omega
  obtain ⟨enc, henc, hins, hext⟩ := direct_loops_round_trip R infos.hidden
    (R.stegx_srand (R.create_seed infos.passwd))
    (infos.host.host.drop infos.host.file_info.bmp_header_size)
    ([] ++ infos.host.host.take infos.host.file_info.bmp_header_size) hbytes hdrop
  rw [hlen] at henc hins hext
  have hrest : (infos.host.file_info.bmp_data_size + 2 ^ 32 -
      (infos.hidden_length * 4) % 2 ^ 32) % 2 ^ 32 =
      infos.host.file_info.bmp_data_size - 4 * infos.hidden_length := by omega
  have hcopy := copy_loop_spec
    (infos.host.file_info.bmp_data_size - 4 * infos.hidden_length)
    ((infos.host.host.drop infos.host.file_info.bmp_header_size).drop
      (4 * infos.hidden_length))
    ([] ++ infos.host.host.take infos.host.file_info.bmp_header_size ++ enc)
    (by simp only [List.length_drop]; omega)
  have hsig1 : (write_signature infos).1 ≠ 1 := by rw [hsig]; decide
  refine ⟨enc, List.take (infos.host.file_info.bmp_data_size - 4 * infos.hidden_length)
    (List.drop (4 * infos.hidden_length)
      (List.drop infos.host.file_info.bmp_header_size infos.host.host)) ++
    (write_signature infos).2, henc, ?_, hext⟩
  simp only [insert_lsb_bmp_wav, copy_loop_spec _ _ _ (show
    infos.host.file_info.bmp_header_size ≤ infos.host.host.length by omega), hdirect,
    if_true, hins, hrest, hcopy, hsig1, if_false]
  simp only [List.nil_append, List.append_assoc]

/-! ## EOC : arithmetic of the fields -/

theorem be32_size (s ts : Nat) (hs : s < 2 ^ 24) :
    be32 ((s / 2 ^ 16) % 256) ((s / 2 ^ 8) % 256) (s % 256) ts / 2 ^ 8 = s := by
  unfold be32
  norm_num
  omega

theorem be32_be32_bytes (v : Nat) (hv : v < 2 ^ 32) :
    be32 ((v / 2 ^ 24) % 256) ((v / 2 ^ 16) % 256) ((v / 2 ^ 8) % 256) (v % 256) = v := by
  unfold be32
  norm_num
  omega

theorem be32_bytes_length (v : Nat) : (be32_bytes v).length = 4 := rfl

theorem flv_tag.bytes_eq (t : flv_tag) :
    t.bytes = t.tag_type :: (t.size / 2 ^ 16) % 256 :: (t.size / 2 ^ 8) % 256 ::
      t.size % 256 :: t.ts :: ((t.hdr6 ++ t.payload) ++ be32_bytes t.prev) := by
  simp [flv_tag.bytes]

theorem eoc_mask_length (R : Rand) : ∀ (bs : List Nat) (seed : Nat),
    (eoc_mask R seed bs).length = bs.length := by
  intro bs
  induction bs with
  | nil => intro seed; rfl
  | cons b bs ih => intro seed; simp [eoc_mask, ih]

theorem eoc_mask_twice (R : Rand) : ∀ (bs : List Nat) (seed : Nat), (∀ b ∈ bs, b < 256) →
    eoc_mask R seed (eoc_mask R seed bs) = bs := by
  intro bs
  induction bs with
  | nil => intro seed _; rfl
  | cons b bs ih =>
    intro seed h
    have hb : b < 256 := h b (List.mem_cons_self _ _)
    have hr : (R.stegx_rand seed).1 % 255 < 256 :=
      Nat.lt_of_lt_of_le (Nat.mod_lt _ (by decide)) (by decide)
    simp only [eoc_mask, xor_mask_twice b _ hb hr,
      ih (R.stegx_rand seed).2 (fun x hx => h x (List.mem_cons_of_mem _ hx))]

/-! ## EOC : one turn of the insertion loop on a well-formed tag -/

theorem insert_eoc_loop_other (R : Rand) (passwd hidden table : List Nat)
    (n q r fuel cpt : Nat) (t : flv_tag) (host res : List Nat)
    (ht : t.tag_type ≠ 9) (hwf : t.wf) :
    insert_eoc_loop R passwd hidden table n q r (fuel + 1) (t.bytes ++ host) res cpt =
      insert_eoc_loop R passwd hidden table n q r fuel host (res ++ t.bytes) cpt := by
  obtain ⟨hsize, hts, h6, hpay, hprev⟩ := hwf
  have hlen : (t.hdr6 ++ t.payload ++ be32_bytes t.prev).length = t.size + 6 + 4 := by
    simp [h6, hpay, be32_bytes_length]; omega
  rw [flv_tag.bytes_eq]
  simp only [List.cons_append, insert_eoc_loop, be32_size t.size t.ts hsize, ht, ne_eq,
    not_false_eq_true, if_true, List.length_append, hlen]
  rw [if_neg (by omega), List.drop_left' hlen, List.take_left' hlen]
  simp

theorem eoc_new_size_lt (n q r b : Nat) (t : flv_tag) : eoc_new_size n q r b t < 2 ^ 32 := by
  unfold eoc_new_size
  exact Nat.mod_lt _ (by norm_num)

theorem eoc_new_prev_lt (n q r b : Nat) (t : flv_tag) : eoc_new_prev n q r b t < 2 ^ 32 := by
  unfold eoc_new_prev
  exact Nat.mod_lt _ (by norm_num)

theorem insert_eoc_loop_video (R : Rand) (passwd hidden table : List Nat)
    (n q r fuel cpt b : Nat) (t : flv_tag) (host res : List Nat)
    (ht : t.tag_type = 9) (hwf : t.wf) (htab : table[cpt]? = some b)
    (hfit : eoc_new_size n q r b t ≤ 0xFFFFFF)
    (hblock : (eoc_block hidden n q r b).length = eoc_share n q r b) :
    insert_eoc_loop R passwd hidden table n q r (fuel + 1) (t.bytes ++ host) res cpt =
      if cpt + 1 < n then
        insert_eoc_loop R passwd hidden table n q r fuel host
          (res ++ eoc_video_out R passwd hidden n q r b t) (cpt + 1)
      else some (0, host, res ++ eoc_video_out R passwd hidden n q r b t) := by
  obtain ⟨hsize, hts, h6, hpay, hprev⟩ := hwf
  have hlen1 : (t.hdr6 ++ t.payload).length = t.size + 6 := by
    simp [h6, hpay]; omega
  have hlen : (t.hdr6 ++ t.payload ++ be32_bytes t.prev).length = t.size + 6 + 4 := by
    simp [h6, hpay, be32_bytes_length]; omega
  have hfit2 : ¬ ((t.size + eoc_share n q r b) % 2 ^ 32 + 1) % 2 ^ 32 > 0xFFFFFF := by
    unfold eoc_new_size at hfit; omega
  have hdead : ¬ ((t.size + eoc_share n q r b) % 2 ^ 32 + 1) % 2 ^ 32 > 0xFFFFFFFF := by
    omega
  have hblock2 : ((hidden.drop ((b * q) % 2 ^ 32)).take (eoc_share n q r b)).length =
      eoc_share n q r b := hblock
  have htake : List.take (t.size + 6) (t.hdr6 ++ t.payload ++ be32_bytes t.prev ++ host) =
      t.hdr6 ++ t.payload := by
    rw [List.append_assoc (t.hdr6 ++ t.payload)]
    exact List.take_left' hlen1
  have hprevb : List.take 4 (List.drop (t.size + 6)
      (t.hdr6 ++ t.payload ++ be32_bytes t.prev ++ host)) = be32_bytes t.prev := by
    rw [List.append_assoc (t.hdr6 ++ t.payload), List.drop_left' hlen1]
    exact List.take_left' (be32_bytes_length _)
  have hdrop : List.drop (t.size + 6 + 4) (t.hdr6 ++ t.payload ++ be32_bytes t.prev ++ host)
      = host := List.drop_left' hlen
  rw [flv_tag.bytes_eq]
  simp only [List.cons_append, insert_eoc_loop, be32_size t.size t.ts hsize, ht, ne_eq,
    not_true_eq_false, if_false, htab, hfit2, hdead, List.length_append, hlen, hblock2,
    htake, hprevb, hdrop]
  rw [if_neg (by omega)]
  simp only [be32_bytes, be32_be32_bytes t.prev hprev, eoc_video_out, eoc_video_body,
    eoc_new_size, eoc_new_prev, eoc_block, ht, List.append_assoc, List.cons_append,
    List.nil_append, List.singleton_append]

/-! ## EOC : the insertion loop on a well-formed host -/

theorem eoc_block_length (hidden : List Nat) (n L b : Nat) (hL : hidden.length = L)
    (hL32 : L < 2 ^ 32) (hb : b < n) :
    (eoc_block hidden n (L / n) (L % n) b).length = eoc_share n (L / n) (L % n) b := by
  have hdm : n * (L / n) + L % n = L := Nat.div_add_mod L n
  have hmul : b * (L / n) + L / n ≤ n * (L / n) := by
    rw [← Nat.succ_mul]; exact Nat.mul_le_mul_right _ hb
  have hlast : b = n - 1 → b * (L / n) + L / n = n * (L / n) := by
    intro h
    have h1 : b + 1 = n := by omega
    rw [← Nat.succ_mul]
    show (b + 1) * (L / n) = n * (L / n)
    rw [h1]
  unfold eoc_block eoc_share
  rw [List.length_take, List.length_drop, hL]
  generalize L / n = q at hdm hmul hlast ⊢
  generalize L % n = r at hdm ⊢
  generalize n * q = nq at hdm hmul hlast
  generalize b * q = bq at hmul hlast ⊢
  by_cases hbn : b = n - 1
  · have := hlast hbn
    rw [if_pos hbn]
    omega
  · rw [if_neg hbn]
    omega

theorem video_count_pos : ∀ (tags : List flv_tag), ends_with_video tags → 1 ≤ video_count tags := by
  intro tags
  induction tags with
  | nil => intro h; exact absurd h id
  | cons t ts ih =>
    intro h
    cases ts with
    | nil =>
      have h9 : t.tag_type = 9 := h
      simp [video_count, h9]
    | cons t2 ts =>
      have := ih h
      simp only [video_count] at this ⊢
      omega

theorem flv_tag.bytes_length_pos (t : flv_tag) : 1 ≤ t.bytes.length := by
  rw [flv_tag.bytes_eq]; simp

theorem flv_bytes_length : ∀ (tags : List flv_tag), tags.length ≤ (flv_bytes tags).length := by
  intro tags
  induction tags with
  | nil => simp
  | cons t ts ih =>
    have := t.bytes_length_pos
    simp only [flv_bytes, List.length_cons, List.length_append]
    omega

theorem insert_eoc_loop_tags (R : Rand) (passwd hidden table : List Nat) (n q r : Nat)
    (rest : List Nat) (htab : n ≤ table.length)
    (hblk : ∀ c < n, (eoc_block hidden n q r (table.getD c 0)).length =
      eoc_share n q r (table.getD c 0)) :
    ∀ (tags : List flv_tag) (cpt fuel : Nat) (res : List Nat),
      (∀ t ∈ tags, t.wf) → tags.length < fuel → ends_with_video tags →
      cpt + video_count tags = n → eoc_fits table n q r tags cpt →
      insert_eoc_loop R passwd hidden table n q r fuel (flv_bytes tags ++ rest) res cpt =
        some (0, rest, res ++ eoc_out R passwd hidden table n q r tags cpt) := by
  intro tags
  induction tags with
  | nil => intro cpt fuel res _ _ h; exact absurd h id
  | cons t ts ih =>
    intro cpt fuel res hwf hfuel hend hcount hfits
    obtain ⟨fuel, rfl⟩ : ∃ f, fuel = f + 1 := ⟨fuel - 1, by simp at hfuel; omega⟩
    have hwft : t.wf := hwf t (List.mem_cons_self _ _)
    have hwfs : ∀ x ∈ ts, x.wf := fun x hx => hwf x (List.mem_cons_of_mem _ hx)
    have hfuel2 : ts.length < fuel := by simp at hfuel; omega
    have hbytes : flv_bytes (t :: ts) ++ rest = t.bytes ++ (flv_bytes ts ++ rest) := by
      simp [flv_bytes]
    rw [hbytes]
    by_cases ht : t.tag_type = 9
    · have hcpt : cpt < n := by simp only [video_count, ht, if_true] at hcount; omega
      have hget : table[cpt]? = some (table.getD cpt 0) := by
        rw [List.getD_eq_getElem?_getD, List.getElem?_eq_getElem (by omega)]
        rfl
      have hfits2 : eoc_new_size n q r (table.getD cpt 0) t ≤ 0xFFFFFF ∧
          eoc_fits table n q r ts (cpt + 1) := by
        simpa [eoc_fits, ht] using hfits
      rw [insert_eoc_loop_video R passwd hidden table n q r fuel cpt _ t _ res ht hwft hget
        hfits2.1 (hblk cpt hcpt)]
      cases ts with
      | nil =>
        have : ¬ cpt + 1 < n := by simp only [video_count, ht, if_true] at hcount; omega
        rw [if_neg this]
        simp [flv_bytes, eoc_out, ht]
      | cons t2 ts =>
        have hpos := video_count_pos (t2 :: ts) hend
        have : cpt + 1 < n := by simp only [video_count, ht, if_true] at hcount hpos ⊢; omega
        rw [if_pos this, ih (cpt + 1) fuel _ hwfs hfuel2 hend
          (by simp only [video_count, ht, if_true] at hcount ⊢; omega) hfits2.2]
        simp [eoc_out, ht]
    · rw [insert_eoc_loop_other R passwd hidden table n q r fuel cpt t _ res ht hwft]
      cases ts with
      | nil => exact absurd hend ht
      | cons t2 ts =>
        have hfits2 : eoc_fits table n q r (t2 :: ts) cpt := by
          simpa [eoc_fits, ht] using hfits
        rw [ih cpt fuel _ hwfs hfuel2 hend
          (by simp only [video_count, ht, if_false] at hcount ⊢; omega) hfits2]
        simp [eoc_out, ht]

theorem EocHost.table_length {E : EocEnv} {infos : info_s} {hdr : List Nat}
    {tags : List flv_tag} {rest : List Nat} (h : EocHost E infos hdr tags rest) :
    (eoc_table E infos.host.file_info.flv_nb_video_tag infos.passwd).length =
      infos.host.file_info.flv_nb_video_tag := by
  rw [h.perm.length_eq, List.length_range]

theorem EocHost.table_lt {E : EocEnv} {infos : info_s} {hdr : List Nat}
    {tags : List flv_tag} {rest : List Nat} (h : EocHost E infos hdr tags rest)
    (c : Nat) (hc : c < infos.host.file_info.flv_nb_video_tag) :
    (eoc_table E infos.host.file_info.flv_nb_video_tag infos.passwd).getD c 0 <
      infos.host.file_info.flv_nb_video_tag := by
  have hlen := h.table_length
  rw [List.getD_eq_getElem?_getD, List.getElem?_eq_getElem (by omega)]
  exact List.mem_range.mp (h.perm.subset (List.getElem_mem _))

theorem EocHost.pos {E : EocEnv} {infos : info_s} {hdr : List Nat}
    {tags : List flv_tag} {rest : List Nat} (h : EocHost E infos hdr tags rest) :
    1 ≤ infos.host.file_info.flv_nb_video_tag := by
  rw [h.count]; exact video_count_pos tags h.ends

/-- The stream that `insert_eoc` writes for a well-formed host when every
recomputed size fits. -/
theorem insert_eoc_spec (E : EocEnv) (infos : info_s) (e : err_code) (hdr : List Nat)
    (tags : List flv_tag) (rest : List Nat) (h : EocHost E infos hdr tags rest)
    (hmode : infos.mode = mode_e.STEGX_MODE_INSERT)
    (halgo : infos.algo = algo_e.STEGX_ALGO_EOC)
    (hfits : eoc_fits (eoc_table E infos.host.file_info.flv_nb_video_tag infos.passwd)
      infos.host.file_info.flv_nb_video_tag
      (infos.hidden_length / infos.host.file_info.flv_nb_video_tag)
      (infos.hidden_length % infos.host.file_info.flv_nb_video_tag) tags 0) :
    insert_eoc E infos e = some ⟨0,
      hdr ++ eoc_out E.R infos.passwd infos.hidden
        (eoc_table E infos.host.file_info.flv_nb_video_tag infos.passwd)
        infos.host.file_info.flv_nb_video_tag
        (infos.hidden_length / infos.host.file_info.flv_nb_video_tag)
        (infos.hidden_length % infos.host.file_info.flv_nb_video_tag) tags 0 ++
      rest ++ (E.write_signature infos).2, e⟩ := by
  have hn := h.pos
  have hn0 : infos.host.file_info.flv_nb_video_tag ≠ 0 := by omega
  have hcopy := copy_loop_spec 13 infos.host.host [] (by
    rw [h.host_eq]; simp [h.length_hdr])
  have htake : List.take 13 infos.host.host = hdr := by
    rw [h.host_eq, List.append_assoc]; exact List.take_left' h.length_hdr
  have hdrop : List.drop 13 infos.host.host = flv_bytes tags ++ rest := by
    rw [h.host_eq, List.append_assoc]; exact List.drop_left' h.length_hdr
  have hloop := insert_eoc_loop_tags E.R infos.passwd infos.hidden
    (eoc_table E infos.host.file_info.flv_nb_video_tag infos.passwd)
    infos.host.file_info.flv_nb_video_tag
    (infos.hidden_length / infos.host.file_info.flv_nb_video_tag)
    (infos.hidden_length % infos.host.file_info.flv_nb_video_tag) rest
    (by rw [h.table_length])
    (fun c hc => eoc_block_length infos.hidden _ _ _ h.length_hidden h.hidden_lt
      (h.table_lt c hc))
    tags 0 ((flv_bytes tags ++ rest).length + 1) ([] ++ hdr) h.wf
    (by have := flv_bytes_length tags; simp only [List.length_append]; omega)
    h.ends (by rw [h.count]; omega) hfits
  simp only [insert_eoc, hmode, halgo, ne_eq, not_true_eq_false, or_self, if_false, hn0,
    hcopy, htake, hdrop, hloop]
  simp

/-! ## EOC : splitting a sequence of tags -/

theorem video_count_append (xs ys : List flv_tag) :
    video_count (xs ++ ys) = video_count xs + video_count ys := by
  induction xs with
  | nil => simp [video_count]
  | cons t ts ih =>
    rw [List.cons_append]
    simp only [video_count, ih]
    omega

theorem eoc_out_append (R : Rand) (passwd hidden table : List Nat) (n q r : Nat) :
    ∀ (xs ys : List flv_tag) (c : Nat),
      eoc_out R passwd hidden table n q r (xs ++ ys) c =
        eoc_out R passwd hidden table n q r xs c ++
          eoc_out R passwd hidden table n q r ys (c + video_count xs) := by
  intro xs
  induction xs with
  | nil => intro ys c; simp [eoc_out, video_count]
  | cons t ts ih =>
    intro ys c
    rw [List.cons_append]
    by_cases ht : t.tag_type = 9
    · simp only [eoc_out, ht, ne_eq, not_true_eq_false, if_false, ih,
        video_count, if_true, List.append_assoc]
      rw [show c + 1 + video_count ts = c + (1 + video_count ts) by omega]
    · simp only [eoc_out, ht, ne_eq, not_false_eq_true, if_true, ih,
        video_count, if_false, List.append_assoc, Nat.zero_add]

theorem eoc_fits_append (table : List Nat) (n q r : Nat) :
    ∀ (xs ys : List flv_tag) (c : Nat), eoc_fits table n q r (xs ++ ys) c →
      eoc_fits table n q r xs c ∧ eoc_fits table n q r ys (c + video_count xs) := by
  intro xs
  induction xs with
  | nil => intro ys c h; exact ⟨trivial, by simpa [video_count] using h⟩
  | cons t ts ih =>
    intro ys c h
    rw [List.cons_append] at h
    by_cases ht : t.tag_type = 9
    · simp only [eoc_fits, ht, ne_eq, not_true_eq_false, if_false] at h ⊢
      obtain ⟨h1, h2⟩ := ih ys (c + 1) h.2
      refine ⟨⟨h.1, h1⟩, ?_⟩
      simp only [video_count, ht, if_true]
      rw [show c + (1 + video_count ts) = c + 1 + video_count ts by omega]
      exact h2
    · simp only [eoc_fits, ht, ne_eq, not_false_eq_true, if_true] at h ⊢
      obtain ⟨h1, h2⟩ := ih ys c h
      refine ⟨h1, ?_⟩
      simp only [video_count, ht, if_false, Nat.zero_add]
      exact h2

/-- The video tag number `k` of a sequence splits it. -/
theorem exists_split_video : ∀ (tags : List flv_tag) (k : Nat), k < video_count tags →
    ∃ pre v post, tags = pre ++ v :: post ∧ v.tag_type = 9 ∧ video_count pre = k := by
  intro tags
  induction tags with
  | nil => intro k h; simp [video_count] at h
  | cons t ts ih =>
    intro k h
    by_cases ht : t.tag_type = 9
    · cases k with
      | zero => exact ⟨[], t, ts, rfl, ht, rfl⟩
      | succ k =>
        obtain ⟨pre, v, post, h1, h2, h3⟩ := ih k (by
          simp only [video_count, ht, if_true] at h; omega)
        refine ⟨t :: pre, v, post, by rw [h1]; rfl, h2, ?_⟩
        simp only [video_count, ht, if_true, h3]; omega
    · obtain ⟨pre, v, post, h1, h2, h3⟩ := ih k (by
        simp only [video_count, ht, if_false] at h; omega)
      refine ⟨t :: pre, v, post, by rw [h1]; rfl, h2, ?_⟩
      simp only [video_count, ht, if_false, h3]; omega

/-! ## EOC : the shares -/

theorem eoc_share_le (n L b : Nat) (hL : L < 2 ^ 32) :
    eoc_share n (L / n) (L % n) b ≤ L := by
  unfold eoc_share
  have hdm : n * (L / n) + L % n = L := Nat.div_add_mod L n
  have hq : L / n ≤ L := Nat.div_le_self L n
  by_cases hn : n = 0
  · subst hn
    simp only [Nat.div_zero, Nat.mod_zero]
    split
    · exact Nat.mod_le _ _
    · exact Nat.zero_le _
  · have hle : L / n ≤ n * (L / n) := Nat.le_mul_of_pos_left _ (by omega)
    generalize L / n = q at hdm hq hle ⊢
    generalize L % n = r at hdm ⊢
    generalize n * q = nq at hdm hle
    split <;> omega

/-- Apart from the last block of a host of 256 video tags or more, a share is
far below `2 ^ 32` as soon as there are two video tags. -/
theorem eoc_share_small (n L b : Nat) (hL : L < 2 ^ 32) (hn : 2 ≤ n)
    (hb : n < 256 ∨ b ≠ n - 1) :
    eoc_share n (L / n) (L % n) b < 2 ^ 31 + 256 := by
  have hq : L / n ≤ L / 2 := Nat.div_le_div_left hn (by decide)
  have hr : L % n < n := Nat.mod_lt _ (by omega)
  unfold eoc_share
  generalize L / n = q at hq ⊢
  generalize L % n = r at hr ⊢
  split
  · rcases hb with hb | hb
    · omega
    · contradiction
  · omega

theorem eoc_exact_of_fits (table : List Nat) (n L : Nat) (hL : L < 2 ^ 32)
    (htab : n < 256 ∨ ∀ c, c < n → table.getD c 0 = c) :
    ∀ (pre : List flv_tag) (c : Nat), (∀ t ∈ pre, t.wf) → c + video_count pre + 1 ≤ n →
      eoc_fits table n (L / n) (L % n) pre c → eoc_exact table n (L / n) (L % n) pre c := by
  intro pre
  induction pre with
  | nil => intro c _ _ _; trivial
  | cons t ts ih =>
    intro c hwf hc hfits
    have hwfs : ∀ x ∈ ts, x.wf := fun x hx => hwf x (List.mem_cons_of_mem _ hx)
    by_cases ht : t.tag_type = 9
    · simp only [eoc_fits, ht, ne_eq, not_true_eq_false, if_false] at hfits
      simp only [video_count, ht, if_true] at hc
      simp only [eoc_exact, ht, ne_eq, not_true_eq_false, if_false]
      refine ⟨?_, ih (c + 1) hwfs (by omega) hfits.2⟩
      have hsmall := eoc_share_small n L (table.getD c 0) hL (by omega) (by
        rcases htab with h | h
        · exact Or.inl h
        · right; rw [h c (by omega)]; omega)
      have hsize := (hwf t (List.mem_cons_self _ _)).1
      have h1 := hfits.1
      unfold eoc_new_size at h1
      omega
    · simp only [eoc_fits, ht, ne_eq, not_false_eq_true, if_true] at hfits
      simp only [video_count, ht, if_false] at hc
      simp only [eoc_exact, ht, ne_eq, not_false_eq_true, if_true]
      exact ih c hwfs (by omega) hfits

/-! ## EOC : the walk of the extraction to a video tag -/

theorem eoc_walk_other (p fuel cpt ds : Nat) (t : flv_tag) (host : List Nat)
    (ht : t.tag_type ≠ 9) (hwf : t.wf) (hp : p ≠ cpt) :
    eoc_walk p (fuel + 1) (t.bytes ++ host) cpt ds = eoc_walk p fuel host cpt t.size := by
  obtain ⟨hsize, hts, h6, hpay, hprev⟩ := hwf
  have hlen : (t.hdr6 ++ t.payload ++ be32_bytes t.prev).length = t.size + 10 := by
    simp [h6, hpay, be32_bytes_length]; omega
  rw [flv_tag.bytes_eq]
  simp only [List.cons_append, eoc_walk, hp, if_false, ht, be32_size t.size t.ts hsize,
    ne_eq, not_false_eq_true, if_true, List.drop_left' hlen]

theorem eoc_video_body_length (R : Rand) (passwd hidden : List Nat) (n q r b : Nat)
    (t : flv_tag) (hwf : t.wf)
    (hblock : (eoc_block hidden n q r b).length = eoc_share n q r b) :
    (eoc_video_body R passwd hidden n q r b t).length =
      t.size + eoc_share n q r b + 1 + 10 := by
  obtain ⟨hsize, hts, h6, hpay, hprev⟩ := hwf
  simp only [eoc_video_body, List.length_append, h6, hpay, eoc_mask_length, hblock,
    be32_bytes_length, List.length_singleton]
  omega

theorem eoc_walk_video (R : Rand) (passwd hidden : List Nat) (n q r b : Nat)
    (p fuel cpt ds : Nat) (t : flv_tag) (host : List Nat)
    (ht : t.tag_type = 9) (hwf : t.wf) (hp : p ≠ cpt) (hp1 : p ≠ (cpt + 1) % 2 ^ 32)
    (hexact : t.size + eoc_share n q r b + 1 ≤ 0xFFFFFF)
    (hblock : (eoc_block hidden n q r b).length = eoc_share n q r b) :
    eoc_walk p (fuel + 1) (eoc_video_out R passwd hidden n q r b t ++ host) cpt ds =
      eoc_walk p fuel host ((cpt + 1) % 2 ^ 32) (t.size + eoc_share n q r b + 1) := by
  have hnew : eoc_new_size n q r b t = t.size + eoc_share n q r b + 1 := by
    unfold eoc_new_size; omega
  have hlen := eoc_video_body_length R passwd hidden n q r b t hwf hblock
  simp only [eoc_video_out, List.cons_append, List.nil_append, eoc_walk, hp, if_false, ht,
    if_true, hnew, be32_size _ _ (show t.size + eoc_share n q r b + 1 < 2 ^ 24 by omega),
    hp1, ne_eq, not_false_eq_true, List.drop_left' hlen]

theorem eoc_walk_target (R : Rand) (passwd hidden : List Nat) (n q r b : Nat)
    (p fuel cpt ds : Nat) (t : flv_tag) (host : List Nat)
    (ht : t.tag_type = 9) (hp : p ≠ cpt) (hp1 : p = (cpt + 1) % 2 ^ 32)
    (hfit : eoc_new_size n q r b t ≤ 0xFFFFFF) :
    eoc_walk p (fuel + 2) (eoc_video_out R passwd hidden n q r b t ++ host) cpt ds =
      some (eoc_video_body R passwd hidden n q r b t ++ host, p, eoc_new_size n q r b t) := by
  simp only [eoc_video_out, List.cons_append, List.nil_append, eoc_walk, hp, if_false, ht,
    if_true, be32_size _ _ (show eoc_new_size n q r b t < 2 ^ 24 by omega), ← hp1, ne_eq,
    not_true_eq_false]

/-- The walk from the start of a sequence of rewritten tags, `c` video tags
having been met, to the video tag number `p` : it stops after the 4-byte field
of the size of this tag, with its size. -/
theorem eoc_walk_to (R : Rand) (passwd hidden table : List Nat) (n q r p : Nat)
    (v : flv_tag) (tail : List Nat) (hv : v.tag_type = 9) (hp32 : p + 1 < 2 ^ 32)
    (hfit : eoc_new_size n q r (table.getD p 0) v ≤ 0xFFFFFF)
    (hblk : ∀ c < n, (eoc_block hidden n q r (table.getD c 0)).length =
      eoc_share n q r (table.getD c 0))
    (hpn : p < n) :
    ∀ (pre : List flv_tag) (c fuel ds : Nat), (∀ t ∈ pre, t.wf) → pre.length + 1 < fuel →
      c + video_count pre = p → eoc_exact table n q r pre c →
      eoc_walk p fuel
        (eoc_out R passwd hidden table n q r pre c ++
          (eoc_video_out R passwd hidden n q r (table.getD p 0) v ++ tail))
        ((c + 2 ^ 32 - 1) % 2 ^ 32) ds =
        some (eoc_video_body R passwd hidden n q r (table.getD p 0) v ++ tail, p,
          eoc_new_size n q r (table.getD p 0) v) := by
  intro pre
  induction pre with
  | nil =>
    intro c fuel ds _ hfuel hc _
    obtain ⟨fuel, rfl⟩ : ∃ f, fuel = f + 2 := ⟨fuel - 2, by simp at hfuel; omega⟩
    simp only [video_count, Nat.add_zero] at hc
    subst hc
    simp only [eoc_out, List.nil_append]
    exact eoc_walk_target R passwd hidden n q r _ c fuel _ ds v tail hv (by omega) (by omega)
      hfit
  | cons t ts ih =>
    intro c fuel ds hwf hfuel hc hexact
    obtain ⟨fuel, rfl⟩ : ∃ f, fuel = f + 1 := ⟨fuel - 1, by simp at hfuel; omega⟩
    have hwft : t.wf := hwf t (List.mem_cons_self _ _)
    have hwfs : ∀ x ∈ ts, x.wf := fun x hx => hwf x (List.mem_cons_of_mem _ hx)
    have hfuel2 : ts.length + 1 < fuel := by simp at hfuel; omega
    by_cases ht : t.tag_type = 9
    · simp only [video_count, ht, if_true] at hc
      simp only [eoc_exact, ht, ne_eq, not_true_eq_false, if_false] at hexact
      simp only [eoc_out, ht, ne_eq, not_true_eq_false, if_false, List.append_assoc]
      rw [eoc_walk_video R passwd hidden n q r _ p fuel _ ds t _ ht hwft (by omega) (by omega)
        hexact.1 (hblk c (by omega))]
      have hcpt : ((c + 2 ^ 32 - 1) % 2 ^ 32 + 1) % 2 ^ 32 = (c + 1 + 2 ^ 32 - 1) % 2 ^ 32 := by
        omega
      rw [hcpt]
      exact ih (c + 1) fuel _ hwfs hfuel2 (by omega) hexact.2
    · simp only [video_count, ht, if_false] at hc
      simp only [eoc_exact, ht, ne_eq, not_false_eq_true, if_true] at hexact
      simp only [eoc_out, ht, ne_eq, not_false_eq_true, if_true, List.append_assoc]
      rw [eoc_walk_other p fuel _ ds t _ ht hwft (by omega)]
      exact ih c fuel _ hwfs hfuel2 (by omega) hexact

/-! ## EOC : one block of the extraction -/

theorem eoc_find_cursor_spec (table : List Nat) (b p : Nat) (hp : table[p]? = some b) :
    ∀ (d c0 : Nat), c0 + d = p → (∀ i, c0 ≤ i → i < p → table[i]? ≠ some b) →
      eoc_find_cursor (table.drop c0) b c0 = some p := by
  obtain ⟨hlt, hget⟩ := List.getElem?_eq_some.mp hp
  intro d
  induction d with
  | zero =>
    intro c0 hc _
    have : c0 = p := by omega
    subst this
    rw [List.drop_eq_getElem_cons hlt]
    simp [eoc_find_cursor, hget]
  | succ d ih =>
    intro c0 hc hne
    have hc0 : c0 < table.length := by omega
    have hne0 : table[c0] ≠ b := by
      intro h
      exact hne c0 (Nat.le_refl _) (by omega) (by rw [List.getElem?_eq_getElem hc0, h])
    rw [List.drop_eq_getElem_cons hc0]
    simp only [eoc_find_cursor, hne0, ne_eq, not_false_eq_true, if_true]
    exact ih (c0 + 1) (by omega) (fun i hi hip => hne i (by omega) hip)

theorem eoc_data_jump (size share q r : Nat) (last : Prop) [Decidable last]
    (hsize : size < 2 ^ 24) (hqr : r + q < 2 ^ 32)
    (hshare : share = if last then (r + q) % 2 ^ 32 else q) :
    (if last then
        ((((((size + share) % 2 ^ 32 + 1) % 2 ^ 32) + 2 ^ 32 - r) % 2 ^ 32 + 2 ^ 32 - q)
          % 2 ^ 32 + 6) % 2 ^ 32
      else (((((size + share) % 2 ^ 32 + 1) % 2 ^ 32) + 2 ^ 32 - q) % 2 ^ 32 + 6) % 2 ^ 32)
      = size + 7 := by
  by_cases h : last
  · simp only [h, if_true] at hshare ⊢
    omega
  · simp only [h, if_false] at hshare ⊢
    omega

/-- One turn of the loop on the blocks, once the cursor and the walk are
known : the block is read back and the file cursor is after the tag. -/
theorem extract_eoc_block_spec (R : Rand) (passwd hidden host table : List Nat)
    (datab : Bool) (n q r p : Nat) (st : eoc_ext_state) (v : flv_tag) (tail : List Nat)
    (hwf : v.wf) (hqr : r + q < 2 ^ 32) (hnb : st.nb_block + 1 < 2 ^ 32)
    (hbytes : ∀ x ∈ hidden, x < 256)
    (hblock : (eoc_block hidden n q r st.nb_block).length = eoc_share n q r st.nb_block)
    (hcur : eoc_find_cursor (table.drop (if datab then st.cursor else 0)) st.nb_block
      (if datab then st.cursor else 0) = some p)
    (hwalk : eoc_walk p ((if datab then st.pos else host.drop 13).length + 1)
      (if datab then st.pos else host.drop 13)
      (if datab then st.cpt_video_tag else 2 ^ 32 - 1) st.data_size =
      some (eoc_video_body R passwd hidden n q r st.nb_block v ++ tail, p,
        eoc_new_size n q r st.nb_block v)) :
    extract_eoc_block R passwd host table datab n q r st =
      some { pos := tail
             cursor := p
             cpt_video_tag := p
             data_size := eoc_new_size n q r st.nb_block v
             nb_block := st.nb_block + 1
             res := st.res ++ eoc_block hidden n q r st.nb_block } := by
  obtain ⟨hsize, hts, h6, hpay, hprev⟩ := hwf
  have hjump := eoc_data_jump v.size (eoc_share n q r st.nb_block) q r
    (st.nb_block = n - 1) hsize hqr rfl
  have hlen1 : (v.hdr6 ++ v.payload ++ [28]).length = v.size + 7 := by
    simp [h6, hpay]; omega
  have hmlen : (eoc_mask R (R.stegx_srand (R.create_seed passwd))
      (eoc_block hidden n q r st.nb_block)).length = eoc_share n q r st.nb_block := by
    rw [eoc_mask_length, hblock]
  have hbody : List.drop (v.size + 7)
      (eoc_video_body R passwd hidden n q r st.nb_block v ++ tail) =
      eoc_mask R (R.stegx_srand (R.create_seed passwd)) (eoc_block hidden n q r st.nb_block)
        ++ (be32_bytes (eoc_new_prev n q r st.nb_block v) ++ tail) := by
    unfold eoc_video_body
    rw [List.append_assoc, List.append_assoc (v.hdr6 ++ v.payload ++ [28]),
      List.drop_left' hlen1]
  have hblockb : ∀ x ∈ eoc_block hidden n q r st.nb_block, x < 256 := fun x hx =>
    hbytes x (List.mem_of_mem_drop (List.mem_of_mem_take hx))
  simp only [extract_eoc_block, hcur, hwalk]
  unfold eoc_new_size
  simp only [hjump, hbody, List.length_append, hmlen, List.take_left' hmlen,
    List.drop_left' hmlen, eoc_mask_twice R _ _ hblockb,
    List.drop_left' (be32_bytes_length _), Nat.mod_eq_of_lt hnb]
  rw [if_neg (by omega)]

/-! ## EOC : the insertion stops on a size that does not fit -/

theorem insert_eoc_loop_video_fail (R : Rand) (passwd hidden table : List Nat)
    (n q r fuel cpt b : Nat) (t : flv_tag) (host res : List Nat)
    (ht : t.tag_type = 9) (hwf : t.wf) (htab : table[cpt]? = some b)
    (hfit : ¬ eoc_new_size n q r b t ≤ 0xFFFFFF) :
    insert_eoc_loop R passwd hidden table n q r (fuel + 1) (t.bytes ++ host) res cpt =
      some (1, t.hdr6 ++ t.payload ++ be32_bytes t.prev ++ host, res ++ [9]) := by
  obtain ⟨hsize, hts, h6, hpay, hprev⟩ := hwf
  have hfit2 : ((t.size + eoc_share n q r b) % 2 ^ 32 + 1) % 2 ^ 32 > 0xFFFFFF := by
    unfold eoc_new_size at hfit; omega
  rw [flv_tag.bytes_eq]
  simp only [List.cons_append, insert_eoc_loop, be32_size t.size t.ts hsize, ht, ne_eq,
    not_true_eq_false, if_false, htab, hfit2, if_true]

theorem eoc_fits_of_no_video (table : List Nat) (n q r : Nat) :
    ∀ (tags : List flv_tag) (c : Nat), video_count tags = 0 → eoc_fits table n q r tags c := by
  intro tags
  induction tags with
  | nil => intro c _; trivial
  | cons t ts ih =>
    intro c h
    by_cases ht : t.tag_type = 9
    · simp only [video_count, ht, if_true] at h; omega
    · simp only [video_count, ht, if_false, Nat.zero_add] at h
      simp only [eoc_fits, ht, ne_eq, not_false_eq_true, if_true]
      exact ih c h

theorem insert_eoc_loop_tags_fail (R : Rand) (passwd hidden table : List Nat) (n q r : Nat)
    (rest : List Nat) (htab : n ≤ table.length)
    (hblk : ∀ c < n, (eoc_block hidden n q r (table.getD c 0)).length =
      eoc_share n q r (table.getD c 0)) :
    ∀ (tags : List flv_tag) (cpt fuel : Nat) (res : List Nat),
      (∀ t ∈ tags, t.wf) → tags.length < fuel →
      cpt + video_count tags = n → ¬ eoc_fits table n q r tags cpt →
      ∃ h1 r1, insert_eoc_loop R passwd hidden table n q r fuel (flv_bytes tags ++ rest)
        res cpt = some (1, h1, r1) := by
  intro tags
  induction tags with
  | nil => intro cpt fuel res _ _ _ h; exact absurd trivial h
  | cons t ts ih =>
    intro cpt fuel res hwf hfuel hcount hfits
    obtain ⟨fuel, rfl⟩ : ∃ f, fuel = f + 1 := ⟨fuel - 1, by simp at hfuel; omega⟩
    have hwft : t.wf := hwf t (List.mem_cons_self _ _)
    have hwfs : ∀ x ∈ ts, x.wf := fun x hx => hwf x (List.mem_cons_of_mem _ hx)
    have hfuel2 : ts.length < fuel := by simp at hfuel; omega
    have hbytes : flv_bytes (t :: ts) ++ rest = t.bytes ++ (flv_bytes ts ++ rest) := by
      simp [flv_bytes]
    rw [hbytes]
    by_cases ht : t.tag_type = 9
    · have hcpt : cpt < n := by simp only [video_count, ht, if_true] at hcount; omega
      have hget : table[cpt]? = some (table.getD cpt 0) := by
        rw [List.getD_eq_getElem?_getD, List.getElem?_eq_getElem (by omega)]
        rfl
      by_cases hfit : eoc_new_size n q r (table.getD cpt 0) t ≤ 0xFFFFFF
      · have hfits2 : ¬ eoc_fits table n q r ts (cpt + 1) := by
          intro h
          apply hfits
          simp only [eoc_fits, ht, ne_eq, not_true_eq_false, if_false]
          exact ⟨hfit, h⟩
        have hvc : video_count ts ≠ 0 := fun h =>
          hfits2 (eoc_fits_of_no_video table n q r ts (cpt + 1) h)
        have hmore : cpt + 1 < n := by
          simp only [video_count, ht, if_true] at hcount; omega
        rw [insert_eoc_loop_video R passwd hidden table n q r fuel cpt _ t _ res ht hwft hget
          hfit (hblk cpt hcpt), if_pos hmore]
        exact ih (cpt + 1) fuel _ hwfs hfuel2
          (by simp only [video_count, ht, if_true] at hcount; omega) hfits2
      · exact ⟨_, _, insert_eoc_loop_video_fail R passwd hidden table n q r fuel cpt _ t _ res
          ht hwft hget hfit⟩
    · rw [insert_eoc_loop_other R passwd hidden table n q r fuel cpt t _ res ht hwft]
      have hfits2 : ¬ eoc_fits table n q r ts cpt := by
        intro h
        apply hfits
        simp only [eoc_fits, ht, ne_eq, not_false_eq_true, if_true]
        exact h
      exact ih cpt fuel _ hwfs hfuel2
        (by simp only [video_count, ht, if_false] at hcount; omega) hfits2

/-- The value returned is 1, and the signature is not written, as soon as one
recomputed size does not pass the test of line 132. -/
theorem insert_eoc_fail (E : EocEnv) (infos : info_s) (e : err_code) (hdr : List Nat)
    (tags : List flv_tag) (rest : List Nat) (h : EocHost E infos hdr tags rest)
    (hmode : infos.mode = mode_e.STEGX_MODE_INSERT)
    (halgo : infos.algo = algo_e.STEGX_ALGO_EOC)
    (hfits : ¬ eoc_fits (eoc_table E infos.host.file_info.flv_nb_video_tag infos.passwd)
      infos.host.file_info.flv_nb_video_tag
      (infos.hidden_length / infos.host.file_info.flv_nb_video_tag)
      (infos.hidden_length % infos.host.file_info.flv_nb_video_tag) tags 0) :
    ∃ res, insert_eoc E infos e = some ⟨1, res, e⟩ := by
  have hn := h.pos
  have hn0 : infos.host.file_info.flv_nb_video_tag ≠ 0 := by omega
  have hcopy := copy_loop_spec 13 infos.host.host [] (by
    rw [h.host_eq]; simp [h.length_hdr])
  have htake : List.take 13 infos.host.host = hdr := by
    rw [h.host_eq, List.append_assoc]; exact List.take_left' h.length_hdr
  have hdrop : List.drop 13 infos.host.host = flv_bytes tags ++ rest := by
    rw [h.host_eq, List.append_assoc]; exact List.drop_left' h.length_hdr
  obtain ⟨h1, r1, hloop⟩ := insert_eoc_loop_tags_fail E.R infos.passwd infos.hidden
    (eoc_table E infos.host.file_info.flv_nb_video_tag infos.passwd)
    infos.host.file_info.flv_nb_video_tag
    (infos.hidden_length / infos.host.file_info.flv_nb_video_tag)
    (infos.hidden_length % infos.host.file_info.flv_nb_video_tag) rest
    (by rw [h.table_length])
    (fun c hc => eoc_block_length infos.hidden _ _ _ h.length_hidden h.hidden_lt
      (h.table_lt c hc))
    tags 0 ((flv_bytes tags ++ rest).length + 1) ([] ++ hdr) h.wf
    (by have := flv_bytes_length tags; simp only [List.length_append]; omega)
    (by rw [h.count]; omega) hfits
  refine ⟨r1, ?_⟩
  simp only [insert_eoc, hmode, halgo, ne_eq, not_true_eq_false, or_self, if_false, hn0,
    hcopy, htake, hdrop, hloop]

/-! ## EOC : the blocks make up the payload -/

theorem eoc_blocks_take (hidden : List Nat) (n L : Nat) (hL32 : L < 2 ^ 32) :
    ∀ k, k + 1 ≤ n → eoc_blocks hidden n (L / n) (L % n) k = hidden.take (k * (L / n)) := by
  intro k
  induction k with
  | zero => intro _; simp [eoc_blocks]
  | succ k ih =>
    intro hk
    have hdm : n * (L / n) + L % n = L := Nat.div_add_mod L n
    have hmul : k * (L / n) + L / n ≤ n * (L / n) := by
      rw [← Nat.succ_mul]; exact Nat.mul_le_mul_right _ (by omega)
    have hkq : (k * (L / n)) % 2 ^ 32 = k * (L / n) := by
      apply Nat.mod_eq_of_lt
      generalize L / n = q at hdm hmul ⊢
      generalize n * q = nq at hdm hmul
      generalize k * q = kq at hmul ⊢
      omega
    have hne : k ≠ n - 1 := by omega
    rw [eoc_blocks, ih (by omega), eoc_block, eoc_share, if_neg hne, hkq, Nat.succ_mul,
      List.take_add]

theorem eoc_blocks_all (hidden : List Nat) (n L : Nat) (hn : 1 ≤ n) (hL : hidden.length = L)
    (hL32 : L < 2 ^ 32) :
    eoc_blocks hidden n (L / n) (L % n) n = hidden := by
  obtain ⟨m, rfl⟩ : ∃ m, n = m + 1 := ⟨n - 1, by omega⟩
  have hdm : (m + 1) * (L / (m + 1)) + L % (m + 1) = L := Nat.div_add_mod L (m + 1)
  rw [Nat.succ_mul] at hdm
  have hkq : (m * (L / (m + 1))) % 2 ^ 32 = m * (L / (m + 1)) := by
    apply Nat.mod_eq_of_lt
    generalize L / (m + 1) = q at hdm ⊢
    generalize L % (m + 1) = r at hdm
    generalize m * q = mq at hdm ⊢
    omega
  have hrq : (L % (m + 1) + L / (m + 1)) % 2 ^ 32 = L % (m + 1) + L / (m + 1) := by
    apply Nat.mod_eq_of_lt
    generalize L / (m + 1) = q at hdm ⊢
    generalize L % (m + 1) = r at hdm ⊢
    generalize m * q = mq at hdm
    omega
  rw [eoc_blocks, eoc_blocks_take hidden (m + 1) L hL32 m (by omega), eoc_block, eoc_share,
    if_pos (by omega), hkq, hrq, ← List.take_add]
  apply List.take_of_length_le
  rw [hL]
  generalize L / (m + 1) = q at hdm ⊢
  generalize L % (m + 1) = r at hdm ⊢
  generalize m * q = mq at hdm ⊢
  omega

theorem eoc_out_length (R : Rand) (passwd hidden table : List Nat) (n q r : Nat) :
    ∀ (tags : List flv_tag) (c : Nat),
      tags.length ≤ (eoc_out R passwd hidden table n q r tags c).length := by
  intro tags
  induction tags with
  | nil => intro c; simp
  | cons t ts ih =>
    intro c
    by_cases ht : t.tag_type = 9
    · have := ih (c + 1)
      simp only [eoc_out, ht, ne_eq, not_true_eq_false, if_false, eoc_video_out,
        List.length_append, List.length_cons]
      omega
    · have := ih c
      have := t.bytes_length_pos
      simp only [eoc_out, ht, ne_eq, not_false_eq_true, if_true, List.length_append,
        List.length_cons]
      omega

/-! ## EOC : the loop of the extraction -/

theorem eoc_qr_lt (n L : Nat) (hn : 1 ≤ n) (hL32 : L < 2 ^ 32) : L % n + L / n < 2 ^ 32 := by
  have hdm : n * (L / n) + L % n = L := Nat.div_add_mod L n
  have hle : L / n ≤ n * (L / n) := Nat.le_mul_of_pos_left _ (by omega)
  generalize L / n = q at hdm hle ⊢
  generalize L % n = r at hdm ⊢
  generalize n * q = nq at hdm hle
  omega

/-- The loop on the blocks with the table of `protect_data` (fewer than 256
video tags) : every turn goes back to the start of the tags. -/
theorem extract_eoc_loop_small (R : Rand) (passwd hidden table hostx : List Nat)
    (n L : Nat) (tags : List flv_tag) (tail0 : List Nat)
    (hn256 : n < 256) (hL : hidden.length = L) (hL32 : L < 2 ^ 32)
    (hbytes : ∀ x ∈ hidden, x < 256) (hwf : ∀ t ∈ tags, t.wf)
    (hcount : video_count tags = n) (hperm : table.Perm (List.range n))
    (hfits : eoc_fits table n (L / n) (L % n) tags 0)
    (hhost : hostx.drop 13 =
      eoc_out R passwd hidden table n (L / n) (L % n) tags 0 ++ tail0) :
    ∀ (fuel : Nat) (st : eoc_ext_state), 1 ≤ fuel → st.nb_block + fuel = n →
      st.res = eoc_blocks hidden n (L / n) (L % n) st.nb_block →
      ∃ st2, extract_eoc_loop R passwd hostx table false n (L / n) (L % n) fuel st = some st2 ∧
        st2.res = eoc_blocks hidden n (L / n) (L % n) n := by
  have hlen : table.length = n := by rw [hperm.length_eq, List.length_range]
  have hnodup : table.Nodup := hperm.nodup_iff.mpr (List.nodup_range n)
  intro fuel
  induction fuel with
  | zero => intro st h; omega
  | succ fuel ih =>
    intro st _ hnb hres
    have hb : st.nb_block < n := by omega
    -- the tag that carries the block
    have hmem : st.nb_block ∈ table := hperm.mem_iff.mpr (List.mem_range.mpr hb)
    obtain ⟨p, hp⟩ := List.mem_iff_getElem?.mp hmem
    obtain ⟨hplt, hpget⟩ := List.getElem?_eq_some.mp hp
    have hpn : p < n := by omega
    have hgetD : table.getD p 0 = st.nb_block := by
      rw [List.getD_eq_getElem?_getD, hp]; rfl
    have hcur : eoc_find_cursor (table.drop 0) st.nb_block 0 = some p :=
      eoc_find_cursor_spec table st.nb_block p hp p 0 (by omega) (fun i _ hip h => by
        have := (List.nodup_iff_getElem?_ne_getElem?.mp hnodup) i p hip hplt
        exact this (h.trans hp.symm))
    obtain ⟨pre, v, post, hsplit, hv, hpre⟩ := exists_split_video tags p (by omega)
    have hwfpre : ∀ t ∈ pre, t.wf := fun t ht => hwf t (by rw [hsplit]; simp [ht])
    have hwfv : v.wf := hwf v (by rw [hsplit]; simp)
    obtain ⟨hfpre, hfrest⟩ := eoc_fits_append table n _ _ pre (v :: post) 0 (hsplit ▸ hfits)
    rw [Nat.zero_add, hpre] at hfrest
    have hfv : eoc_new_size n (L / n) (L % n) (table.getD p 0) v ≤ 0xFFFFFF := by
      simp only [eoc_fits, hv, ne_eq, not_true_eq_false, if_false] at hfrest
      exact hfrest.1
    have hblk : ∀ c < n, (eoc_block hidden n (L / n) (L % n) (table.getD c 0)).length =
        eoc_share n (L / n) (L % n) (table.getD c 0) := fun c hc =>
      eoc_block_length hidden n L _ hL hL32 (by
        rw [List.getD_eq_getElem?_getD, List.getElem?_eq_getElem (by omega)]
        exact List.mem_range.mp (hperm.subset (List.getElem_mem _)))
    have hexact := eoc_exact_of_fits table n L hL32 (Or.inl hn256) pre 0 hwfpre (by omega) hfpre
    have hout : hostx.drop 13 =
        eoc_out R passwd hidden table n (L / n) (L % n) pre 0 ++
          (eoc_video_out R passwd hidden n (L / n) (L % n) (table.getD p 0) v ++
            (eoc_out R passwd hidden table n (L / n) (L % n) post (p + 1) ++ tail0)) := by
      rw [hhost, hsplit, eoc_out_append, Nat.zero_add, hpre]
      simp only [eoc_out, hv, ne_eq, not_true_eq_false, if_false, List.append_assoc]
    have hfuel : pre.length + 1 < (hostx.drop 13).length + 1 := by
      have := eoc_out_length R passwd hidden table n (L / n) (L % n) pre 0
      rw [hout]
      simp only [List.length_append, eoc_video_out, List.length_cons]
      omega
    have hwalk := eoc_walk_to R passwd hidden table n (L / n) (L % n) p v
      (eoc_out R passwd hidden table n (L / n) (L % n) post (p + 1) ++ tail0) hv (by omega)
      hfv hblk hpn pre 0 ((hostx.drop 13).length + 1) st.data_size hwfpre hfuel
      (by omega) hexact
    rw [← hout, hgetD] at hwalk
    have hstep := extract_eoc_block_spec R passwd hidden hostx table false n (L / n) (L % n) p
      st v _ hwfv (eoc_qr_lt n L (by omega) hL32) (by omega) hbytes
      (eoc_block_length hidden n L _ hL hL32 hb) hcur hwalk
    have hnext : eoc_blocks hidden n (L / n) (L % n) (st.nb_block + 1) =
        st.res ++ eoc_block hidden n (L / n) (L % n) st.nb_block := by
      rw [hres]; rfl
    by_cases hmore : st.nb_block + 1 < n
    · obtain ⟨st2, hst2, hres2⟩ := ih
        { pos := eoc_out R passwd hidden table n (L / n) (L % n) post (p + 1) ++ tail0,
          cursor := p, cpt_video_tag := p,
          data_size := eoc_new_size n (L / n) (L % n) st.nb_block v,
          nb_block := st.nb_block + 1,
          res := st.res ++ eoc_block hidden n (L / n) (L % n) st.nb_block }
        (by omega) (show (st.nb_block + 1) + fuel = n by omega) hnext.symm
      refine ⟨st2, ?_, hres2⟩
      simp only [extract_eoc_loop, hstep, hmore, if_true]
      exact hst2
    · have hlast : st.nb_block + 1 = n := by omega
      refine ⟨eoc_ext_state.mk
          (eoc_out R passwd hidden table n (L / n) (L % n) post (p + 1) ++ tail0) p p
          (eoc_new_size n (L / n) (L % n) st.nb_block v) (st.nb_block + 1)
          (st.res ++ eoc_block hidden n (L / n) (L % n) st.nb_block), ?_, ?_⟩
      · simp only [extract_eoc_loop, hstep, hmore, if_false]
      · rw [hlast] at hnext
        exact hnext.symm

/-- The loop on the blocks with the table `data2` (256 video tags or more) :
the table is the identity and every turn goes on from the tag it stopped at. -/
theorem extract_eoc_loop_large (R : Rand) (passwd hidden table hostx : List Nat)
    (n L : Nat) (tail0 : List Nat)
    (hn32 : n < 2 ^ 32) (hL : hidden.length = L) (hL32 : L < 2 ^ 32)
    (hbytes : ∀ x ∈ hidden, x < 256)
    (htab : ∀ c, c < n → table[c]? = some c) :
    ∀ (fuel : Nat) (st : eoc_ext_state) (rem : List flv_tag), 1 ≤ fuel →
      st.nb_block + fuel = n → st.nb_block + video_count rem = n → (∀ t ∈ rem, t.wf) →
      eoc_fits table n (L / n) (L % n) rem st.nb_block →
      st.pos = eoc_out R passwd hidden table n (L / n) (L % n) rem st.nb_block ++ tail0 →
      st.cpt_video_tag = (st.nb_block + 2 ^ 32 - 1) % 2 ^ 32 → st.cursor ≤ st.nb_block →
      st.res = eoc_blocks hidden n (L / n) (L % n) st.nb_block →
      ∃ st2, extract_eoc_loop R passwd hostx table true n (L / n) (L % n) fuel st = some st2 ∧
        st2.res = eoc_blocks hidden n (L / n) (L % n) n := by
  have hgetD : ∀ c, c < n → table.getD c 0 = c := fun c hc => by
    rw [List.getD_eq_getElem?_getD, htab c hc]; rfl
  intro fuel
  induction fuel with
  | zero => intro st _ h; omega
  | succ fuel ih =>
    intro st rem _ hnb hcount hwf hfits hpos hcpt hcursor hres
    have hb : st.nb_block < n := by omega
    have hcur : eoc_find_cursor (table.drop st.cursor) st.nb_block st.cursor =
        some st.nb_block :=
      eoc_find_cursor_spec table st.nb_block st.nb_block (htab _ hb)
        (st.nb_block - st.cursor) st.cursor (by omega) (fun i _ hip h => by
          rw [htab i (by omega)] at h
          have := Option.some.inj h
          omega)
    obtain ⟨pre, v, post, hsplit, hv, hpre⟩ := exists_split_video rem 0 (by omega)
    have hwfpre : ∀ t ∈ pre, t.wf := fun t ht => hwf t (by rw [hsplit]; simp [ht])
    have hwfv : v.wf := hwf v (by rw [hsplit]; simp)
    obtain ⟨hfpre, hfrest⟩ := eoc_fits_append table n _ _ pre (v :: post) st.nb_block
      (hsplit ▸ hfits)
    rw [hpre, Nat.add_zero] at hfrest
    have hfv : eoc_new_size n (L / n) (L % n) (table.getD st.nb_block 0) v ≤ 0xFFFFFF := by
      simp only [eoc_fits, hv, ne_eq, not_true_eq_false, if_false] at hfrest
      exact hfrest.1
    have hblk : ∀ c < n, (eoc_block hidden n (L / n) (L % n) (table.getD c 0)).length =
        eoc_share n (L / n) (L % n) (table.getD c 0) := fun c hc =>
      eoc_block_length hidden n L _ hL hL32 (by rw [hgetD c hc]; exact hc)
    have hexact := eoc_exact_of_fits table n L hL32 (Or.inr hgetD) pre st.nb_block hwfpre
      (by omega) hfpre
    have hout : st.pos =
        eoc_out R passwd hidden table n (L / n) (L % n) pre st.nb_block ++
          (eoc_video_out R passwd hidden n (L / n) (L % n) (table.getD st.nb_block 0) v ++
            (eoc_out R passwd hidden table n (L / n) (L % n) post (st.nb_block + 1) ++
              tail0)) := by
      rw [hpos, hsplit, eoc_out_append, hpre, Nat.add_zero]
      simp only [eoc_out, hv, ne_eq, not_true_eq_false, if_false, List.append_assoc]
    have hfuel : pre.length + 1 < st.pos.length + 1 := by
      have := eoc_out_length R passwd hidden table n (L / n) (L % n) pre st.nb_block
      rw [hout]
      simp only [List.length_append, eoc_video_out, List.length_cons]
      omega
    have hwalk := eoc_walk_to R passwd hidden table n (L / n) (L % n) st.nb_block v
      (eoc_out R passwd hidden table n (L / n) (L % n) post (st.nb_block + 1) ++ tail0) hv
      (by omega) hfv hblk hb pre st.nb_block (st.pos.length + 1) st.data_size hwfpre hfuel
      (by omega) hexact
    rw [← hout, ← hcpt, hgetD _ hb] at hwalk
    have hstep := extract_eoc_block_spec R passwd hidden hostx table true n (L / n) (L % n)
      st.nb_block st v _ hwfv (eoc_qr_lt n L (by omega) hL32) (by omega) hbytes
      (eoc_block_length hidden n L _ hL hL32 hb) hcur hwalk
    have hnext : eoc_blocks hidden n (L / n) (L % n) (st.nb_block + 1) =
        st.res ++ eoc_block hidden n (L / n) (L % n) st.nb_block := by
      rw [hres]; rfl
    have hcount2 : st.nb_block + 1 + video_count post = n := by
      rw [hsplit, video_count_append] at hcount
      simp only [video_count, hv, if_true] at hcount
      omega
    by_cases hmore : st.nb_block + 1 < n
    · obtain ⟨st2, hst2, hres2⟩ := ih
        (eoc_ext_state.mk
          (eoc_out R passwd hidden table n (L / n) (L % n) post (st.nb_block + 1) ++ tail0)
          st.nb_block st.nb_block
          (eoc_new_size n (L / n) (L % n) st.nb_block v) (st.nb_block + 1)
          (st.res ++ eoc_block hidden n (L / n) (L % n) st.nb_block)) post
        (by omega) (show (st.nb_block + 1) + fuel = n by omega) hcount2
        (fun t ht => hwf t (by rw [hsplit]; simp [ht]))
        (by
          simp only [eoc_fits, hv, ne_eq, not_true_eq_false, if_false] at hfrest
          exact hfrest.2)
        rfl (show st.nb_block = (st.nb_block + 1 + 2 ^ 32 - 1) % 2 ^ 32 by omega)
        (show st.nb_block ≤ st.nb_block + 1 by omega) hnext.symm
      refine ⟨st2, ?_, hres2⟩
      simp only [extract_eoc_loop, hstep, hmore, if_true]
      exact hst2
    · have hlast : st.nb_block + 1 = n := by omega
      refine ⟨eoc_ext_state.mk
          (eoc_out R passwd hidden table n (L / n) (L % n) post (st.nb_block + 1) ++ tail0)
          st.nb_block st.nb_block
          (eoc_new_size n (L / n) (L % n) st.nb_block v) (st.nb_block + 1)
          (st.res ++ eoc_block hidden n (L / n) (L % n) st.nb_block), ?_, ?_⟩
      · simp only [extract_eoc_loop, hstep, hmore, if_false]
      · rw [hlast] at hnext
        exact hnext.symm

/-! ## EOC : `extract_eoc` on what `insert_eoc` wrote -/

/-- The extraction, run on a header of 13 bytes followed by the tags that
`insert_eoc` rewrites and by anything else, gives the payload back. -/
theorem extract_eoc_spec (E : EocEnv) (x : info_s) (e : err_code)
    (hidden hdr tail0 : List Nat) (tags : List flv_tag)
    (hmode : x.mode = mode_e.STEGX_MODE_EXTRACT) (halgo : x.algo = algo_e.STEGX_ALGO_EOC)
    (hhdr : hdr.length = 13) (hwf : ∀ t ∈ tags, t.wf)
    (hn : 1 ≤ x.host.file_info.flv_nb_video_tag)
    (hn32 : x.host.file_info.flv_nb_video_tag < 2 ^ 32)
    (hcount : video_count tags = x.host.file_info.flv_nb_video_tag)
    (hL : hidden.length = x.hidden_length) (hL32 : x.hidden_length < 2 ^ 32)
    (hbytes : ∀ b ∈ hidden, b < 256)
    (hperm : (eoc_table E x.host.file_info.flv_nb_video_tag x.passwd).Perm
      (List.range x.host.file_info.flv_nb_video_tag))
    (hfits : eoc_fits (eoc_table E x.host.file_info.flv_nb_video_tag x.passwd)
      x.host.file_info.flv_nb_video_tag
      (x.hidden_length / x.host.file_info.flv_nb_video_tag)
      (x.hidden_length % x.host.file_info.flv_nb_video_tag) tags 0)
    (hhost : x.host.host = hdr ++ eoc_out E.R x.passwd hidden
      (eoc_table E x.host.file_info.flv_nb_video_tag x.passwd)
      x.host.file_info.flv_nb_video_tag
      (x.hidden_length / x.host.file_info.flv_nb_video_tag)
      (x.hidden_length % x.host.file_info.flv_nb_video_tag) tags 0 ++ tail0) :
    extract_eoc E x e = some ⟨0, hidden, e⟩ := by
  have hn0 : x.host.file_info.flv_nb_video_tag ≠ 0 := by omega
  have hdrop : x.host.host.drop 13 = eoc_out E.R x.passwd hidden
      (eoc_table E x.host.file_info.flv_nb_video_tag x.passwd)
      x.host.file_info.flv_nb_video_tag
      (x.hidden_length / x.host.file_info.flv_nb_video_tag)
      (x.hidden_length % x.host.file_info.flv_nb_video_tag) tags 0 ++ tail0 := by
    rw [hhost, List.append_assoc]; exact List.drop_left' hhdr
  have hall := eoc_blocks_all hidden x.host.file_info.flv_nb_video_tag x.hidden_length hn hL
    hL32
  have hloop : ∃ st2, extract_eoc_loop E.R x.passwd x.host.host
      (eoc_table E x.host.file_info.flv_nb_video_tag x.passwd)
      (decide (¬ x.host.file_info.flv_nb_video_tag < 256))
      x.host.file_info.flv_nb_video_tag
      (x.hidden_length / x.host.file_info.flv_nb_video_tag)
      (x.hidden_length % x.host.file_info.flv_nb_video_tag)
      x.host.file_info.flv_nb_video_tag
      (eoc_ext_state.mk (x.host.host.drop 13) 0 (2 ^ 32 - 1) 0 0 []) = some st2 ∧
      st2.res = hidden := by
    rw [← hall]
    by_cases h256 : x.host.file_info.flv_nb_video_tag < 256
    · rw [show decide (¬ x.host.file_info.flv_nb_video_tag < 256) = false by
        simp only [h256, not_true_eq_false, decide_False]]
      exact extract_eoc_loop_small E.R x.passwd hidden _ x.host.host _ x.hidden_length tags
        tail0 h256 hL hL32 hbytes hwf hcount hperm hfits hdrop _
        (eoc_ext_state.mk (x.host.host.drop 13) 0 (2 ^ 32 - 1) 0 0 []) hn
        (Nat.zero_add _) rfl
    · rw [show decide (¬ x.host.file_info.flv_nb_video_tag < 256) = true by
        simp only [h256, not_false_eq_true, decide_True]]
      have htab : ∀ c, c < x.host.file_info.flv_nb_video_tag →
          (eoc_table E x.host.file_info.flv_nb_video_tag x.passwd)[c]? = some c := by
        intro c hc
        rw [eoc_table, if_neg h256]
        exact List.getElem?_range hc
      exact extract_eoc_loop_large E.R x.passwd hidden _ x.host.host _ x.hidden_length tail0
        hn32 hL hL32 hbytes htab _
        (eoc_ext_state.mk (x.host.host.drop 13) 0 (2 ^ 32 - 1) 0 0 []) tags hn
        (Nat.zero_add _) (by rw [hcount]; exact Nat.zero_add _) hwf hfits hdrop
        (show (2 ^ 32 - 1 : Nat) = (0 + 2 ^ 32 - 1) % 2 ^ 32 by norm_num)
        (Nat.le_refl 0) rfl
  obtain ⟨st2, hst2, hres⟩ := hloop
  simp only [extract_eoc, hmode, halgo, ne_eq, not_true_eq_false, or_self, if_false, hn0]
  rw [hst2]
  show some (call_result.mk 0 st2.res e) = _
  rw [hres]

/-! ## EOC : a host with a single video tag -/

/-- The stream written for a host whose only tag is a video tag, in terms of
the two sizes as the 32-bit arithmetic of `insert_eoc` computes them. -/
theorem insert_eoc_single (E : EocEnv) (infos : info_s) (e : err_code) (hdr : List Nat)
    (t : flv_tag) (rest : List Nat) (h : EocHost E infos hdr [t] rest)
    (hmode : infos.mode = mode_e.STEGX_MODE_INSERT)
    (halgo : infos.algo = algo_e.STEGX_ALGO_EOC) (s p : Nat)
    (hs : ((t.size + infos.hidden_length) % 2 ^ 32 + 1) % 2 ^ 32 = s)
    (hp : ((t.prev + infos.hidden_length) % 2 ^ 32 + 1) % 2 ^ 32 = p)
    (hfit : s ≤ 0xFFFFFF) :
    insert_eoc E infos e = some ⟨0,
      hdr ++ [9, (s / 2 ^ 16) % 256, (s / 2 ^ 8) % 256, s % 256, t.ts] ++ t.hdr6 ++
        t.payload ++ [28] ++
        eoc_mask E.R (E.R.stegx_srand (E.R.create_seed infos.passwd)) infos.hidden ++
        be32_bytes p ++ rest ++ (E.write_signature infos).2, e⟩ := by
  have ht : t.tag_type = 9 := h.ends
  have hn : infos.host.file_info.flv_nb_video_tag = 1 := by
    rw [h.count]; simp only [video_count, ht, if_true]
  have htab : (eoc_table E infos.host.file_info.flv_nb_video_tag infos.passwd).getD 0 0 = 0 := by
    have := h.table_lt 0 (by omega)
    omega
  obtain ⟨hsize, hts, h6, hpay, hprev⟩ := h.wf t (List.mem_singleton_self t)
  have hL := h.hidden_lt
  have hshare : eoc_share 1 (infos.hidden_length / 1) (infos.hidden_length % 1) 0 =
      infos.hidden_length := by
    simp only [eoc_share, Nat.div_one, Nat.mod_one, Nat.zero_add, Nat.sub_self, if_true]
    exact Nat.mod_eq_of_lt hL
  have hnew : eoc_new_size 1 (infos.hidden_length / 1) (infos.hidden_length % 1) 0 t = s := by
    rw [eoc_new_size, hshare]; exact hs
  have hnewp : eoc_new_prev 1 (infos.hidden_length / 1) (infos.hidden_length % 1) 0 t = p := by
    rw [eoc_new_prev, hshare]; exact hp
  have hblock : eoc_block infos.hidden 1 (infos.hidden_length / 1) (infos.hidden_length % 1) 0 =
      infos.hidden := by
    rw [eoc_block, hshare, Nat.zero_mul, Nat.zero_mod, List.drop_zero]
    exact List.take_of_length_le (Nat.le_of_eq h.length_hidden)
  have hfits : eoc_fits (eoc_table E infos.host.file_info.flv_nb_video_tag infos.passwd)
      infos.host.file_info.flv_nb_video_tag
      (infos.hidden_length / infos.host.file_info.flv_nb_video_tag)
      (infos.hidden_length % infos.host.file_info.flv_nb_video_tag) [t] 0 := by
    simp only [eoc_fits, ht, ne_eq, not_true_eq_false, if_false, and_true, htab]
    rw [hn, hnew]
    exact hfit
  rw [insert_eoc_spec E infos e hdr [t] rest h hmode halgo hfits]
  simp only [eoc_out, ht, ne_eq, not_true_eq_false, if_false, htab, List.append_nil]
  rw [hn]
  simp only [eoc_video_out, eoc_video_body, hnew, hnewp, hblock, ht, Nat.mod_eq_of_lt hts,
    List.append_assoc]

/-! ## The inspection changes the member `file_info` only -/

theorem fill_host_info_frame (H : HostEnv) (infos : info_s) (r : Int) (infos1 : info_s)
    (h : fill_host_info H infos = some (r, infos1)) :
    infos1 = { infos with host := { infos.host with file_info := infos1.host.file_info } } := by
  unfold fill_host_info at h
  simp only [] at h
  split_ifs at h
  all_goals first
    | (obtain ⟨x, -, hx⟩ := Option.map_eq_some'.mp h
       rw [← (Prod.mk.inj hx).2])
    | rw [← (Prod.mk.inj (Option.some.inj h)).2]

/-! ## The inspection of a FLV host -/

theorem flv_tag.bytes_length (t : flv_tag) (hwf : t.wf) : t.bytes.length = t.size + 15 := by
  obtain ⟨_, _, h6, hpay, _⟩ := hwf
  rw [flv_tag.bytes_eq]
  simp [h6, hpay, be32_bytes_length]
  omega

theorem fill_host_info_flv_loop_tag (fuel : Nat) (t : flv_tag) (rest : List Nat) (v : flv_s)
    (hwf : t.wf) (hk : t.known) :
    fill_host_info_flv_loop (fuel + 1) (t.bytes ++ rest) v =
      fill_host_info_flv_loop fuel rest (t.count v) := by
  obtain ⟨hsize, hts, h6, hpay, hprev⟩ := hwf
  have hlen1 : (t.hdr6 ++ t.payload).length = t.size + 6 := by
    simp [h6, hpay]; omega
  have hdrop : List.drop (t.size + 6) (t.hdr6 ++ t.payload ++ be32_bytes t.prev ++ rest) =
      be32_bytes t.prev ++ rest := by
    rw [List.append_assoc (t.hdr6 ++ t.payload)]
    exact List.drop_left' hlen1
  have hcond : ¬ (t.tag_type ≠ 18 ∧ t.tag_type ≠ 9 ∧ ¬ (t.tag_type = 8 ∨ t.tag_type = 24)) := by
    unfold flv_tag.known at hk
    omega
  have hb : t.bytes ++ rest = t.tag_type :: (t.size / 2 ^ 16) % 256 :: (t.size / 2 ^ 8) % 256 ::
      t.size % 256 :: t.ts :: (t.hdr6 ++ t.payload ++ be32_bytes t.prev ++ rest) := by
    rw [flv_tag.bytes_eq]; simp
  have hp : be32_bytes t.prev ++ rest = (t.prev / 2 ^ 24) % 256 :: (t.prev / 2 ^ 16) % 256 ::
      (t.prev / 2 ^ 8) % 256 :: t.prev % 256 :: rest := rfl
  rw [hb]
  simp only [fill_host_info_flv_loop, hcond, if_false, be32_size t.size t.ts hsize, hdrop, hp,
    be32_be32_bytes t.prev hprev]
  refine congrArg _ ?_
  unfold flv_tag.count
  by_cases h18 : t.tag_type = 18
  · have h9 : ¬ t.tag_type = 9 := by omega
    simp only [if_pos h18, if_neg h9]
  · by_cases h9 : t.tag_type = 9
    · simp only [if_neg h18, if_pos h9]
    · simp only [if_neg h18, if_neg h9]

theorem metadata_count_le : ∀ (tags : List flv_tag), metadata_count tags ≤ tags.length := by
  intro tags
  induction tags with
  | nil => simp [metadata_count]
  | cons t ts ih =>
    simp only [metadata_count, List.length_cons]
    split_ifs <;> omega

theorem video_count_le : ∀ (tags : List flv_tag), video_count tags ≤ tags.length := by
  intro tags
  induction tags with
  | nil => simp [video_count]
  | cons t ts ih =>
    simp only [video_count, List.length_cons]
    split_ifs <;> omega

/-- The loop of the inspection over well-formed tags of known types whose
previous-tag-size is 11 plus the size of the payload : it counts the tags and
adds their lengths modulo `2 ^ 32`, then stops at the end of the file or after
one byte that is not a known type. -/
theorem fill_host_info_flv_loop_tags (tail : List Nat)
    (htail : ∀ b ∈ tail.head?, b ≠ 18 ∧ b ≠ 9 ∧ b ≠ 8 ∧ b ≠ 24) :
    ∀ (tags : List flv_tag) (fuel : Nat) (v : flv_s),
      (∀ t ∈ tags, t.wf) → (∀ t ∈ tags, t.known) → (∀ t ∈ tags, t.prev = 11 + t.size) →
      tags.length < fuel →
      fill_host_info_flv_loop fuel (flv_bytes tags ++ tail) v =
        some (tail.drop 1,
          ⟨if video_count tags = 0 then v.nb_video_tag
              else (v.nb_video_tag + video_count tags) % 2 ^ 32,
            if metadata_count tags = 0 then v.nb_metadata_tag
              else (v.nb_metadata_tag + metadata_count tags) % 2 ^ 32,
            if tags = [] then v.file_size
              else (v.file_size + (flv_bytes tags).length) % 2 ^ 32⟩) := by
  intro tags
  induction tags with
  | nil =>
    intro fuel v _ _ _ hfuel
    obtain ⟨fuel, rfl⟩ : ∃ f, fuel = f + 1 := ⟨fuel - 1, by simp at hfuel; omega⟩
    simp only [flv_bytes, List.nil_append, video_count, metadata_count, if_true]
    cases tail with
    | nil => rfl
    | cons b rest =>
      have hb := htail b (by simp)
      have hcond : b ≠ 18 ∧ b ≠ 9 ∧ ¬ (b = 8 ∨ b = 24) := by omega
      simp only [fill_host_info_flv_loop]
      rw [if_pos hcond]
      rfl
  | cons t ts ih =>
    intro fuel v hwf hk hprev hfuel
    obtain ⟨fuel, rfl⟩ : ∃ f, fuel = f + 1 := ⟨fuel - 1, by simp at hfuel; omega⟩
    have hwft : t.wf := hwf t (List.mem_cons_self _ _)
    have hkt : t.known := hk t (List.mem_cons_self _ _)
    have hpt : t.prev = 11 + t.size := hprev t (List.mem_cons_self _ _)
    have hbytes : flv_bytes (t :: ts) ++ tail = t.bytes ++ (flv_bytes ts ++ tail) := by
      simp [flv_bytes]
    rw [hbytes, fill_host_info_flv_loop_tag fuel t _ v hwft hkt,
      ih fuel (t.count v) (fun x hx => hwf x (List.mem_cons_of_mem _ hx))
        (fun x hx => hk x (List.mem_cons_of_mem _ hx))
        (fun x hx => hprev x (List.mem_cons_of_mem _ hx)) (by simp at hfuel; omega)]
    have hlen := t.bytes_length hwft
    have hsz := hwft.1
    have hne : ¬ (t :: ts = []) := by simp
    have hts : (ts = []) → (flv_bytes ts).length = 0 := by intro h; rw [h]; rfl
    refine congrArg some (Prod.ext rfl ?_)
    simp only [flv_tag.count, video_count, metadata_count, flv_bytes, List.length_append, hlen,
      hpt, if_neg hne]
    unfold flv_tag.known at hkt
    congr 1
    · by_cases h9 : t.tag_type = 9
      · simp only [if_pos h9]
        split_ifs <;> omega
      · simp only [if_neg h9, Nat.zero_add]
    · by_cases h18 : t.tag_type = 18
      · simp only [if_pos h18]
        split_ifs <;> omega
      · simp only [if_neg h18, Nat.zero_add]
    · by_cases hts0 : ts = []
      · rw [if_pos hts0, hts hts0]
        omega
      · rw [if_neg hts0]
        omega

/-- The FLV branch of the inspection on a header of 13 bytes that declares the
header size 9, followed by well-formed tags and by `tail` : the counts and the
length of the header and of the tags modulo `2 ^ 32`; the value returned is 1
only in insertion mode when more than one byte follows the tags. -/
theorem fill_host_info_flv_spec (mode : mode_e) (host hdr : List Nat) (tags : List flv_tag)
    (tail : List Nat) (hhost : host = hdr ++ flv_bytes tags ++ tail) (hlen : hdr.length = 13)
    (hsize : be32 (hdr.getD 5 0) (hdr.getD 6 0) (hdr.getD 7 0) (hdr.getD 8 0) = 9)
    (hwf : ∀ t ∈ tags, t.wf) (hk : ∀ t ∈ tags, t.known)
    (hprev : ∀ t ∈ tags, t.prev = 11 + t.size)
    (htail : ∀ b ∈ tail.head?, b ≠ 18 ∧ b ≠ 9 ∧ b ≠ 8 ∧ b ≠ 24) :
    fill_host_info_flv mode host =
      some (if mode = mode_e.STEGX_MODE_INSERT ∧ tail.drop 1 ≠ [] then 1 else 0,
        ⟨video_count tags % 2 ^ 32, metadata_count tags % 2 ^ 32,
          (13 + (flv_bytes tags).length) % 2 ^ 32⟩) := by
  rcases hdr with _ | ⟨x0, _ | ⟨x1, _ | ⟨x2, _ | ⟨x3, _ | ⟨x4, _ | ⟨x5, _ | ⟨x6, _ | ⟨x7,
    _ | ⟨x8, _ | ⟨x9, _ | ⟨x10, _ | ⟨x11, _ | ⟨x12, _ | ⟨x13, hdr⟩⟩⟩⟩⟩⟩⟩⟩⟩⟩⟩⟩⟩⟩ <;>
    simp only [List.length_cons, List.length_nil] at hlen <;> try omega
  simp only [List.getD_cons_succ, List.getD_cons_zero] at hsize
  have hfuel : tags.length < (x9 :: x10 :: x11 :: x12 :: (flv_bytes tags ++ tail)).length + 1 := by
    have := flv_bytes_length tags
    simp only [List.length_cons, List.length_append]
    omega
  have hloop := fill_host_info_flv_loop_tags tail htail tags _ ⟨0, 0, 13⟩ hwf hk hprev hfuel
  have hnv : (if video_count tags = 0 then 0 else (0 + video_count tags) % 2 ^ 32) =
      video_count tags % 2 ^ 32 := by
    split_ifs with h
    · rw [h]; rfl
    · rw [Nat.zero_add]
  have hnm : (if metadata_count tags = 0 then 0 else (0 + metadata_count tags) % 2 ^ 32) =
      metadata_count tags % 2 ^ 32 := by
    split_ifs with h
    · rw [h]; rfl
    · rw [Nat.zero_add]
  have hfs : (if tags = [] then 13 else (13 + (flv_bytes tags).length) % 2 ^ 32) =
      (13 + (flv_bytes tags).length) % 2 ^ 32 := by
    split_ifs with h
    · rw [h]; rfl
    · rfl
  dsimp only at hloop
  rw [hnv, hnm, hfs] at hloop
  have h13 : (9 % 2 ^ 32 + 4) % 2 ^ 32 = 13 := by norm_num
  rw [hhost]
  simp only [fill_host_info_flv, List.cons_append, List.nil_append, List.drop_succ_cons,
    List.drop_zero, hsize, h13, hloop]
  split_ifs <;> rfl

theorem fill_host_info_of_flv (H : HostEnv) (infos : info_s) (code : Int) (v : flv_s)
    (htype : infos.host.type = type_e.FLV)
    (h : fill_host_info_flv infos.mode infos.host.host = some (code, v)) :
    fill_host_info H infos =
      some (code, { infos with host := { infos.host with file_info := file_info_u.flv v } }) := by
  simp only [fill_host_info, htype, h, reduceCtorEq, or_self, if_false, if_true, Option.map_some']

theorem flv_bytes_replicate_length (t : flv_tag) (hwf : t.wf) :
    ∀ n, (flv_bytes (List.replicate n t)).length = n * (t.size + 15) := by
  intro n
  induction n with
  | zero => simp [flv_bytes]
  | succ n ih =>
    rw [List.replicate_succ, flv_bytes, List.length_append, ih, t.bytes_length hwf]
    ring

theorem video_count_replicate (t : flv_tag) :
    ∀ n, video_count (List.replicate n t) = n * (if t.tag_type = 9 then 1 else 0) := by
  intro n
  induction n with
  | zero => simp [video_count]
  | succ n ih =>
    rw [List.replicate_succ, video_count, ih]
    ring

theorem metadata_count_replicate (t : flv_tag) :
    ∀ n, metadata_count (List.replicate n t) = n * (if t.tag_type = 18 then 1 else 0) := by
  intro n
  induction n with
  | zero => simp [metadata_count]
  | succ n ih =>
    rw [List.replicate_succ, metadata_count, ih]
    ring

/-! ## The keystream -/

theorem eoc_mask_eq (R : Rand) : ∀ (bs : List Nat) (seed : Nat),
    eoc_mask R seed bs = xor_keystream R.stegx_rand seed bs := by
  intro bs
  induction bs with
  | nil => intro seed; rfl
  | cons b bs ih => intro seed; simp only [eoc_mask, xor_keystream, ih]

theorem xor_keystream_length (rand : Nat → Nat × Nat) : ∀ (bs : List Nat) (seed : Nat),
    (xor_keystream rand seed bs).length = bs.length := by
  intro bs
  induction bs with
  | nil => intro seed; rfl
  | cons b bs ih => intro seed; simp only [xor_keystream, List.length_cons, ih]

theorem xor_keystream_lt (rand : Nat → Nat × Nat) : ∀ (bs : List Nat) (seed : Nat),
    ∀ x ∈ xor_keystream rand seed bs, x < 256 := by
  intro bs
  induction bs with
  | nil => intro seed x hx; simp [xor_keystream] at hx
  | cons b bs ih =>
    intro seed x hx
    simp only [xor_keystream, List.mem_cons] at hx
    rcases hx with rfl | hx
    · exact Nat.mod_lt _ (by decide)
    · exact ih _ x hx

theorem xor_zero_mod (b : Nat) (hb : b < 256) : (b ^^^ (0 % 255)) % 256 = b := by
  rw [Nat.zero_mod, Nat.xor_zero, Nat.mod_eq_of_lt hb]

/-- The insertion loop of the direct path : running it on the payload is
running it, with a keystream of zeros, on the masked payload. -/
theorem direct_insert_loop_mute (R : Rand) : ∀ (n seed s0 : Nat) (host hidden res : List Nat),
    direct_insert_loop R n seed host hidden res =
      direct_insert_loop R.mute n s0 host (xor_keystream R.stegx_rand seed hidden) res := by
  intro n
  induction n with
  | zero => intro seed s0 host hidden res; rfl
  | succ n ih =>
    intro seed s0 host hidden res
    cases hidden with
    | nil => rfl
    | cons b hidden =>
      have hlt : (b ^^^ ((R.stegx_rand seed).1 % 255)) % 256 < 256 := Nat.mod_lt _ (by decide)
      simp only [direct_insert_loop, xor_keystream, Rand.mute, xor_zero_mod _ hlt]
      rcases hres : insert_pairs ((b ^^^ ((R.stegx_rand seed).1 % 255)) % 256) [0, 1, 2, 3] 0xC0
        host res with ⟨ok, host1, res1⟩
      cases ok
      · rfl
      · exact ih _ s0 host1 hidden res1

theorem extract_pairs_lt : ∀ (is : List Nat) (bc : Nat) (host : List Nat) (v : Nat)
    (host1 : List Nat), bc < 256 → extract_pairs is bc host = (some v, host1) → v < 256 := by
  intro is
  induction is with
  | nil =>
    intro bc host v host1 hbc h
    simp only [extract_pairs, Prod.mk.injEq, Option.some.injEq] at h
    omega
  | cons i is ih =>
    intro bc host v host1 _ h
    cases host with
    | nil => simp [extract_pairs] at h
    | cons x host =>
      simp only [extract_pairs] at h
      exact ih _ host v host1 (Nat.mod_lt _ (by decide)) h

theorem direct_extract_loop_append (R : Rand) : ∀ (n seed : Nat) (host res : List Nat),
    direct_extract_loop R n seed host res =
      ((direct_extract_loop R n seed host []).1,
        res ++ (direct_extract_loop R n seed host []).2) := by
  intro n
  induction n with
  | zero => intro seed host res; simp [direct_extract_loop]
  | succ n ih =>
    intro seed host res
    rcases hp : extract_pairs [0, 1, 2, 3] 0 host with ⟨v, host1⟩
    cases v with
    | none => simp [direct_extract_loop, hp]
    | some v =>
      simp only [direct_extract_loop, hp]
      rw [ih _ host1 (res ++ _), ih _ host1 ([] ++ _)]
      simp

/-- The extraction loop of the direct path : the bytes it writes are those that
it writes with a keystream of zeros, masked. -/
theorem direct_extract_loop_mute (R : Rand) : ∀ (n seed s0 : Nat) (host res : List Nat),
    direct_extract_loop R n seed host res =
      ((direct_extract_loop R.mute n s0 host []).1,
        res ++ xor_keystream R.stegx_rand seed (direct_extract_loop R.mute n s0 host []).2) := by
  intro n
  induction n with
  | zero => intro seed s0 host res; simp [direct_extract_loop, xor_keystream]
  | succ n ih =>
    intro seed s0 host res
    rcases hp : extract_pairs [0, 1, 2, 3] 0 host with ⟨v, host1⟩
    cases v with
    | none => simp [direct_extract_loop, hp, xor_keystream]
    | some v =>
      have hv : v < 256 := extract_pairs_lt _ 0 host v host1 (by decide) hp
      simp only [direct_extract_loop, hp]
      rw [ih _ s0 host1 (res ++ _), direct_extract_loop_append R.mute n _ host1 ([] ++ _)]
      simp only [Rand.mute, xor_zero_mod v hv, List.nil_append, List.singleton_append,
        xor_keystream, List.append_assoc]
      rfl

theorem xor_mod_left (a k : Nat) : ((a % 256) ^^^ k) % 256 = (a ^^^ k) % 256 := by
  apply Nat.eq_of_testBit_eq
  intro i
  have h256 : (256 : Nat) = 2 ^ 8 := by norm_num
  simp only [h256, Nat.testBit_mod_two_pow, Nat.testBit_xor]
  by_cases h : i < 8 <;> simp [h]

theorem eoc_mask_mute (R : Rand) : ∀ (bs : List Nat) (seed : Nat),
    eoc_mask R.mute seed bs = bs.map (· % 256) := by
  intro bs
  induction bs with
  | nil => intro seed; rfl
  | cons b bs ih =>
    intro seed
    simp only [eoc_mask, List.map_cons, ih]
    simp [Rand.mute]

theorem map_mod_of_lt : ∀ (bs : List Nat), (∀ x ∈ bs, x < 256) → bs.map (· % 256) = bs := by
  intro bs
  induction bs with
  | nil => intro _; rfl
  | cons b bs ih =>
    intro h
    rw [List.map_cons, ih (fun x hx => h x (List.mem_cons_of_mem _ hx)),
      Nat.mod_eq_of_lt (h b (List.mem_cons_self _ _))]

theorem xor_keystream_map_mod (rand : Nat → Nat × Nat) : ∀ (bs : List Nat) (seed : Nat),
    xor_keystream rand seed (bs.map (· % 256)) = xor_keystream rand seed bs := by
  intro bs
  induction bs with
  | nil => intro seed; rfl
  | cons b bs ih =>
    intro seed
    simp only [List.map_cons, xor_keystream, ih, xor_mod_left]

/-- One block of the extraction of EOC : the bytes it writes are those that it
writes with a keystream of zeros, masked with the keystream restarted from the
password. -/
theorem extract_eoc_block_mute (R : Rand) (passwd host table : List Nat) (datab : Bool)
    (n q r : Nat) (st : eoc_ext_state) :
    extract_eoc_block R passwd host table datab n q r st =
      (extract_eoc_block R.mute passwd host table datab n q r { st with res := [] }).map
        fun st0 =>
          { st0 with
            res := st.res ++
              xor_keystream R.stegx_rand (R.stegx_srand (R.create_seed passwd)) st0.res } := by
  have hs : R.mute.stegx_srand (R.mute.create_seed passwd) =
      R.stegx_srand (R.create_seed passwd) := rfl
  unfold extract_eoc_block
  simp only [hs]
  rcases eoc_find_cursor (table.drop (if datab then st.cursor else 0)) st.nb_block
      (if datab then st.cursor else 0) with _ | cursor
  · rfl
  · simp only []
    rcases eoc_walk cursor ((if datab then st.pos else host.drop 13).length + 1)
        (if datab then st.pos else host.drop 13)
        (if datab then st.cpt_video_tag else 2 ^ 32 - 1) st.data_size with _ | ⟨pos1, cpt1, ds⟩
    · rfl
    · simp only []
      split_ifs <;> simp only [Option.map_some', Option.map_none', eoc_mask_mute,
        List.nil_append] <;> simp only [xor_keystream_map_mod, eoc_mask_eq]

/-- The insertion loop of EOC : running it on the payload is running it, with
a keystream of zeros, on a payload whose blocks are the masked blocks. -/
theorem insert_eoc_loop_mute (R : Rand) (passwd hidden masked table : List Nat) (n q r : Nat)
    (hblocks : ∀ b ∈ table,
      (masked.drop ((b * q) % 2 ^ 32)).take (eoc_share n q r b) =
        xor_keystream R.stegx_rand (R.stegx_srand (R.create_seed passwd))
          ((hidden.drop ((b * q) % 2 ^ 32)).take (eoc_share n q r b))) :
    ∀ (fuel : Nat) (host res : List Nat) (cpt : Nat),
      insert_eoc_loop R passwd hidden table n q r fuel host res cpt =
        insert_eoc_loop R.mute passwd masked table n q r fuel host res cpt := by
  have hs : R.mute.stegx_srand (R.mute.create_seed passwd) =
      R.stegx_srand (R.create_seed passwd) := rfl
  intro fuel
  induction fuel with
  | zero => intro host res cpt; rfl
  | succ fuel ih =>
    intro host res cpt
    rcases host with _ | ⟨tag_type, _ | ⟨b0, _ | ⟨b1, _ | ⟨b2, _ | ⟨b3, host1⟩⟩⟩⟩⟩ <;>
      try rfl
    simp only [insert_eoc_loop, hs]
    by_cases ht : tag_type = 9
    · simp only [ht, ne_eq, not_true_eq_false, if_false]
      rcases hget : table[cpt]? with _ | nb_block
      · rfl
      · have hmem : nb_block ∈ table := List.getElem?_mem hget
        have hb := hblocks nb_block hmem
        have hlen : ((masked.drop ((nb_block * q) % 2 ^ 32)).take (eoc_share n q r nb_block)).length =
            ((hidden.drop ((nb_block * q) % 2 ^ 32)).take (eoc_share n q r nb_block)).length := by
          rw [hb, xor_keystream_length]
        have hmask : eoc_mask R.mute (R.stegx_srand (R.create_seed passwd))
            ((masked.drop ((nb_block * q) % 2 ^ 32)).take (eoc_share n q r nb_block)) =
            eoc_mask R (R.stegx_srand (R.create_seed passwd))
              ((hidden.drop ((nb_block * q) % 2 ^ 32)).take (eoc_share n q r nb_block)) := by
          rw [eoc_mask_mute, hb, map_mod_of_lt _ (xor_keystream_lt _ _ _), eoc_mask_eq]
        simp only [hlen, hmask, ih]
    · simp only [ht, ne_eq, not_false_eq_true, if_true, ih]

/-! ## The keystream on the MP3 path -/

theorem keystream_seed_succ (rand : Nat → Nat × Nat) : ∀ (k seed : Nat),
    keystream_seed rand seed (k + 1) = (rand (keystream_seed rand seed k)).2 := by
  intro k
  induction k with
  | zero => intro seed; rfl
  | succ k ih => intro seed; rw [keystream_seed, ih]; rfl

theorem xor_keystream_snoc (rand : Nat → Nat × Nat) : ∀ (bs : List Nat) (seed x : Nat),
    xor_keystream rand seed (bs ++ [x]) =
      xor_keystream rand seed bs ++
        [(x ^^^ ((rand (keystream_seed rand seed bs.length)).1 % 255)) % 256] := by
  intro bs
  induction bs with
  | nil => intro seed x; rfl
  | cons b bs ih =>
    intro seed x
    rw [List.cons_append, xor_keystream, ih, xor_keystream, List.length_cons, keystream_seed,
      List.cons_append]

theorem mp3_extract_bits_mute (M : Mp3Env) (hdr : Nat) (pre : List Nat) (seed0 : Nat) :
    ∀ (l : List Nat) (st st0 : mp3_ext_state), mp3_ext_rel M.rand pre seed0 st st0 →
      mp3_ext_rel M.rand pre seed0 (mp3_extract_bits M hdr l st)
        (mp3_extract_bits M.mute hdr l st0) := by
  intro l
  induction l with
  | nil => intro st st0 h; exact h
  | cons c l ih =>
    intro st st0 h
    obtain ⟨hb, hcnt, hs, hlt, hres, hseed⟩ := h
    simp only [mp3_extract_bits]
    apply ih
    by_cases h0 : st.b_cnt = 0
    · have h00 : st0.b_cnt = 0 := by rw [← hcnt]; exact h0
      simp only [h0, h00, if_true]
      refine ⟨rfl, rfl, ?_, Nat.mod_lt _ (by decide), ?_, ?_⟩
      · show (st.s + 1) % 2 ^ 32 = (st0.s + 1) % 2 ^ 32
        rw [hs]
      · show st.res ++ _ = _
        have hb0 : st0.b < 256 := by rw [← hb]; exact hlt
        simp only [Mp3Env.mute, xor_zero_mod _ hb0]
        rw [xor_keystream_snoc, hres, List.append_assoc, ← hseed, hb]
      · show (M.rand st.seed).2 = _
        simp only [Mp3Env.mute, List.length_append, List.length_singleton]
        rw [keystream_seed_succ, ← hseed]
    · have h00 : ¬ st0.b_cnt = 0 := by rw [← hcnt]; exact h0
      simp only [h0, h00, if_false]
      refine ⟨?_, ?_, hs, Nat.mod_lt _ (by decide), hres, hseed⟩
      · show (st.b ||| _) % 256 = (st0.b ||| _) % 256
        rw [hb, hcnt]
      · show st.b_cnt - 1 = st0.b_cnt - 1
        rw [hcnt]

theorem mp3_extract_frames_rel (M : Mp3Env) (hidden_length : Nat) (pre : List Nat)
    (seed0 : Nat) :
    ∀ (fuel : Nat) (host : List Nat) (st st0 : mp3_ext_state),
      mp3_ext_rel M.rand pre seed0 st st0 →
      mp3_extract_frames M hidden_length fuel host st =
        (mp3_extract_frames M.mute hidden_length fuel host st0).map
          fun p => (p.1, pre ++ xor_keystream M.rand seed0 p.2) := by
  intro fuel
  induction fuel with
  | zero => intro host st st0 _; rfl
  | succ fuel ih =>
    intro host st st0 h
    have hs : st.s = st0.s := h.2.2.1
    have hres : st.res = pre ++ xor_keystream M.rand seed0 st0.res := h.2.2.2.2.1
    rcases host with _ | ⟨b0, _ | ⟨b1, _ | ⟨b2, _ | ⟨b3, host1⟩⟩⟩⟩ <;>
      try (simp only [mp3_extract_frames, Option.map_some', hres])
    by_cases hlt : st.s < hidden_length
    · have hlt0 : st0.s < hidden_length := by rw [← hs]; exact hlt
      have hbits := mp3_extract_bits_mute M (be32 b0 b1 b2 b3) pre seed0
        (List.range MP3_HDR_NB_BITS_MODIF) st st0 h
      simp only [hlt, hlt0, if_true, mp3_mpeg_fr_seek]
      exact ih _ _ _ hbits
    · have hlt0 : ¬ st0.s < hidden_length := by rw [← hs]; exact hlt
      simp only [hlt, hlt0, if_false, Option.map_some', hres]

/-- The extraction loop of the MP3 path : the bytes it writes are those that it
writes with a keystream of zeros, masked. -/
theorem mp3_extract_frames_mute (M : Mp3Env) (hidden_length fuel seed s0 : Nat)
    (host : List Nat) :
    mp3_extract_frames M hidden_length fuel host
        { b := 0, b_cnt := 8, s := 0, seed := seed, res := [] } =
      (mp3_extract_frames M.mute hidden_length fuel host
        { b := 0, b_cnt := 8, s := 0, seed := s0, res := [] }).map
        fun p => (p.1, xor_keystream M.rand seed p.2) :=
  mp3_extract_frames_rel M hidden_length [] seed fuel host _ _
    ⟨rfl, rfl, rfl, show (0 : Nat) < 256 by decide, rfl, rfl⟩

theorem mp3_insert_bits_mute (M : Mp3Env) :
    ∀ (fuel : Nat) (st st0 : mp3_ins_state), mp3_ins_rel M.rand st st0 →
      mp3_ins_rel M.rand (mp3_insert_bits M fuel st) (mp3_insert_bits M.mute fuel st0) := by
  intro fuel
  induction fuel with
  | zero => intro st st0 h; exact h
  | succ fuel ih =>
    intro st st0 h
    obtain ⟨hdr, hc, b, bc, seed, hid, eof⟩ := st
    obtain ⟨hdr0, hc0, b0, bc0, seed0, hid0, eof0⟩ := st0
    obtain ⟨h1, h2, h3, h4, hle, h5⟩ := h
    dsimp only at h1 h2 h3 h4 hle h5
    subst h1 h2 h3 h4
    simp only [mp3_insert_bits]
    by_cases hz : bc = 0
    · subst hz
      rw [if_neg (by decide)] at h5
      obtain ⟨hb, hh⟩ := h5
      subst hb
      cases hid with
      | nil =>
        subst hh
        simp only [xor_keystream, if_true]
        simp only [ne_eq, not_true_eq_false, false_and, if_false]
        exact ⟨rfl, rfl, rfl, rfl, Nat.zero_le _, by simp [xor_keystream]⟩
      | cons x rest =>
        subst hh
        simp only [xor_keystream, if_true]
        by_cases hlt : hc < MP3_HDR_NB_BITS_MODIF
        · simp only [hlt, ne_eq, OfNat.ofNat_ne_zero, not_false_eq_true, and_self, if_true]
          apply ih
          have hlt8 : (x ^^^ ((M.rand seed).1 % 255)) % 256 < 256 := Nat.mod_lt _ (by decide)
          refine ⟨?_, rfl, rfl, rfl, show 8 - 1 ≤ 8 by decide, ?_⟩
          · dsimp only
            simp only [Mp3Env.mute, xor_zero_mod _ hlt8]
          · dsimp only
            simp only [Mp3Env.mute, xor_zero_mod _ hlt8]
            rw [if_neg (by decide)]
            exact ⟨trivial, trivial⟩
        · simp only [hlt, and_false, if_false]
          refine ⟨rfl, rfl, rfl, rfl, Nat.le_refl _, ?_⟩
          dsimp only
          rw [if_pos rfl]
          exact ⟨rfl, rfl⟩
    · simp only [hz, if_false]
      by_cases hlt : hc < MP3_HDR_NB_BITS_MODIF
      · simp only [hlt, ne_eq, hz, not_false_eq_true, and_self, if_true]
        apply ih
        by_cases h8 : bc = 8
        · subst h8
          rw [if_pos rfl] at h5
          obtain ⟨hb, hh⟩ := h5
          subst hb hh
          have hlt8 : (b ^^^ ((M.rand seed).1 % 255)) % 256 < 256 := Nat.mod_lt _ (by decide)
          simp only [if_true]
          refine ⟨?_, rfl, rfl, rfl, show 8 - 1 ≤ 8 by decide, ?_⟩
          · dsimp only
            simp only [Mp3Env.mute, xor_zero_mod _ hlt8]
          · dsimp only
            simp only [Mp3Env.mute, xor_zero_mod _ hlt8]
            rw [if_neg (by decide)]
            exact ⟨trivial, trivial⟩
        · rw [if_neg h8] at h5
          obtain ⟨hb, hh⟩ := h5
          subst hb hh
          simp only [h8, if_false]
          refine ⟨rfl, rfl, rfl, rfl, by dsimp only; omega, ?_⟩
          dsimp only
          rw [if_neg (by omega)]
          exact ⟨rfl, rfl⟩
      · simp only [hlt, and_false, if_false]
        exact ⟨rfl, rfl, rfl, rfl, hle, h5⟩

theorem mp3_ins_rel_hdr (rand : Nat → Nat × Nat) (st st0 : mp3_ins_state)
    (h : mp3_ins_rel rand st st0) (hdr c : Nat) :
    mp3_ins_rel rand ⟨hdr, c, st.b, st.b_cnt, st.seed, st.hidden, st.feof_hidden⟩
      ⟨hdr, c, st0.b, st.b_cnt, st0.seed, st0.hidden, st.feof_hidden⟩ :=
  ⟨rfl, rfl, rfl, rfl, h.2.2.2.2.1, h.2.2.2.2.2⟩

theorem mp3_insert_frames_rel (M : Mp3Env) :
    ∀ (fuel : Nat) (host res : List Nat) (hdr_var b bc seed : Nat) (hid : List Nat) (eof : Bool)
      (b0 s0 : Nat) (hid0 : List Nat),
      mp3_ins_rel M.rand ⟨0, 0, b, bc, seed, hid, eof⟩ ⟨0, 0, b0, bc, s0, hid0, eof⟩ →
      (mp3_insert_frames M fuel host res hdr_var b bc seed hid eof).map
          (fun x => (x.code, x.host, x.res, x.hdr, x.feof_hidden)) =
        (mp3_insert_frames M.mute fuel host res hdr_var b0 bc s0 hid0 eof).map
          (fun x => (x.code, x.host, x.res, x.hdr, x.feof_hidden)) := by
  intro fuel
  induction fuel with
  | zero => intro host res hdr_var b bc seed hid eof b0 s0 hid0 _; rfl
  | succ fuel ih =>
    intro host res hdr_var b bc seed hid eof b0 s0 hid0 h
    rcases host with _ | ⟨x0, _ | ⟨x1, _ | ⟨x2, _ | ⟨x3, host1⟩⟩⟩⟩ <;> try rfl
    simp only [mp3_insert_frames]
    have hM : M.mute.mp3_mpeg_hdr_test = M.mp3_mpeg_hdr_test := rfl
    have hH : M.mute.stegx_htobe32 = M.stegx_htobe32 := rfl
    rw [hM, hH]
    by_cases ht : M.mp3_mpeg_hdr_test (be32 x0 x1 x2 x3) = true
    · simp only [ht, if_true]
      have hrel := mp3_insert_bits_mute M (MP3_HDR_NB_BITS_MODIF + 1)
        ⟨be32 x0 x1 x2 x3, 0, b, bc, seed, hid, eof⟩ ⟨be32 x0 x1 x2 x3, 0, b0, bc, s0, hid0, eof⟩
        ⟨rfl, rfl, rfl, rfl, h.2.2.2.2.1, h.2.2.2.2.2⟩
      generalize mp3_insert_bits M (MP3_HDR_NB_BITS_MODIF + 1)
        ⟨be32 x0 x1 x2 x3, 0, b, bc, seed, hid, eof⟩ = st at hrel ⊢
      generalize mp3_insert_bits M.mute (MP3_HDR_NB_BITS_MODIF + 1)
        ⟨be32 x0 x1 x2 x3, 0, b0, bc, s0, hid0, eof⟩ = st0 at hrel ⊢
      have hhdr : st0.hdr = st.hdr := hrel.1.symm
      have hbc : st0.b_cnt = st.b_cnt := hrel.2.2.1.symm
      have heof : st0.feof_hidden = st.feof_hidden := hrel.2.2.2.1.symm
      have hw : ∀ h r, mp3_mpeg_fr_write M.mute st.hdr h r = mp3_mpeg_fr_write M st.hdr h r :=
        fun _ _ => rfl
      rw [hhdr, hbc, heof, hw]
      rcases mp3_mpeg_fr_write M st.hdr host1 (res ++ be32_bytes st.hdr) with ⟨code, host2, res2⟩
      by_cases hcode : code = 0
      · subst hcode
        simp only []
        exact ih host2 res2 _ st.b st.b_cnt st.seed st.hidden st.feof_hidden st0.b st0.seed
          st0.hidden (mp3_ins_rel_hdr M.rand st st0 hrel 0 0)
      · split
        · rename_i heq
          exact absurd (Prod.mk.inj heq).1 hcode
        · rfl
    · simp only [ht, if_false, Option.map_some', Bool.false_eq_true]

/-- The insertion loop of the MP3 path : running it on the payload is running
it, with a keystream of zeros, on the masked payload (what remains of the
payload files apart). -/
theorem mp3_insert_frames_mute (M : Mp3Env) (fuel seed s0 : Nat) (host res hidden : List Nat) :
    (mp3_insert_frames M fuel host res 0 0 0 seed hidden false).map
        (fun x => (x.code, x.host, x.res, x.hdr, x.feof_hidden)) =
      (mp3_insert_frames M.mute fuel host res 0 0 0 s0
        (xor_keystream M.rand seed hidden) false).map
        (fun x => (x.code, x.host, x.res, x.hdr, x.feof_hidden)) :=
  mp3_insert_frames_rel M fuel host res 0 0 0 seed hidden false 0 s0 _
    ⟨rfl, rfl, rfl, rfl, Nat.zero_le _,
      by rw [if_neg (show ¬ (0 : Nat) = 8 by decide)]; exact ⟨rfl, rfl⟩⟩

/-! ## The default password -/

theorem default_passwd_length (R : Rand) : ∀ (n seed : Nat),
    (default_passwd R n seed).length = n := by
  intro n
  induction n with
  | zero => intro seed; rfl
  | succ n ih => intro seed; simp [default_passwd, ih]

theorem default_passwd_range (R : Rand) : ∀ (n seed : Nat),
    ∀ c ∈ default_passwd R n seed, 32 ≤ c ∧ c ≤ 126 := by
  intro n
  induction n with
  | zero => intro seed c hc; simp [default_passwd] at hc
  | succ n ih =>
    intro seed c hc
    simp only [default_passwd, List.mem_cons] at hc
    rcases hc with hc | hc
    · have := Nat.mod_lt (R.stegx_rand seed).1 (show 0 < 95 by decide)
      omega
    · exact ih _ c hc

theorem default_passwd_fill_spec (R : Rand) : ∀ (n seed : Nat) (pre tail : List Nat),
    tail.length = n + 1 →
    default_passwd_fill R n pre.length seed (pre ++ tail) =
      pre ++ default_passwd R n seed ++ tail.drop n := by
  intro n
  induction n with
  | zero => intro seed pre tail _; simp [default_passwd_fill, default_passwd]
  | succ n ih =>
    intro seed pre tail hlen
    match tail, hlen with
    | b :: tail, hlen =>
      have hset : (pre ++ b :: tail).set pre.length (32 + (R.stegx_rand seed).1 % 95) =
          (pre ++ [32 + (R.stegx_rand seed).1 % 95]) ++ tail := by
        rw [List.set_append_right _ _ (Nat.le_refl _)]
        simp
      have hl : pre.length + 1 = (pre ++ [32 + (R.stegx_rand seed).1 % 95]).length := by simp
      rw [default_passwd_fill, hset, hl, ih _ _ tail (by simpa using hlen)]
      simp [default_passwd]

theorem default_passwd_array_eq (R : Rand) (n seed : Nat) :
    default_passwd_array R n seed = default_passwd R n seed ++ [0] := by
  have h := default_passwd_fill_spec R n seed [] (List.replicate (n + 1) 0) (by simp)
  simp only [List.length_nil, List.nil_append] at h
  unfold default_passwd_array
  rw [h]
  congr 1
  rw [List.drop_replicate]
  simp

theorem c_string_append_zero (s : List Nat) (h : ∀ c ∈ s, c ≠ 0) : c_string (s ++ [0]) = s := by
  unfold c_string
  induction s with
  | nil => simp
  | cons a s ih =>
    have ha : a ≠ 0 := h a (List.mem_cons_self _ _)
    rw [List.cons_append, List.takeWhile_cons]
    simp only [ne_eq, ha, not_false_eq_true, decide_True, if_true]
    rw [ih (fun c hc => h c (List.mem_cons_of_mem _ hc))]

/-! ## The writer of the signature in `insert_lsb` -/

theorem insert_lsb_bmp_wav_sig (R : Rand) (ws : info_s → Int × List Nat)
    (LENGTH_FILE_MAX : Nat) (infos : info_s) (e : err_code) :
    insert_lsb_bmp_wav R ws LENGTH_FILE_MAX infos e =
      match insert_lsb_bmp_wav R (fun _ => (0, [])) LENGTH_FILE_MAX infos e with
      | none => none
      | some r0 =>
        if r0.ret = 0 then
          (if (ws infos).1 = 1 then some ⟨1, r0.res ++ (ws infos).2, err_code.ERR_INSERT⟩
           else some ⟨0, r0.res ++ (ws infos).2, e⟩)
        else some r0 := by
  simp only [insert_lsb_bmp_wav]
  rcases h1 : copy_loop infos.host.file_info.bmp_header_size infos.host.host [] with
    ⟨b, host0, res0⟩
  cases b
  · simp
  · by_cases hd : lsb_direct LENGTH_FILE_MAX infos = true
    · simp only [hd, if_true]
      rcases h2 : direct_insert_loop R infos.hidden_length
        (R.stegx_srand (R.create_seed infos.passwd)) host0 infos.hidden res0 with
        ⟨code, host1, res1⟩
      by_cases hc : code = 0
      · subst hc
        simp only
        rcases h3 : copy_loop ((infos.host.file_info.bmp_data_size + 2 ^ 32 -
          (infos.hidden_length * 4) % 2 ^ 32) % 2 ^ 32) host1 res1 with ⟨b3, host3, res3⟩
        cases b3 <;> simp
      · split
        · rename_i heq
          simp only [Prod.mk.injEq] at heq
          exact absurd heq.1 hc
        · rename_i heq
          simp only [Prod.mk.injEq] at heq
          obtain ⟨rfl, _, rfl⟩ := heq
          simp [hc]
    · simp only [hd, if_false, Bool.false_eq_true]
      rcases h2 : read_loop infos.host.file_info.bmp_data_size host0 [] with ⟨b2, host2, pixels⟩
      cases b2
      · simp
      · simp only
        rcases h3 : read_loop infos.hidden_length infos.hidden [] with ⟨b3, host3, data⟩
        cases b3
        · simp
        · simp only
          cases protect_data_lsb R pixels infos.host.file_info.bmp_data_size data
            infos.hidden_length infos.passwd infos.mode 0 <;> simp

theorem insert_lsb_mp3_sig (R : Rand) (M : Mp3Env) (ws : info_s → Int × List Nat)
    (infos : info_s) (e : err_code) :
    insert_lsb_mp3 R M ws infos e =
      match insert_lsb_mp3 R M (fun _ => (0, [])) infos e with
      | none => none
      | some r0 =>
        if r0.ret = 0 then
          (if (ws infos).1 ≠ 0 then some ⟨1, r0.res ++ (ws infos).2, err_code.ERR_INSERT⟩
           else some ⟨0, r0.res ++ (ws infos).2, e⟩)
        else some r0 := by
  simp only [insert_lsb_mp3]
  by_cases hlen : infos.host.host.length < infos.host.file_info.mp3_fr_frst_adr
  · simp [hlen]
  · simp only [hlen, if_false]
    cases mp3_insert_frames M
        ((infos.host.host.drop infos.host.file_info.mp3_fr_frst_adr).length + 1)
        (infos.host.host.drop infos.host.file_info.mp3_fr_frst_adr)
        (infos.host.host.take infos.host.file_info.mp3_fr_frst_adr) 0 0 0
        (M.srand (R.create_seed infos.passwd)) infos.hidden false with
    | none => rfl
    | some x =>
      simp only
      by_cases hx : x.code = 0
      · simp only [hx, ne_eq, not_true_eq_false, if_false]
        split_ifs <;> simp_all
      · simp [hx]

/-! ## EOC : the error code -/

theorem insert_eoc_errno (E : EocEnv) (infos : info_s) (e : err_code) (r : call_result)
    (h : insert_eoc E infos e = some r) : r.stegx_errno = e := by
  simp only [insert_eoc] at h
  split_ifs at h
  split at h
  · cases h; rfl
  · split at h
    · exact absurd h (by simp)
    · cases h; rfl
    · cases h; rfl

theorem extract_eoc_errno (E : EocEnv) (infos : info_s) (e : err_code) (r : call_result)
    (h : extract_eoc E infos e = some r) : r.ret = 0 ∧ r.stegx_errno = e := by
  simp only [extract_eoc] at h
  split_ifs at h
  split at h
  · exact absurd h (by simp)
  · cases h; exact ⟨rfl, rfl⟩

/-! ## EOC : the two variants of the table -/

theorem ends_with_video_replicate (t : flv_tag) (ht : t.tag_type = 9) :
    ∀ k, ends_with_video (List.replicate (k + 1) t) := by
  intro k
  induction k with
  | zero => exact ht
  | succ k ih =>
    rw [List.replicate_succ, List.replicate_succ]
    rw [List.replicate_succ] at ih
    exact ih

theorem eoc_fits_of_le (table : List Nat) (n q r bound : Nat)
    (hshare : ∀ b, eoc_share n q r b ≤ bound) :
    ∀ (tags : List flv_tag) (cpt : Nat), (∀ t ∈ tags, t.size + bound + 1 ≤ 0xFFFFFF) →
      eoc_fits table n q r tags cpt := by
  intro tags
  induction tags with
  | nil => intro cpt _; trivial
  | cons t ts ih =>
    intro cpt hs
    have hts := fun x hx => hs x (List.mem_cons_of_mem _ hx)
    have ht := hs t (List.mem_cons_self _ _)
    by_cases h9 : t.tag_type = 9
    · simp only [eoc_fits, h9, ne_eq, not_true_eq_false, if_false]
      refine ⟨?_, ih (cpt + 1) hts⟩
      have := hshare (table.getD cpt 0)
      unfold eoc_new_size
      omega
    · simp only [eoc_fits, h9, ne_eq, not_false_eq_true, if_true]
      exact ih cpt hts

theorem eoc_table_large (E : EocEnv) (n : Nat) (passwd : List Nat) (hn : 256 ≤ n) :
    eoc_table E n passwd = List.range n := by
  unfold eoc_table
  rw [if_neg (by omega)]

theorem insert_eoc_large_env (E E2 : EocEnv) (infos : info_s) (e : err_code)
    (hn : 256 ≤ infos.host.file_info.flv_nb_video_tag) (hR : E2.R = E.R)
    (hW : E2.write_signature = E.write_signature) :
    insert_eoc E2 infos e = insert_eoc E infos e := by
  simp only [insert_eoc, eoc_table_large _ _ _ hn, hR, hW]

theorem extract_eoc_large_env (E E2 : EocEnv) (infos : info_s) (e : err_code)
    (hn : 256 ≤ infos.host.file_info.flv_nb_video_tag) (hR : E2.R = E.R) :
    extract_eoc E2 infos e = extract_eoc E infos e := by
  simp only [extract_eoc, eoc_table_large _ _ _ hn, hR]

/-- The stream written for a host made of `k + 1` copies of a video tag starts
with the header and with the first tag rewritten for the block that the table
gives it. -/
theorem insert_eoc_replicate_first (E : EocEnv) (infos : info_s) (e : err_code)
    (hdr : List Nat) (t : flv_tag) (k : Nat)
    (h : EocHost E infos hdr (List.replicate (k + 1) t) [])
    (hmode : infos.mode = mode_e.STEGX_MODE_INSERT)
    (halgo : infos.algo = algo_e.STEGX_ALGO_EOC)
    (hsize : t.size + infos.hidden_length + 1 ≤ 0xFFFFFF) :
    ∃ tail, insert_eoc E infos e = some ⟨0,
      hdr ++ eoc_video_out E.R infos.passwd infos.hidden
        infos.host.file_info.flv_nb_video_tag
        (infos.hidden_length / infos.host.file_info.flv_nb_video_tag)
        (infos.hidden_length % infos.host.file_info.flv_nb_video_tag)
        ((eoc_table E infos.host.file_info.flv_nb_video_tag infos.passwd).getD 0 0) t ++ tail,
      e⟩ := by
  have ht : t.tag_type = 9 := by
    have hc := h.count
    have hp := h.pos
    rw [video_count_replicate] at hc
    by_contra h9
    rw [if_neg h9] at hc
    omega
  have hfits := eoc_fits_of_le (eoc_table E infos.host.file_info.flv_nb_video_tag infos.passwd)
    infos.host.file_info.flv_nb_video_tag
    (infos.hidden_length / infos.host.file_info.flv_nb_video_tag)
    (infos.hidden_length % infos.host.file_info.flv_nb_video_tag) infos.hidden_length
    (fun b => eoc_share_le _ _ b h.hidden_lt) (List.replicate (k + 1) t) 0
    (fun x hx => by rw [List.eq_of_mem_replicate hx]; exact hsize)
  have hspec := insert_eoc_spec E infos e hdr _ [] h hmode halgo hfits
  rw [hspec, List.replicate_succ]
  simp only [eoc_out, ht, ne_eq, not_true_eq_false, if_false]
  exact ⟨eoc_out E.R infos.passwd infos.hidden
      (eoc_table E infos.host.file_info.flv_nb_video_tag infos.passwd)
      infos.host.file_info.flv_nb_video_tag
      (infos.hidden_length / infos.host.file_info.flv_nb_video_tag)
      (infos.hidden_length % infos.host.file_info.flv_nb_video_tag) (List.replicate k t) (0 + 1) ++
      ([] ++ (E.write_signature infos).2), by simp only [List.append_assoc]⟩

theorem video_count_replicate_video (t : flv_tag) (ht : t.tag_type = 9) (n : Nat) :
    video_count (List.replicate n t) = n := by
  rw [video_count_replicate, if_pos ht, Nat.mul_one]

theorem eoc_small_session_host :
    EocHost eoc_plain_env eoc_small_session eoc_test_hdr
      (List.replicate 3 eoc_empty_video_tag) [] where
  host_eq := (List.append_nil _).symm
  length_hdr := rfl
  wf := fun t ht => by rw [List.eq_of_mem_replicate ht]; decide
  ends := ends_with_video_replicate _ rfl 2
  count := (video_count_replicate_video eoc_empty_video_tag rfl 3).symm
  count_lt := by decide
  length_hidden := rfl
  hidden_lt := by decide
  hidden_bytes := fun b hb => by
    have : b < 3 := List.mem_range.mp hb
    omega
  perm := by decide

set_option maxRecDepth 100000 in
theorem eoc_large_session_host :
    EocHost eoc_plain_env eoc_large_session eoc_test_hdr
      (List.replicate 256 eoc_empty_video_tag) [] where
  host_eq := (List.append_nil _).symm
  length_hdr := rfl
  wf := fun t ht => by rw [List.eq_of_mem_replicate ht]; decide
  ends := ends_with_video_replicate _ rfl 255
  count := (video_count_replicate_video eoc_empty_video_tag rfl 256).symm
  count_lt := show 256 < 2 ^ 32 by decide
  length_hidden := by
    show (List.range 256).length = 256
    exact List.length_range 256
  hidden_lt := show 256 < 2 ^ 32 by decide
  hidden_bytes := fun b hb => by
    have h2 : b ∈ List.range 256 := hb
    exact List.mem_range.mp h2
  perm := by
    show (eoc_table eoc_plain_env 256 [112, 119]).Perm (List.range 256)
    rw [eoc_table_large _ _ _ (Nat.le_refl 256)]

/-! ## EOC : the segments of the stream written -/

theorem eoc_out_eq_flatten (R : Rand) (passwd hidden table : List Nat) (n q r : Nat) :
    ∀ (tags : List flv_tag) (cpt : Nat),
      eoc_out R passwd hidden table n q r tags cpt =
        (eoc_segments R passwd hidden table n q r tags cpt).flatten := by
  intro tags
  induction tags with
  | nil => intro cpt; rfl
  | cons t ts ih =>
    intro cpt
    by_cases ht : t.tag_type = 9
    · simp only [eoc_out, eoc_segments, ht, ne_eq, not_true_eq_false, if_false,
        List.flatten_cons, ih]
    · simp only [eoc_out, eoc_segments, ht, ne_eq, not_false_eq_true, if_true,
        List.flatten_cons, ih]

theorem eoc_segments_length (R : Rand) (passwd hidden table : List Nat) (n q r : Nat) :
    ∀ (tags : List flv_tag) (cpt : Nat),
      (eoc_segments R passwd hidden table n q r tags cpt).length = tags.length := by
  intro tags
  induction tags with
  | nil => intro cpt; rfl
  | cons t ts ih =>
    intro cpt
    by_cases ht : t.tag_type = 9
    · simp only [eoc_segments, ht, ne_eq, not_true_eq_false, if_false, List.length_cons, ih]
    · simp only [eoc_segments, ht, ne_eq, not_false_eq_true, if_true, List.length_cons, ih]

theorem eoc_segments_getElem? (R : Rand) (passwd hidden table : List Nat) (n q r : Nat) :
    ∀ (tags : List flv_tag) (cpt i : Nat) (t : flv_tag), tags[i]? = some t →
      (eoc_segments R passwd hidden table n q r tags cpt)[i]? = some
        (if t.tag_type ≠ 9 then t.bytes
         else eoc_video_out R passwd hidden n q r
           (table.getD (cpt + video_count (tags.take i)) 0) t) := by
  intro tags
  induction tags with
  | nil => intro cpt i t h; simp at h
  | cons t0 ts ih =>
    intro cpt i t h
    cases i with
    | zero =>
      simp only [List.getElem?_cons_zero, Option.some.injEq] at h
      subst h
      by_cases ht : t0.tag_type = 9
      · simp [eoc_segments, ht, video_count]
      · simp [eoc_segments, ht, video_count]
    | succ i =>
      simp only [List.getElem?_cons_succ] at h
      by_cases ht : t0.tag_type = 9
      · simp only [eoc_segments, ht, ne_eq, not_true_eq_false, if_false,
          List.getElem?_cons_succ, List.take_succ_cons, video_count, if_true]
        rw [ih (cpt + 1) i t h]
        have : cpt + 1 + video_count (ts.take i) = cpt + (1 + video_count (ts.take i)) := by
          omega
        rw [this]
      · simp only [eoc_segments, ht, ne_eq, not_false_eq_true, if_true,
          List.getElem?_cons_succ, List.take_succ_cons, video_count, if_false, Nat.zero_add]
        rw [ih cpt i t h]

theorem flv_bytes_eq_flatten : ∀ (tags : List flv_tag),
    flv_bytes tags = (tags.map flv_tag.bytes).flatten := by
  intro tags
  induction tags with
  | nil => rfl
  | cons t ts ih => simp only [flv_bytes, List.map_cons, List.flatten_cons, ih]

theorem eoc_video_out_length (R : Rand) (passwd hidden : List Nat) (n q r b : Nat)
    (t : flv_tag) :
    (eoc_video_out R passwd hidden n q r b t).length =
      t.bytes.length + 1 + (eoc_block hidden n q r b).length := by
  simp only [eoc_video_out, eoc_video_body, flv_tag.bytes, List.length_append,
    List.length_cons, List.length_nil, eoc_mask_length, be32_bytes_length]
  omega

/-- The length of the stream written for a sequence of tags : one byte and the
block more for every video tag. -/
theorem eoc_out_length_eq (R : Rand) (passwd hidden table : List Nat) (n q r : Nat) :
    ∀ (tags : List flv_tag) (cpt : Nat), cpt + video_count tags ≤ table.length →
      (eoc_out R passwd hidden table n q r tags cpt).length =
        (flv_bytes tags).length + video_count tags +
          (((table.drop cpt).take (video_count tags)).map
            (fun b => (eoc_block hidden n q r b).length)).sum := by
  intro tags
  induction tags with
  | nil => intro cpt _; simp [eoc_out, flv_bytes, video_count]
  | cons t ts ih =>
    intro cpt hc
    by_cases ht : t.tag_type = 9
    · simp only [video_count, ht, if_true] at hc ⊢
      have hlt : cpt < table.length := by omega
      have hdrop : table.drop cpt = table[cpt] :: table.drop (cpt + 1) :=
        List.drop_eq_getElem_cons hlt
      have hget : table.getD cpt 0 = table[cpt] := by
        rw [List.getD_eq_getElem?_getD, List.getElem?_eq_getElem hlt]
        rfl
      have h1 : 1 + video_count ts = video_count ts + 1 := by omega
      simp only [eoc_out, ht, ne_eq, not_true_eq_false, if_false, List.length_append,
        eoc_video_out_length, ih (cpt + 1) (by omega), flv_bytes, hdrop, hget, h1,
        List.take_succ_cons, List.map_cons, List.sum_cons]
      omega
    · simp only [video_count, ht, if_false, Nat.zero_add] at hc ⊢
      simp only [eoc_out, ht, ne_eq, not_false_eq_true, if_true, List.length_append,
        ih cpt hc, flv_bytes]
      omega

theorem eoc_blocks_length (hidden : List Nat) (n q r : Nat) : ∀ k,
    (eoc_blocks hidden n q r k).length =
      ((List.range k).map (fun b => (eoc_block hidden n q r b).length)).sum := by
  intro k
  induction k with
  | zero => rfl
  | succ k ih =>
    simp only [eoc_blocks, List.length_append, ih, List.range_succ, List.map_append,
      List.sum_append, List.map_cons, List.map_nil, List.sum_cons, List.sum_nil, Nat.add_zero]

/-- The blocks that a table of the blocks, a permutation of `0 .. n - 1`,
gives to the video tags have `hidden_length` bytes in all. -/
theorem eoc_table_sum (hidden table : List Nat) (n L : Nat) (hn : 1 ≤ n)
    (hL : hidden.length = L) (hL32 : L < 2 ^ 32) (hperm : table.Perm (List.range n)) :
    (table.map (fun b => (eoc_block hidden n (L / n) (L % n) b).length)).sum = L := by
  rw [(hperm.map _).sum_eq, ← eoc_blocks_length, eoc_blocks_all hidden n L hn hL hL32, hL]

/-- The length of the stream that `insert_eoc` writes for the tags of a
well-formed host. -/
theorem eoc_out_length_host {E : EocEnv} {infos : info_s} {hdr : List Nat}
    {tags : List flv_tag} {rest : List Nat} (h : EocHost E infos hdr tags rest) :
    (eoc_out E.R infos.passwd infos.hidden
      (eoc_table E infos.host.file_info.flv_nb_video_tag infos.passwd)
      infos.host.file_info.flv_nb_video_tag
      (infos.hidden_length / infos.host.file_info.flv_nb_video_tag)
      (infos.hidden_length % infos.host.file_info.flv_nb_video_tag) tags 0).length =
      (flv_bytes tags).length + infos.host.file_info.flv_nb_video_tag + infos.hidden_length := by
  have hlen := h.table_length
  have htake : ((eoc_table E infos.host.file_info.flv_nb_video_tag infos.passwd).drop 0).take
      (video_count tags) = eoc_table E infos.host.file_info.flv_nb_video_tag infos.passwd := by
    rw [List.drop_zero]
    exact List.take_of_length_le (by rw [hlen, h.count])
  rw [eoc_out_length_eq _ _ _ _ _ _ _ tags 0 (by rw [hlen, h.count]; omega), htake,
    eoc_table_sum infos.hidden _ _ _ h.pos h.length_hidden h.hidden_lt h.perm, h.count]

/-- What `insert_eoc` returns for a well-formed host when it returns 0. -/
theorem insert_eoc_ok (E : EocEnv) (infos : info_s) (e : err_code) (hdr : List Nat)
    (tags : List flv_tag) (rest : List Nat) (h : EocHost E infos hdr tags rest)
    (hmode : infos.mode = mode_e.STEGX_MODE_INSERT)
    (halgo : infos.algo = algo_e.STEGX_ALGO_EOC)
    (r : call_result) (hins : insert_eoc E infos e = some r) (hret : r.ret = 0) :
    eoc_fits (eoc_table E infos.host.file_info.flv_nb_video_tag infos.passwd)
      infos.host.file_info.flv_nb_video_tag
      (infos.hidden_length / infos.host.file_info.flv_nb_video_tag)
      (infos.hidden_length % infos.host.file_info.flv_nb_video_tag) tags 0 ∧
    r.res = hdr ++ (eoc_segments E.R infos.passwd infos.hidden
        (eoc_table E infos.host.file_info.flv_nb_video_tag infos.passwd)
        infos.host.file_info.flv_nb_video_tag
        (infos.hidden_length / infos.host.file_info.flv_nb_video_tag)
        (infos.hidden_length % infos.host.file_info.flv_nb_video_tag) tags 0).flatten ++
      rest ++ (E.write_signature infos).2 := by
  have hfits : eoc_fits (eoc_table E infos.host.file_info.flv_nb_video_tag infos.passwd)
      infos.host.file_info.flv_nb_video_tag
      (infos.hidden_length / infos.host.file_info.flv_nb_video_tag)
      (infos.hidden_length % infos.host.file_info.flv_nb_video_tag) tags 0 := by
    by_contra hnot
    obtain ⟨res, hfail⟩ := insert_eoc_fail E infos e hdr tags rest h hmode halgo hnot
    rw [hfail] at hins
    have hr := Option.some.inj hins
    rw [← hr] at hret
    exact absurd hret (show ¬ (1 : Int) = 0 by decide)
  have hspec := insert_eoc_spec E infos e hdr tags rest h hmode halgo hfits
  rw [hspec] at hins
  have hr := Option.some.inj hins
  rw [← hr, eoc_out_eq_flatten]
  exact ⟨hfits, rfl⟩

theorem eoc_segments_frame (R : Rand) (passwd hidden table : List Nat) (n q r : Nat) :
    ∀ (tags : List flv_tag) (cpt : Nat),
      List.Forall₂ (fun t seg =>
        if t.tag_type = 9 then seg.head? = some 9 ∧ t.bytes.length < seg.length
        else seg = t.bytes) tags (eoc_segments R passwd hidden table n q r tags cpt) := by
  intro tags
  induction tags with
  | nil => intro cpt; exact List.Forall₂.nil
  | cons t ts ih =>
    intro cpt
    by_cases ht : t.tag_type = 9
    · simp only [eoc_segments, ht, ne_eq, not_true_eq_false, if_false]
      refine List.Forall₂.cons ?_ (ih (cpt + 1))
      rw [if_pos ht]
      refine ⟨?_, ?_⟩
      · simp [eoc_video_out, ht]
      · rw [eoc_video_out_length]; omega
    · simp only [eoc_segments, ht, ne_eq, not_false_eq_true, if_true]
      refine List.Forall₂.cons ?_ (ih cpt)
      rw [if_neg ht]

theorem eoc_share_eq (n L k : Nat) (hn : 1 ≤ n) (hL32 : L < 2 ^ 32) :
    eoc_share n (L / n) (L % n) k = if k = n - 1 then L / n + L % n else L / n := by
  have := eoc_qr_lt n L hn hL32
  unfold eoc_share
  split
  · rw [Nat.mod_eq_of_lt this]; omega
  · rfl

theorem eoc_offset_lt (n L k : Nat) (hk : k < n) :
    k * (L / n) + L / n + L % n ≤ L := by
  have hdm : n * (L / n) + L % n = L := Nat.div_add_mod L n
  have hmul : (k + 1) * (L / n) ≤ n * (L / n) := Nat.mul_le_mul_right _ hk
  rw [Nat.succ_mul] at hmul
  generalize L / n = q at hdm hmul ⊢
  generalize L % n = r at hdm ⊢
  generalize n * q = nq at hdm hmul
  generalize k * q = kq at hmul ⊢
  omega

theorem eoc_offset_mod (n L k : Nat) (hk : k < n) (hL32 : L < 2 ^ 32) :
    (k * (L / n)) % 2 ^ 32 = k * (L / n) := by
  apply Nat.mod_eq_of_lt
  have := eoc_offset_lt n L k hk
  generalize L / n = q at this ⊢
  generalize L % n = r at this
  generalize k * q = kq at this ⊢
  omega

theorem eoc_block_end (n L k : Nat) (hn : 1 ≤ n) (hk : k < n) (hL32 : L < 2 ^ 32) :
    k * (L / n) + eoc_share n (L / n) (L % n) k ≤ L ∧
    (k + 1 < n → k * (L / n) + eoc_share n (L / n) (L % n) k = (k + 1) * (L / n)) ∧
    (k = n - 1 → k * (L / n) + eoc_share n (L / n) (L % n) k = L) := by
  have hoff := eoc_offset_lt n L k hk
  have hsh := eoc_share_eq n L k hn hL32
  have hdm : n * (L / n) + L % n = L := Nat.div_add_mod L n
  have hsucc : (k + 1) * (L / n) = k * (L / n) + L / n := Nat.succ_mul _ _
  have hlast : k = n - 1 → (k + 1) * (L / n) = n * (L / n) := by
    intro h
    have : k + 1 = n := by omega
    rw [this]
  rw [hsh]
  generalize L / n = q at hoff hdm hsucc hlast ⊢
  generalize L % n = r at hoff hdm ⊢
  generalize n * q = nq at hdm hlast
  generalize (k + 1) * q = k1q at hsucc hlast ⊢
  generalize k * q = kq at hoff hsucc ⊢
  refine ⟨?_, ?_, ?_⟩
  · split <;> omega
  · intro h
    rw [if_neg (by omega)]
    omega
  · intro h
    have := hlast h
    rw [if_pos h]
    omega

theorem extract_eoc_block_length (R : Rand) (passwd host table : List Nat) (datab : Bool)
    (n q r : Nat) (st st1 : eoc_ext_state)
    (h : extract_eoc_block R passwd host table datab n q r st = some st1) :
    st1.res.length = st.res.length + eoc_share n q r st.nb_block := by
  simp only [extract_eoc_block] at h
  split at h
  · exact absurd h (by simp)
  · split at h
    · exact absurd h (by simp)
    · split_ifs at h with hlt
      all_goals
        have h2 := Option.some.inj h
        subst h2
        simp only [List.length_append, eoc_mask_length, List.length_take]
        omega

theorem eoc_fits_getElem? (table : List Nat) (n q r : Nat) :
    ∀ (tags : List flv_tag) (cpt i : Nat) (t : flv_tag), eoc_fits table n q r tags cpt →
      tags[i]? = some t → t.tag_type = 9 →
      eoc_new_size n q r (table.getD (cpt + video_count (tags.take i)) 0) t ≤ 0xFFFFFF := by
  intro tags
  induction tags with
  | nil => intro cpt i t _ h; simp at h
  | cons t0 ts ih =>
    intro cpt i t hfits h ht
    cases i with
    | zero =>
      simp only [List.getElem?_cons_zero, Option.some.injEq] at h
      subst h
      simp only [eoc_fits, ht, ne_eq, not_true_eq_false, if_false] at hfits
      simpa [video_count] using hfits.1
    | succ i =>
      simp only [List.getElem?_cons_succ] at h
      by_cases ht0 : t0.tag_type = 9
      · simp only [eoc_fits, ht0, ne_eq, not_true_eq_false, if_false] at hfits
        have := ih (cpt + 1) i t hfits.2 h ht
        simp only [List.take_succ_cons, video_count, ht0, if_true]
        have he : cpt + (1 + video_count (ts.take i)) = cpt + 1 + video_count (ts.take i) := by
          omega
        rw [he]
        exact this
      · simp only [eoc_fits, ht0, ne_eq, not_false_eq_true, if_true] at hfits
        have := ih cpt i t hfits h ht
        simp only [List.take_succ_cons, video_count, ht0, if_false, Nat.zero_add]
        exact this

theorem video_count_take_lt (tags : List flv_tag) (i : Nat) (t : flv_tag)
    (h : tags[i]? = some t) (ht : t.tag_type = 9) :
    video_count (tags.take i) + 1 ≤ video_count tags := by
  obtain ⟨hi, hget⟩ := List.getElem?_eq_some.mp h
  have hsplit : tags = tags.take i ++ tags[i] :: tags.drop (i + 1) := by
    rw [← List.drop_eq_getElem_cons hi, List.take_append_drop]
  have hc : video_count tags =
      video_count (tags.take i) + video_count (tags[i] :: tags.drop (i + 1)) := by
    rw [← video_count_append, ← hsplit]
  rw [hc, hget]
  simp only [video_count, ht, if_true]
  omega

theorem eoc_new_size_eq (n q r b : Nat) (t : flv_tag) :
    eoc_new_size n q r b t = (t.size + 1 + eoc_share n q r b) % 2 ^ 32 := by
  unfold eoc_new_size
  omega

theorem eoc_video_out_eq (R : Rand) (passwd hidden : List Nat) (n q r b : Nat) (t : flv_tag)
    (ht : t.tag_type = 9) (hts : t.ts < 256) :
    eoc_video_out R passwd hidden n q r b t =
      [9, (eoc_new_size n q r b t / 2 ^ 16) % 256, (eoc_new_size n q r b t / 2 ^ 8) % 256,
        eoc_new_size n q r b t % 256] ++ (t.ts :: t.hdr6) ++ t.payload ++ [28] ++
        eoc_mask R (R.stegx_srand (R.create_seed passwd)) (eoc_block hidden n q r b) ++
        be32_bytes (eoc_new_prev n q r b t) := by
  simp only [eoc_video_out, eoc_video_body, ht, Nat.mod_eq_of_lt hts, List.cons_append,
    List.nil_append, List.append_assoc]

/-! ## Direct substitution : the layout of the bytes written -/

theorem and_fc_mod (h : Nat) : h &&& 0xFC = (h % 256) &&& 0xFC := by
  apply Nat.eq_of_testBit_eq
  intro i
  have h256 : (256 : Nat) = 2 ^ 8 := by norm_num
  rw [Nat.testBit_and, Nat.testBit_and, h256, Nat.testBit_mod_two_pow]
  by_cases hi : i < 8
  · simp [hi]
  · have : Nat.testBit 0xFC i = false := by
      apply Nat.testBit_lt_two_pow
      calc (0xFC : Nat) < 2 ^ 8 := by norm_num
        _ ≤ 2 ^ i := Nat.pow_le_pow_right (by norm_num) (by omega)
    simp [this]

set_option maxRecDepth 100000 in
theorem add_pair_lor_small : ∀ h < 256, ∀ p < 4,
    ((h &&& 0xFC) + p) % 256 = (h &&& 0xFC) ||| p := by
  decide

theorem add_pair_lor (h p : Nat) (hp : p ≤ 3) :
    ((h &&& 0xFC) + p) % 256 = (h &&& 0xFC) ||| p := by
  rw [and_fc_mod h]
  exact add_pair_lor_small (h % 256) (Nat.mod_lt _ (by norm_num)) p (by omega)

theorem shiftRight_and (a b k : Nat) : (a &&& b) >>> k = (a >>> k) &&& (b >>> k) := by
  apply Nat.eq_of_testBit_eq
  intro i
  simp [Nat.testBit_shiftRight, Nat.testBit_and]

theorem pair_of_eq (m i : Nat) (hi : i < 4) : pair_of m i = (m >>> (6 - 2 * i)) &&& 3 := by
  unfold pair_of
  rw [shiftRight_and]
  interval_cases i <;> rfl

theorem xor_byte_lt (b r : Nat) (hb : b < 256) (hr : r < 256) : b ^^^ r < 256 :=
  Nat.xor_lt_two_pow (n := 8) hb hr

/-- The bytes that the loop of the direct path writes : the four bytes that
carry the payload byte `k` hold the upper six bits of the host bytes and, most
significant pair first, the pairs of the payload byte masked with the draw
number `k`. -/
theorem direct_insert_loop_layout (R : Rand) : ∀ (hidden : List Nat) (seed : Nat)
    (host res : List Nat), (∀ b ∈ hidden, b < 256) → 4 * hidden.length ≤ host.length →
    ∃ enc, enc.length = 4 * hidden.length ∧
      direct_insert_loop R hidden.length seed host hidden res =
        (0, host.drop (4 * hidden.length), res ++ enc) ∧
      ∀ k i, k < hidden.length → i < 4 →
        enc[4 * k + i]? = some ((host.getD (4 * k + i) 0 &&& 0xFC) |||
          (((hidden.getD k 0 ^^^
            ((R.stegx_rand (keystream_seed R.stegx_rand seed k)).1 % 255)) >>>
              (6 - 2 * i)) &&& 3)) := by
  intro hidden
  induction hidden with
  | nil =>
    intro seed host res _ _
    exact ⟨[], rfl, by simp [direct_insert_loop], fun k i hk _ => absurd hk (by simp)⟩
  | cons b hidden ih =>
    intro seed host res hb hlen
    match host, hlen with
    | h0 :: h1 :: h2 :: h3 :: host, hlen =>
      have hb0 : b < 256 := hb b (List.mem_cons_self _ _)
      have hr : (R.stegx_rand seed).1 % 255 < 256 :=
        Nat.lt_of_lt_of_le (Nat.mod_lt _ (by decide)) (by decide)
      have hx : (b ^^^ ((R.stegx_rand seed).1 % 255)) % 256 =
          b ^^^ ((R.stegx_rand seed).1 % 255) := Nat.mod_eq_of_lt (xor_byte_lt b _ hb0 hr)
      obtain ⟨enc, henc, hins, hlay⟩ := ih (R.stegx_rand seed).2 host
        (res ++ [((h0 &&& 0xFC) + pair_of (b ^^^ ((R.stegx_rand seed).1 % 255)) 0) % 256,
          ((h1 &&& 0xFC) + pair_of (b ^^^ ((R.stegx_rand seed).1 % 255)) 1) % 256,
          ((h2 &&& 0xFC) + pair_of (b ^^^ ((R.stegx_rand seed).1 % 255)) 2) % 256,
          ((h3 &&& 0xFC) + pair_of (b ^^^ ((R.stegx_rand seed).1 % 255)) 3) % 256])
        (fun x hx => hb x (List.mem_cons_of_mem _ hx))
        (by simp only [List.length_cons] at hlen ⊢; omega)
      refine ⟨[((h0 &&& 0xFC) + pair_of (b ^^^ ((R.stegx_rand seed).1 % 255)) 0) % 256,
          ((h1 &&& 0xFC) + pair_of (b ^^^ ((R.stegx_rand seed).1 % 255)) 1) % 256,
          ((h2 &&& 0xFC) + pair_of (b ^^^ ((R.stegx_rand seed).1 % 255)) 2) % 256,
          ((h3 &&& 0xFC) + pair_of (b ^^^ ((R.stegx_rand seed).1 % 255)) 3) % 256]
          ++ enc, ?_, ?_, ?_⟩
      · simp only [List.length_append, List.length_cons, List.length_nil, henc]
        omega
      · simp only [List.length_cons, direct_insert_loop, hx, insert_pairs_four, hins]
        refine Prod.ext rfl (Prod.ext ?_ ?_)
        · show List.drop (4 * hidden.length) host =
            List.drop (4 * (hidden.length + 1)) (h0 :: h1 :: h2 :: h3 :: host)
          have : 4 * (hidden.length + 1) = 4 * hidden.length + 1 + 1 + 1 + 1 := by omega
          rw [this]
          rfl
        · simp
      · intro k i hk hi
        cases k with
        | zero =>
          have hp := pair_of_le (b ^^^ ((R.stegx_rand seed).1 % 255)) i hi
          simp only [Nat.mul_zero, Nat.zero_add, List.getD_cons_zero, keystream_seed]
          rw [← pair_of_eq _ _ hi]
          interval_cases i
          · simp only [List.cons_append, List.getElem?_cons_zero, List.getD_cons_zero]
            rw [add_pair_lor _ _ hp]
          · simp only [List.cons_append, List.getElem?_cons_succ, List.getElem?_cons_zero,
              List.getD_cons_succ, List.getD_cons_zero]
            rw [add_pair_lor _ _ hp]
          · simp only [List.cons_append, List.getElem?_cons_succ, List.getElem?_cons_zero,
              List.getD_cons_succ, List.getD_cons_zero]
            rw [add_pair_lor _ _ hp]
          · simp only [List.cons_append, List.getElem?_cons_succ, List.getElem?_cons_zero,
              List.getD_cons_succ, List.getD_cons_zero]
            rw [add_pair_lor _ _ hp]
        | succ k =>
          have hk2 : k < hidden.length := by simpa using hk
          have hidx : 4 * (k + 1) + i = (4 * k + i) + 1 + 1 + 1 + 1 := by omega
          rw [hidx]
          simp only [List.cons_append, List.getElem?_cons_succ, List.getD_cons_succ,
            keystream_seed, List.nil_append]
          exact hlay k i hk2 hi

/-- The stream that the direct path of `insert_lsb` writes, whatever the
writer of the signature returns. -/
theorem insert_lsb_bmp_wav_direct_layout (R : Rand) (ws : info_s → Int × List Nat)
    (LENGTH_FILE_MAX : Nat) (infos : info_s) (e : err_code)
    (hdirect : lsb_direct LENGTH_FILE_MAX infos = true)
    (hlen : infos.hidden.length = infos.hidden_length)
    (hbytes : ∀ b ∈ infos.hidden, b < 256)
    (hsize : infos.host.file_info.bmp_data_size < 2 ^ 32)
    (hcap : 4 * infos.hidden_length ≤ infos.host.file_info.bmp_data_size)
    (hhost : infos.host.file_info.bmp_header_size + infos.host.file_info.bmp_data_size
      ≤ infos.host.host.length) :
    ∃ enc ret errno, enc.length = 4 * infos.hidden_length ∧
      insert_lsb_bmp_wav R ws LENGTH_FILE_MAX infos e =
        some ⟨ret, infos.host.host.take infos.host.file_info.bmp_header_size ++ enc ++
          ((infos.host.host.drop infos.host.file_info.bmp_header_size).drop
            (4 * infos.hidden_length)).take
              (infos.host.file_info.bmp_data_size - 4 * infos.hidden_length) ++
          (ws infos).2, errno⟩ ∧
      ∀ k i, k < infos.hidden_length → i < 4 →
        enc[4 * k + i]? = some
          (((infos.host.host.drop infos.host.file_info.bmp_header_size).getD (4 * k + i) 0
              &&& 0xFC) |||
            (((infos.hidden.getD k 0 ^^^
              ((R.stegx_rand (keystream_seed R.stegx_rand
                (R.stegx_srand (R.create_seed infos.passwd)) k)).1 % 255)) >>>
                (6 - 2 * i)) &&& 3)) := by
  have hdrop : 4 * infos.hidden.length ≤
      (infos.host.host.drop infos.host.file_info.bmp_header_size).length := by
    rw [List.length_drop]; omega
  obtain ⟨enc, henc, hins, hlay⟩ := direct_insert_loop_layout R infos.hidden
    (R.stegx_srand (R.create_seed infos.passwd))
    (infos.host.host.drop infos.host.file_info.bmp_header_size)
    ([] ++ infos.host.host.take infos.host.file_info.bmp_header_size) hbytes hdrop
  rw [hlen] at henc hins hlay
  have hrest : (infos.host.file_info.bmp_data_size + 2 ^ 32 -
      (infos.hidden_length * 4) % 2 ^ 32) % 2 ^ 32 =
      infos.host.file_info.bmp_data_size - 4 * infos.hidden_length := by omega
  have hcopy := copy_loop_spec
    (infos.host.file_info.bmp_data_size - 4 * infos.hidden_length)
    ((infos.host.host.drop infos.host.file_info.bmp_header_size).drop
      (4 * infos.hidden_length))
    ([] ++ infos.host.host.take infos.host.file_info.bmp_header_size ++ enc)
    (by simp only [List.length_drop]; omega)
  by_cases hsig : (ws infos).1 = 1
  · refine ⟨enc, 1, err_code.ERR_INSERT, henc, ?_, hlay⟩
    simp only [insert_lsb_bmp_wav, copy_loop_spec _ _ _ (show
      infos.host.file_info.bmp_header_size ≤ infos.host.host.length by omega), hdirect,
      if_true, hins, hrest, hcopy, hsig]
    simp only [List.nil_append, List.append_assoc]
  · refine ⟨enc, 0, e, henc, ?_, hlay⟩
    simp only [insert_lsb_bmp_wav, copy_loop_spec _ _ _ (show
      infos.host.file_info.bmp_header_size ≤ infos.host.host.length by omega), hdirect,
      if_true, hins, hrest, hcopy, hsig, if_false]
    simp only [List.nil_append, List.append_assoc]

/-! ## The frame of an insertion run of `protect_data_lsb` -/

set_option maxRecDepth 100000 in
theorem upper_bits_small : ∀ h < 256, ∀ p < 4,
    (((h &&& 0xFC) + p) % 256) &&& 0xFC = h &&& 0xFC := by
  decide

theorem upper_bits (h p : Nat) (hp : p ≤ 3) :
    (((h &&& 0xFC) + p) % 256) &&& 0xFC = h &&& 0xFC := by
  rw [and_fc_mod h]
  exact upper_bits_small (h % 256) (Nat.mod_lt _ (by norm_num)) p (by omega)

theorem lsb_frame_refl (s : lsb_state) : lsb_frame s s :=
  ⟨rfl, rfl, fun _ => rfl, [], by simp, fun _ _ => rfl⟩

theorem lsb_frame_trans {s t u : lsb_state} (h1 : lsb_frame s t) (h2 : lsb_frame t u) :
    lsb_frame s u := by
  obtain ⟨d1, l1, b1, e1, t1, f1⟩ := h1
  obtain ⟨d2, l2, b2, e2, t2, f2⟩ := h2
  refine ⟨d2.trans d1, l2.trans l1, fun m => (b2 m).trans (b1 m), e1 ++ e2, ?_, ?_⟩
  · rw [t2, t1, List.append_assoc]
  · intro m hm
    rw [List.mem_append, not_or] at hm
    rw [f2 m hm.2, f1 m hm.1]

theorem lsb_frame_mask (s : lsb_state) (k : Nat) : lsb_frame s { s with mask_hidden := k } :=
  ⟨rfl, rfl, fun _ => rfl, [], by simp, fun _ _ => rfl⟩

theorem lsb_pair_frame (R : Rand) (i j : Nat) (s t : lsb_state) (hj : j < 4)
    (hmask : s.mask_hidden = 0xC0 >>> (2 * j))
    (h : lsb_pair R mode_e.STEGX_MODE_INSERT i j s = some t) :
    lsb_frame s t ∧ t.mask_hidden = s.mask_hidden >>> 2 := by
  simp only [lsb_pair] at h
  split_ifs at h
  split at h
  · exact absurd h (by simp)
  · rename_i m hsel
    split at h
    · rename_i p d hp hd
      have ht := Option.some.inj h
      subst ht
      have hx : (d &&& s.mask_hidden) >>> (6 - 2 * j) ≤ 3 := by
        rw [hmask]
        exact pair_of_le d j hj
      obtain ⟨hm, hpm⟩ := List.getElem?_eq_some.mp hp
      refine ⟨⟨rfl, by simp, ?_, [m], rfl, ?_⟩, rfl⟩
      · intro m2
        show ((s.pixels.set m _)[m2]?).map _ = _
        rw [List.getElem?_set]
        by_cases hmm : m = m2
        · subst hmm
          rw [if_pos rfl, if_pos hm, hp]
          simp only [Option.map_some']
          rw [upper_bits _ _ hx]
        · rw [if_neg hmm]
      · intro m2 hm2
        show (s.pixels.set m _)[m2]? = _
        rw [List.getElem?_set, if_neg (by
          intro hmm
          exact hm2 (by rw [hmm]; exact List.mem_singleton_self _))]
    · exact absurd h (by simp)

theorem lsb_byte_frame (R : Rand) (i : Nat) (s t : lsb_state)
    (h : lsb_byte R mode_e.STEGX_MODE_INSERT s i = some t) : lsb_frame s t := by
  rw [lsb_byte_eq] at h
  cases h1 : lsb_pair R mode_e.STEGX_MODE_INSERT i 0 { s with mask_hidden := 0xC0 } with
  | none => rw [h1] at h; exact absurd h (by simp)
  | some t1 =>
    rw [h1, Option.some_bind] at h
    obtain ⟨f1, m1⟩ := lsb_pair_frame R i 0 _ t1 (by decide) rfl h1
    cases h2 : lsb_pair R mode_e.STEGX_MODE_INSERT i 1 t1 with
    | none => rw [h2] at h; exact absurd h (by simp)
    | some t2 =>
      rw [h2, Option.some_bind] at h
      obtain ⟨f2, m2⟩ := lsb_pair_frame R i 1 _ t2 (by decide) (by rw [m1]) h2
      cases h3 : lsb_pair R mode_e.STEGX_MODE_INSERT i 2 t2 with
      | none => rw [h3] at h; exact absurd h (by simp)
      | some t3 =>
        rw [h3, Option.some_bind] at h
        obtain ⟨f3, m3⟩ := lsb_pair_frame R i 2 _ t3 (by decide) (by rw [m2, m1]; rfl) h3
        obtain ⟨f4, _⟩ := lsb_pair_frame R i 3 _ t (by decide) (by rw [m3, m2, m1]; rfl) h
        exact lsb_frame_trans (lsb_frame_mask s 0xC0)
          (lsb_frame_trans f1 (lsb_frame_trans f2 (lsb_frame_trans f3 f4)))

theorem lsb_fold_frame (R : Rand) : ∀ (n : Nat) (s t : lsb_state),
    (List.range n).foldlM (lsb_byte R mode_e.STEGX_MODE_INSERT) s = some t → lsb_frame s t := by
  intro n
  induction n with
  | zero =>
    intro s t h
    simp only [List.range_zero, List.foldlM_nil, Option.pure_def, Option.some.injEq] at h
    subst h
    exact lsb_frame_refl s
  | succ n ih =>
    intro s t h
    rw [List.range_succ, List.foldlM_append] at h
    cases h1 : (List.range n).foldlM (lsb_byte R mode_e.STEGX_MODE_INSERT) s with
    | none => rw [h1] at h; exact absurd h (by simp)
    | some u =>
      rw [h1] at h
      simp only [Option.bind_eq_bind, Option.some_bind, List.foldlM_cons, List.foldlM_nil] at h
      cases h2 : lsb_byte R mode_e.STEGX_MODE_INSERT u n with
      | none => rw [h2] at h; exact absurd h (by simp)
      | some v =>
        rw [h2] at h
        simp only [Option.some_bind, Option.pure_def, Option.some.injEq] at h
        subst h
        exact lsb_frame_trans (ih s u h1) (lsb_byte_frame R n u v h2)

/-! ## The draws of a run of `protect_data_lsb` -/

theorem sel_pair_trace (R : Rand) (c c2 : sel_state) (h : sel_pair R c = some c2) :
    ∃ m, select_unit c.done
        ((R.stegx_rand c.seed).1 % ((c.hidden_length_recalcul + 2 ^ 32 - 1) % 2 ^ 32)) = some m ∧
      c2.trace = c.trace ++ [m] := by
  simp only [sel_pair] at h
  split_ifs at h
  split at h
  · exact absurd h (by simp)
  · rename_i m hsel
    have h2 := Option.some.inj h
    subst h2
    exact ⟨m, hsel, rfl⟩

/-- Every draw of a run : the index that the draw number `k` selects in the
state that the `k` first draws leave is the entry `k` of the final trace. -/
theorem sel_run_draws (R : Rand) (c0 : sel_state) : ∀ (n : Nat) (cn : sel_state),
    sel_run R n c0 = some cn → ∀ k < n, ∃ ck m, sel_run R k c0 = some ck ∧
      select_unit ck.done
        ((R.stegx_rand ck.seed).1 % ((ck.hidden_length_recalcul + 2 ^ 32 - 1) % 2 ^ 32)) =
          some m ∧
      cn.trace[ck.trace.length]? = some m := by
  intro n
  induction n with
  | zero => intro cn _ k hk; exact absurd hk (Nat.not_lt_zero _)
  | succ n ih =>
    intro cn hn k hk
    simp only [sel_run] at hn
    cases hp : sel_run R n c0 with
    | none => rw [hp] at hn; exact absurd hn (by simp)
    | some cp =>
      rw [hp, Option.some_bind] at hn
      obtain ⟨m, hsel, htr⟩ := sel_pair_trace R cp cn hn
      by_cases hkn : k < n
      · obtain ⟨ck, m2, hck, hsel2, hget⟩ := ih cp hp k hkn
        refine ⟨ck, m2, hck, hsel2, ?_⟩
        obtain ⟨hlt, _⟩ := List.getElem?_eq_some.mp hget
        rw [htr, List.getElem?_append_left hlt]
        exact hget
      · have hk2 : k = n := by omega
        subst hk2
        refine ⟨cp, m, hp, hsel, ?_⟩
        rw [htr, List.getElem?_append_right (Nat.le_refl _)]
        simp

/-! ## The guards of the advisor and of the EOC engine -/

theorem insert_eoc_ret_signature (E : EocEnv) (ws : info_s → Int × List Nat) (infos : info_s)
    (e : err_code) :
    (insert_eoc (E.with_signature ws) infos e).map call_result.ret =
      (insert_eoc E infos e).map call_result.ret := by
  simp only [insert_eoc, EocEnv.with_signature, eoc_table]
  by_cases h1 : infos.mode ≠ mode_e.STEGX_MODE_INSERT ∨ infos.algo ≠ algo_e.STEGX_ALGO_EOC
  · simp [h1]
  · simp only [h1, if_false]
    by_cases h2 : infos.host.file_info.flv_nb_video_tag = 0
    · simp [h2]
    · simp only [h2, if_false]
      rcases copy_loop 13 infos.host.host [] with ⟨b, host0, res0⟩
      cases b
      · rfl
      · simp only
        cases insert_eoc_loop E.R infos.passwd infos.hidden
            (if infos.host.file_info.flv_nb_video_tag < 256 then
              E.protect_data (List.range infos.host.file_info.flv_nb_video_tag)
                infos.host.file_info.flv_nb_video_tag infos.passwd mode_e.STEGX_MODE_INSERT
            else List.range infos.host.file_info.flv_nb_video_tag)
            infos.host.file_info.flv_nb_video_tag
            (infos.hidden_length / infos.host.file_info.flv_nb_video_tag)
            (infos.hidden_length % infos.host.file_info.flv_nb_video_tag)
            (host0.length + 1) host0 res0 0 with
        | none => rfl
        | some x =>
          obtain ⟨code, host1, res1⟩ := x
          by_cases hc : code = 0
          · subst hc; rfl
          · split <;> simp_all

theorem insert_eoc_no_video (E : EocEnv) (infos : info_s) (e : err_code)
    (h : infos.host.file_info.flv_nb_video_tag = 0) : insert_eoc E infos e = none := by
  simp only [insert_eoc, h]
  split_ifs <;> rfl

theorem extract_eoc_no_video (E : EocEnv) (infos : info_s) (e : err_code)
    (h : infos.host.file_info.flv_nb_video_tag = 0) : extract_eoc E infos e = none := by
  simp only [extract_eoc, h]
  split_ifs <;> rfl

theorem can_use_lsb_wav_none (infos : info_s) (h : infos.host.type = type_e.WAV_PCM) :
    can_use_lsb infos = none ↔ infos.host.file_info.wav_chunk_size < 8 := by
  have hne : ¬ infos.host.type = type_e.BMP_UNCOMPRESSED := by rw [h]; decide
  simp only [can_use_lsb, hne, false_and, if_false, h, if_true]
  by_cases hz : infos.host.file_info.wav_chunk_size / 8 = 0
  · rw [if_pos hz]
    exact ⟨fun _ => by omega, fun _ => rfl⟩
  · simp only [hz, if_false]
    constructor
    · intro hx
      split_ifs at hx
    · intro hx
      exact absurd (Nat.div_eq_of_lt hx) hz

theorem can_use_lsb_wav_room (infos : info_s) (h : infos.host.type = type_e.WAV_PCM)
    (hbps : 8 ≤ infos.host.file_info.wav_chunk_size)
    (hwrap : infos.hidden_length * 8 < 2 ^ 32) (hok : can_use_lsb infos = some 0) :
    4 * infos.hidden_length ≤ infos.host.file_info.wav_data_size := by
  have hne : ¬ infos.host.type = type_e.BMP_UNCOMPRESSED := by rw [h]; decide
  have hz : ¬ infos.host.file_info.wav_chunk_size / 8 = 0 := by omega
  simp only [can_use_lsb] at hok
  rw [if_neg (fun hh => hne hh.1), if_pos h, if_neg hz, Nat.mod_eq_of_lt hwrap] at hok
  have h1 := Nat.mod_le
    (infos.host.file_info.wav_data_size / (infos.host.file_info.wav_chunk_size / 8) * 2) (2 ^ 32)
  have h2 : infos.host.file_info.wav_data_size / (infos.host.file_info.wav_chunk_size / 8) ≤
      infos.host.file_info.wav_data_size := Nat.div_le_self _ _
  by_cases hle : infos.hidden_length * 8 ≤
      infos.host.file_info.wav_data_size / (infos.host.file_info.wav_chunk_size / 8) * 2 % 2 ^ 32
  · omega
  · rw [if_neg hle] at hok
    exact absurd hok (by decide)

theorem can_use_lsb_bmp_room (infos : info_s) (h : infos.host.type = type_e.BMP_UNCOMPRESSED)
    (hsize : infos.host.file_info.bmp_pixel_length * infos.host.file_info.bmp_pixel_number / 8 ≤
      infos.host.file_info.bmp_data_size)
    (hwrap : infos.hidden_length * 8 < 2 ^ 32) (hok : can_use_lsb infos = some 0) :
    4 * infos.hidden_length ≤ infos.host.file_info.bmp_data_size := by
  have hwav : ¬ infos.host.type = type_e.WAV_PCM := by rw [h]; decide
  have hmp3 : ¬ infos.host.type = type_e.MP3 := by rw [h]; decide
  simp only [can_use_lsb] at hok
  by_cases h8 : infos.host.file_info.bmp_pixel_length > 8
  · rw [if_pos ⟨h, h8⟩, Nat.mod_eq_of_lt hwrap] at hok
    have h1 : infos.host.file_info.bmp_pixel_length * infos.host.file_info.bmp_pixel_number
        % 2 ^ 32 / 8 ≤
        infos.host.file_info.bmp_pixel_length * infos.host.file_info.bmp_pixel_number / 8 :=
      Nat.div_le_div_right (Nat.mod_le _ _)
    have h2 : infos.host.file_info.bmp_pixel_length * infos.host.file_info.bmp_pixel_number
        % 2 ^ 32 / 8 / 4 ≤
        infos.host.file_info.bmp_pixel_length * infos.host.file_info.bmp_pixel_number
        % 2 ^ 32 / 8 := Nat.div_le_self _ _
    by_cases hle : infos.hidden_length * 8 ≤
        infos.host.file_info.bmp_pixel_length * infos.host.file_info.bmp_pixel_number
          % 2 ^ 32 / 8 / 4
    · omega
    · rw [if_neg hle] at hok
      exact absurd hok (by decide)
  · rw [if_neg (fun hh => h8 hh.2), if_neg hwav, if_neg (fun hh => hmp3 hh.1)] at hok
    exact absurd hok (by decide)

/-! ## The keystream of the EOC engine -/

theorem xor_keystream_getElem? (rand : Nat → Nat × Nat) : ∀ (bs : List Nat) (seed j : Nat),
    (xor_keystream rand seed bs)[j]? =
      bs[j]?.map (fun b => (b ^^^ ((rand (keystream_seed rand seed j)).1 % 255)) % 256) := by
  intro bs
  induction bs with
  | nil => intro seed j; simp [xor_keystream]
  | cons b bs ih =>
    intro seed j
    cases j with
    | zero => simp [xor_keystream, keystream_seed]
    | succ j =>
      simp only [xor_keystream, List.getElem?_cons_succ, keystream_seed]
      exact ih _ j

theorem eoc_mask_getElem? (R : Rand) (passwd bs : List Nat) (j x : Nat) (h : bs[j]? = some x) :
    (eoc_mask R (R.stegx_srand (R.create_seed passwd)) bs)[j]? =
      some ((x ^^^ eoc_keystream R passwd j) % 256) := by
  rw [eoc_mask_eq, xor_keystream_getElem?, h]
  rfl

theorem xor_cancel_key (a b k : Nat) (ha : a < 256) (hb : b < 256) (hk : k < 256) :
    ((a ^^^ k) % 256) ^^^ ((b ^^^ k) % 256) = a ^^^ b := by
  have h1 : a ^^^ k < 2 ^ 8 := Nat.xor_lt_two_pow (by omega) (by omega)
  have h2 : b ^^^ k < 2 ^ 8 := Nat.xor_lt_two_pow (by omega) (by omega)
  rw [Nat.mod_eq_of_lt (by omega), Nat.mod_eq_of_lt (by omega), Nat.xor_comm b k,
    Nat.xor_assoc, ← Nat.xor_assoc k k b, Nat.xor_self, Nat.zero_xor]

theorem eoc_keystream_lt (R : Rand) (passwd : List Nat) (j : Nat) :
    eoc_keystream R passwd j < 256 :=
  Nat.lt_of_lt_of_le (Nat.mod_lt _ (by decide)) (by decide)

theorem eoc_block_mem (hidden : List Nat) (n q r b x : Nat) (h : x ∈ eoc_block hidden n q r b) :
    x ∈ hidden :=
  List.mem_of_mem_drop (List.mem_of_mem_take h)

theorem eoc_new_prev_eq (n q r b : Nat) (t : flv_tag) :
    eoc_new_prev n q r b t = (t.prev + 1 + eoc_share n q r b) % 2 ^ 32 := by
  unfold eoc_new_prev
  omega

theorem be32_be32_bytes_list (v : Nat) (hv : v < 2 ^ 32) : be32_list (be32_bytes v) = v :=
  be32_be32_bytes v hv

/-- The segment that `insert_eoc` writes for the video tag of index `i`. -/
theorem eoc_segment_video {E : EocEnv} {infos : info_s} {hdr : List Nat}
    {tags : List flv_tag} {rest : List Nat} (h : EocHost E infos hdr tags rest)
    (i : Nat) (t : flv_tag) (hget : tags[i]? = some t) (ht : t.tag_type = 9) :
    (eoc_table E infos.host.file_info.flv_nb_video_tag infos.passwd).getD
        (video_count (tags.take i)) 0 < infos.host.file_info.flv_nb_video_tag ∧
    (eoc_block infos.hidden infos.host.file_info.flv_nb_video_tag
      (infos.hidden_length / infos.host.file_info.flv_nb_video_tag)
      (infos.hidden_length % infos.host.file_info.flv_nb_video_tag)
      ((eoc_table E infos.host.file_info.flv_nb_video_tag infos.passwd).getD
        (video_count (tags.take i)) 0)).length =
      eoc_share infos.host.file_info.flv_nb_video_tag
        (infos.hidden_length / infos.host.file_info.flv_nb_video_tag)
        (infos.hidden_length % infos.host.file_info.flv_nb_video_tag)
        ((eoc_table E infos.host.file_info.flv_nb_video_tag infos.passwd).getD
          (video_count (tags.take i)) 0) ∧
    (eoc_segments E.R infos.passwd infos.hidden
        (eoc_table E infos.host.file_info.flv_nb_video_tag infos.passwd)
        infos.host.file_info.flv_nb_video_tag
        (infos.hidden_length / infos.host.file_info.flv_nb_video_tag)
        (infos.hidden_length % infos.host.file_info.flv_nb_video_tag) tags 0)[i]? = some
      (([9,
          (eoc_new_size infos.host.file_info.flv_nb_video_tag
            (infos.hidden_length / infos.host.file_info.flv_nb_video_tag)
            (infos.hidden_length % infos.host.file_info.flv_nb_video_tag)
            ((eoc_table E infos.host.file_info.flv_nb_video_tag infos.passwd).getD
              (video_count (tags.take i)) 0) t / 2 ^ 16) % 256,
          (eoc_new_size infos.host.file_info.flv_nb_video_tag
            (infos.hidden_length / infos.host.file_info.flv_nb_video_tag)
            (infos.hidden_length % infos.host.file_info.flv_nb_video_tag)
            ((eoc_table E infos.host.file_info.flv_nb_video_tag infos.passwd).getD
              (video_count (tags.take i)) 0) t / 2 ^ 8) % 256,
          eoc_new_size infos.host.file_info.flv_nb_video_tag
            (infos.hidden_length / infos.host.file_info.flv_nb_video_tag)
            (infos.hidden_length % infos.host.file_info.flv_nb_video_tag)
            ((eoc_table E infos.host.file_info.flv_nb_video_tag infos.passwd).getD
              (video_count (tags.take i)) 0) t % 256] ++ (t.ts :: t.hdr6) ++ t.payload) ++ [28] ++
        eoc_mask E.R (E.R.stegx_srand (E.R.create_seed infos.passwd))
          (eoc_block infos.hidden infos.host.file_info.flv_nb_video_tag
            (infos.hidden_length / infos.host.file_info.flv_nb_video_tag)
            (infos.hidden_length % infos.host.file_info.flv_nb_video_tag)
            ((eoc_table E infos.host.file_info.flv_nb_video_tag infos.passwd).getD
              (video_count (tags.take i)) 0)) ++
        be32_bytes (eoc_new_prev infos.host.file_info.flv_nb_video_tag
          (infos.hidden_length / infos.host.file_info.flv_nb_video_tag)
          (infos.hidden_length % infos.host.file_info.flv_nb_video_tag)
          ((eoc_table E infos.host.file_info.flv_nb_video_tag infos.passwd).getD
            (video_count (tags.take i)) 0) t)) ∧
    ([9,
        (eoc_new_size infos.host.file_info.flv_nb_video_tag
          (infos.hidden_length / infos.host.file_info.flv_nb_video_tag)
          (infos.hidden_length % infos.host.file_info.flv_nb_video_tag)
          ((eoc_table E infos.host.file_info.flv_nb_video_tag infos.passwd).getD
            (video_count (tags.take i)) 0) t / 2 ^ 16) % 256,
        (eoc_new_size infos.host.file_info.flv_nb_video_tag
          (infos.hidden_length / infos.host.file_info.flv_nb_video_tag)
          (infos.hidden_length % infos.host.file_info.flv_nb_video_tag)
          ((eoc_table E infos.host.file_info.flv_nb_video_tag infos.passwd).getD
            (video_count (tags.take i)) 0) t / 2 ^ 8) % 256,
        eoc_new_size infos.host.file_info.flv_nb_video_tag
          (infos.hidden_length / infos.host.file_info.flv_nb_video_tag)
          (infos.hidden_length % infos.host.file_info.flv_nb_video_tag)
          ((eoc_table E infos.host.file_info.flv_nb_video_tag infos.passwd).getD
            (video_count (tags.take i)) 0) t % 256] ++ (t.ts :: t.hdr6) ++ t.payload).length =
      t.size + 11 := by
  have hwf : t.wf := h.wf t (List.getElem?_mem hget)
  have hc : video_count (tags.take i) < infos.host.file_info.flv_nb_video_tag := by
    have := video_count_take_lt tags i t hget ht
    rw [h.count]
    omega
  have hb := h.table_lt _ hc
  have hseg := eoc_segments_getElem? E.R infos.passwd infos.hidden
    (eoc_table E infos.host.file_info.flv_nb_video_tag infos.passwd)
    infos.host.file_info.flv_nb_video_tag
    (infos.hidden_length / infos.host.file_info.flv_nb_video_tag)
    (infos.hidden_length % infos.host.file_info.flv_nb_video_tag) tags 0 i t hget
  rw [Nat.zero_add, if_neg (by simp [ht]), eoc_video_out_eq _ _ _ _ _ _ _ t ht hwf.2.1] at hseg
  refine ⟨hb, eoc_block_length infos.hidden _ _ _ h.length_hidden h.hidden_lt hb, hseg, ?_⟩
  simp only [List.length_append, List.length_cons, List.length_nil, hwf.2.2.1, hwf.2.2.2.1]
  omega

theorem extract_eoc_block_keystream (R : Rand) (passwd host table : List Nat) (datab : Bool)
    (n q r : Nat) (st st1 : eoc_ext_state)
    (h : extract_eoc_block R passwd host table datab n q r st = some st1) :
    ∃ st0, extract_eoc_block R.mute passwd host table datab n q r { st with res := [] } =
        some st0 ∧
      st0.res.length = eoc_share n q r st.nb_block ∧
      st1.res.length = st.res.length + st0.res.length ∧
      ∀ (j x : Nat), st0.res[j]? = some x →
        st1.res[st.res.length + j]? = some ((x ^^^ eoc_keystream R passwd j) % 256) := by
  rw [extract_eoc_block_mute] at h
  cases h0 : extract_eoc_block R.mute passwd host table datab n q r { st with res := [] } with
  | none => rw [h0] at h; exact absurd h (by simp)
  | some st0 =>
    rw [h0] at h
    have h1 := Option.some.inj h
    subst h1
    have hlen := extract_eoc_block_length R.mute passwd host table datab n q r _ st0 h0
    refine ⟨st0, rfl, by simpa using hlen, ?_, ?_⟩
    · simp only [List.length_append, xor_keystream_length]
    · intro j x hx
      simp only
      rw [List.getElem?_append_right (by omega), Nat.add_sub_cancel_left,
        xor_keystream_getElem?, hx]
      rfl

/-! ## The assertion of `protect_data_lsb` -/

theorem sel_run_exhausted (R : Rand) {N : Nat} (passwd : List Nat) (hN : N < 2 ^ 32) :
    ∃ c, sel_run R N (sel_init R N passwd) = some c ∧ c.hidden_length_recalcul = 1 ∧
      c.trace.length = N ∧ c.trace.Nodup ∧ (∀ m ∈ c.trace, m < N) ∧ sel_pair R c = none := by
  obtain ⟨c, hc, hinv⟩ := sel_run_spec R passwd hN N (Nat.le_refl _)
  have h1 : c.hidden_length_recalcul = 1 := by
    have := hinv.counter
    simpa using this
  refine ⟨c, hc, h1, hinv.length_trace, hinv.nodup, fun m hm => hinv.lt_of_mem hm, ?_⟩
  simp [sel_pair, h1]

/-! ## The bound of the MP3 extraction -/

/-- The three bits of one header make the extraction write at most one byte,
and `s` counts it. -/
theorem mp3_extract_bits_header (M : Mp3Env) (hdr : Nat) (st : mp3_ext_state) :
    ((mp3_extract_bits M hdr (List.range MP3_HDR_NB_BITS_MODIF) st).res = st.res ∧
      (mp3_extract_bits M hdr (List.range MP3_HDR_NB_BITS_MODIF) st).s = st.s) ∨
    ((mp3_extract_bits M hdr (List.range MP3_HDR_NB_BITS_MODIF) st).res.length =
        st.res.length + 1 ∧
      st.res <+: (mp3_extract_bits M hdr (List.range MP3_HDR_NB_BITS_MODIF) st).res ∧
      (mp3_extract_bits M hdr (List.range MP3_HDR_NB_BITS_MODIF) st).s = (st.s + 1) % 2 ^ 32) := by
  have hr : List.range MP3_HDR_NB_BITS_MODIF = [0, 1, 2] := rfl
  rw [hr]
  obtain ⟨b, bc, s, seed, res⟩ := st
  rcases bc with _ | _ | _ | bc
  · right
    exact ⟨by simp [mp3_extract_bits], by simp [mp3_extract_bits], by simp [mp3_extract_bits]⟩
  · right
    exact ⟨by simp [mp3_extract_bits], by simp [mp3_extract_bits], by simp [mp3_extract_bits]⟩
  · right
    exact ⟨by simp [mp3_extract_bits], by simp [mp3_extract_bits], by simp [mp3_extract_bits]⟩
  · left
    exact ⟨by simp [mp3_extract_bits], by simp [mp3_extract_bits]⟩

theorem mp3_extract_frames_stop (M : Mp3Env) (hidden_length fuel : Nat) (host : List Nat)
    (st : mp3_ext_state) (h : hidden_length ≤ st.s) :
    mp3_extract_frames M hidden_length (fuel + 1) host st = some (0, st.res) := by
  have hlt : ¬ st.s < hidden_length := by omega
  rcases host with _ | ⟨b0, _ | ⟨b1, _ | ⟨b2, _ | ⟨b3, host1⟩⟩⟩⟩ <;>
    simp [mp3_extract_frames, hlt]

theorem mp3_extract_frames_bound (M : Mp3Env) (hidden_length : Nat)
    (hL : hidden_length < 2 ^ 32) :
    ∀ (fuel : Nat) (host : List Nat) (st : mp3_ext_state), host.length < fuel →
      st.res.length = st.s → st.s ≤ hidden_length →
      ∃ code res, mp3_extract_frames M hidden_length fuel host st = some (code, res) ∧
        res.length ≤ hidden_length ∧ st.res <+: res := by
  intro fuel
  induction fuel with
  | zero => intro host st hf _ _; exact absurd hf (Nat.not_lt_zero _)
  | succ fuel ih =>
    intro host st hf hres hs
    rcases host with _ | ⟨b0, _ | ⟨b1, _ | ⟨b2, _ | ⟨b3, host1⟩⟩⟩⟩
    · exact ⟨0, st.res, rfl, by omega, List.prefix_refl _⟩
    · exact ⟨0, st.res, rfl, by omega, List.prefix_refl _⟩
    · exact ⟨0, st.res, rfl, by omega, List.prefix_refl _⟩
    · exact ⟨0, st.res, rfl, by omega, List.prefix_refl _⟩
    · by_cases hlt : st.s < hidden_length
      · simp only [mp3_extract_frames, hlt, if_true, mp3_mpeg_fr_seek]
        have hlen : (host1.drop (M.mp3_mpeg_fr_body (be32 b0 b1 b2 b3))).length < fuel := by
          simp only [List.length_drop, List.length_cons] at hf ⊢
          omega
        rcases mp3_extract_bits_header M (be32 b0 b1 b2 b3) st with ⟨h1, h2⟩ | ⟨h1, hpre, h2⟩
        · obtain ⟨code, res, hrun, hb, hp⟩ := ih _ _ hlen (by rw [h1, h2]; exact hres)
            (by rw [h2]; exact hs)
          exact ⟨code, res, hrun, hb, by rw [h1] at hp; exact hp⟩
        · have hmod : (st.s + 1) % 2 ^ 32 = st.s + 1 := Nat.mod_eq_of_lt (by omega)
          obtain ⟨code, res, hrun, hb, hp⟩ := ih _ _ hlen
            (by rw [h1, h2, hmod, hres])
            (by rw [h2, hmod]; omega)
          exact ⟨code, res, hrun, hb, hpre.trans hp⟩
      · exact ⟨0, st.res, mp3_extract_frames_stop M hidden_length fuel _ st (by omega),
          by omega, List.prefix_refl _⟩

/-! ## The MP3 insertion, header by header -/

theorem byte_bits_length : ∀ (n b : Nat), (byte_bits b n).length = n := by
  intro n
  induction n with
  | zero => intro b; rfl
  | succ n ih => intro b; simp [byte_bits, ih]

theorem byte_bits_getElem? : ∀ (n b i : Nat), i < n →
    (byte_bits b n)[i]? = some ((b >>> i) &&& 1) := by
  intro n
  induction n with
  | zero => intro b i hi; exact absurd hi (Nat.not_lt_zero _)
  | succ n ih =>
    intro b i hi
    cases i with
    | zero => simp [byte_bits]
    | succ i =>
      simp only [byte_bits, List.getElem?_cons_succ]
      rw [ih (b >>> 1) i (by omega), ← Nat.shiftRight_add, Nat.add_comm]

theorem byte_bits_le_one : ∀ (n b : Nat), ∀ x ∈ byte_bits b n, x ≤ 1 := by
  intro n
  induction n with
  | zero => intro b x hx; simp [byte_bits] at hx
  | succ n ih =>
    intro b x hx
    simp only [byte_bits, List.mem_cons] at hx
    rcases hx with rfl | hx
    · exact Nat.and_le_right
    · exact ih _ x hx

theorem bit_stream_le_one (bs : List Nat) : ∀ x ∈ bit_stream bs, x ≤ 1 := by
  intro x hx
  simp only [bit_stream, List.mem_flatMap] at hx
  obtain ⟨m, _, hm⟩ := hx
  exact byte_bits_le_one 8 m x hm

theorem mp3_pending_le_one (rand : Nat → Nat × Nat) (st : mp3_ins_state) :
    ∀ x ∈ mp3_pending rand st, x ≤ 1 := by
  intro x hx
  unfold mp3_pending at hx
  split_ifs at hx
  · exact bit_stream_le_one _ x hx
  · exact bit_stream_le_one _ x hx
  · rw [List.mem_append] at hx
    rcases hx with hx | hx
    · exact byte_bits_le_one _ _ x hx
    · exact bit_stream_le_one _ x hx

theorem bit_stream_cons (m : Nat) (bs : List Nat) :
    bit_stream (m :: bs) = (m &&& 1) :: (byte_bits (m >>> 1) 7 ++ bit_stream bs) := by
  simp [bit_stream, byte_bits]

theorem mp3_pending_nil (rand : Nat → Nat × Nat) (st : mp3_ins_state) (hb : st.b_cnt ≤ 8) :
    mp3_pending rand st = [] ↔ st.b_cnt = 0 ∧ st.hidden = [] := by
  obtain ⟨hdr, hc, b, bc, seed, hid, eof⟩ := st
  simp only [mp3_pending]
  by_cases h0 : bc = 0
  · subst h0
    cases hid with
    | nil => simp [xor_keystream, bit_stream]
    | cons y rest => simp [xor_keystream, bit_stream_cons]
  · by_cases h8 : bc = 8
    · subst h8
      simp [xor_keystream, bit_stream_cons]
    · obtain ⟨k, rfl⟩ : ∃ k, bc = k + 1 := ⟨bc - 1, by omega⟩
      simp [h8, byte_bits]

/-- A turn of the inner loop with the header saturated : nothing is hidden; a
payload byte may be read, and it is not masked. -/
theorem mp3_turn_saturated (M : Mp3Env) (fuel : Nat) (st : mp3_ins_state)
    (hc : ¬ st.hdr_cnt < MP3_HDR_NB_BITS_MODIF) :
    (mp3_insert_bits M (fuel + 1) st).hdr = st.hdr ∧
    (mp3_insert_bits M (fuel + 1) st).hdr_cnt = st.hdr_cnt ∧
    (mp3_insert_bits M (fuel + 1) st).seed = st.seed ∧
    mp3_pending M.rand (mp3_insert_bits M (fuel + 1) st) = mp3_pending M.rand st ∧
    (st.b_cnt ≤ 8 → (mp3_insert_bits M (fuel + 1) st).b_cnt ≤ 8) := by
  obtain ⟨hdr, c, b, bc, seed, hid, eof⟩ := st
  simp only [mp3_insert_bits]
  by_cases h0 : bc = 0
  · subst h0
    cases hid with
    | nil => simp [hc, mp3_pending]
    | cons y rest => simp [hc, mp3_pending]
  · simp [h0, hc]

/-- A turn of the inner loop when nothing is left to hide. -/
theorem mp3_turn_exhausted (M : Mp3Env) (fuel : Nat) (st : mp3_ins_state)
    (h0 : st.b_cnt = 0) (hnil : st.hidden = []) :
    (mp3_insert_bits M (fuel + 1) st).hdr = st.hdr ∧
    (mp3_insert_bits M (fuel + 1) st).hdr_cnt = st.hdr_cnt ∧
    (mp3_insert_bits M (fuel + 1) st).seed = st.seed ∧
    mp3_pending M.rand (mp3_insert_bits M (fuel + 1) st) = mp3_pending M.rand st ∧
    (mp3_insert_bits M (fuel + 1) st).b_cnt ≤ 8 ∧
    (mp3_insert_bits M (fuel + 1) st).feof_hidden = true := by
  obtain ⟨hdr, c, b, bc, seed, hid, eof⟩ := st
  simp only at h0 hnil
  subst h0 hnil
  simp [mp3_insert_bits, mp3_pending]

/-- A turn of the inner loop that hides a bit : the bit is the first one of
the bits to hide, and the bits to hide afterwards are the other ones. -/
theorem mp3_turn_bit (M : Mp3Env) (fuel : Nat) (st : mp3_ins_state) (x : Nat) (xs : List Nat)
    (hc : st.hdr_cnt < MP3_HDR_NB_BITS_MODIF) (hb : st.b_cnt ≤ 8)
    (hP : mp3_pending M.rand st = x :: xs) :
    ∃ st3, mp3_insert_bits M (fuel + 1) st = mp3_insert_bits M fuel st3 ∧
      st3.hdr = ((st.hdr &&& mp3_mask.getD st.hdr_cnt 0) |||
        (x <<< mp3_shift.getD st.hdr_cnt 0)) % 2 ^ 32 ∧
      st3.hdr_cnt = st.hdr_cnt + 1 ∧ mp3_pending M.rand st3 = xs ∧ st3.b_cnt ≤ 7 ∧
      st3.seed = (if st.b_cnt = 0 ∨ st.b_cnt = 8 then (M.rand st.seed).2 else st.seed) := by
  obtain ⟨hdr, c, b, bc, seed, hid, eof⟩ := st
  simp only at hc hb
  by_cases h0 : bc = 0
  · subst h0
    cases hid with
    | nil => simp [mp3_pending, xor_keystream, bit_stream] at hP
    | cons y rest =>
      simp only [mp3_pending, if_true, xor_keystream, bit_stream_cons, List.cons.injEq] at hP
      obtain ⟨hx, hxs⟩ := hP
      refine ⟨⟨((hdr &&& mp3_mask.getD c 0) |||
          ((((y ^^^ ((M.rand seed).1 % 255)) % 256) &&& 1) <<< mp3_shift.getD c 0)) % 2 ^ 32,
        c + 1, ((y ^^^ ((M.rand seed).1 % 255)) % 256) >>> 1, 7, (M.rand seed).2, rest, eof⟩,
        ?_, ?_, rfl, ?_, Nat.le_refl _, ?_⟩
      · simp [mp3_insert_bits, hc]
      · simp only [← hx]
      · simp only [mp3_pending, ← hxs]
        simp
      · simp
  · by_cases h8 : bc = 8
    · subst h8
      simp only [mp3_pending, show ¬ (8 : Nat) = 0 by decide, if_false, if_true,
        xor_keystream, bit_stream_cons, List.cons.injEq] at hP
      obtain ⟨hx, hxs⟩ := hP
      refine ⟨⟨((hdr &&& mp3_mask.getD c 0) |||
          ((((b ^^^ ((M.rand seed).1 % 255)) % 256) &&& 1) <<< mp3_shift.getD c 0)) % 2 ^ 32,
        c + 1, ((b ^^^ ((M.rand seed).1 % 255)) % 256) >>> 1, 7, (M.rand seed).2, hid, eof⟩,
        ?_, ?_, rfl, ?_, Nat.le_refl _, ?_⟩
      · simp [mp3_insert_bits, hc]
      · simp only [← hx]
      · simp only [mp3_pending, ← hxs]
        simp
      · simp
    · obtain ⟨k, rfl⟩ : ∃ k, bc = k + 1 := ⟨bc - 1, by omega⟩
      simp only [mp3_pending, h0, h8, if_false, byte_bits, List.cons_append,
        List.cons.injEq] at hP
      obtain ⟨hx, hxs⟩ := hP
      refine ⟨⟨((hdr &&& mp3_mask.getD c 0) ||| ((b &&& 1) <<< mp3_shift.getD c 0)) % 2 ^ 32,
        c + 1, b >>> 1, k, seed, hid, eof⟩, ?_, ?_, rfl, ?_, (show k ≤ 7 by omega), ?_⟩
      · simp [mp3_insert_bits, hc, h8]
      · simp only [← hx]
      · simp only [mp3_pending, ← hxs]
        have hk8 : ¬ k = 8 := by omega
        by_cases hk0 : k = 0
        · subst hk0
          simp [byte_bits]
        · simp [hk0, hk8]
      · simp [h8]

/-- The inner loop run on one header, from the slot `hdr_cnt` on : the slots
that are left receive the first bits to hide, and the bits to hide afterwards
are the ones that follow. -/
theorem mp3_insert_bits_pending (M : Mp3Env) :
    ∀ (fuel : Nat) (st : mp3_ins_state), st.b_cnt ≤ 8 →
      st.hdr_cnt ≤ MP3_HDR_NB_BITS_MODIF → MP3_HDR_NB_BITS_MODIF - st.hdr_cnt < fuel →
      (mp3_insert_bits M fuel st).hdr = mp3_embed st.hdr st.hdr_cnt
        ((mp3_pending M.rand st).take (MP3_HDR_NB_BITS_MODIF - st.hdr_cnt)) ∧
      (mp3_insert_bits M fuel st).hdr_cnt =
        st.hdr_cnt + min (MP3_HDR_NB_BITS_MODIF - st.hdr_cnt) (mp3_pending M.rand st).length ∧
      mp3_pending M.rand (mp3_insert_bits M fuel st) =
        (mp3_pending M.rand st).drop (MP3_HDR_NB_BITS_MODIF - st.hdr_cnt) ∧
      (mp3_insert_bits M fuel st).b_cnt ≤ 8 := by
  intro fuel
  induction fuel with
  | zero => intro st _ _ hf; exact absurd hf (Nat.not_lt_zero _)
  | succ fuel ih =>
    intro st hb hle hf
    by_cases hc : st.hdr_cnt < MP3_HDR_NB_BITS_MODIF
    · cases hP : mp3_pending M.rand st with
      | nil =>
        obtain ⟨h0, hnil⟩ := (mp3_pending_nil M.rand st hb).mp hP
        obtain ⟨h1, h2, _, h4, h5, _⟩ := mp3_turn_exhausted M fuel st h0 hnil
        rw [h4, hP]
        exact ⟨by rw [h1, List.take_nil, mp3_embed], by rw [h2]; simp, by simp, h5⟩
      | cons x xs =>
        obtain ⟨st3, hrun, hh, hcnt, hpend, hb3, _⟩ := mp3_turn_bit M fuel st x xs hc hb hP
        obtain ⟨i1, i2, i3, i4⟩ := ih st3 (by omega) (by omega) (by omega)
        obtain ⟨d, hd⟩ : ∃ d, MP3_HDR_NB_BITS_MODIF - st.hdr_cnt = d + 1 :=
          ⟨MP3_HDR_NB_BITS_MODIF - st.hdr_cnt - 1, by omega⟩
        have hd3 : MP3_HDR_NB_BITS_MODIF - st3.hdr_cnt = d := by omega
        rw [hrun, hd]
        rw [hd3, hpend] at i1 i2 i3
        refine ⟨?_, ?_, ?_, i4⟩
        · rw [i1, List.take_succ_cons, mp3_embed, hh, hcnt]
        · rw [i2, hcnt, List.length_cons]
          omega
        · rw [i3, List.drop_succ_cons]
    · obtain ⟨h1, h2, _, h4, h5⟩ := mp3_turn_saturated M fuel st hc
      have hz : MP3_HDR_NB_BITS_MODIF - st.hdr_cnt = 0 := by omega
      rw [hz, h4]
      exact ⟨by rw [h1, List.take_zero, mp3_embed], by rw [h2]; simp, by simp, h5 hb⟩

/-! ## The bits of a header that the MP3 insertion rewrites -/

theorem mp3_mask_testBit (c : Nat) (hc : c < MP3_HDR_NB_BITS_MODIF) (i : Nat) :
    (mp3_mask.getD c 0).testBit i = (decide (i < 32) && !decide (i = mp3_shift.getD c 0)) := by
  have hc3 : c < 3 := hc
  by_cases hi : i < 32
  · interval_cases c <;> interval_cases i <;> rfl
  · have hlt : mp3_mask.getD c 0 < 2 ^ i := by
      have h1 : mp3_mask.getD c 0 < 2 ^ 32 := by interval_cases c <;> decide
      exact Nat.lt_of_lt_of_le h1 (Nat.pow_le_pow_right (by norm_num) (by omega))
    rw [Nat.testBit_lt_two_pow hlt]
    simp [hi]

theorem mp3_shift_lt (c : Nat) (hc : c < MP3_HDR_NB_BITS_MODIF) : mp3_shift.getD c 0 < 32 := by
  have hc3 : c < 3 := hc
  interval_cases c <;> decide

theorem mp3_shift_injective (a b : Nat) (ha : a < MP3_HDR_NB_BITS_MODIF)
    (hb : b < MP3_HDR_NB_BITS_MODIF) (h : mp3_shift.getD a 0 = mp3_shift.getD b 0) : a = b := by
  have ha3 : a < 3 := ha
  have hb3 : b < 3 := hb
  interval_cases a <;> interval_cases b <;> first | rfl | exact absurd h (by decide)

/-- Line 306 of `lsb.c` for the slot `c` and the bit `x` : the bit of the
header at the position of the slot becomes `x`, the other ones stay. -/
theorem mp3_slot_testBit (h x c i : Nat) (hx : x ≤ 1) (hc : c < MP3_HDR_NB_BITS_MODIF) :
    (((h &&& mp3_mask.getD c 0) ||| (x <<< mp3_shift.getD c 0)) % 2 ^ 32).testBit i =
      if i = mp3_shift.getD c 0 then decide (x = 1) else (decide (i < 32) && h.testBit i) := by
  have hs := mp3_shift_lt c hc
  rw [Nat.testBit_mod_two_pow, Nat.testBit_or, Nat.testBit_and, mp3_mask_testBit c hc]
  generalize mp3_shift.getD c 0 = s at hs ⊢
  interval_cases x
  · rw [Nat.zero_shiftLeft, Nat.zero_testBit]
    by_cases his : i = s <;> by_cases hi : i < 32 <;> simp [his, hi]
  · rw [Nat.one_shiftLeft, Nat.testBit_two_pow]
    by_cases his : i = s
    · subst his
      simp [hs]
    · have his2 : ¬ s = i := fun h => his h.symm
      by_cases hi : i < 32 <;> simp [his, his2, hi]

theorem mp3_embed_spec : ∀ (xs : List Nat) (h c : Nat), (∀ x ∈ xs, x ≤ 1) →
    c + xs.length ≤ MP3_HDR_NB_BITS_MODIF → h < 2 ^ 32 →
    mp3_embed h c xs < 2 ^ 32 ∧
    (∀ i, (∀ k, c ≤ k → k < c + xs.length → i ≠ mp3_shift.getD k 0) →
      (mp3_embed h c xs).testBit i = h.testBit i) ∧
    (∀ k x, xs[k]? = some x →
      (mp3_embed h c xs).testBit (mp3_shift.getD (c + k) 0) = decide (x = 1)) := by
  intro xs
  induction xs with
  | nil =>
    intro h c _ _ hh
    exact ⟨hh, fun i _ => rfl, fun k x hk => by simp at hk⟩
  | cons x xs ih =>
    intro h c hbits hlen hh
    have hx : x ≤ 1 := hbits x (List.mem_cons_self _ _)
    have hc : c < MP3_HDR_NB_BITS_MODIF := by
      simp only [List.length_cons] at hlen; omega
    have h1 : ((h &&& mp3_mask.getD c 0) ||| (x <<< mp3_shift.getD c 0)) % 2 ^ 32 < 2 ^ 32 :=
      Nat.mod_lt _ (by norm_num)
    obtain ⟨i1, i2, i3⟩ := ih _ (c + 1) (fun y hy => hbits y (List.mem_cons_of_mem _ hy))
      (by simp only [List.length_cons] at hlen; omega) h1
    have hkeep : ∀ i, i ≠ mp3_shift.getD c 0 →
        (((h &&& mp3_mask.getD c 0) ||| (x <<< mp3_shift.getD c 0)) % 2 ^ 32).testBit i =
          h.testBit i := by
      intro i hi
      rw [mp3_slot_testBit h x c i hx hc, if_neg hi]
      by_cases hi32 : i < 32
      · simp [hi32]
      · have : h.testBit i = false :=
          Nat.testBit_lt_two_pow
            (Nat.lt_of_lt_of_le hh (Nat.pow_le_pow_right (by norm_num) (by omega)))
        simp [this]
    refine ⟨by rw [mp3_embed]; exact i1, ?_, ?_⟩
    · intro i hi
      rw [mp3_embed, i2 i (fun k hk1 hk2 => hi k (by omega)
        (by simp only [List.length_cons]; omega))]
      exact hkeep i (hi c (Nat.le_refl _) (by simp only [List.length_cons]; omega))
    · intro k y hy
      cases k with
      | zero =>
        simp only [List.getElem?_cons_zero, Option.some.injEq] at hy
        subst hy
        rw [mp3_embed]
        simp only [Nat.add_zero]
        rw [i2 _ (fun k hk1 hk2 heq => by
          have := mp3_shift_injective c k hc
            (by simp only [List.length_cons] at hlen; omega) heq
          omega), mp3_slot_testBit h x c _ hx hc, if_pos rfl]
      | succ k =>
        simp only [List.getElem?_cons_succ] at hy
        rw [mp3_embed, show c + (k + 1) = c + 1 + k by omega]
        exact i3 k y hy

theorem mp3_pending_congr (rand : Nat → Nat × Nat) (h1 c1 h2 c2 b bc seed : Nat)
    (hid : List Nat) (e1 e2 : Bool) :
    mp3_pending rand ⟨h1, c1, b, bc, seed, hid, e1⟩ =
      mp3_pending rand ⟨h2, c2, b, bc, seed, hid, e2⟩ := rfl

/-- The loop on the frames of the MP3 insertion hides, header after header,
the bits to hide. -/
theorem mp3_insert_frames_spec (M : Mp3Env) :
    ∀ (fuel : Nat) (host res : List Nat) (hdr_var b bc seed : Nat) (hid : List Nat)
      (eof : Bool), bc ≤ 8 →
      (mp3_insert_frames M fuel host res hdr_var b bc seed hid eof).map
          (fun x => (x.code, x.host, x.res, x.hdr)) =
        mp3_spec_frames M fuel host res hdr_var
          (mp3_pending M.rand ⟨0, 0, b, bc, seed, hid, eof⟩) := by
  intro fuel
  induction fuel with
  | zero => intro host res hdr_var b bc seed hid eof _; rfl
  | succ fuel ih =>
    intro host res hdr_var b bc seed hid eof hbc
    rcases host with _ | ⟨x0, _ | ⟨x1, _ | ⟨x2, _ | ⟨x3, host1⟩⟩⟩⟩ <;> try rfl
    simp only [mp3_insert_frames, mp3_spec_frames]
    by_cases ht : M.mp3_mpeg_hdr_test (be32 x0 x1 x2 x3) = true
    · simp only [ht, if_true]
      obtain ⟨p1, _, p3, p4⟩ := mp3_insert_bits_pending M (MP3_HDR_NB_BITS_MODIF + 1)
        ⟨be32 x0 x1 x2 x3, 0, b, bc, seed, hid, eof⟩ hbc (Nat.zero_le _) (Nat.lt_succ_self _)
      rw [mp3_pending_congr M.rand (be32 x0 x1 x2 x3) 0 0 0 b bc seed hid eof eof] at p1 p3
      simp only [Nat.sub_zero] at p1 p3
      generalize mp3_insert_bits M (MP3_HDR_NB_BITS_MODIF + 1)
        ⟨be32 x0 x1 x2 x3, 0, b, bc, seed, hid, eof⟩ = st at p1 p3 p4 ⊢
      rw [← p1, ← p3]
      rcases mp3_mpeg_fr_write M st.hdr host1 (res ++ be32_bytes st.hdr) with ⟨code, host2, res2⟩
      by_cases hcode : code = 0
      · subst hcode
        simp only []
        exact ih host2 res2 _ st.b st.b_cnt st.seed st.hidden st.feof_hidden p4
      · split
        · rename_i heq
          exact absurd (Prod.mk.inj heq).1 hcode
        · rfl
    · simp only [ht, if_false, Option.map_some', Bool.false_eq_true]

/-! ## The inspection of a WAV host -/

/-- The read of the bits per sample takes the place of the first two bytes of
`wav.chunk_size` and leaves the other two : on a machine that stores the low
byte first, a member that held `0x12340000` holds `0x12340010` after the
inspection of a host whose field is 16. -/
theorem fill_host_info_wav_partial_write :
    fill_host_info_wav test_host_env (wav_bps_session 16).host.host
        (file_info_u.wav ⟨0, 0, 0x12340000⟩) =
      some (0, file_info_u.wav ⟨44, 8, 0x12340010⟩) := by
  decide

/-! ## The MP3 round trip, slot by slot -/

theorem mp3_slot_bit_eq (hdr c : Nat) (hc : c < MP3_HDR_NB_BITS_MODIF) :
    mp3_slot_bit hdr c = if hdr.testBit (mp3_shift.getD c 0) then 1 else 0 := by
  have hc3 : c < 3 := hc
  have key : ∀ s : Nat, (hdr &&& 2 ^ s) >>> s = if hdr.testBit s then 1 else 0 := by
    intro s
    rw [Nat.and_two_pow, Nat.shiftRight_eq_div_pow,
      Nat.mul_div_cancel _ (Nat.pos_pow_of_pos s (by decide))]
    cases hdr.testBit s <;> rfl
  interval_cases c
  · exact key 2
  · exact key 3
  · exact key 8

theorem mp3_slot_bit_le_one (hdr c : Nat) (hc : c < MP3_HDR_NB_BITS_MODIF) :
    mp3_slot_bit hdr c ≤ 1 := by
  rw [mp3_slot_bit_eq hdr c hc]
  split <;> omega

theorem mp3_slot_bit_embed (h : Nat) (xs : List Nat) (c x : Nat) (hh : h < 2 ^ 32)
    (hbits : ∀ y ∈ xs, y ≤ 1) (hlen : xs.length ≤ MP3_HDR_NB_BITS_MODIF)
    (hx : xs[c]? = some x) : mp3_slot_bit (mp3_embed h 0 xs) c = x := by
  have hcl : c < xs.length := by
    by_contra hn
    rw [List.getElem?_eq_none (by omega)] at hx
    exact absurd hx (by simp)
  have hc : c < MP3_HDR_NB_BITS_MODIF := by omega
  obtain ⟨_, _, h3⟩ := mp3_embed_spec xs h 0 hbits (by omega) hh
  have hb := h3 c x hx
  rw [Nat.zero_add] at hb
  rw [mp3_slot_bit_eq _ c hc, hb]
  have hx1 : x ≤ 1 := hbits x (List.getElem?_mem hx)
  interval_cases x <;> simp

theorem mp3_extract_bits_cons (M : Mp3Env) (hdr c : Nat) (l : List Nat) (st : mp3_ext_state) :
    mp3_extract_bits M hdr (c :: l) st =
      mp3_extract_bits M hdr l (mp3_extract_bits M hdr [c] st) := rfl

theorem mp3_extract_slot_mute (M : Mp3Env) (hdr c : Nat) (st : mp3_ext_state) :
    mp3_extract_bits M.mute hdr [c] st =
      if st.b_cnt = 0 then
        { b := (0 ||| (mp3_slot_bit hdr c <<< (8 - 8))) % 256
          b_cnt := 8 - 1
          s := (st.s + 1) % 2 ^ 32
          seed := st.seed
          res := st.res ++ [(st.b ^^^ (0 % 255)) % 256] }
      else
        { b := (st.b ||| (mp3_slot_bit hdr c <<< (8 - st.b_cnt))) % 256
          b_cnt := st.b_cnt - 1
          s := st.s
          seed := st.seed
          res := st.res } := by
  simp only [mp3_extract_bits, Mp3Env.mute, mp3_slot_bit]
  split_ifs <;> rfl

theorem byte_low_bits_succ (q k : Nat) (hk : k < 8) :
    ((q % 2 ^ k) ||| (((q >>> k) &&& 1) <<< k)) % 256 = q % 2 ^ (k + 1) := by
  have hlt : q % 2 ^ k < 2 ^ k := Nat.mod_lt _ (Nat.pos_pow_of_pos k (by decide))
  have h1 : ((q >>> k) &&& 1) <<< k = 2 ^ k * (q / 2 ^ k % 2) := by
    rw [Nat.shiftLeft_eq, Nat.and_one_is_mod, Nat.shiftRight_eq_div_pow, Nat.mul_comm]
  have h2 : (q % 2 ^ k) ||| (2 ^ k * (q / 2 ^ k % 2)) = q % 2 ^ (k + 1) := by
    rw [Nat.mod_pow_succ, Nat.or_comm, Nat.add_comm]
    exact (Nat.mul_add_lt_is_or hlt _).symm
  rw [h1, h2]
  apply Nat.mod_eq_of_lt
  have h3 : q % 2 ^ (k + 1) < 2 ^ (k + 1) := Nat.mod_lt _ (Nat.pos_pow_of_pos _ (by decide))
  have h4 : 2 ^ (k + 1) ≤ 2 ^ 8 := Nat.pow_le_pow_right (by decide) (by omega)
  omega

theorem bit_stream_length (bs : List Nat) : (bit_stream bs).length = 8 * bs.length := by
  induction bs with
  | nil => rfl
  | cons m bs ih =>
    rw [bit_stream_cons, List.length_cons, List.length_append, byte_bits_length, ih,
      List.length_cons]
    omega

/-- A slot that holds the next hidden bit : the extraction, which was
rebuilding a byte, goes on rebuilding it, or writes it and starts the next
one. -/
theorem mp3_ext_slot_read (M : Mp3Env) (Q : List Nat) (hQ : ∀ q ∈ Q, q < 256)
    (hL : Q.length < 2 ^ 32) (hdr c y : Nat) (ys : List Nat) (st : mp3_ext_state)
    (hinv : mp3_ext_inv Q (y :: ys) st) (hbit : mp3_slot_bit hdr c = y) :
    mp3_ext_inv Q ys (mp3_extract_bits M.mute hdr [c] st) := by
  obtain ⟨j, k, hj, hk, hb, hcnt, hs, hres, hbits⟩ := hinv
  rw [mp3_extract_slot_mute]
  have hgj : Q.getD j 0 = Q[j] := List.getD_eq_getElem Q 0 hj
  by_cases hk8 : k = 8
  · subst hk8
    have h0 : st.b_cnt = 0 := by omega
    rw [if_pos h0]
    simp only [Nat.sub_self, byte_bits, List.nil_append] at hbits
    have hj1 : j + 1 < Q.length := by
      by_contra hn
      rw [List.drop_of_length_le (by omega)] at hbits
      exact absurd hbits (by simp [bit_stream])
    have hgj1 : Q.getD (j + 1) 0 = Q[j + 1] := List.getD_eq_getElem Q 0 hj1
    rw [List.drop_eq_getElem_cons hj1, bit_stream_cons] at hbits
    obtain ⟨hy, hys⟩ := List.cons.inj hbits
    refine ⟨j + 1, 1, hj1, by omega, ?_, rfl, ?_, ?_, ?_⟩
    · show (0 ||| (mp3_slot_bit hdr c <<< (8 - 8))) % 256 = Q.getD (j + 1) 0 % 2 ^ 1
      rw [hbit, hy, hgj1, Nat.sub_self, Nat.shiftLeft_zero, Nat.zero_or, Nat.and_one_is_mod,
        Nat.pow_one]
      have := Nat.mod_lt Q[j + 1] (show 0 < 2 by decide)
      omega
    · show (st.s + 1) % 2 ^ 32 = j + 1
      rw [hs]
      exact Nat.mod_eq_of_lt (by omega)
    · show st.res ++ [(st.b ^^^ (0 % 255)) % 256] = Q.take (j + 1)
      have hq : Q[j] < 256 := hQ _ (List.getElem_mem _)
      have hbq : st.b = Q[j] := by
        rw [hb, hgj]
        exact Nat.mod_eq_of_lt hq
      rw [hbq, xor_zero_mod _ hq, hres, List.take_succ, List.getElem?_eq_getElem hj]
      rfl
    · rw [hys, hgj1]
  · obtain ⟨d, hd⟩ : ∃ d, 8 - k = d + 1 := ⟨7 - k, by omega⟩
    have h0 : ¬ st.b_cnt = 0 := by omega
    rw [if_neg h0]
    rw [hd, byte_bits, List.cons_append] at hbits
    obtain ⟨hy, hys⟩ := List.cons.inj hbits
    refine ⟨j, k + 1, hj, by omega, ?_, ?_, hs, hres, ?_⟩
    · show (st.b ||| (mp3_slot_bit hdr c <<< (8 - st.b_cnt))) % 256 = Q.getD j 0 % 2 ^ (k + 1)
      have hk2 : 8 - st.b_cnt = k := by omega
      rw [hb, hbit, hy, hk2]
      exact byte_low_bits_succ _ k (by omega)
    · show st.b_cnt - 1 = 8 - (k + 1)
      omega
    · have hd2 : 8 - (k + 1) = d := by omega
      rw [hys, hd2, Nat.shiftRight_add]

/-- A slot read when every hidden bit has been read : the extraction writes
the last byte of `Q`. -/
theorem mp3_ext_slot_last (M : Mp3Env) (Q : List Nat) (hQ : ∀ q ∈ Q, q < 256)
    (hL : Q.length < 2 ^ 32) (hdr c : Nat) (st : mp3_ext_state)
    (hinv : mp3_ext_inv Q [] st) :
    (mp3_extract_bits M.mute hdr [c] st).s = Q.length ∧
    (mp3_extract_bits M.mute hdr [c] st).res = Q ∧
    (mp3_extract_bits M.mute hdr [c] st).b_cnt = 7 := by
  obtain ⟨j, k, hj, hk, hb, hcnt, hs, hres, hbits⟩ := hinv
  have hlen := congrArg List.length hbits
  rw [List.length_nil, List.length_append, byte_bits_length, bit_stream_length,
    List.length_drop] at hlen
  have hk8 : k = 8 := by omega
  have hjL : j + 1 = Q.length := by omega
  subst hk8
  have h0 : st.b_cnt = 0 := by omega
  have hgj : Q.getD j 0 = Q[j] := List.getD_eq_getElem Q 0 hj
  have hq : Q[j] < 256 := hQ _ (List.getElem_mem _)
  have hbq : st.b = Q[j] := by
    rw [hb, hgj]
    exact Nat.mod_eq_of_lt hq
  rw [mp3_extract_slot_mute, if_pos h0]
  refine ⟨?_, ?_, rfl⟩
  · show (st.s + 1) % 2 ^ 32 = Q.length
    rw [hs, hjL]
    exact Nat.mod_eq_of_lt hL
  · show st.res ++ [(st.b ^^^ (0 % 255)) % 256] = Q
    rw [hbq, xor_zero_mod _ hq, hres]
    have h1 : Q.take (j + 1) = Q := List.take_of_length_le (by omega)
    rw [List.take_succ, List.getElem?_eq_getElem hj] at h1
    exact h1

/-- A slot read while no byte is complete : nothing is written. -/
theorem mp3_ext_slot_idle (M : Mp3Env) (hdr c : Nat) (st : mp3_ext_state)
    (h0 : st.b_cnt ≠ 0) :
    (mp3_extract_bits M.mute hdr [c] st).s = st.s ∧
    (mp3_extract_bits M.mute hdr [c] st).res = st.res ∧
    (mp3_extract_bits M.mute hdr [c] st).b_cnt = st.b_cnt - 1 := by
  rw [mp3_extract_slot_mute, if_neg h0]
  exact ⟨rfl, rfl, rfl⟩

/-- A header in which the insertion has hidden the next bits : after its three
slots the extraction has read these bits, or it has written every byte of
`Q`. -/
theorem mp3_ext_header (M : Mp3Env) (Q : List Nat) (hQ : ∀ q ∈ Q, q < 256)
    (hL : Q.length < 2 ^ 32) (h : Nat) (hh : h < 2 ^ 32) (bits : List Nat)
    (hbits : ∀ x ∈ bits, x ≤ 1) (st : mp3_ext_state) (hinv : mp3_ext_inv Q bits st) :
    mp3_ext_ok Q (bits.drop MP3_HDR_NB_BITS_MODIF)
      (mp3_extract_bits M.mute (mp3_embed h 0 (bits.take MP3_HDR_NB_BITS_MODIF))
        (List.range MP3_HDR_NB_BITS_MODIF) st) := by
  have hr : List.range MP3_HDR_NB_BITS_MODIF = [0, 1, 2] := rfl
  rw [hr, mp3_extract_bits_cons, mp3_extract_bits_cons]
  rcases bits with _ | ⟨a, _ | ⟨b, _ | ⟨c, rest⟩⟩⟩
  · left
    generalize mp3_embed h 0 (List.take MP3_HDR_NB_BITS_MODIF []) = hdr
    obtain ⟨s1, r1, c1⟩ := mp3_ext_slot_last M Q hQ hL hdr 0 st hinv
    obtain ⟨s2, r2, c2⟩ := mp3_ext_slot_idle M hdr 1 _ (by rw [c1]; decide)
    obtain ⟨s3, r3, _⟩ := mp3_ext_slot_idle M hdr 2 _ (by rw [c2, c1]; decide)
    exact ⟨by rw [s3, s2, s1], by rw [r3, r2, r1]⟩
  · left
    have ht : List.take MP3_HDR_NB_BITS_MODIF [a] = [a] := rfl
    rw [ht]
    have e0 := mp3_slot_bit_embed h [a] 0 a hh hbits (by simp [MP3_HDR_NB_BITS_MODIF]) rfl
    generalize mp3_embed h 0 [a] = hdr at e0 ⊢
    have i1 := mp3_ext_slot_read M Q hQ hL hdr 0 a [] st hinv e0
    obtain ⟨s2, r2, c2⟩ := mp3_ext_slot_last M Q hQ hL hdr 1 _ i1
    obtain ⟨s3, r3, _⟩ := mp3_ext_slot_idle M hdr 2 _ (by rw [c2]; decide)
    exact ⟨by rw [s3, s2], by rw [r3, r2]⟩
  · left
    have ht : List.take MP3_HDR_NB_BITS_MODIF [a, b] = [a, b] := rfl
    rw [ht]
    have e0 := mp3_slot_bit_embed h [a, b] 0 a hh hbits (by simp [MP3_HDR_NB_BITS_MODIF]) rfl
    have e1 := mp3_slot_bit_embed h [a, b] 1 b hh hbits (by simp [MP3_HDR_NB_BITS_MODIF]) rfl
    generalize mp3_embed h 0 [a, b] = hdr at e0 e1 ⊢
    have i1 := mp3_ext_slot_read M Q hQ hL hdr 0 a [b] st hinv e0
    have i2 := mp3_ext_slot_read M Q hQ hL hdr 1 b [] _ i1 e1
    obtain ⟨s3, r3, _⟩ := mp3_ext_slot_last M Q hQ hL hdr 2 _ i2
    exact ⟨s3, r3⟩
  · right
    have ht : List.take MP3_HDR_NB_BITS_MODIF (a :: b :: c :: rest) = [a, b, c] := rfl
    have hd : List.drop MP3_HDR_NB_BITS_MODIF (a :: b :: c :: rest) = rest := rfl
    rw [ht, hd]
    have hb3 : ∀ x ∈ [a, b, c], x ≤ 1 := by
      intro x hx
      apply hbits x
      simp only [List.mem_cons, List.mem_singleton, List.not_mem_nil, or_false] at hx ⊢
      rcases hx with hx | hx | hx
      · exact Or.inl hx
      · exact Or.inr (Or.inl hx)
      · exact Or.inr (Or.inr (Or.inl hx))
    have e0 := mp3_slot_bit_embed h [a, b, c] 0 a hh hb3 (by simp [MP3_HDR_NB_BITS_MODIF]) rfl
    have e1 := mp3_slot_bit_embed h [a, b, c] 1 b hh hb3 (by simp [MP3_HDR_NB_BITS_MODIF]) rfl
    have e2 := mp3_slot_bit_embed h [a, b, c] 2 c hh hb3 (by simp [MP3_HDR_NB_BITS_MODIF]) rfl
    generalize mp3_embed h 0 [a, b, c] = hdr at e0 e1 e2 ⊢
    have i1 := mp3_ext_slot_read M Q hQ hL hdr 0 a (b :: c :: rest) st hinv e0
    have i2 := mp3_ext_slot_read M Q hQ hL hdr 1 b (c :: rest) _ i1 e1
    exact mp3_ext_slot_read M Q hQ hL hdr 2 c rest _ i2 e2

/-! ## The MP3 round trip, frame by frame -/

theorem copy_loop_true : ∀ (n : Nat) (src res h2 r2 : List Nat),
    copy_loop n src res = (true, h2, r2) →
      n ≤ src.length ∧ h2 = src.drop n ∧ r2 = res ++ src.take n := by
  intro n
  induction n with
  | zero =>
    intro src res h2 r2 h
    simp only [copy_loop, Prod.mk.injEq, true_and] at h
    exact ⟨Nat.zero_le _, h.1.symm, by rw [← h.2]; simp⟩
  | succ n ih =>
    intro src res h2 r2 h
    cases src with
    | nil => simp [copy_loop] at h
    | cons a src =>
      simp only [copy_loop] at h
      obtain ⟨i1, i2, i3⟩ := ih src (res ++ [a]) h2 r2 h
      refine ⟨by simp only [List.length_cons]; omega, by rw [i2]; rfl, ?_⟩
      rw [i3, List.take_succ_cons, List.append_assoc]
      rfl

theorem mp3_mpeg_fr_write_ok (M : Mp3Env) (hdr : Nat) (host res host2 res2 : List Nat)
    (h : mp3_mpeg_fr_write M hdr host res = (0, host2, res2)) :
    M.mp3_mpeg_fr_body hdr ≤ host.length ∧ host2 = host.drop (M.mp3_mpeg_fr_body hdr) ∧
      res2 = res ++ host.take (M.mp3_mpeg_fr_body hdr) := by
  unfold mp3_mpeg_fr_write at h
  rcases hc : copy_loop (M.mp3_mpeg_fr_body hdr) host res with ⟨ok, h1, r1⟩
  rw [hc] at h
  cases ok with
  | false =>
    simp only [Prod.mk.injEq] at h
    exact absurd h.1 (by decide)
  | true =>
    simp only [Prod.mk.injEq, true_and] at h
    obtain ⟨i1, i2, i3⟩ := copy_loop_true _ _ _ _ _ hc
    exact ⟨i1, by rw [← h.1, i2], by rw [← h.2, i3]⟩

theorem be32_lt (b0 b1 b2 b3 : Nat) : be32 b0 b1 b2 b3 < 2 ^ 32 := by
  unfold be32
  have h0 := Nat.mod_lt b0 (show 0 < 256 by decide)
  have h1 := Nat.mod_lt b1 (show 0 < 256 by decide)
  have h2 := Nat.mod_lt b2 (show 0 < 256 by decide)
  have h3 := Nat.mod_lt b3 (show 0 < 256 by decide)
  norm_num
  omega

/-- The end-of-file indicator of the payload is set by a header only when no
bit is left to hide. -/
theorem mp3_insert_bits_feof (M : Mp3Env) : ∀ (fuel : Nat) (st : mp3_ins_state),
    (mp3_insert_bits M fuel st).feof_hidden = true →
      st.feof_hidden = true ∨ mp3_pending M.rand (mp3_insert_bits M fuel st) = [] := by
  intro fuel
  induction fuel with
  | zero => intro st h; exact Or.inl h
  | succ fuel ih =>
    intro st
    obtain ⟨hdr, c, b, bc, seed, hid, eof⟩ := st
    simp only [mp3_insert_bits]
    by_cases hz : bc = 0
    · subst hz
      cases hid with
      | nil =>
        intro _
        right
        simp [mp3_pending, xor_keystream, bit_stream]
      | cons y rest =>
        simp only [if_true]
        by_cases hlt : c < MP3_HDR_NB_BITS_MODIF
        · simp only [hlt, ne_eq, OfNat.ofNat_ne_zero, not_false_eq_true, and_self, if_true]
          intro h
          exact ih _ h
        · simp only [hlt, and_false, if_false]
          intro h
          exact Or.inl h
    · simp only [hz, if_false]
      by_cases hlt : c < MP3_HDR_NB_BITS_MODIF
      · simp only [hlt, ne_eq, hz, not_false_eq_true, and_self, if_true]
        intro h
        rcases ih _ h with h1 | h1
        · left
          by_cases h8 : bc = 8
          · simpa [h8] using h1
          · simpa [h8] using h1
        · exact Or.inr h1
      · simp only [hlt, and_false, if_false]
        intro h
        exact Or.inl h

/-- A turn of the loop of the MP3 extraction on a frame : the three slots of
the header are read and the body of the frame is skipped. -/
theorem mp3_extract_frames_frame (M : Mp3Env) (L fuel hdr : Nat) (fb rest : List Nat)
    (st : mp3_ext_state) (hh : hdr < 2 ^ 32) (hfb : fb.length = M.mp3_mpeg_fr_body hdr)
    (hs : st.s < L) :
    mp3_extract_frames M L (fuel + 1) (be32_bytes hdr ++ (fb ++ rest)) st =
      mp3_extract_frames M L fuel rest
        (mp3_extract_bits M hdr (List.range MP3_HDR_NB_BITS_MODIF) st) := by
  simp only [be32_bytes, List.cons_append, List.nil_append, mp3_extract_frames, hs, if_true,
    be32_be32_bytes hdr hh, mp3_mpeg_fr_seek, List.drop_left' hfb]

/-- The stream that the loop on the frames of the MP3 insertion writes, read by
the loop of the MP3 extraction run with a keystream of zeros : the extraction
reads in each header the bits that the insertion has hidden in it, and when it
leaves what the insertion wrote it has written every byte of `Q` or it is
rebuilding one of them, the bits `bits1` that the insertion has not hidden
being the ones it has not read. -/
theorem mp3_round_trip_frames (M : Mp3Env) (Q : List Nat) (hQ : ∀ q ∈ Q, q < 256)
    (hL : Q.length < 2 ^ 32) :
    ∀ (fuel : Nat) (host res : List Nat) (hdr_var b bc seed : Nat) (hid : List Nat) (eof : Bool)
      (x : mp3_ins_exit), bc ≤ 8 →
      mp3_insert_frames M fuel host res hdr_var b bc seed hid eof = some x → x.code = 0 →
      ∃ body bits1, x.res = res ++ body ∧
        (x.feof_hidden = true → eof = true ∨ bits1 = []) ∧
        (mp3_pending M.rand ⟨0, 0, b, bc, seed, hid, eof⟩ = [] → bits1 = []) ∧
        ∀ (tail : List Nat) (fuel2 : Nat) (st : mp3_ext_state),
          (body ++ tail).length < fuel2 →
          mp3_ext_ok Q (mp3_pending M.rand ⟨0, 0, b, bc, seed, hid, eof⟩) st →
          (∀ (st1 : mp3_ext_state) (fuel3 : Nat), tail.length < fuel3 →
            mp3_ext_ok Q bits1 st1 →
            mp3_extract_frames M.mute Q.length fuel3 tail st1 = some (0, Q)) →
          mp3_extract_frames M.mute Q.length fuel2 (body ++ tail) st = some (0, Q) := by
  intro fuel
  induction fuel with
  | zero =>
    intro host res hdr_var b bc seed hid eof x _ hrun _
    exact absurd hrun (by simp [mp3_insert_frames])
  | succ fuel ih =>
    intro host res hdr_var b bc seed hid eof x hbc hrun hcode
    have base : ∀ (host1 : List Nat) (hdr1 : Nat),
        some (⟨0, host1, res, hdr1, hid, eof⟩ : mp3_ins_exit) = some x →
        ∃ body bits1, x.res = res ++ body ∧
          (x.feof_hidden = true → eof = true ∨ bits1 = []) ∧
          (mp3_pending M.rand ⟨0, 0, b, bc, seed, hid, eof⟩ = [] → bits1 = []) ∧
          ∀ (tail : List Nat) (fuel2 : Nat) (st : mp3_ext_state),
            (body ++ tail).length < fuel2 →
            mp3_ext_ok Q (mp3_pending M.rand ⟨0, 0, b, bc, seed, hid, eof⟩) st →
            (∀ (st1 : mp3_ext_state) (fuel3 : Nat), tail.length < fuel3 →
              mp3_ext_ok Q bits1 st1 →
              mp3_extract_frames M.mute Q.length fuel3 tail st1 = some (0, Q)) →
            mp3_extract_frames M.mute Q.length fuel2 (body ++ tail) st = some (0, Q) := by
      intro host1 hdr1 hx
      have hx2 := Option.some.inj hx
      subst hx2
      refine ⟨[], mp3_pending M.rand ⟨0, 0, b, bc, seed, hid, eof⟩, (List.append_nil _).symm,
        fun h => Or.inl h, fun h => h, ?_⟩
      intro tail fuel2 st hf hok hk
      exact hk st fuel2 hf hok
    rcases host with _ | ⟨x0, _ | ⟨x1, _ | ⟨x2, _ | ⟨x3, host1⟩⟩⟩⟩
    · exact base _ _ hrun
    · exact base _ _ hrun
    · exact base _ _ hrun
    · exact base _ _ hrun
    · simp only [mp3_insert_frames] at hrun
      by_cases ht : M.mp3_mpeg_hdr_test (be32 x0 x1 x2 x3) = true
      · simp only [ht, if_true] at hrun
        obtain ⟨p1, _, p3, p4⟩ := mp3_insert_bits_pending M (MP3_HDR_NB_BITS_MODIF + 1)
          ⟨be32 x0 x1 x2 x3, 0, b, bc, seed, hid, eof⟩ hbc (Nat.zero_le _) (Nat.lt_succ_self _)
        have pf := mp3_insert_bits_feof M (MP3_HDR_NB_BITS_MODIF + 1)
          ⟨be32 x0 x1 x2 x3, 0, b, bc, seed, hid, eof⟩
        rw [mp3_pending_congr M.rand (be32 x0 x1 x2 x3) 0 0 0 b bc seed hid eof eof] at p1 p3
        simp only [Nat.sub_zero] at p1 p3
        generalize mp3_insert_bits M (MP3_HDR_NB_BITS_MODIF + 1)
          ⟨be32 x0 x1 x2 x3, 0, b, bc, seed, hid, eof⟩ = sti at p1 p3 p4 pf hrun
        generalize hbits : mp3_pending M.rand ⟨0, 0, b, bc, seed, hid, eof⟩ = bits at p1 p3 ⊢
        have hle : ∀ y ∈ bits, y ≤ 1 := by
          rw [← hbits]
          exact mp3_pending_le_one _ _
        have hp : mp3_pending M.rand
            ⟨0, 0, sti.b, sti.b_cnt, sti.seed, sti.hidden, sti.feof_hidden⟩ =
            bits.drop MP3_HDR_NB_BITS_MODIF := by
          rw [← p3]
          rfl
        have hh32 : sti.hdr < 2 ^ 32 := by
          rw [p1]
          exact (mp3_embed_spec _ _ 0 (fun y hy => hle y (List.mem_of_mem_take hy))
            (by rw [Nat.zero_add]; exact List.length_take_le _ _) (be32_lt _ _ _ _)).1
        rcases hw : mp3_mpeg_fr_write M sti.hdr host1 (res ++ be32_bytes sti.hdr) with
          ⟨code, host2, res2⟩
        rw [hw] at hrun
        by_cases hc0 : code = 0
        · subst hc0
          simp only [] at hrun
          obtain ⟨hn, hh2, hr2⟩ := mp3_mpeg_fr_write_ok M _ _ _ _ _ hw
          obtain ⟨body2, bits1, hres, hfe, hnil, hext⟩ := ih host2 res2 _ sti.b sti.b_cnt
            sti.seed sti.hidden sti.feof_hidden x p4 hrun hcode
          rw [hp] at hnil hext
          refine ⟨be32_bytes sti.hdr ++ (host1.take (M.mp3_mpeg_fr_body sti.hdr) ++ body2),
            bits1, ?_, ?_, ?_, ?_⟩
          · rw [hres, hr2]
            simp only [List.append_assoc]
          · intro hx
            rcases hfe hx with h1 | h1
            · rcases pf h1 with h2 | h2
              · exact Or.inl h2
              · right
                apply hnil
                rw [← p3, h2]
            · exact Or.inr h1
          · intro h
            apply hnil
            rw [h]
            rfl
          · intro tail fuel2 st hf hok hk
            obtain ⟨f, rfl⟩ : ∃ f, fuel2 = f + 1 := ⟨fuel2 - 1, by omega⟩
            rcases hok with ⟨hs, hr⟩ | hinv
            · rw [mp3_extract_frames_stop M.mute Q.length f _ st (by omega), hr]
            · have hslt : st.s < Q.length := by
                obtain ⟨j, k, hj, _, _, _, hs, _⟩ := hinv
                omega
              have hfb : (host1.take (M.mp3_mpeg_fr_body sti.hdr)).length =
                  M.mute.mp3_mpeg_fr_body sti.hdr := by
                rw [List.length_take]
                exact Nat.min_eq_left hn
              rw [List.append_assoc, List.append_assoc,
                mp3_extract_frames_frame M.mute Q.length f sti.hdr _ (body2 ++ tail) st hh32
                  hfb hslt]
              apply hext tail f _ ?_ ?_ hk
              · simp only [List.length_append, be32_bytes_length] at hf ⊢
                omega
              · rw [p1]
                exact mp3_ext_header M Q hQ hL _ (be32_lt _ _ _ _) bits hle st hinv
        · split at hrun
          · rename_i heq
            exact absurd (Prod.mk.inj heq).1 hc0
          · have hx2 := Option.some.inj hrun
            rw [← hx2] at hcode
            exact absurd hcode (show ¬ ((1 : Int) = 0) by decide)
      · simp only [ht, if_false, Bool.false_eq_true] at hrun
        exact base _ _ hrun

/-- The last byte of `Q` is complete and no hidden bit is left : the next
header read, whatever it holds, makes the extraction write the byte. -/
theorem mp3_ext_header_last (M : Mp3Env) (Q : List Nat) (hQ : ∀ q ∈ Q, q < 256)
    (hL : Q.length < 2 ^ 32) (hdr : Nat) (st : mp3_ext_state) (hinv : mp3_ext_inv Q [] st) :
    (mp3_extract_bits M.mute hdr (List.range MP3_HDR_NB_BITS_MODIF) st).s = Q.length ∧
    (mp3_extract_bits M.mute hdr (List.range MP3_HDR_NB_BITS_MODIF) st).res = Q := by
  have hr : List.range MP3_HDR_NB_BITS_MODIF = [0, 1, 2] := rfl
  rw [hr, mp3_extract_bits_cons, mp3_extract_bits_cons]
  obtain ⟨s1, r1, c1⟩ := mp3_ext_slot_last M Q hQ hL hdr 0 st hinv
  obtain ⟨s2, r2, c2⟩ := mp3_ext_slot_idle M hdr 1 _ (by rw [c1]; decide)
  obtain ⟨s3, r3, _⟩ := mp3_ext_slot_idle M hdr 2 _ (by rw [c2, c1]; decide)
  exact ⟨by rw [s3, s2, s1], by rw [r3, r2, r1]⟩

/-- The extraction that has read every hidden bit ends on what follows the
frames, provided that 4 bytes at least follow them. -/
theorem mp3_extract_frames_tail (M : Mp3Env) (Q : List Nat) (hQ : ∀ q ∈ Q, q < 256)
    (hL : Q.length < 2 ^ 32) (tail : List Nat) (htail : 4 ≤ tail.length)
    (st : mp3_ext_state) (fuel : Nat) (hf : tail.length < fuel) (hok : mp3_ext_ok Q [] st) :
    mp3_extract_frames M.mute Q.length fuel tail st = some (0, Q) := by
  obtain ⟨f, rfl⟩ : ∃ f, fuel = f + 1 := ⟨fuel - 1, by omega⟩
  rcases hok with ⟨hs, hr⟩ | hinv
  · rw [mp3_extract_frames_stop M.mute Q.length f _ st (by omega), hr]
  · have hslt : st.s < Q.length := by
      obtain ⟨j, k, hj, _, _, _, hs, _⟩ := hinv
      omega
    rcases tail with _ | ⟨a0, _ | ⟨a1, _ | ⟨a2, _ | ⟨a3, rest⟩⟩⟩⟩
    · simp at htail
    · simp at htail
    · simp at htail
    · simp at htail
    · obtain ⟨h1, h2⟩ := mp3_ext_header_last M Q hQ hL (be32 a0 a1 a2 a3) st hinv
      simp only [mp3_extract_frames, hslt, if_true, mp3_mpeg_fr_seek]
      obtain ⟨g, rfl⟩ : ∃ g, f = g + 1 := ⟨f - 1, by simp only [List.length_cons] at hf; omega⟩
      rw [mp3_extract_frames_stop M.mute Q.length g _ _ (by rw [h1]), h2]

theorem xor_keystream_involutive (rand : Nat → Nat × Nat) : ∀ (bs : List Nat) (seed : Nat),
    (∀ b ∈ bs, b < 256) → xor_keystream rand seed (xor_keystream rand seed bs) = bs := by
  intro bs
  induction bs with
  | nil => intro seed _; rfl
  | cons b bs ih =>
    intro seed hb
    have hb0 : b < 2 ^ 8 := hb b (List.mem_cons_self _ _)
    have hb1 : b < 256 := hb0
    have hk : (rand seed).1 % 255 < 2 ^ 8 :=
      Nat.lt_of_lt_of_le (Nat.mod_lt _ (by decide)) (by decide)
    have h1 : b ^^^ ((rand seed).1 % 255) < 256 := Nat.xor_lt_two_pow hb0 hk
    simp only [xor_keystream]
    rw [ih _ (fun y hy => hb y (List.mem_cons_of_mem _ hy)), Nat.mod_eq_of_lt h1,
      Nat.xor_assoc, Nat.xor_self, Nat.xor_zero, Nat.mod_eq_of_lt hb1]

/-- What a run of the MP3 branch of `insert_lsb` that returns 0 has done : the
loop on the frames ended with the end-of-file indicator of the payload set,
and the stream is what the loop wrote, then the ID3v1 tag if there is one,
then the signature. -/
theorem insert_lsb_mp3_ok (R : Rand) (M : Mp3Env) (ws : info_s → Int × List Nat)
    (infos : info_s) (e : err_code) (r : call_result)
    (htag : ∀ host res, ∃ t, (M.mp3_id3v1_tag_write host res).2.2 = res ++ t)
    (hins : insert_lsb_mp3 R M ws infos e = some r) (hret : r.ret = 0) :
    infos.host.file_info.mp3_fr_frst_adr ≤ infos.host.host.length ∧
    ∃ xi t, mp3_insert_frames M
        ((infos.host.host.drop infos.host.file_info.mp3_fr_frst_adr).length + 1)
        (infos.host.host.drop infos.host.file_info.mp3_fr_frst_adr)
        (infos.host.host.take infos.host.file_info.mp3_fr_frst_adr) 0 0 0
        (M.srand (R.create_seed infos.passwd)) infos.hidden false = some xi ∧
      xi.code = 0 ∧ xi.feof_hidden = true ∧ r.res = xi.res ++ t ++ (ws infos).2 := by
  simp only [insert_lsb_mp3] at hins
  by_cases hlen : infos.host.host.length < infos.host.file_info.mp3_fr_frst_adr
  · simp [hlen] at hins
  · simp only [hlen, if_false] at hins
    refine ⟨by omega, ?_⟩
    cases hrun : mp3_insert_frames M
        ((infos.host.host.drop infos.host.file_info.mp3_fr_frst_adr).length + 1)
        (infos.host.host.drop infos.host.file_info.mp3_fr_frst_adr)
        (infos.host.host.take infos.host.file_info.mp3_fr_frst_adr) 0 0 0
        (M.srand (R.create_seed infos.passwd)) infos.hidden false with
    | none =>
      rw [hrun] at hins
      exact absurd hins (by simp)
    | some xi =>
      rw [hrun] at hins
      simp only at hins
      by_cases hcode : xi.code = 0
      · simp only [hcode, ne_eq, not_true_eq_false, if_false] at hins
        have htres : ∃ t, (if M.mp3_id3v1_hdr_test xi.hdr = true then
            M.mp3_id3v1_tag_write xi.host (xi.res ++ be32_bytes xi.hdr)
            else (0, xi.host, xi.res)).2.2 = xi.res ++ t := by
          split
          · obtain ⟨t, ht⟩ := htag xi.host (xi.res ++ be32_bytes xi.hdr)
            exact ⟨be32_bytes xi.hdr ++ t, by rw [ht, List.append_assoc]⟩
          · exact ⟨[], (List.append_nil _).symm⟩
        obtain ⟨t, ht⟩ := htres
        generalize (if M.mp3_id3v1_hdr_test xi.hdr = true then
            M.mp3_id3v1_tag_write xi.host (xi.res ++ be32_bytes xi.hdr)
            else (0, xi.host, xi.res)) = tag at hins ht
        split_ifs at hins with h1 h2 h3
        · have hr := Option.some.inj hins
          refine ⟨xi, t, rfl, hcode, ?_, ?_⟩
          · cases hfe : xi.feof_hidden with
            | true => rfl
            | false => exact absurd (Or.inr hfe) h2
          · rw [← hr, ← ht]
        · have hr := Option.some.inj hins
          rw [← hr] at hret
          exact absurd hret (show ¬ ((1 : Int) = 0) by decide)
        · have hr := Option.some.inj hins
          rw [← hr] at hret
          exact absurd hret (show ¬ ((1 : Int) = 0) by decide)
      · simp only [hcode, ne_eq, not_false_eq_true, if_true] at hins
        have hr := Option.some.inj hins
        rw [← hr] at hret
        exact absurd hret hcode

/-- The MP3 round trip on the branches : when the MP3 branch of `insert_lsb`
returns 0, the MP3 branch of `extract_lsb` run on the stream written returns 0
and writes the payload. -/
theorem insert_lsb_mp3_extract_lsb_mp3 (R : Rand) (M : Mp3Env)
    (ws : info_s → Int × List Nat) (infos : info_s) (e : err_code) (r : call_result)
    (hL : infos.hidden.length < 2 ^ 32) (hbytes : ∀ b ∈ infos.hidden, b < 256)
    (htag : ∀ host res, ∃ t, (M.mp3_id3v1_tag_write host res).2.2 = res ++ t)
    (hsig : 4 ≤ (ws infos).2.length)
    (hins : insert_lsb_mp3 R M ws infos e = some r) (hret : r.ret = 0)
    (x : info_s) (e2 : err_code) (xpw : x.passwd = infos.passwd)
    (xlen : x.hidden_length = infos.hidden.length)
    (xadr : x.host.file_info.mp3_fr_frst_adr = infos.host.file_info.mp3_fr_frst_adr)
    (xhost : x.host.host = r.res) :
    extract_lsb_mp3 R M x e2 = some ⟨0, infos.hidden, e2⟩ := by
  obtain ⟨hadr, xi, t, hrun, hcode, hfe, hres⟩ := insert_lsb_mp3_ok R M ws infos e r htag hins hret
  have hQ : ∀ q ∈ xor_keystream M.rand (M.srand (R.create_seed infos.passwd)) infos.hidden,
      q < 256 := xor_keystream_lt _ _ _
  have hQL : (xor_keystream M.rand (M.srand (R.create_seed infos.passwd)) infos.hidden).length
      = infos.hidden.length := xor_keystream_length _ _ _
  have hinvol := xor_keystream_involutive M.rand infos.hidden
    (M.srand (R.create_seed infos.passwd)) hbytes
  generalize hQd : xor_keystream M.rand (M.srand (R.create_seed infos.passwd)) infos.hidden = Q
    at hQ hQL hinvol
  have hpend : mp3_pending M.rand
      ⟨0, 0, 0, 0, M.srand (R.create_seed infos.passwd), infos.hidden, false⟩ = bit_stream Q := by
    rw [← hQd]
    rfl
  obtain ⟨body, bits1, hbody, hfeof, _, hext⟩ := mp3_round_trip_frames M Q hQ (by omega) _ _ _ _
    _ _ _ _ _ xi (Nat.zero_le _) hrun hcode
  have hb1 : bits1 = [] := by
    rcases hfeof hfe with h | h
    · exact absurd h (by decide)
    · exact h
  subst hb1
  have htake : (infos.host.host.take infos.host.file_info.mp3_fr_frst_adr).length =
      infos.host.file_info.mp3_fr_frst_adr := by
    rw [List.length_take]
    exact Nat.min_eq_left hadr
  have hdrop : x.host.host.drop x.host.file_info.mp3_fr_frst_adr =
      body ++ (t ++ (ws infos).2) := by
    rw [xhost, xadr, hres, hbody, List.append_assoc, List.append_assoc, List.drop_left' htake]
  have hmute : mp3_extract_frames M.mute Q.length ((body ++ (t ++ (ws infos).2)).length + 1)
      (body ++ (t ++ (ws infos).2)) { b := 0, b_cnt := 8, s := 0, seed := 0, res := [] } =
      some (0, Q) := by
    apply hext (t ++ (ws infos).2) _ _ (Nat.lt_succ_self _)
    · rw [hpend]
      cases Q with
      | nil => exact Or.inl ⟨rfl, rfl⟩
      | cons q rest =>
        exact Or.inr ⟨0, 0, Nat.succ_pos _, Nat.zero_le _, (Nat.mod_one _).symm, rfl, rfl, rfl,
          rfl⟩
    · intro st1 fuel3 hf hok
      exact mp3_extract_frames_tail M Q hQ (by omega) _
        (by rw [List.length_append]; omega) st1 fuel3 hf hok
  simp only [extract_lsb_mp3, hdrop, xpw, xlen]
  rw [mp3_extract_frames_mute M infos.hidden.length _
    (M.srand (R.create_seed infos.passwd)) 0, ← hQL, hmute]
  simp only [Option.map_some', hinvol]

/-! ## The MP3 insertion on a sequence of frames -/

/-- A header that receives the last bits to hide : the loop on its slots reads
the payload once more and meets the end of the file. -/
theorem mp3_insert_bits_feof_set (M : Mp3Env) : ∀ (fuel : Nat) (st : mp3_ins_state),
    st.b_cnt ≤ 8 → (mp3_pending M.rand st).length + st.hdr_cnt ≤ MP3_HDR_NB_BITS_MODIF →
    (mp3_pending M.rand st).length < fuel →
    (mp3_insert_bits M fuel st).feof_hidden = true := by
  intro fuel
  induction fuel with
  | zero => intro st _ _ hf; exact absurd hf (Nat.not_lt_zero _)
  | succ fuel ih =>
    intro st hb hlen hf
    cases hP : mp3_pending M.rand st with
    | nil =>
      obtain ⟨h0, hnil⟩ := (mp3_pending_nil M.rand st hb).mp hP
      exact (mp3_turn_exhausted M fuel st h0 hnil).2.2.2.2.2
    | cons y ys =>
      rw [hP, List.length_cons] at hlen hf
      have hc : st.hdr_cnt < MP3_HDR_NB_BITS_MODIF := by omega
      obtain ⟨st3, hrun, _, hcnt, hpend, hb3, _⟩ := mp3_turn_bit M fuel st y ys hc hb hP
      rw [hrun]
      exact ih st3 (by omega) (by rw [hpend, hcnt]; omega) (by rw [hpend]; omega)

theorem mp3_embed_keeps (h : Nat) (xs : List Nat) (hh : h < 2 ^ 32) (hbits : ∀ x ∈ xs, x ≤ 1)
    (hlen : xs.length ≤ MP3_HDR_NB_BITS_MODIF) (i : Nat) (h2 : i ≠ 2) (h3 : i ≠ 3)
    (h8 : i ≠ 8) : (mp3_embed h 0 xs).testBit i = h.testBit i := by
  apply (mp3_embed_spec xs h 0 hbits (by omega) hh).2.1 i
  intro k _ hk
  have hk3 : k < 3 := by
    have : MP3_HDR_NB_BITS_MODIF = 3 := rfl
    omega
  interval_cases k
  · exact h2
  · exact h3
  · exact h8

/-- The loop on the frames of the MP3 insertion run on a sequence of frames
that offer at least as many slots as there are bits to hide : it reads every
frame, ends at the end of the host and has met the end of the payload. -/
theorem mp3_insert_frames_stream (M : Mp3Env)
    (hbody : ∀ h h1 : Nat, (∀ i, i ≠ 2 → i ≠ 3 → i ≠ 8 → h1.testBit i = h.testBit i) →
      M.mp3_mpeg_fr_body h1 = M.mp3_mpeg_fr_body h) :
    ∀ (frames : List (Nat × List Nat)) (fuel : Nat) (res : List Nat) (hdr_var b bc seed : Nat)
      (hid : List Nat) (eof : Bool), bc ≤ 8 →
      (∀ f ∈ frames, f.1 < 2 ^ 32 ∧ M.mp3_mpeg_hdr_test f.1 = true ∧
        f.2.length = M.mp3_mpeg_fr_body f.1) →
      (mp3_stream frames).length < fuel →
      ((eof = true ∧ mp3_pending M.rand ⟨0, 0, b, bc, seed, hid, eof⟩ = []) ∨
        (frames ≠ [] ∧ (mp3_pending M.rand ⟨0, 0, b, bc, seed, hid, eof⟩).length ≤
          MP3_HDR_NB_BITS_MODIF * frames.length)) →
      ∃ x, mp3_insert_frames M fuel (mp3_stream frames) res hdr_var b bc seed hid eof = some x ∧
        x.code = 0 ∧ x.host = [] ∧ x.feof_hidden = true ∧
        ((frames = [] ∧ x.hdr = hdr_var) ∨
          ∃ f ∈ frames, ∃ h1 : Nat, (∀ i, i ≠ 2 → i ≠ 3 → i ≠ 8 → h1.testBit i = f.1.testBit i) ∧
            x.hdr = M.stegx_htobe32 h1) := by
  intro frames
  induction frames with
  | nil =>
    intro fuel res hdr_var b bc seed hid eof _ _ hf hcap
    obtain ⟨f, rfl⟩ : ∃ f, fuel = f + 1 := ⟨fuel - 1, by omega⟩
    rcases hcap with ⟨he, _⟩ | ⟨hne, _⟩
    · exact ⟨⟨0, [], res, hdr_var, hid, eof⟩, rfl, rfl, rfl, he, Or.inl ⟨rfl, rfl⟩⟩
    · exact absurd rfl hne
  | cons fr fs ih =>
    intro fuel res hdr_var b bc seed hid eof hbc hvalid hf hcap
    obtain ⟨f, rfl⟩ : ∃ f, fuel = f + 1 := ⟨fuel - 1, by omega⟩
    obtain ⟨hh, ht, hlen⟩ := hvalid fr (List.mem_cons_self _ _)
    obtain ⟨p1, _, p3, p4⟩ := mp3_insert_bits_pending M (MP3_HDR_NB_BITS_MODIF + 1)
      ⟨fr.1, 0, b, bc, seed, hid, eof⟩ hbc (Nat.zero_le _) (Nat.lt_succ_self _)
    have pfs := mp3_insert_bits_feof_set M (MP3_HDR_NB_BITS_MODIF + 1)
      ⟨fr.1, 0, b, bc, seed, hid, eof⟩ hbc
    rw [mp3_pending_congr M.rand fr.1 0 0 0 b bc seed hid eof eof] at p1 p3 pfs
    simp only [Nat.sub_zero, Nat.add_zero] at p1 p3 pfs
    generalize hbits : mp3_pending M.rand ⟨0, 0, b, bc, seed, hid, eof⟩ = bits at p1 p3 pfs hcap
    have hle : ∀ y ∈ bits, y ≤ 1 := by
      rw [← hbits]
      exact mp3_pending_le_one _ _
    have hkeep : ∀ i, i ≠ 2 → i ≠ 3 → i ≠ 8 →
        (mp3_embed fr.1 0 (bits.take MP3_HDR_NB_BITS_MODIF)).testBit i = fr.1.testBit i :=
      fun i h2 h3 h8 => mp3_embed_keeps fr.1 _ hh (fun y hy => hle y (List.mem_of_mem_take hy))
        (List.length_take_le _ _) i h2 h3 h8
    have hrest : (st : mp3_ins_state) → st.hdr = mp3_embed fr.1 0 (bits.take MP3_HDR_NB_BITS_MODIF) →
        M.mp3_mpeg_fr_body st.hdr = fr.2.length := by
      intro st hst
      rw [hst, hbody fr.1 _ hkeep, hlen]
    have hstep : mp3_insert_frames M (f + 1) (mp3_stream (fr :: fs)) res hdr_var b bc seed hid
        eof =
        mp3_insert_frames M f (mp3_stream fs)
          (res ++ be32_bytes (mp3_insert_bits M (MP3_HDR_NB_BITS_MODIF + 1)
            ⟨fr.1, 0, b, bc, seed, hid, eof⟩).hdr ++ fr.2)
          (M.stegx_htobe32 (mp3_insert_bits M (MP3_HDR_NB_BITS_MODIF + 1)
            ⟨fr.1, 0, b, bc, seed, hid, eof⟩).hdr)
          (mp3_insert_bits M (MP3_HDR_NB_BITS_MODIF + 1) ⟨fr.1, 0, b, bc, seed, hid, eof⟩).b
          (mp3_insert_bits M (MP3_HDR_NB_BITS_MODIF + 1) ⟨fr.1, 0, b, bc, seed, hid, eof⟩).b_cnt
          (mp3_insert_bits M (MP3_HDR_NB_BITS_MODIF + 1) ⟨fr.1, 0, b, bc, seed, hid, eof⟩).seed
          (mp3_insert_bits M (MP3_HDR_NB_BITS_MODIF + 1)
            ⟨fr.1, 0, b, bc, seed, hid, eof⟩).hidden
          (mp3_insert_bits M (MP3_HDR_NB_BITS_MODIF + 1)
            ⟨fr.1, 0, b, bc, seed, hid, eof⟩).feof_hidden := by
      have hb := hrest _ p1
      simp only [mp3_stream, be32_bytes, List.cons_append, List.nil_append, mp3_insert_frames,
        be32_be32_bytes fr.1 hh, ht, if_true, mp3_mpeg_fr_write]
      generalize mp3_insert_bits M (MP3_HDR_NB_BITS_MODIF + 1)
        ⟨fr.1, 0, b, bc, seed, hid, eof⟩ = sti at hb ⊢
      rw [copy_loop_spec _ _ _ (by rw [hb, List.length_append]; omega), hb,
        List.drop_left' rfl, List.take_left' rfl]
      rfl
    rw [hstep]
    generalize mp3_insert_bits M (MP3_HDR_NB_BITS_MODIF + 1)
      ⟨fr.1, 0, b, bc, seed, hid, eof⟩ = sti at p1 p3 p4 pfs
    have hp : mp3_pending M.rand
        ⟨0, 0, sti.b, sti.b_cnt, sti.seed, sti.hidden, sti.feof_hidden⟩ =
        bits.drop MP3_HDR_NB_BITS_MODIF := by
      rw [← p3]
      rfl
    have hcap2 : (sti.feof_hidden = true ∧ mp3_pending M.rand
          ⟨0, 0, sti.b, sti.b_cnt, sti.seed, sti.hidden, sti.feof_hidden⟩ = []) ∨
        (fs ≠ [] ∧ (mp3_pending M.rand
          ⟨0, 0, sti.b, sti.b_cnt, sti.seed, sti.hidden, sti.feof_hidden⟩).length ≤
          MP3_HDR_NB_BITS_MODIF * fs.length) := by
      have h3 : MP3_HDR_NB_BITS_MODIF = 3 := rfl
      rw [hp]
      by_cases hsmall : bits.length ≤ MP3_HDR_NB_BITS_MODIF
      · left
        exact ⟨pfs (by omega) (by omega), List.drop_of_length_le hsmall⟩
      · right
        have hb2 : bits.length ≤ MP3_HDR_NB_BITS_MODIF * (fr :: fs).length := by
          rcases hcap with ⟨_, hb0⟩ | ⟨_, hb0⟩
          · rw [hb0] at hsmall
            exact absurd (Nat.zero_le _) hsmall
          · exact hb0
        rw [List.length_cons] at hb2
        have hfs : fs ≠ [] := by
          intro hnil
          rw [hnil, List.length_nil] at hb2
          omega
        refine ⟨hfs, ?_⟩
        rw [List.length_drop]
        rw [h3] at hb2 hsmall ⊢
        generalize fs.length = n at hb2 ⊢
        omega
    have hf2 : (mp3_stream fs).length < f := by
      simp only [mp3_stream, List.length_append, be32_bytes_length] at hf
      omega
    obtain ⟨x, hx, hc, hho, hfe, hhd⟩ := ih f (res ++ be32_bytes sti.hdr ++ fr.2)
      (M.stegx_htobe32 sti.hdr) sti.b sti.b_cnt sti.seed sti.hidden sti.feof_hidden p4
      (fun g hg => hvalid g (List.mem_cons_of_mem _ hg)) hf2 hcap2
    refine ⟨x, hx, hc, hho, hfe, Or.inr ?_⟩
    rcases hhd with ⟨_, hx0⟩ | ⟨g, hg, h1, hbitsg, hxg⟩
    · exact ⟨fr, List.mem_cons_self _ _, sti.hdr, by rw [p1]; exact hkeep, hx0⟩
    · exact ⟨g, List.mem_cons_of_mem _ hg, h1, hbitsg, hxg⟩

/-- The MP3 branch of `insert_lsb` returns 0 on a host made of frames that
offer at least as many slots as the payload has bits. -/
theorem insert_lsb_mp3_stream (R : Rand) (M : Mp3Env) (ws : info_s → Int × List Nat)
    (infos : info_s) (e : err_code) (pre : List Nat) (frames : List (Nat × List Nat))
    (hhost : infos.host.host = pre ++ mp3_stream frames)
    (hinfo : infos.host.file_info =
      file_info_u.mp3 ⟨pre.length, frames.length, (pre ++ mp3_stream frames).length⟩)
    (hvalid : ∀ f ∈ frames, f.1 < 2 ^ 32 ∧ M.mp3_mpeg_hdr_test f.1 = true ∧
      f.2.length = M.mp3_mpeg_fr_body f.1)
    (hbody : ∀ h h1 : Nat, (∀ i, i ≠ 2 → i ≠ 3 → i ≠ 8 → h1.testBit i = h.testBit i) →
      M.mp3_mpeg_fr_body h1 = M.mp3_mpeg_fr_body h)
    (hid3 : ∀ f ∈ frames, ∀ h1 : Nat,
      (∀ i, i ≠ 2 → i ≠ 3 → i ≠ 8 → h1.testBit i = f.1.testBit i) →
      M.mp3_id3v1_hdr_test (M.stegx_htobe32 h1) = false)
    (hws : (ws infos).1 = 0) (hF : 1 ≤ frames.length)
    (hcap : 8 * infos.hidden.length ≤ 3 * frames.length) :
    ∃ r, insert_lsb_mp3 R M ws infos e = some r ∧ r.ret = 0 := by
  have hne : frames ≠ [] := by
    intro h
    rw [h] at hF
    exact absurd hF (by decide)
  have hpl : (mp3_pending M.rand
      ⟨0, 0, 0, 0, M.srand (R.create_seed infos.passwd), infos.hidden, false⟩).length ≤
      MP3_HDR_NB_BITS_MODIF * frames.length := by
    have hp : mp3_pending M.rand
        ⟨0, 0, 0, 0, M.srand (R.create_seed infos.passwd), infos.hidden, false⟩ =
        bit_stream (xor_keystream M.rand (M.srand (R.create_seed infos.passwd)) infos.hidden) :=
      rfl
    rw [hp, bit_stream_length, xor_keystream_length]
    exact hcap
  obtain ⟨x, hx, hc, hho, hfe, hhd⟩ := mp3_insert_frames_stream M hbody frames
    ((mp3_stream frames).length + 1) pre 0 0 0 (M.srand (R.create_seed infos.passwd))
    infos.hidden false (Nat.zero_le _) hvalid (Nat.lt_succ_self _) (Or.inr ⟨hne, hpl⟩)
  have htest : M.mp3_id3v1_hdr_test x.hdr = false := by
    rcases hhd with ⟨h0, _⟩ | ⟨f, hf, h1, hb, hxh⟩
    · exact absurd h0 hne
    · rw [hxh]
      exact hid3 f hf h1 hb
  have hlt : ¬ (pre ++ mp3_stream frames).length < pre.length := by
    rw [List.length_append]
    omega
  refine ⟨⟨0, x.res ++ (ws infos).2, e⟩, ?_, rfl⟩
  simp only [insert_lsb_mp3, hinfo, file_info_u.mp3_fr_frst_adr, hhost, hlt, if_false,
    List.drop_left' rfl,
    List.take_left' rfl, hx, hc, ne_eq, not_true_eq_false, htest, Bool.false_eq_true, hho,
    List.length_nil, Nat.sub_zero, hfe, or_self, hws, Bool.true_eq_false, if_false]

/-! ## Claims on `protect_data_lsb` -/

/-- C1 : scrambled LSB round trip. For a host array of `N` bytes, a payload of
`L` bytes with `4 * L ≤ N` and a password, `protect_data_lsb` in insertion mode
succeeds, and `protect_data_lsb` in extraction mode, run with the same `N`, `L`
and password on the array that the insertion produced (whatever the content of
the output buffer and the state of the generator), succeeds and leaves in
`data` exactly the `L` original payload bytes. -/
theorem protect_data_lsb_round_trip (R : Rand) (pixels data buffer passwd : List Nat)
    (N L seed0 seed1 : Nat) (hN : N < 2 ^ 32) (hpix : pixels.length = N)
    (hdata : data.length = L) (hbuf : buffer.length = L)
    (hbytes : ∀ b ∈ data, b < 256) (hcap : 4 * L ≤ N) :
    ∃ s, protect_data_lsb R pixels N data L passwd mode_e.STEGX_MODE_INSERT seed0
        = some s ∧
      ∃ t, protect_data_lsb R s.pixels N buffer L passwd mode_e.STEGX_MODE_EXTRACT seed1
          = some t ∧
        t.data = data := by
  obtain ⟨s, hs, hI⟩ := protect_insert_spec R pixels data passwd N L seed0 hN hpix hdata hcap
  obtain ⟨t, ht, hE⟩ :=
    protect_extract_spec R s.pixels buffer passwd N L seed1 hN hI.length_pixels hbuf hcap
  refine ⟨s, hs, t, ht, ?_⟩
  have hsel : s.sel = t.sel := Option.some.inj (hI.run.symm.trans hE.run)
  have htr : t.trace = s.trace := (congrArg sel_state.trace hsel).symm
  apply List.ext_getElem?
  intro i
  by_cases hi : i < L
  · rw [hE.vals i hi, htr]
    obtain ⟨m0, p0, d0, a0, b0, c0, e0⟩ := hI.low (4 * i + 0) (by omega)
    obtain ⟨m1, p1, d1, a1, b1, c1, e1⟩ := hI.low (4 * i + 1) (by omega)
    obtain ⟨m2, p2, d2, a2, b2, c2, e2⟩ := hI.low (4 * i + 2) (by omega)
    obtain ⟨m3, p3, d3, a3, b3, c3, e3⟩ := hI.low (4 * i + 3) (by omega)
    obtain ⟨g0, f0⟩ := ext_term_of_low (by omega) a0 b0 c0 e0
    obtain ⟨g1, f1⟩ := ext_term_of_low (by omega) a1 b1 c1 e1
    obtain ⟨g2, f2⟩ := ext_term_of_low (by omega) a2 b2 c2 e2
    obtain ⟨g3, f3⟩ := ext_term_of_low (by omega) a3 b3 c3 e3
    have h1 : d1 = d0 := Option.some.inj (g1.symm.trans g0)
    have h2 : d2 = d0 := Option.some.inj (g2.symm.trans g0)
    have h3 : d3 = d0 := Option.some.inj (g3.symm.trans g0)
    rw [h1] at f1
    rw [h2] at f2
    rw [h3] at f3
    have hd : d0 < 256 := hbytes d0 (List.getElem?_mem g0)
    rw [g0]
    refine congrArg some ?_
    unfold ext_val
    rw [f0, f1, f2, f3]
    exact pair_of_recombine d0 hd
  · rw [List.getElem?_eq_none (by rw [hE.length_data]; omega),
      List.getElem?_eq_none (by rw [hdata]; omega)]

/-- Witness of C1 : a host of 9 bytes, a payload of 2 bytes. -/
theorem protect_data_lsb_round_trip_witness :
    ∃ s, protect_data_lsb lcg [10, 20, 30, 40, 50, 60, 70, 80, 90] 9 [0xA7, 0x1B] 2
        [112, 119] mode_e.STEGX_MODE_INSERT 0 = some s ∧
      ∃ t, protect_data_lsb lcg s.pixels 9 [5, 5] 2 [112, 119]
          mode_e.STEGX_MODE_EXTRACT 77 = some t ∧
        t.data = [0xA7, 0x1B] :=
  protect_data_lsb_round_trip lcg [10, 20, 30, 40, 50, 60, 70, 80, 90] [0xA7, 0x1B] [5, 5]
    [112, 119] 9 2 0 77 (by decide) rfl rfl rfl (by decide) (by decide)

/-- C6 : permutation bijectivity. In a run of `protect_data_lsb` (either mode)
over `N` host bytes for `L` payload bytes with `4 * L ≤ N`, the run completes,
it selects `4 * L` indices, they are pairwise distinct, each is below `N`, and
when `4 * L = N` the selected indices are a permutation of `0 .. N - 1` : every
index is selected exactly once. -/
theorem protect_data_lsb_indices_bijective (R : Rand) (mode : mode_e)
    (pixels data passwd : List Nat) (N L seed0 : Nat) (hN : N < 2 ^ 32)
    (hpix : pixels.length = N) (hdata : data.length = L) (hcap : 4 * L ≤ N) :
    ∃ s, protect_data_lsb R pixels N data L passwd mode seed0 = some s ∧
      s.trace.length = 4 * L ∧ s.trace.Nodup ∧ (∀ m ∈ s.trace, m < N) ∧
      (4 * L = N → s.trace.Perm (List.range N)) := by
  obtain ⟨s, hs, hG⟩ := protect_gen_spec R mode pixels data passwd N L seed0 hN hpix hdata hcap
  have hlen : s.trace.length = 4 * L := hG.inv.length_trace
  have hnd : s.trace.Nodup := hG.inv.nodup
  have hlt : ∀ m ∈ s.trace, m < N := fun m hm => hG.inv.lt_of_mem hm
  refine ⟨s, hs, hlen, hnd, hlt, ?_⟩
  intro hfull
  have hsub : s.trace ⊆ List.range N := fun m hm => List.mem_range.mpr (hlt m hm)
  have hsp : s.trace.Subperm (List.range N) := List.subperm_of_subset hnd hsub
  exact hsp.perm_of_length_le (by rw [List.length_range, hlen, hfull])

/-- Witness of C6 : a complete run over 8 host bytes for 2 payload bytes. -/
theorem protect_data_lsb_indices_bijective_witness :
    ∃ s, protect_data_lsb lcg [10, 20, 30, 40, 50, 60, 70, 80] 8 [0xA7, 0x1B] 2
        [112, 119] mode_e.STEGX_MODE_INSERT 0 = some s ∧
      s.trace.length = 4 * 2 ∧ s.trace.Nodup ∧ (∀ m ∈ s.trace, m < 8) ∧
      (4 * 2 = 8 → s.trace.Perm (List.range 8)) :=
  protect_data_lsb_indices_bijective lcg mode_e.STEGX_MODE_INSERT
    [10, 20, 30, 40, 50, 60, 70, 80] [0xA7, 0x1B] [112, 119] 8 2 0 (by decide) rfl rfl
    (by decide)

/-- The indices selected by a run, in the order of selection (`none` when the
run aborts). -/
theorem protect_trace_eq (R : Rand) (mode : mode_e) (pixels data passwd : List Nat)
    (N L seed0 : Nat) (hN : N < 2 ^ 32) (hpix : pixels.length = N)
    (hdata : data.length = L) :
    Option.map lsb_state.trace (protect_data_lsb R pixels N data L passwd mode seed0) =
      if 4 * L ≤ N then Option.map sel_state.trace (sel_run R (4 * L) (sel_init R N passwd))
      else none := by
  by_cases hcap : 4 * L ≤ N
  · obtain ⟨s, hs, hG⟩ :=
      protect_gen_spec R mode pixels data passwd N L seed0 hN hpix hdata hcap
    rw [if_pos hcap, hs, hG.run]
    rfl
  · rw [if_neg hcap, protect_abort R mode pixels data passwd N L seed0 hN hpix hdata
      (by omega)]
    rfl

/-- C7 : determinism. The sequence of the indices selected by
`protect_data_lsb` depends on `N`, `L` and the password only : two runs with
the same `N`, `L` and password select the same sequence, whatever their modes,
the contents of their host and payload arrays and the states of the generator
before the calls (both runs abort when `4 * L > N`); with `4 * L ≤ N` the
sequence exists and has `4 * L` entries. -/
theorem protect_data_lsb_deterministic (R : Rand) (mode1 mode2 : mode_e)
    (pixels1 pixels2 data1 data2 passwd : List Nat) (N L seed1 seed2 : Nat)
    (hN : N < 2 ^ 32) (hp1 : pixels1.length = N) (hp2 : pixels2.length = N)
    (hd1 : data1.length = L) (hd2 : data2.length = L) :
    Option.map lsb_state.trace (protect_data_lsb R pixels1 N data1 L passwd mode1 seed1) =
      Option.map lsb_state.trace (protect_data_lsb R pixels2 N data2 L passwd mode2 seed2) ∧
    (4 * L ≤ N → ∃ ms, ms.length = 4 * L ∧
      Option.map lsb_state.trace
        (protect_data_lsb R pixels1 N data1 L passwd mode1 seed1) = some ms) := by
  refine ⟨?_, ?_⟩
  · rw [protect_trace_eq R mode1 pixels1 data1 passwd N L seed1 hN hp1 hd1,
      protect_trace_eq R mode2 pixels2 data2 passwd N L seed2 hN hp2 hd2]
  · intro hcap
    obtain ⟨s, hs, hG⟩ :=
      protect_gen_spec R mode1 pixels1 data1 passwd N L seed1 hN hp1 hd1 hcap
    exact ⟨s.trace, hG.inv.length_trace, by rw [hs]; rfl⟩

/-- Witness of C7 : an insertion and an extraction over 9 host bytes. -/
theorem protect_data_lsb_deterministic_witness :
    Option.map lsb_state.trace (protect_data_lsb lcg [10, 20, 30, 40, 50, 60, 70, 80, 90] 9
        [0xA7, 0x1B] 2 [112, 119] mode_e.STEGX_MODE_INSERT 0) =
      Option.map lsb_state.trace (protect_data_lsb lcg [1, 2, 3, 4, 5, 6, 7, 8, 9] 9
        [0, 255] 2 [112, 119] mode_e.STEGX_MODE_EXTRACT 12345) ∧
    (4 * 2 ≤ 9 → ∃ ms, ms.length = 4 * 2 ∧
      Option.map lsb_state.trace (protect_data_lsb lcg [10, 20, 30, 40, 50, 60, 70, 80, 90] 9
        [0xA7, 0x1B] 2 [112, 119] mode_e.STEGX_MODE_INSERT 0) = some ms) :=
  protect_data_lsb_deterministic lcg mode_e.STEGX_MODE_INSERT mode_e.STEGX_MODE_EXTRACT
    [10, 20, 30, 40, 50, 60, 70, 80, 90] [1, 2, 3, 4, 5, 6, 7, 8, 9] [0xA7, 0x1B] [0, 255]
    [112, 119] 9 2 0 12345 (by decide) rfl rfl rfl rfl

/-! ## Claims on `insert_lsb` and `extract_lsb` -/

/-- C2 : direct LSB round trip (BMP and WAV). When the direct-substitution
branch of `insert_lsb` runs on a host whose data region holds at least
`4 * L` bytes, with a payload of `L` bytes, it succeeds; and the
direct-substitution branch of `extract_lsb`, applied to the stream that the
insertion wrote with the same password, header size and `hidden_length = L`,
returns 0 and writes exactly the `L` payload bytes. -/
theorem lsb_direct_round_trip (E : LsbEnv) (infos : info_s) (e : err_code)
    (hmode : infos.mode = mode_e.STEGX_MODE_INSERT)
    (halgo : infos.algo = algo_e.STEGX_ALGO_LSB)
    (htype : infos.host.type = type_e.BMP_UNCOMPRESSED ∨ infos.host.type = type_e.WAV_PCM)
    (hdirect : lsb_direct E.LENGTH_FILE_MAX infos = true)
    (hlen : infos.hidden.length = infos.hidden_length)
    (hbytes : ∀ b ∈ infos.hidden, b < 256)
    (hsize : infos.host.file_info.bmp_data_size < 2 ^ 32)
    (hcap : 4 * infos.hidden_length ≤ infos.host.file_info.bmp_data_size)
    (hhost : infos.host.file_info.bmp_header_size + infos.host.file_info.bmp_data_size
      ≤ infos.host.host.length)
    (hsig : (E.write_signature infos).1 = 0) :
    ∃ r, insert_lsb E infos e = some r ∧ r.ret = 0 ∧
      ∀ (x : info_s) (e2 : err_code),
        x.mode = mode_e.STEGX_MODE_EXTRACT → x.algo = algo_e.STEGX_ALGO_LSB →
        (x.host.type = type_e.BMP_UNCOMPRESSED ∨ x.host.type = type_e.WAV_PCM) →
        lsb_direct E.LENGTH_FILE_MAX x = true →
        x.passwd = infos.passwd → x.hidden_length = infos.hidden_length →
        x.host.file_info.bmp_header_size = infos.host.file_info.bmp_header_size →
        x.host.host = r.res →
        extract_lsb E x e2 = some ⟨0, infos.hidden, e2⟩ := by
  obtain ⟨enc, tail, henc, hins, hext⟩ := insert_lsb_bmp_wav_direct E.R E.write_signature
    E.LENGTH_FILE_MAX infos e hdirect hlen hbytes hsize hcap hhost hsig
  refine ⟨⟨0, infos.host.host.take infos.host.file_info.bmp_header_size ++ enc ++ tail, e⟩,
    ?_, rfl, ?_⟩
  · simp only [insert_lsb, hmode, halgo, htype, ne_eq, not_true_eq_false, or_self, if_false,
      if_true]
    exact hins
  · intro x e2 xmode xalgo xtype xdirect xpw xlen xhdr xhost
    have hhdr : (infos.host.host.take infos.host.file_info.bmp_header_size).length =
        infos.host.file_info.bmp_header_size := by
      rw [List.length_take]; omega
    have hdrop : List.drop x.host.file_info.bmp_header_size x.host.host = enc ++ tail := by
      rw [xhost, xhdr]
      show List.drop _ (infos.host.host.take infos.host.file_info.bmp_header_size ++ enc ++ tail)
        = _
      rw [List.append_assoc, List.drop_append_eq_append_drop, hhdr, Nat.sub_self,
        List.drop_of_length_le (by omega)]
      rfl
    simp only [extract_lsb, xmode, xalgo, xtype, ne_eq, not_true_eq_false, or_self, if_false,
      if_true, extract_lsb_bmp_wav, xdirect, hdrop, xlen, xpw, hext tail []]
    rfl

/-- Witness of C2 : a WAV host with a header of 2 bytes and 9 bytes of data, a
payload of 2 bytes. -/
theorem lsb_direct_round_trip_witness :
    ∃ r, insert_lsb (test_env [1, 2])
        { mode := mode_e.STEGX_MODE_INSERT, algo := algo_e.STEGX_ALGO_LSB,
          host := ⟨[82, 73, 10, 20, 30, 40, 50, 60, 70, 80, 90], type_e.WAV_PCM,
            file_info_u.wav ⟨2, 9, 16⟩⟩,
          hidden := [0xA7, 0x1B], hidden_length := 2, passwd := [112, 119] }
        err_code.ERR_NONE = some r ∧ r.ret = 0 ∧
      ∀ (x : info_s) (e2 : err_code),
        x.mode = mode_e.STEGX_MODE_EXTRACT → x.algo = algo_e.STEGX_ALGO_LSB →
        (x.host.type = type_e.BMP_UNCOMPRESSED ∨ x.host.type = type_e.WAV_PCM) →
        lsb_direct (test_env [1, 2]).LENGTH_FILE_MAX x = true →
        x.passwd = [112, 119] → x.hidden_length = 2 →
        x.host.file_info.bmp_header_size = 2 →
        x.host.host = r.res →
        extract_lsb (test_env [1, 2]) x e2 = some ⟨0, [0xA7, 0x1B], e2⟩ :=
  lsb_direct_round_trip (test_env [1, 2])
    { mode := mode_e.STEGX_MODE_INSERT, algo := algo_e.STEGX_ALGO_LSB,
      host := ⟨[82, 73, 10, 20, 30, 40, 50, 60, 70, 80, 90], type_e.WAV_PCM,
        file_info_u.wav ⟨2, 9, 16⟩⟩,
      hidden := [0xA7, 0x1B], hidden_length := 2, passwd := [112, 119] }
    err_code.ERR_NONE rfl rfl (Or.inr rfl) rfl rfl (by decide) (by decide) (by decide)
    (by decide) rfl

/-- C4 : MP3 LSB round trip. For an MP3 host, a payload of `L` bytes (below
`2 ^ 32`) and a password : whenever `insert_lsb` returns 0, `extract_lsb` run
with the same password, the same address of the first frame and
`hidden_length = L` on the stream that the insertion wrote returns 0 and
writes exactly the `L` bytes of the payload. The stream ends with the
signature, which has 4 bytes at least (it holds the 32-bit length of the
payload), after the ID3v1 tag if there is one : when `3 * F = 8 * L` the
extraction writes the last byte on reading the 4 bytes that follow the last
frame. And `insert_lsb` does return 0 on every host made of `F >= 1` valid
frames (after an ID3v2 header `pre`), described as the inspection describes
it, with `3 * F >= 8 * L`, when the length of a frame does not depend on the
bits 2, 3 and 8 of its header, no header written is taken for an ID3v1 tag
and the writer of the signature returns 0. -/
theorem insert_lsb_extract_lsb_mp3_round_trip (E : LsbEnv) (infos : info_s) (e : err_code)
    (htype : infos.host.type = type_e.MP3)
    (hL : infos.hidden.length < 2 ^ 32)
    (hbytes : ∀ b ∈ infos.hidden, b < 256)
    (htag : ∀ host res, ∃ t, (E.M.mp3_id3v1_tag_write host res).2.2 = res ++ t)
    (hsig : 4 ≤ (E.write_signature infos).2.length) :
    (∀ r, insert_lsb E infos e = some r → r.ret = 0 →
      ∀ (x : info_s) (e2 : err_code),
        x.mode = mode_e.STEGX_MODE_EXTRACT → x.algo = algo_e.STEGX_ALGO_LSB →
        x.host.type = type_e.MP3 → x.passwd = infos.passwd →
        x.hidden_length = infos.hidden.length →
        x.host.file_info.mp3_fr_frst_adr = infos.host.file_info.mp3_fr_frst_adr →
        x.host.host = r.res →
        extract_lsb E x e2 = some ⟨0, infos.hidden, e2⟩) ∧
    (∀ (pre : List Nat) (frames : List (Nat × List Nat)),
      infos.mode = mode_e.STEGX_MODE_INSERT → infos.algo = algo_e.STEGX_ALGO_LSB →
      infos.host.host = pre ++ mp3_stream frames →
      infos.host.file_info =
        file_info_u.mp3 ⟨pre.length, frames.length, (pre ++ mp3_stream frames).length⟩ →
      (∀ f ∈ frames, f.1 < 2 ^ 32 ∧ E.M.mp3_mpeg_hdr_test f.1 = true ∧
        f.2.length = E.M.mp3_mpeg_fr_body f.1) →
      (∀ h h1 : Nat, (∀ i, i ≠ 2 → i ≠ 3 → i ≠ 8 → h1.testBit i = h.testBit i) →
        E.M.mp3_mpeg_fr_body h1 = E.M.mp3_mpeg_fr_body h) →
      (∀ f ∈ frames, ∀ h1 : Nat,
        (∀ i, i ≠ 2 → i ≠ 3 → i ≠ 8 → h1.testBit i = f.1.testBit i) →
        E.M.mp3_id3v1_hdr_test (E.M.stegx_htobe32 h1) = false) →
      (E.write_signature infos).1 = 0 →
      1 ≤ frames.length → 8 * infos.hidden.length ≤ 3 * frames.length →
      ∃ r, insert_lsb E infos e = some r ∧ r.ret = 0) := by
  have hnb : ¬ (infos.host.type = type_e.BMP_UNCOMPRESSED ∨ infos.host.type = type_e.WAV_PCM) := by
    rw [htype]
    decide
  refine ⟨?_, ?_⟩
  · intro r hins hret x e2 xmode xalgo xtype xpw xlen xadr xhost
    have hxnb : ¬ (x.host.type = type_e.BMP_UNCOMPRESSED ∨ x.host.type = type_e.WAV_PCM) := by
      rw [xtype]
      decide
    simp only [insert_lsb] at hins
    split_ifs at hins with h1
    simp only [extract_lsb, xmode, xalgo, ne_eq, not_true_eq_false, or_self, if_false, hxnb,
      xtype, if_true]
    exact insert_lsb_mp3_extract_lsb_mp3 E.R E.M E.write_signature infos e r hL hbytes htag hsig
      hins hret x e2 xpw xlen xadr xhost
  · intro pre frames hmode halgo hhost hinfo hvalid hbody hid3 hws hF hcap
    simp only [insert_lsb, hmode, halgo, ne_eq, not_true_eq_false, or_self, if_false, hnb, htype,
      if_true]
    exact insert_lsb_mp3_stream E.R E.M E.write_signature infos e pre frames hhost hinfo hvalid
      hbody hid3 hws hF hcap

/-- Witness of C4 : `F = 8` frames and a payload of `L = 3` bytes, so that
`3 * F = 8 * L`, with a signature of 4 bytes. The advisor proposes LSB, the
insertion returns 0, and the extraction run on the stream written returns the
3 bytes. -/
theorem insert_lsb_extract_lsb_mp3_round_trip_witness :
    can_use_lsb mp3_boundary_session = some 0 ∧
    3 * mp3_boundary_session.host.file_info.mp3_fr_nb =
      8 * mp3_boundary_session.hidden.length ∧
    insert_lsb (test_env [1, 2, 3, 4]) mp3_boundary_session err_code.ERR_NONE =
      some ⟨0, (mp3_extract_session 3).host.host, err_code.ERR_NONE⟩ ∧
    extract_lsb (test_env [1, 2, 3, 4]) (mp3_extract_session 3) err_code.ERR_NONE =
      some ⟨0, [0x41, 0x42, 0x43], err_code.ERR_NONE⟩ ∧
    (∃ r, insert_lsb (test_env [1, 2, 3, 4]) mp3_boundary_session err_code.ERR_NONE = some r ∧
      r.ret = 0) :=
  ⟨by decide, by decide, by decide,
    (insert_lsb_extract_lsb_mp3_round_trip (test_env [1, 2, 3, 4]) mp3_boundary_session
      err_code.ERR_NONE rfl (by decide) (by decide)
      (fun _ res => ⟨[], (List.append_nil res).symm⟩) (by decide)).1
      ⟨0, (mp3_extract_session 3).host.host, err_code.ERR_NONE⟩ (by decide) rfl
      (mp3_extract_session 3) err_code.ERR_NONE rfl rfl rfl rfl rfl rfl rfl,
    (insert_lsb_extract_lsb_mp3_round_trip (test_env [1, 2, 3, 4]) mp3_boundary_session
      err_code.ERR_NONE rfl (by decide) (by decide)
      (fun _ res => ⟨[], (List.append_nil res).symm⟩) (by decide)).2
      [] (List.replicate 8 (0xFFFB9000, [])) rfl rfl (by decide) (by decide)
      (fun f hf => by
        rw [List.eq_of_mem_replicate hf]
        exact ⟨by decide, by decide, rfl⟩)
      (fun _ _ _ => rfl) (fun _ _ _ _ => rfl) rfl (by decide) (by decide)⟩

/-! ## Claims on `insert_eoc` and `extract_eoc` -/

/-- C3 : EOC round trip. For a well-formed FLV host (a header of 13 bytes, tags
with the widths of the format, `n >= 1` video tags), a payload of
`hidden_length` bytes and a password for which the table of the blocks is a
permutation of `0 .. n - 1`, whenever `insert_eoc` returns 0, `extract_eoc`
run on the stream that it wrote with the same password, the same number of
video tags and the same `hidden_length` returns 0 and writes exactly the
bytes of the payload, in their order. -/
theorem insert_eoc_extract_eoc_round_trip (E : EocEnv) (infos : info_s) (e : err_code)
    (hdr : List Nat) (tags : List flv_tag) (rest : List Nat)
    (h : EocHost E infos hdr tags rest)
    (hmode : infos.mode = mode_e.STEGX_MODE_INSERT)
    (halgo : infos.algo = algo_e.STEGX_ALGO_EOC)
    (r : call_result) (hins : insert_eoc E infos e = some r) (hret : r.ret = 0) :
    ∀ (x : info_s) (e2 : err_code),
      x.mode = mode_e.STEGX_MODE_EXTRACT → x.algo = algo_e.STEGX_ALGO_EOC →
      x.passwd = infos.passwd → x.hidden_length = infos.hidden_length →
      x.host.file_info.flv_nb_video_tag = infos.host.file_info.flv_nb_video_tag →
      x.host.host = r.res →
      extract_eoc E x e2 = some ⟨0, infos.hidden, e2⟩ := by
  intro x e2 xmode xalgo xpw xlen xn xhost
  have hfits : eoc_fits (eoc_table E infos.host.file_info.flv_nb_video_tag infos.passwd)
      infos.host.file_info.flv_nb_video_tag
      (infos.hidden_length / infos.host.file_info.flv_nb_video_tag)
      (infos.hidden_length % infos.host.file_info.flv_nb_video_tag) tags 0 := by
    by_contra hnot
    obtain ⟨res, hfail⟩ := insert_eoc_fail E infos e hdr tags rest h hmode halgo hnot
    rw [hfail] at hins
    have hr := Option.some.inj hins
    rw [← hr] at hret
    exact absurd hret (show ¬ (1 : Int) = 0 by decide)
  have hspec := insert_eoc_spec E infos e hdr tags rest h hmode halgo hfits
  rw [hspec] at hins
  have hr := Option.some.inj hins
  have hres : x.host.host = hdr ++ eoc_out E.R infos.passwd infos.hidden
      (eoc_table E infos.host.file_info.flv_nb_video_tag infos.passwd)
      infos.host.file_info.flv_nb_video_tag
      (infos.hidden_length / infos.host.file_info.flv_nb_video_tag)
      (infos.hidden_length % infos.host.file_info.flv_nb_video_tag) tags 0 ++
      (rest ++ (E.write_signature infos).2) := by
    rw [xhost, ← hr, List.append_assoc (hdr ++ _)]
  rw [← xpw, ← xlen, ← xn] at hres
  exact extract_eoc_spec E x e2 infos.hidden hdr _ tags xmode xalgo h.length_hdr h.wf
    (by rw [xn]; exact h.pos) (by rw [xn]; exact h.count_lt) (by rw [xn]; exact h.count.symm)
    (by rw [xlen]; exact h.length_hidden) (by rw [xlen]; exact h.hidden_lt) h.hidden_bytes
    (by rw [xn, xpw]; exact h.perm)
    (by rw [xn, xpw, xlen]; exact hfits) hres

/-- Witness of C3 : a host of 3 video tags and one audio tag, followed by a
script tag; a payload of 8 bytes, hence blocks of 2, 2 and 4 bytes, carried by
the video tags number 1, 2 and 0. -/
theorem insert_eoc_extract_eoc_round_trip_witness :
    insert_eoc eoc_test_env eoc_test_session err_code.ERR_NONE =
      some ⟨0,
        eoc_test_stream,
        err_code.ERR_NONE⟩ ∧
    ∀ (x : info_s) (e2 : err_code),
      x.mode = mode_e.STEGX_MODE_EXTRACT → x.algo = algo_e.STEGX_ALGO_EOC →
      x.passwd = [112, 119] → x.hidden_length = 8 →
      x.host.file_info.flv_nb_video_tag = 3 →
      x.host.host =
        eoc_test_stream →
      extract_eoc eoc_test_env x e2 = some ⟨0, [1, 2, 3, 4, 5, 6, 7, 8], e2⟩ :=
  ⟨by decide,
    insert_eoc_extract_eoc_round_trip eoc_test_env eoc_test_session err_code.ERR_NONE
      eoc_test_hdr eoc_test_tags eoc_test_rest
      { host_eq := rfl, length_hdr := rfl, wf := by decide, ends := rfl,
        count := by decide, count_lt := by decide, length_hidden := rfl,
        hidden_lt := by decide, hidden_bytes := by decide, perm := by decide }
      rfl rfl ⟨0, eoc_test_stream, err_code.ERR_NONE⟩ (by decide) rfl⟩

/-- C8 : EOC size invariant. A host with one video tag whose payload has 2
bytes and whose previous-tag-size is 13, and a payload to hide of
`2 ^ 32 - 3` bytes : the share of the tag is `2 ^ 32 - 3`, so the size should
become `2 + 1 + (2 ^ 32 - 3) = 2 ^ 32` and the previous-tag-size
`13 + 1 + (2 ^ 32 - 3) = 2 ^ 32 + 11`. `insert_eoc` returns 0 and writes the
size field `00 00 00` and the previous-tag-size `00 00 00 0B` around the
`2 ^ 32 - 3` masked bytes : both sums are taken modulo `2 ^ 32`. -/
theorem insert_eoc_sizes_wrap :
    insert_eoc eoc_test_env
        (eoc_single_session ⟨9, 2, 7, [1, 2, 3, 4, 5, 6], [100, 101], 13⟩ (2 ^ 32 - 3))
        err_code.ERR_NONE =
      some ⟨0,
        eoc_test_hdr ++ [9, 0, 0, 0, 7] ++ [1, 2, 3, 4, 5, 6] ++ [100, 101] ++ [28] ++
          eoc_mask lcg (lcg.stegx_srand (lcg.create_seed [112, 119]))
            (List.replicate (2 ^ 32 - 3) 0) ++
          [0, 0, 0, 11] ++ [] ++ [200, 201], err_code.ERR_NONE⟩ ∧
    eoc_share 1 ((2 ^ 32 - 3) / 1) ((2 ^ 32 - 3) % 1) 0 = 2 ^ 32 - 3 ∧
    2 + 1 + eoc_share 1 ((2 ^ 32 - 3) / 1) ((2 ^ 32 - 3) % 1) 0 = 2 ^ 32 ∧
    13 + 1 + eoc_share 1 ((2 ^ 32 - 3) / 1) ((2 ^ 32 - 3) % 1) 0 = 2 ^ 32 + 11 :=
  ⟨insert_eoc_single eoc_test_env
      (eoc_single_session ⟨9, 2, 7, [1, 2, 3, 4, 5, 6], [100, 101], 13⟩ (2 ^ 32 - 3))
      err_code.ERR_NONE eoc_test_hdr ⟨9, 2, 7, [1, 2, 3, 4, 5, 6], [100, 101], 13⟩ []
      { host_eq := (List.append_nil _).symm, length_hdr := rfl, wf := by decide, ends := rfl,
        count := rfl, count_lt := by decide, length_hidden := List.length_replicate _ _,
        hidden_lt := by decide,
        hidden_bytes := fun b hb => by rw [List.eq_of_mem_replicate hb]; decide,
        perm := by decide }
      rfl rfl 0 11 (by decide) (by decide) (by decide),
    by decide, by decide, by decide⟩

/-- C9 : EOC 24-bit bound. A host with one video tag whose payload has 5 bytes
and a payload to hide of `2 ^ 32 - 2` bytes : the exact recomputed size
`5 + 1 + (2 ^ 32 - 2) = 2 ^ 32 + 4` exceeds `0xFFFFFF`, yet `insert_eoc`
returns 0 and writes the size field `00 00 04`, the sum modulo `2 ^ 32`, which
passes the test of line 132. -/
theorem insert_eoc_accepts_wrapped_size :
    0xFFFFFF < 5 + 1 + eoc_share 1 ((2 ^ 32 - 2) / 1) ((2 ^ 32 - 2) % 1) 0 ∧
    5 + 1 + eoc_share 1 ((2 ^ 32 - 2) / 1) ((2 ^ 32 - 2) % 1) 0 = 2 ^ 32 + 4 ∧
    insert_eoc eoc_test_env
        (eoc_single_session ⟨9, 5, 7, [1, 2, 3, 4, 5, 6], [100, 101, 102, 103, 104], 16⟩
          (2 ^ 32 - 2))
        err_code.ERR_NONE =
      some ⟨0,
        eoc_test_hdr ++ [9, 0, 0, 4, 7] ++ [1, 2, 3, 4, 5, 6] ++ [100, 101, 102, 103, 104] ++
          [28] ++
          eoc_mask lcg (lcg.stegx_srand (lcg.create_seed [112, 119]))
            (List.replicate (2 ^ 32 - 2) 0) ++
          [0, 0, 0, 15] ++ [] ++ [200, 201], err_code.ERR_NONE⟩ :=
  ⟨by decide, by decide,
    insert_eoc_single eoc_test_env
      (eoc_single_session ⟨9, 5, 7, [1, 2, 3, 4, 5, 6], [100, 101, 102, 103, 104], 16⟩
        (2 ^ 32 - 2))
      err_code.ERR_NONE eoc_test_hdr
      ⟨9, 5, 7, [1, 2, 3, 4, 5, 6], [100, 101, 102, 103, 104], 16⟩ []
      { host_eq := (List.append_nil _).symm, length_hdr := rfl, wf := by decide, ends := rfl,
        count := rfl, count_lt := by decide, length_hidden := List.length_replicate _ _,
        hidden_lt := by decide,
        hidden_bytes := fun b hb => by rw [List.eq_of_mem_replicate hb]; decide,
        perm := by decide }
      rfl rfl 4 15 (by decide) (by decide) (by decide)⟩

/-! ## Claims on the capacity advisor -/

/-- C5 : capacity monotonicity fails on the code. For an uncompressed BMP host
of 256 pixels of 24 bits (capacity 192 bits), `can_use_lsb` proposes LSB for a
payload of `2 ^ 29` bytes, because `hidden_length * 8` wraps to 0 on 32 bits,
and refuses it for the shorter payload of 25 bytes. -/
theorem can_use_lsb_not_monotone :
    can_use_lsb
      { mode := mode_e.STEGX_MODE_INSERT, algo := algo_e.STEGX_ALGO_LSB,
        host := ⟨[], type_e.BMP_UNCOMPRESSED, file_info_u.bmp ⟨54, 768, 24, 256⟩⟩,
        hidden := [], hidden_length := 2 ^ 29, passwd := [] } = some 0 ∧
    can_use_lsb
      { mode := mode_e.STEGX_MODE_INSERT, algo := algo_e.STEGX_ALGO_LSB,
        host := ⟨[], type_e.BMP_UNCOMPRESSED, file_info_u.bmp ⟨54, 768, 24, 256⟩⟩,
        hidden := [], hidden_length := 25, passwd := [] } = some 1 ∧
    25 < 2 ^ 29 ∧ 2 ^ 29 < 2 ^ 32 := by
  refine ⟨by decide, by decide, by decide, by decide⟩

/-- The overflow test of `stegx_suggest_algo` : in insertion mode, after a
successful inspection, a non-empty payload is refused with
`ERR_LENGTH_HIDDEN` as soon as its size reaches `2 ^ 32 - 1`. -/
theorem stegx_suggest_algo_length_hidden (fill_host_info : info_s → Int × info_s)
    (BMP_METADATA_MAX : Nat) (infos : info_s) (g : globals)
    (hmode : infos.mode = mode_e.STEGX_MODE_INSERT)
    (hfill : (fill_host_info infos).1 = 0)
    (hsize : 2 ^ 32 - 1 ≤ (fill_host_info infos).2.hidden.length) :
    stegx_suggest_algo fill_host_info BMP_METADATA_MAX infos g =
      some ⟨1, (fill_host_info infos).2,
        { g with stegx_errno := err_code.ERR_LENGTH_HIDDEN }⟩ := by
  have h0 : (fill_host_info infos).2.hidden.length ≠ 0 := by omega
  simp only [stegx_suggest_algo, hmode, hfill, h0, ne_eq, not_true_eq_false, if_false,
    ge_iff_le, hsize, if_true, reduceCtorEq]

/-- C10 : payload-length boundary. In insertion mode, with a host that the
inspection accepts, `stegx_suggest_algo` rejects a payload of exactly
`2 ^ 32 - 1` bytes with `ERR_LENGTH_HIDDEN` and leaves `hidden_length` as it
was : the test is `read_hidden_length >= UINT32_MAX`. -/
theorem stegx_suggest_algo_rejects_uint32_max :
    stegx_suggest_algo (fun i => (0, i)) (2 ^ 32 - 1)
      { mode := mode_e.STEGX_MODE_INSERT, algo := algo_e.STEGX_ALGO_LSB,
        host := ⟨[], type_e.PNG, file_info_u.png ⟨33, 100⟩⟩,
        hidden := List.replicate (2 ^ 32 - 1) 0, hidden_length := 0, passwd := [] }
      ⟨err_code.ERR_NONE, []⟩ =
      some ⟨1,
        { mode := mode_e.STEGX_MODE_INSERT, algo := algo_e.STEGX_ALGO_LSB,
          host := ⟨[], type_e.PNG, file_info_u.png ⟨33, 100⟩⟩,
          hidden := List.replicate (2 ^ 32 - 1) 0, hidden_length := 0, passwd := [] },
        ⟨err_code.ERR_LENGTH_HIDDEN, []⟩⟩ :=
  stegx_suggest_algo_length_hidden (fun i => (0, i)) (2 ^ 32 - 1) _ _ rfl rfl
    (Nat.le_of_eq (List.length_replicate _ _).symm)

/-- C11 : empty payload. In insertion mode, when the inspection of the host
(`fill_host_info`, of which `f` is the value on this session) returns 0 and
the payload file is empty, `stegx_suggest_algo` returns 1 with
`stegx_errno = ERR_HIDDEN_FILE_EMPTY`; `hidden_length`, the payload, the
password and the algorithm of the session and the table `stegx_propos_algos`
are what they were. -/
theorem stegx_suggest_algo_empty_payload (H : HostEnv) (f : info_s → Int × info_s)
    (BMP_METADATA_MAX : Nat) (infos : info_s) (g : globals)
    (hmode : infos.mode = mode_e.STEGX_MODE_INSERT)
    (hinspect : fill_host_info H infos = some (f infos))
    (hok : (f infos).1 = 0) (hempty : infos.hidden.length = 0) :
    ∃ r, stegx_suggest_algo f BMP_METADATA_MAX infos g = some r ∧ r.ret = 1 ∧
      r.g.stegx_errno = err_code.ERR_HIDDEN_FILE_EMPTY ∧
      r.g.stegx_propos_algos = g.stegx_propos_algos ∧
      r.infos.hidden_length = infos.hidden_length ∧
      r.infos = { infos with host := { infos.host with file_info := r.infos.host.file_info } } := by
  have hframe := fill_host_info_frame H infos (f infos).1 (f infos).2 hinspect
  have hhid : (f infos).2.hidden.length = 0 := by rw [hframe]; exact hempty
  refine ⟨⟨1, (f infos).2, { g with stegx_errno := err_code.ERR_HIDDEN_FILE_EMPTY }⟩,
    ?_, rfl, rfl, rfl, ?_, hframe⟩
  · simp only [stegx_suggest_algo, hmode, hok, hhid, ne_eq, not_true_eq_false, if_false,
      if_true, reduceCtorEq]
  · show (f infos).2.hidden_length = infos.hidden_length
    rw [hframe]

/-- Witness of C11 : the FLV host of `eoc_test_session`, which the inspection
accepts, and an empty payload. -/
theorem stegx_suggest_algo_empty_payload_witness :
    ∃ r, stegx_suggest_algo (fun i => (fill_host_info test_host_env i).getD (1, i)) (2 ^ 32 - 1)
        flv_empty_payload_session
        ⟨err_code.ERR_NONE, [true, false, true, false, false]⟩ = some r ∧ r.ret = 1 ∧
      r.g.stegx_errno = err_code.ERR_HIDDEN_FILE_EMPTY ∧
      r.g.stegx_propos_algos = [true, false, true, false, false] ∧
      r.infos.hidden_length = 7 ∧
      r.infos = { flv_empty_payload_session with
        host := { flv_empty_payload_session.host with file_info := r.infos.host.file_info } } :=
  stegx_suggest_algo_empty_payload test_host_env
    (fun i => (fill_host_info test_host_env i).getD (1, i)) (2 ^ 32 - 1)
    flv_empty_payload_session
    ⟨err_code.ERR_NONE, [true, false, true, false, false]⟩ rfl (by decide) (by decide) rfl

/-- C12 : choice of the algorithm. In insertion mode, `stegx_choose_algo`
returns 0 exactly when the entry of the chosen algorithm in
`stegx_propos_algos` is set; it then stores the algorithm in the session and
leaves the global variables as they were; otherwise it returns 1 with
`stegx_errno = ERR_CHOICE_ALGO`, the algorithm of the session and the table
being what they were. -/
theorem stegx_choose_algo_spec (R : Rand) (LENGTH_DEFAULT_PASSWD now : Nat) (infos : info_s)
    (a : algo_e) (g : globals) (hmode : infos.mode = mode_e.STEGX_MODE_INSERT) :
    ((stegx_choose_algo R LENGTH_DEFAULT_PASSWD now infos a g).ret = 0 ∧
        (stegx_choose_algo R LENGTH_DEFAULT_PASSWD now infos a g).infos.algo = a ↔
      g.stegx_propos_algos.getD a.index false = true) ∧
    (g.stegx_propos_algos.getD a.index false = true →
      (stegx_choose_algo R LENGTH_DEFAULT_PASSWD now infos a g).ret = 0 ∧
      (stegx_choose_algo R LENGTH_DEFAULT_PASSWD now infos a g).infos.algo = a ∧
      (stegx_choose_algo R LENGTH_DEFAULT_PASSWD now infos a g).g = g) ∧
    (g.stegx_propos_algos.getD a.index false = false →
      (stegx_choose_algo R LENGTH_DEFAULT_PASSWD now infos a g).ret = 1 ∧
      (stegx_choose_algo R LENGTH_DEFAULT_PASSWD now infos a g).g.stegx_errno =
        err_code.ERR_CHOICE_ALGO ∧
      (stegx_choose_algo R LENGTH_DEFAULT_PASSWD now infos a g).g.stegx_propos_algos =
        g.stegx_propos_algos ∧
      (stegx_choose_algo R LENGTH_DEFAULT_PASSWD now infos a g).infos.algo = infos.algo) := by
  have hne : ¬ infos.mode = mode_e.STEGX_MODE_EXTRACT := by rw [hmode]; decide
  cases hflag : g.stegx_propos_algos.getD a.index false
  · have hres : (stegx_choose_algo R LENGTH_DEFAULT_PASSWD now infos a g).ret = 1 ∧
        (stegx_choose_algo R LENGTH_DEFAULT_PASSWD now infos a g).g.stegx_errno =
          err_code.ERR_CHOICE_ALGO ∧
        (stegx_choose_algo R LENGTH_DEFAULT_PASSWD now infos a g).g.stegx_propos_algos =
          g.stegx_propos_algos ∧
        (stegx_choose_algo R LENGTH_DEFAULT_PASSWD now infos a g).infos.algo = infos.algo := by
      simp only [stegx_choose_algo, hne, if_false, hflag, Bool.false_eq_true, true_and]
      split_ifs <;> rfl
    refine ⟨⟨fun h => ?_, fun h => absurd h (by decide)⟩, fun h => absurd h (by decide),
      fun _ => hres⟩
    rw [hres.1] at h
    exact absurd h.1 (by decide)
  · have hres : (stegx_choose_algo R LENGTH_DEFAULT_PASSWD now infos a g).ret = 0 ∧
        (stegx_choose_algo R LENGTH_DEFAULT_PASSWD now infos a g).infos.algo = a ∧
        (stegx_choose_algo R LENGTH_DEFAULT_PASSWD now infos a g).g = g := by
      simp only [stegx_choose_algo, hne, if_false, hflag, if_true, and_self]
    exact ⟨⟨fun _ => rfl, fun _ => ⟨hres.1, hres.2.1⟩⟩, fun _ => hres,
      fun h => absurd h (by decide)⟩

/-- Witness of C12 : the session `eoc_test_session`, the table that proposes
EOF and EOC, and the choice of EOC. -/
theorem stegx_choose_algo_spec_witness :
    (stegx_choose_algo lcg 8 1000 eoc_test_session algo_e.STEGX_ALGO_EOC
        ⟨err_code.ERR_NONE, [false, true, false, true, false]⟩).ret = 0 ∧
    (stegx_choose_algo lcg 8 1000 eoc_test_session algo_e.STEGX_ALGO_LSB
        ⟨err_code.ERR_NONE, [false, true, false, true, false]⟩).ret = 1 :=
  ⟨((stegx_choose_algo_spec lcg 8 1000 eoc_test_session algo_e.STEGX_ALGO_EOC
      ⟨err_code.ERR_NONE, [false, true, false, true, false]⟩ rfl).2.1 rfl).1,
   ((stegx_choose_algo_spec lcg 8 1000 eoc_test_session algo_e.STEGX_ALGO_LSB
      ⟨err_code.ERR_NONE, [false, true, false, true, false]⟩ rfl).2.2 rfl).1⟩

/-- C13 : mode of the advisor. In extraction mode `stegx_suggest_algo` and
`stegx_choose_algo` return 1 with `stegx_errno = ERR_SUGG_ALGOS`; the session
(hence `hidden_length`, the algorithm and the password) and the table
`stegx_propos_algos` are what they were. -/
theorem advisor_extract_mode (R : Rand) (f : info_s → Int × info_s)
    (BMP_METADATA_MAX LENGTH_DEFAULT_PASSWD now : Nat) (infos : info_s) (a : algo_e)
    (g : globals) (hmode : infos.mode = mode_e.STEGX_MODE_EXTRACT) :
    stegx_suggest_algo f BMP_METADATA_MAX infos g =
      some ⟨1, infos, ⟨err_code.ERR_SUGG_ALGOS, g.stegx_propos_algos⟩⟩ ∧
    stegx_choose_algo R LENGTH_DEFAULT_PASSWD now infos a g =
      ⟨1, infos, ⟨err_code.ERR_SUGG_ALGOS, g.stegx_propos_algos⟩⟩ := by
  constructor
  · simp only [stegx_suggest_algo, hmode, if_true]
  · simp only [stegx_choose_algo, hmode, if_true]

/-- Witness of C13 : an extraction session without password. -/
theorem advisor_extract_mode_witness :
    stegx_suggest_algo (fun i => (fill_host_info test_host_env i).getD (1, i)) (2 ^ 32 - 1)
        { eoc_test_session with mode := mode_e.STEGX_MODE_EXTRACT,
                                method := method_e.STEGX_WITHOUT_PASSWD }
        ⟨err_code.ERR_NONE, [true, true, true, true, true]⟩ =
      some ⟨1, { eoc_test_session with mode := mode_e.STEGX_MODE_EXTRACT,
                                       method := method_e.STEGX_WITHOUT_PASSWD },
        ⟨err_code.ERR_SUGG_ALGOS, [true, true, true, true, true]⟩⟩ ∧
    stegx_choose_algo lcg 8 1000
        { eoc_test_session with mode := mode_e.STEGX_MODE_EXTRACT,
                                method := method_e.STEGX_WITHOUT_PASSWD }
        algo_e.STEGX_ALGO_EOC ⟨err_code.ERR_NONE, [true, true, true, true, true]⟩ =
      ⟨1, { eoc_test_session with mode := mode_e.STEGX_MODE_EXTRACT,
                                  method := method_e.STEGX_WITHOUT_PASSWD },
        ⟨err_code.ERR_SUGG_ALGOS, [true, true, true, true, true]⟩⟩ :=
  advisor_extract_mode lcg (fun i => (fill_host_info test_host_env i).getD (1, i)) (2 ^ 32 - 1)
    8 1000 { eoc_test_session with mode := mode_e.STEGX_MODE_EXTRACT,
                                   method := method_e.STEGX_WITHOUT_PASSWD }
    algo_e.STEGX_ALGO_EOC ⟨err_code.ERR_NONE, [true, true, true, true, true]⟩ rfl

/-- C14 : LSB capacity of a BMP host. An uncompressed BMP host of 1000 pixels
of 32 bits has a capacity of `((32 * 1000) / 8) / 4 = 1000` bits. For a payload
of `2 ^ 29 + 100` bytes, `8 * hidden_length = 2 ^ 32 + 800` exceeds it, yet
`can_use_lsb` proposes LSB : the product `hidden_length * 8` is computed on 32
bits and gives 800. -/
theorem can_use_lsb_bmp_wraps :
    can_use_lsb
      { mode := mode_e.STEGX_MODE_INSERT, algo := algo_e.STEGX_ALGO_LSB,
        host := ⟨[], type_e.BMP_UNCOMPRESSED, file_info_u.bmp ⟨54, 4000, 32, 1000⟩⟩,
        hidden := [], hidden_length := 2 ^ 29 + 100, passwd := [] } = some 0 ∧
    ((32 * 1000) / 8) / 4 = 1000 ∧ 8 * (2 ^ 29 + 100) = 2 ^ 32 + 800 ∧
    ¬ 8 * (2 ^ 29 + 100) ≤ ((32 * 1000) / 8) / 4 ∧ 2 ^ 29 + 100 < 2 ^ 32 - 1 := by
  refine ⟨by decide, by decide, by decide, by decide, by decide⟩

/-- C15 : LSB capacity of a WAV host. A WAV-PCM host of 1000 bytes of samples
of 16 bits has a capacity of `(1000 / (16 / 8)) * 2 = 1000` bits. For a payload
of `2 ^ 29 + 50` bytes, `8 * hidden_length = 2 ^ 32 + 400` exceeds it, yet
`can_use_lsb` proposes LSB : the product `hidden_length * 8` is computed on 32
bits and gives 400. -/
theorem can_use_lsb_wav_wraps :
    can_use_lsb
      { mode := mode_e.STEGX_MODE_INSERT, algo := algo_e.STEGX_ALGO_LSB,
        host := ⟨[], type_e.WAV_PCM, file_info_u.wav ⟨44, 1000, 16⟩⟩,
        hidden := [], hidden_length := 2 ^ 29 + 50, passwd := [] } = some 0 ∧
    (1000 / (16 / 8)) * 2 = 1000 ∧ 8 * (2 ^ 29 + 50) = 2 ^ 32 + 400 ∧
    ¬ 8 * (2 ^ 29 + 50) ≤ (1000 / (16 / 8)) * 2 ∧ 2 ^ 29 + 50 < 2 ^ 32 - 1 := by
  refine ⟨by decide, by decide, by decide, by decide, by decide⟩

/-- C16 : Metadata on a BMP host. With a header of 54 bytes and a payload of
`2 ^ 32 - 2` bytes the exact sum `hidden_length + 2 * header_size` is
`2 ^ 32 + 106`, above every ceiling of 4 bytes; `can_use_metadata` proposes
Metadata for the ceiling `2 ^ 32 - 1` and for the ceiling 1000, because the sum
of the 32-bit operands is 106. -/
theorem can_use_metadata_wraps :
    can_use_metadata (2 ^ 32 - 1)
      { mode := mode_e.STEGX_MODE_INSERT, algo := algo_e.STEGX_ALGO_METADATA,
        host := ⟨[], type_e.BMP_UNCOMPRESSED, file_info_u.bmp ⟨54, 4000, 32, 1000⟩⟩,
        hidden := [], hidden_length := 2 ^ 32 - 2, passwd := [] } = 0 ∧
    can_use_metadata 1000
      { mode := mode_e.STEGX_MODE_INSERT, algo := algo_e.STEGX_ALGO_METADATA,
        host := ⟨[], type_e.BMP_UNCOMPRESSED, file_info_u.bmp ⟨54, 4000, 32, 1000⟩⟩,
        hidden := [], hidden_length := 2 ^ 32 - 2, passwd := [] } = 0 ∧
    (2 ^ 32 - 2) + 2 * 54 = 2 ^ 32 + 106 ∧ ¬ (2 ^ 32 - 2) + 2 * 54 ≤ 2 ^ 32 - 1 ∧
    2 ^ 32 - 2 < 2 ^ 32 - 1 := by
  refine ⟨by decide, by decide, by decide, by decide, by decide⟩

/-- C17 : eligibility by the format alone. For a recognised host type,
whatever the session holds else, EOF is proposed exactly when the type is not
AVI, Junk Chunk exactly when it is AVI and EOC exactly when it is FLV; hence
one and only one of EOF and Junk Chunk is proposed. -/
theorem format_only_eligibility (infos : info_s) (hrec : infos.host.type ≠ type_e.UNKNOWN) :
    (can_use_eof infos = 0 ↔ ¬ (infos.host.type = type_e.AVI_COMPRESSED ∨
      infos.host.type = type_e.AVI_UNCOMPRESSED)) ∧
    (can_use_junk_chunk infos = 0 ↔ (infos.host.type = type_e.AVI_COMPRESSED ∨
      infos.host.type = type_e.AVI_UNCOMPRESSED)) ∧
    (can_use_eoc infos = 0 ↔ infos.host.type = type_e.FLV) ∧
    (can_use_eof infos = 0 ↔ ¬ can_use_junk_chunk infos = 0) := by
  unfold can_use_eof can_use_junk_chunk can_use_eoc IS_FILE_TYPE
  cases ht : infos.host.type <;> simp_all

/-- Witness of C17 : the FLV host of `eoc_test_session`. -/
theorem format_only_eligibility_witness :
    (can_use_eof eoc_test_session = 0 ↔ ¬ (eoc_test_session.host.type = type_e.AVI_COMPRESSED ∨
      eoc_test_session.host.type = type_e.AVI_UNCOMPRESSED)) ∧
    (can_use_junk_chunk eoc_test_session = 0 ↔
      (eoc_test_session.host.type = type_e.AVI_COMPRESSED ∨
        eoc_test_session.host.type = type_e.AVI_UNCOMPRESSED)) ∧
    (can_use_eoc eoc_test_session = 0 ↔ eoc_test_session.host.type = type_e.FLV) ∧
    (can_use_eof eoc_test_session = 0 ↔ ¬ can_use_junk_chunk eoc_test_session = 0) :=
  format_only_eligibility eoc_test_session (by decide)

/-! ## Claims on `fill_host_info` -/

/-- C19 : trailing data of a FLV host. In insertion mode, for a header of 13
bytes that declares the header size 9 followed by well-formed tags and by one
single byte that is not a tag type, `fill_host_info` returns 0 : the loop on
the tags consumes the byte before it stops, and the test that follows finds
the end of the file. `stegx_suggest_algo` then goes on and proposes EOC. -/
theorem fill_host_info_flv_single_trailing_byte (H : HostEnv) (infos : info_s)
    (hdr : List Nat) (tags : List flv_tag) (b : Nat)
    (hmode : infos.mode = mode_e.STEGX_MODE_INSERT) (htype : infos.host.type = type_e.FLV)
    (hhost : infos.host.host = hdr ++ flv_bytes tags ++ [b]) (hlen : hdr.length = 13)
    (hsize : be32 (hdr.getD 5 0) (hdr.getD 6 0) (hdr.getD 7 0) (hdr.getD 8 0) = 9)
    (hwf : ∀ t ∈ tags, t.wf) (hk : ∀ t ∈ tags, t.known)
    (hprev : ∀ t ∈ tags, t.prev = 11 + t.size)
    (hb : b ≠ 18 ∧ b ≠ 9 ∧ b ≠ 8 ∧ b ≠ 24) :
    fill_host_info H infos = some (0, { infos with host := { infos.host with
      file_info := file_info_u.flv ⟨video_count tags % 2 ^ 32, metadata_count tags % 2 ^ 32,
        (13 + (flv_bytes tags).length) % 2 ^ 32⟩ } }) ∧
    ∀ (f : info_s → Int × info_s) (BMP_METADATA_MAX : Nat) (g : globals),
      fill_host_info H infos = some (f infos) → infos.hidden.length ≠ 0 →
      infos.hidden.length < 2 ^ 32 - 1 →
      ∃ r, stegx_suggest_algo f BMP_METADATA_MAX infos g = some r ∧ r.ret = 0 ∧
        r.g.stegx_propos_algos = [false, true, false, true, false] := by
  have hspec := fill_host_info_flv_spec infos.mode infos.host.host hdr tags [b] hhost hlen hsize
    hwf hk hprev (by intro x hx; simp at hx; rw [← hx]; exact hb)
  have hcode : (if infos.mode = mode_e.STEGX_MODE_INSERT ∧ List.drop 1 [b] ≠ [] then (1 : Int)
      else 0) = 0 := by simp
  rw [hcode] at hspec
  have hfill := fill_host_info_of_flv H infos 0 _ htype hspec
  refine ⟨hfill, ?_⟩
  intro f M g hf hne hlt
  rw [hfill] at hf
  have hf1 : (f infos).1 = 0 := by rw [← Option.some.inj hf]
  have hf2 : (f infos).2 = { infos with host := { infos.host with
      file_info := file_info_u.flv ⟨video_count tags % 2 ^ 32, metadata_count tags % 2 ^ 32,
        (13 + (flv_bytes tags).length) % 2 ^ 32⟩ } } := by rw [← Option.some.inj hf]
  have hmode2 : ¬ infos.mode = mode_e.STEGX_MODE_EXTRACT := by rw [hmode]; decide
  have hge : ¬ infos.hidden.length ≥ 2 ^ 32 - 1 := by omega
  simp only [stegx_suggest_algo, hmode2, hf1, hf2, hne, hge, ne_eq, not_true_eq_false, if_false,
    can_use_lsb, can_use_eof, can_use_metadata, can_use_eoc, can_use_junk_chunk, IS_FILE_TYPE,
    htype, reduceCtorEq, false_and, or_self, if_true]
  exact ⟨_, rfl, rfl, by simp⟩

/-- Witness of C19 : the host of 94 bytes of `eoc_test_session` followed by
one byte 0 is accepted, with the counts of the 94 bytes. -/
theorem fill_host_info_flv_single_trailing_byte_witness :
    flv_trailing_session.host.host.length = 95 ∧
    fill_host_info test_host_env flv_trailing_session =
      some (0, { flv_trailing_session with host := { flv_trailing_session.host with
        file_info := file_info_u.flv ⟨3, 1, 94⟩ } }) :=
  ⟨by decide,
    (fill_host_info_flv_single_trailing_byte test_host_env flv_trailing_session eoc_test_hdr
      (eoc_test_tags ++ [(⟨18, 0, 0, [0, 0, 0, 0, 0, 0], [], 11⟩ : flv_tag)]) 0 rfl rfl rfl rfl
      (by decide) (by decide) (by decide) (by decide) (by decide)).1⟩

/-- C20 : inspection of a FLV host, as the code performs it. For a header of 13
bytes that declares the header size 9 followed by well-formed tags of the
types 8, 9, 18 and 24, each with a previous-tag-size equal to 11 plus the size
of its payload, `fill_host_info` returns 0 and sets `nb_video_tag`,
`nb_metadata_tag` and `file_size` to the number of tags of type 9, the number
of tags of type 18 and the length of the file, each modulo `2 ^ 32`; they are
the exact numbers when the file has fewer than `2 ^ 32` bytes. -/
theorem fill_host_info_flv_well_formed (H : HostEnv) (infos : info_s)
    (hdr : List Nat) (tags : List flv_tag) (htype : infos.host.type = type_e.FLV)
    (hhost : infos.host.host = hdr ++ flv_bytes tags) (hlen : hdr.length = 13)
    (hsize : be32 (hdr.getD 5 0) (hdr.getD 6 0) (hdr.getD 7 0) (hdr.getD 8 0) = 9)
    (hwf : ∀ t ∈ tags, t.wf) (hk : ∀ t ∈ tags, t.known)
    (hprev : ∀ t ∈ tags, t.prev = 11 + t.size) :
    fill_host_info H infos = some (0, { infos with host := { infos.host with
      file_info := file_info_u.flv ⟨video_count tags % 2 ^ 32, metadata_count tags % 2 ^ 32,
        infos.host.host.length % 2 ^ 32⟩ } }) ∧
    (infos.host.host.length < 2 ^ 32 →
      video_count tags % 2 ^ 32 = video_count tags ∧
      metadata_count tags % 2 ^ 32 = metadata_count tags ∧
      infos.host.host.length % 2 ^ 32 = infos.host.host.length) := by
  have hspec := fill_host_info_flv_spec infos.mode infos.host.host hdr tags []
    (by rw [hhost, List.append_nil]) hlen hsize hwf hk hprev (by intro x hx; simp at hx)
  have hcode : (if infos.mode = mode_e.STEGX_MODE_INSERT ∧ List.drop 1 ([] : List Nat) ≠ []
      then (1 : Int) else 0) = 0 := by simp
  have hlength : infos.host.host.length = 13 + (flv_bytes tags).length := by
    rw [hhost, List.length_append, hlen]
  rw [hcode, ← hlength] at hspec
  refine ⟨fill_host_info_of_flv H infos 0 _ htype hspec, fun hlt => ?_⟩
  have h1 := video_count_le tags
  have h2 := metadata_count_le tags
  have h3 := flv_bytes_length tags
  refine ⟨Nat.mod_eq_of_lt (by omega), Nat.mod_eq_of_lt (by omega), Nat.mod_eq_of_lt hlt⟩

/-- Witness of C20 : the host of `eoc_test_session`, 3 video tags, an audio tag
and a metadata tag, 94 bytes. -/
theorem fill_host_info_flv_well_formed_witness :
    fill_host_info test_host_env eoc_test_session =
      some (0, { eoc_test_session with host := { eoc_test_session.host with
        file_info := file_info_u.flv ⟨3, 1, 94⟩ } }) :=
  (fill_host_info_flv_well_formed test_host_env eoc_test_session eoc_test_hdr
    (eoc_test_tags ++ [(⟨18, 0, 0, [0, 0, 0, 0, 0, 0], [], 11⟩ : flv_tag)]) rfl (by decide) rfl
    (by decide) (by decide) (by decide) (by decide)).1

/-- Counterexample of C20 as it is stated : a well-formed FLV host of
`2 ^ 32 + 12` bytes (286331153 audio tags of 15 bytes after the header), for
which `fill_host_info` sets `file_size` to 12. -/
theorem fill_host_info_flv_file_size_wraps :
    flv_long_session.host.host.length = 2 ^ 32 + 12 ∧
    fill_host_info test_host_env flv_long_session =
      some (0, { flv_long_session with host := { flv_long_session.host with
        file_info := file_info_u.flv ⟨0, 0, 12⟩ } }) := by
  have hwft : (⟨8, 0, 0, [0, 0, 0, 0, 0, 0], [], 11⟩ : flv_tag).wf := by decide
  have hmem : ∀ t ∈ List.replicate 286331153 (⟨8, 0, 0, [0, 0, 0, 0, 0, 0], [], 11⟩ : flv_tag),
      t = ⟨8, 0, 0, [0, 0, 0, 0, 0, 0], [], 11⟩ := fun t ht => List.eq_of_mem_replicate ht
  have hbl := flv_bytes_replicate_length ⟨8, 0, 0, [0, 0, 0, 0, 0, 0], [], 11⟩ hwft 286331153
  have hlength : flv_long_session.host.host.length = 2 ^ 32 + 12 := by
    show (eoc_test_hdr ++ flv_bytes (List.replicate 286331153 _)).length = _
    rw [List.length_append, hbl]
    rfl
  have hspec := fill_host_info_flv_spec mode_e.STEGX_MODE_INSERT flv_long_session.host.host
    eoc_test_hdr (List.replicate 286331153 ⟨8, 0, 0, [0, 0, 0, 0, 0, 0], [], 11⟩) []
    (List.append_nil _).symm rfl rfl
    (fun t ht => by rw [hmem t ht]; exact hwft)
    (fun t ht => by rw [hmem t ht]; decide)
    (fun t ht => by rw [hmem t ht]; rfl)
    (by intro x hx; simp at hx)
  rw [video_count_replicate, metadata_count_replicate, hbl] at hspec
  have hcode : (if mode_e.STEGX_MODE_INSERT = mode_e.STEGX_MODE_INSERT ∧
      List.drop 1 ([] : List Nat) ≠ [] then (1 : Int) else 0) = 0 := by simp
  rw [hcode] at hspec
  exact ⟨hlength, fill_host_info_of_flv test_host_env flv_long_session 0 _ rfl hspec⟩

/-! ## Claims on the keystream -/

/-- C18 : keystream masking, path by path. On the direct path of the LSB
engine, on its MP3 path and on the EOC path, the insertion loop run on the
payload is the same loop run, with a keystream of zeros, on the payload whose
bytes have been exclusive-ored with the successive values of the generator
modulo 255 (block by block, the keystream restarting, for EOC); and the bytes
that the extraction loop writes are those that it writes with a keystream of
zeros, exclusive-ored with the same values. -/
theorem keystream_masking_paths (R : Rand) (M : Mp3Env)
    (passwd hidden masked table : List Nat) (n q r : Nat)
    (hblocks : ∀ b ∈ table,
      (masked.drop ((b * q) % 2 ^ 32)).take (eoc_share n q r b) =
        xor_keystream R.stegx_rand (R.stegx_srand (R.create_seed passwd))
          ((hidden.drop ((b * q) % 2 ^ 32)).take (eoc_share n q r b))) :
    (∀ (k seed s0 : Nat) (host payload res : List Nat),
      direct_insert_loop R k seed host payload res =
        direct_insert_loop R.mute k s0 host (xor_keystream R.stegx_rand seed payload) res) ∧
    (∀ (k seed s0 : Nat) (host res : List Nat),
      direct_extract_loop R k seed host res =
        ((direct_extract_loop R.mute k s0 host []).1,
          res ++ xor_keystream R.stegx_rand seed (direct_extract_loop R.mute k s0 host []).2)) ∧
    (∀ (fuel seed s0 : Nat) (host res payload : List Nat),
      (mp3_insert_frames M fuel host res 0 0 0 seed payload false).map
          (fun x => (x.code, x.host, x.res, x.hdr, x.feof_hidden)) =
        (mp3_insert_frames M.mute fuel host res 0 0 0 s0
          (xor_keystream M.rand seed payload) false).map
          (fun x => (x.code, x.host, x.res, x.hdr, x.feof_hidden))) ∧
    (∀ (hidden_length fuel seed s0 : Nat) (host : List Nat),
      mp3_extract_frames M hidden_length fuel host
          { b := 0, b_cnt := 8, s := 0, seed := seed, res := [] } =
        (mp3_extract_frames M.mute hidden_length fuel host
          { b := 0, b_cnt := 8, s := 0, seed := s0, res := [] }).map
          fun p => (p.1, xor_keystream M.rand seed p.2)) ∧
    (∀ (fuel : Nat) (host res : List Nat) (cpt : Nat),
      insert_eoc_loop R passwd hidden table n q r fuel host res cpt =
        insert_eoc_loop R.mute passwd masked table n q r fuel host res cpt) ∧
    (∀ (host : List Nat) (datab : Bool) (st : eoc_ext_state),
      extract_eoc_block R passwd host table datab n q r st =
        (extract_eoc_block R.mute passwd host table datab n q r { st with res := [] }).map
          fun st0 =>
            { st0 with
              res := st.res ++
                xor_keystream R.stegx_rand (R.stegx_srand (R.create_seed passwd)) st0.res }) :=
  ⟨direct_insert_loop_mute R, direct_extract_loop_mute R,
    fun fuel seed s0 host res payload => mp3_insert_frames_mute M fuel seed s0 host res payload,
    fun hl fuel seed s0 host => mp3_extract_frames_mute M hl fuel seed s0 host,
    insert_eoc_loop_mute R passwd hidden masked table n q r hblocks,
    fun host datab st => extract_eoc_block_mute R passwd host table datab n q r st⟩

/-- Witness of C18 : the session `eoc_test_session`, whose 8 payload bytes make
the blocks `[1, 2]`, `[3, 4]` and `[5, 6, 7, 8]`; the loop of `insert_eoc` on
its host gives the same stream with the generator `lcg` on the payload and
with a keystream of zeros on the masked blocks. -/
theorem keystream_masking_paths_witness :
    insert_eoc_loop lcg [112, 119] [1, 2, 3, 4, 5, 6, 7, 8] [2, 0, 1] 3 2 2 82
        (eoc_test_session.host.host.drop 13) eoc_test_hdr 0 =
      insert_eoc_loop lcg.mute [112, 119] [178, 146, 176, 148, 182, 150, 69, 146] [2, 0, 1]
        3 2 2 82 (eoc_test_session.host.host.drop 13) eoc_test_hdr 0 ∧
    insert_eoc_loop lcg [112, 119] [1, 2, 3, 4, 5, 6, 7, 8] [2, 0, 1] 3 2 2 82
        (eoc_test_session.host.host.drop 13) eoc_test_hdr 0 =
      some (0, eoc_test_rest, eoc_test_stream.take (eoc_test_stream.length - 17)) :=
  ⟨(keystream_masking_paths lcg (test_env []).M [112, 119] [1, 2, 3, 4, 5, 6, 7, 8]
      [178, 146, 176, 148, 182, 150, 69, 146] [2, 0, 1] 3 2 2 (by decide)).2.2.2.2.1 82
      (eoc_test_session.host.host.drop 13) eoc_test_hdr 0,
    by decide⟩

/-- Counterexample of C18 as it is stated : the scrambled substitution does not
mask the payload. The byte `0xFF` hidden in 4 host bytes equal to 0 by the
scrambled path of `insert_lsb` leaves the pairs `3, 3, 3, 3`, those of the byte
itself, and `extract_lsb` gives `0xFF` back; exclusive-ored with any of the
first five values of the keystream the byte would be 76, 111, 189, 101 or
219. -/
theorem scrambled_path_embeds_raw_bytes :
    lsb_direct (test_env [200, 201]).LENGTH_FILE_MAX lsb_scrambled_session = false ∧
    insert_lsb (test_env [200, 201]) lsb_scrambled_session err_code.ERR_NONE =
      some ⟨0, [66, 77, 3, 3, 3, 3, 200, 201], err_code.ERR_NONE⟩ ∧
    extract_lsb (test_env [200, 201])
        { lsb_scrambled_session with
          mode := mode_e.STEGX_MODE_EXTRACT
          hidden := []
          host := ⟨[66, 77, 3, 3, 3, 3, 200, 201], type_e.BMP_UNCOMPRESSED,
            file_info_u.bmp ⟨2, 4, 24, 1⟩⟩ }
        err_code.ERR_NONE = some ⟨0, [255], err_code.ERR_NONE⟩ ∧
    xor_keystream lcg.stegx_rand (lcg.stegx_srand (lcg.create_seed [112, 119]))
        [255, 255, 255, 255, 255] = [76, 111, 189, 101, 219] := by
  refine ⟨by decide, by decide, by decide, by decide⟩

/-! ## Claims on the default password -/

/-- C21 : the password of `stegx_choose_algo`. In insertion mode, for a
session without a password of the user, the array allocated for the password
holds `LENGTH_DEFAULT_PASSWD + 1` bytes, the last one is 0, and the password of
the session is the string of the `LENGTH_DEFAULT_PASSWD` bytes before it, each
of which lies between 32 and 126, whatever the generator draws. For a session
with a password of the user, and in extraction mode, the password is what it
was. -/
theorem stegx_choose_algo_passwd (R : Rand) (LENGTH_DEFAULT_PASSWD now : Nat) (infos : info_s)
    (a : algo_e) (g : globals) :
    (infos.mode = mode_e.STEGX_MODE_INSERT → infos.method = method_e.STEGX_WITHOUT_PASSWD →
      (default_passwd_array R LENGTH_DEFAULT_PASSWD (R.stegx_srand now)).length =
        LENGTH_DEFAULT_PASSWD + 1 ∧
      (default_passwd_array R LENGTH_DEFAULT_PASSWD (R.stegx_srand now))[LENGTH_DEFAULT_PASSWD]? =
        some 0 ∧
      (stegx_choose_algo R LENGTH_DEFAULT_PASSWD now infos a g).infos.passwd =
        c_string (default_passwd_array R LENGTH_DEFAULT_PASSWD (R.stegx_srand now)) ∧
      (stegx_choose_algo R LENGTH_DEFAULT_PASSWD now infos a g).infos.passwd =
        (default_passwd_array R LENGTH_DEFAULT_PASSWD (R.stegx_srand now)).take
          LENGTH_DEFAULT_PASSWD ∧
      (stegx_choose_algo R LENGTH_DEFAULT_PASSWD now infos a g).infos.passwd.length =
        LENGTH_DEFAULT_PASSWD ∧
      ∀ c ∈ (stegx_choose_algo R LENGTH_DEFAULT_PASSWD now infos a g).infos.passwd,
        32 ≤ c ∧ c ≤ 126) ∧
    (infos.method = method_e.STEGX_WITH_PASSWD ∨ infos.mode = mode_e.STEGX_MODE_EXTRACT →
      (stegx_choose_algo R LENGTH_DEFAULT_PASSWD now infos a g).infos.passwd = infos.passwd) := by
  constructor
  · intro hmode hmeth
    have hne : ¬ infos.mode = mode_e.STEGX_MODE_EXTRACT := by rw [hmode]; decide
    have hpw : (stegx_choose_algo R LENGTH_DEFAULT_PASSWD now infos a g).infos.passwd =
        default_passwd R LENGTH_DEFAULT_PASSWD (R.stegx_srand now) := by
      simp only [stegx_choose_algo, hne, if_false, hmeth, if_true]
      split_ifs <;> rfl
    have hlen := default_passwd_length R LENGTH_DEFAULT_PASSWD (R.stegx_srand now)
    have hrange := default_passwd_range R LENGTH_DEFAULT_PASSWD (R.stegx_srand now)
    rw [hpw, default_passwd_array_eq]
    refine ⟨by simp [hlen], ?_, ?_, ?_, hlen, hrange⟩
    · rw [List.getElem?_append_right (by omega), hlen]
      simp
    · rw [c_string_append_zero]
      intro c hc
      have := hrange c hc
      omega
    · rw [List.take_left' hlen]
  · intro h
    rcases h with h | h
    · have hne : ¬ infos.method = method_e.STEGX_WITHOUT_PASSWD := by rw [h]; decide
      simp only [stegx_choose_algo, hne, if_false]
      split_ifs <;> rfl
    · simp only [stegx_choose_algo, h, if_true]

/-- Witness of C21 : a session without password, 8 characters to draw. -/
theorem stegx_choose_algo_passwd_witness :
    (stegx_choose_algo lcg 8 1000 no_passwd_session algo_e.STEGX_ALGO_EOC
        ⟨err_code.ERR_NONE, [false, true, false, true, false]⟩).infos.passwd.length = 8 ∧
    (default_passwd_array lcg 8 (lcg.stegx_srand 1000))[8]? = some 0 ∧
    (stegx_choose_algo lcg 8 1000 eoc_test_session algo_e.STEGX_ALGO_EOC
        ⟨err_code.ERR_NONE, [false, true, false, true, false]⟩).infos.passwd = [112, 119] :=
  ⟨((stegx_choose_algo_passwd lcg 8 1000 no_passwd_session algo_e.STEGX_ALGO_EOC
      ⟨err_code.ERR_NONE, [false, true, false, true, false]⟩).1 rfl rfl).2.2.2.2.1,
   ((stegx_choose_algo_passwd lcg 8 1000 no_passwd_session algo_e.STEGX_ALGO_EOC
      ⟨err_code.ERR_NONE, [false, true, false, true, false]⟩).1 rfl rfl).2.1,
   (stegx_choose_algo_passwd lcg 8 1000 eoc_test_session algo_e.STEGX_ALGO_EOC
      ⟨err_code.ERR_NONE, [false, true, false, true, false]⟩).2 (Or.inl rfl)⟩

/-! ## Claims on the finalisation of `insert_lsb` -/

/-- C22 : finalisation of `insert_lsb`. The writer of the signature returns 0
or 1. Whenever the embedding completes, having written `r0.res` (the run with
a writer that writes nothing returns 0), `insert_lsb` calls the writer after
these bytes and returns what the writer returned : 1 with
`stegx_errno = ERR_INSERT` when it failed, 0 with `stegx_errno` as it was when
it succeeded. Hence `insert_lsb` returns 0 only if the embedding completed and
the writer returned 0; and when the embedding does not complete the writer is
not called. -/
theorem insert_lsb_finalisation (E : LsbEnv) (infos : info_s) (e : err_code)
    (hsig : (E.write_signature infos).1 = 0 ∨ (E.write_signature infos).1 = 1) :
    (∀ r0, insert_lsb E.no_signature infos e = some r0 → r0.ret = 0 →
      insert_lsb E infos e = some
        ⟨(E.write_signature infos).1, r0.res ++ (E.write_signature infos).2,
          if (E.write_signature infos).1 = 1 then err_code.ERR_INSERT else e⟩) ∧
    (∀ r, insert_lsb E infos e = some r → r.ret = 0 →
      (E.write_signature infos).1 = 0 ∧ r.stegx_errno = e ∧
      ∃ r0, insert_lsb E.no_signature infos e = some r0 ∧ r0.ret = 0 ∧
        r.res = r0.res ++ (E.write_signature infos).2) ∧
    (∀ r0, insert_lsb E.no_signature infos e = some r0 → r0.ret ≠ 0 →
      insert_lsb E infos e = some r0) := by
  have key : insert_lsb E infos e =
      match insert_lsb E.no_signature infos e with
      | none => none
      | some r0 =>
        if r0.ret = 0 then
          some ⟨(E.write_signature infos).1, r0.res ++ (E.write_signature infos).2,
            if (E.write_signature infos).1 = 1 then err_code.ERR_INSERT else e⟩
        else some r0 := by
    simp only [insert_lsb, LsbEnv.no_signature]
    by_cases h1 : infos.mode ≠ mode_e.STEGX_MODE_INSERT ∨ infos.algo ≠ algo_e.STEGX_ALGO_LSB
    · simp [h1]
    · simp only [h1, if_false]
      by_cases h2 : infos.host.type = type_e.BMP_UNCOMPRESSED ∨ infos.host.type = type_e.WAV_PCM
      · simp only [h2, if_true]
        rw [insert_lsb_bmp_wav_sig]
        cases insert_lsb_bmp_wav E.R (fun _ => (0, [])) E.LENGTH_FILE_MAX infos e with
        | none => rfl
        | some r0 =>
          simp only
          rcases hsig with h | h <;> simp [h]
      · simp only [h2, if_false]
        by_cases h3 : infos.host.type = type_e.MP3
        · simp only [h3, if_true]
          rw [insert_lsb_mp3_sig]
          cases insert_lsb_mp3 E.R E.M (fun _ => (0, [])) infos e with
          | none => rfl
          | some r0 =>
            simp only
            rcases hsig with h | h <;> simp [h]
        · simp [h3]
  refine ⟨?_, ?_, ?_⟩
  · intro r0 h0 hret
    rw [key, h0]
    simp [hret]
  · intro r hr hret
    rw [key] at hr
    cases h0 : insert_lsb E.no_signature infos e with
    | none => rw [h0] at hr; exact absurd hr (by simp)
    | some r0 =>
      rw [h0] at hr
      by_cases hz : r0.ret = 0
      · simp only [hz, if_true] at hr
        have hr2 := Option.some.inj hr
        subst hr2
        have hs : (E.write_signature infos).1 = 0 := hret
        refine ⟨hs, ?_, r0, rfl, hz, rfl⟩
        simp [hs]
      · simp only [hz, if_false] at hr
        have hr2 := Option.some.inj hr
        subst hr2
        exact absurd hret hz
  · intro r0 h0 hret
    rw [key, h0]
    simp [hret]

/-- Witness of C22 : the direct path on a WAV host, with a writer of the
signature that fails. -/
theorem insert_lsb_finalisation_witness :
    insert_lsb test_env_sig_fails lsb_wav_session err_code.ERR_NONE =
      some ⟨1, [82, 73, 8, 21, 29, 40, 50, 60, 70, 83, 90], err_code.ERR_INSERT⟩ :=
  (insert_lsb_finalisation test_env_sig_fails lsb_wav_session err_code.ERR_NONE
    (Or.inr rfl)).1 ⟨0, [82, 73, 8, 21, 29, 40, 50, 60, 70, 83, 90], err_code.ERR_NONE⟩
    (by decide) rfl

/-! ## Claims on the errors of the EOC engine -/

/-- C23 : errors of the EOC engine. `insert_eoc` and `extract_eoc` never write
`stegx_errno` : whatever they return, the variable holds the value it had at
the call. A host with one video tag whose payload has 2 bytes and a payload to
hide of `0xFFFFFF - 2` bytes : the recomputed size is `0x1000000`, the test of
line 132 makes `insert_eoc` return 1, and `stegx_errno` is `ERR_NONE` as it
was. When `extract_eoc` returns, it returns 0. -/
theorem insert_eoc_error_keeps_errno :
    insert_eoc eoc_test_env
        (eoc_single_session ⟨9, 2, 7, [1, 2, 3, 4, 5, 6], [100, 101], 13⟩ (0xFFFFFF - 2))
        err_code.ERR_NONE =
      some ⟨1, eoc_test_hdr ++ [9], err_code.ERR_NONE⟩ ∧
    eoc_new_size 1 ((0xFFFFFF - 2) / 1) ((0xFFFFFF - 2) % 1) 0
      ⟨9, 2, 7, [1, 2, 3, 4, 5, 6], [100, 101], 13⟩ = 0x1000000 ∧
    (∀ (E : EocEnv) (infos : info_s) (e : err_code) (r : call_result),
      insert_eoc E infos e = some r → r.stegx_errno = e) ∧
    (∀ (E : EocEnv) (infos : info_s) (e : err_code) (r : call_result),
      extract_eoc E infos e = some r → r.ret = 0 ∧ r.stegx_errno = e) :=
  ⟨by decide, by decide, insert_eoc_errno, extract_eoc_errno⟩

/-! ## Claims on the table of the blocks -/

/-- C24 : the two variants of the table of the blocks. Below 256 video tags the
table is what `protect_data` makes of `0 .. n - 1` with the password. From 256
video tags on, the table is `0 .. n - 1` itself, whatever the password :
neither `insert_eoc` nor `extract_eoc` depends on `protect_data`, and in the
stream that `insert_eoc` writes the video tag number `c` carries the block
number `c`. -/
theorem eoc_table_variants (E : EocEnv) (infos : info_s) (e : err_code) (hdr : List Nat)
    (tags : List flv_tag) (rest : List Nat) (h : EocHost E infos hdr tags rest)
    (hmode : infos.mode = mode_e.STEGX_MODE_INSERT)
    (halgo : infos.algo = algo_e.STEGX_ALGO_EOC) :
    (infos.host.file_info.flv_nb_video_tag < 256 →
      eoc_table E infos.host.file_info.flv_nb_video_tag infos.passwd =
        E.protect_data (List.range infos.host.file_info.flv_nb_video_tag)
          infos.host.file_info.flv_nb_video_tag infos.passwd mode_e.STEGX_MODE_INSERT) ∧
    (256 ≤ infos.host.file_info.flv_nb_video_tag →
      eoc_table E infos.host.file_info.flv_nb_video_tag infos.passwd =
        List.range infos.host.file_info.flv_nb_video_tag ∧
      (∀ E2 : EocEnv, E2.R = E.R → E2.write_signature = E.write_signature →
        insert_eoc E2 infos e = insert_eoc E infos e) ∧
      (∀ (E2 : EocEnv) (x : info_s) (e2 : err_code), E2.R = E.R →
        x.host.file_info.flv_nb_video_tag = infos.host.file_info.flv_nb_video_tag →
        extract_eoc E2 x e2 = extract_eoc E x e2) ∧
      ∀ r, insert_eoc E infos e = some r → r.ret = 0 →
        r.res = hdr ++ eoc_out E.R infos.passwd infos.hidden
            (List.range infos.host.file_info.flv_nb_video_tag)
            infos.host.file_info.flv_nb_video_tag
            (infos.hidden_length / infos.host.file_info.flv_nb_video_tag)
            (infos.hidden_length % infos.host.file_info.flv_nb_video_tag) tags 0 ++
          rest ++ (E.write_signature infos).2) := by
  refine ⟨fun hlt => ?_, fun hge => ⟨eoc_table_large E _ _ hge, ?_, ?_, ?_⟩⟩
  · unfold eoc_table
    rw [if_pos hlt]
  · intro E2 hR hW
    exact insert_eoc_large_env E E2 infos e hge hR hW
  · intro E2 x e2 hR hx
    exact extract_eoc_large_env E E2 x e2 (by rw [hx]; exact hge) hR
  · intro r hins hret
    have hfits : eoc_fits (eoc_table E infos.host.file_info.flv_nb_video_tag infos.passwd)
        infos.host.file_info.flv_nb_video_tag
        (infos.hidden_length / infos.host.file_info.flv_nb_video_tag)
        (infos.hidden_length % infos.host.file_info.flv_nb_video_tag) tags 0 := by
      by_contra hnot
      obtain ⟨res, hfail⟩ := insert_eoc_fail E infos e hdr tags rest h hmode halgo hnot
      rw [hfail] at hins
      have hr := Option.some.inj hins
      rw [← hr] at hret
      exact absurd hret (show ¬ (1 : Int) = 0 by decide)
    have hspec := insert_eoc_spec E infos e hdr tags rest h hmode halgo hfits
    rw [hspec] at hins
    have hr := Option.some.inj hins
    rw [← hr, eoc_table_large E _ _ hge]

/-- Witness of C24 : a host of 256 video tags. -/
theorem eoc_table_variants_witness :
    eoc_table eoc_plain_env 256 [112, 119] = List.range 256 ∧
    (∀ E2 : EocEnv, E2.R = eoc_plain_env.R →
      E2.write_signature = eoc_plain_env.write_signature →
      insert_eoc E2 eoc_large_session err_code.ERR_NONE =
        insert_eoc eoc_plain_env eoc_large_session err_code.ERR_NONE) :=
  ⟨((eoc_table_variants eoc_plain_env eoc_large_session err_code.ERR_NONE eoc_test_hdr
      (List.replicate 256 eoc_empty_video_tag) []
      eoc_large_session_host
      rfl rfl).2 (Nat.le_refl 256)).1,
   ((eoc_table_variants eoc_plain_env eoc_large_session err_code.ERR_NONE eoc_test_hdr
      (List.replicate 256 eoc_empty_video_tag) []
      eoc_large_session_host
      rfl rfl).2 (Nat.le_refl 256)).2.1⟩

set_option maxRecDepth 100000 in
/-- C24, the claim as it stands fails : with the same `protect_data` and the
same password, in a host of 3 video tags the first video tag carries the block
number 2, the one that the permutation gives it, and in a host of 256 video
tags the first video tag carries the block number 0, whereas the permutation
of `0 .. 255` starts with 2. The keystream is made of zeros, so that the byte
after the padding byte 28 is the byte of the payload itself. -/
theorem eoc_large_table_not_keyed :
    eoc_table eoc_plain_env 3 [112, 119] = [2, 0, 1] ∧
    (∃ tail, insert_eoc eoc_plain_env eoc_small_session err_code.ERR_NONE = some ⟨0,
      eoc_test_hdr ++ [9, 0, 0, 2, 7, 1, 2, 3, 4, 5, 6, 28, 2, 0, 0, 0, 13] ++ tail,
      err_code.ERR_NONE⟩) ∧
    (eoc_plain_env.protect_data (List.range 256) 256 [112, 119]
      mode_e.STEGX_MODE_INSERT).head? = some 2 ∧
    eoc_table eoc_plain_env 256 [112, 119] = List.range 256 ∧
    (∃ tail, insert_eoc eoc_plain_env eoc_large_session err_code.ERR_NONE = some ⟨0,
      eoc_test_hdr ++ [9, 0, 0, 2, 7, 1, 2, 3, 4, 5, 6, 28, 0, 0, 0, 0, 13] ++ tail,
      err_code.ERR_NONE⟩) := by
  refine ⟨by decide, ?_, by decide, rfl, ?_⟩
  · exact insert_eoc_replicate_first eoc_plain_env eoc_small_session err_code.ERR_NONE
      eoc_test_hdr eoc_empty_video_tag 2
      eoc_small_session_host
      rfl rfl (by decide)
  · exact insert_eoc_replicate_first eoc_plain_env eoc_large_session err_code.ERR_NONE
      eoc_test_hdr eoc_empty_video_tag 255
      eoc_large_session_host
      rfl rfl (by decide)

/-! ## Claims on the layout of the stream of `insert_eoc` -/

/-- C25 : frame of `insert_eoc`. For a well-formed host (13 leading bytes, the
tags up to the last video tag, the bytes that follow), when `insert_eoc`
returns 0 the stream that it writes is made of the same 13 leading bytes, of
one segment for each tag, in order, and of the same bytes after the last video
tag, followed by what `write_signature` writes; the segment of a tag that is
not a video tag is the tag itself, byte for byte (type, size field, payload,
previous-tag-size); the segment of a video tag starts with the type 9 and is
longer than the tag. -/
theorem insert_eoc_frame (E : EocEnv) (infos : info_s) (e : err_code) (hdr : List Nat)
    (tags : List flv_tag) (rest : List Nat) (h : EocHost E infos hdr tags rest)
    (hmode : infos.mode = mode_e.STEGX_MODE_INSERT)
    (halgo : infos.algo = algo_e.STEGX_ALGO_EOC)
    (r : call_result) (hins : insert_eoc E infos e = some r) (hret : r.ret = 0) :
    infos.host.host = hdr ++ (tags.map flv_tag.bytes).flatten ++ rest ∧ hdr.length = 13 ∧
    ∃ segs : List (List Nat),
      r.res = hdr ++ segs.flatten ++ rest ++ (E.write_signature infos).2 ∧
      List.Forall₂ (fun t seg =>
        if t.tag_type = 9 then seg.head? = some 9 ∧ t.bytes.length < seg.length
        else seg = t.bytes) tags segs := by
  obtain ⟨_, hres⟩ := insert_eoc_ok E infos e hdr tags rest h hmode halgo r hins hret
  refine ⟨?_, h.length_hdr, _, hres, eoc_segments_frame _ _ _ _ _ _ _ tags 0⟩
  rw [← flv_bytes_eq_flatten]
  exact h.host_eq

/-- Witness of C25 : the host of `eoc_test_session`, whose second tag is an
audio tag and which ends with a script tag after the last video tag. -/
theorem insert_eoc_frame_witness :
    eoc_test_session.host.host =
      eoc_test_hdr ++ (eoc_test_tags.map flv_tag.bytes).flatten ++ eoc_test_rest ∧
    eoc_test_hdr.length = 13 ∧
    ∃ segs : List (List Nat),
      eoc_test_stream = eoc_test_hdr ++ segs.flatten ++ eoc_test_rest ++
        (eoc_test_env.write_signature eoc_test_session).2 ∧
      List.Forall₂ (fun t seg =>
        if t.tag_type = 9 then seg.head? = some 9 ∧ t.bytes.length < seg.length
        else seg = t.bytes) eoc_test_tags segs :=
  insert_eoc_frame eoc_test_env eoc_test_session err_code.ERR_NONE
    eoc_test_hdr eoc_test_tags eoc_test_rest
    { host_eq := rfl, length_hdr := rfl, wf := by decide, ends := rfl,
      count := by decide, count_lt := by decide, length_hidden := rfl,
      hidden_lt := by decide, hidden_bytes := by decide, perm := by decide }
    rfl rfl ⟨0, eoc_test_stream, err_code.ERR_NONE⟩ (by decide) rfl

/-- C29 : the shares of the blocks. With `n >= 1` video tags and a payload of
`L` bytes, `q = L / n` and `r = L % n` : the share of the block `k` is `q`, and
`q + r` for the block `n - 1`, without any wrap-around; the block `k` is made
of the bytes of the payload from the offset `k * q` on, over the length of its
share, inside the payload; each block ends where the next one starts and the
last one ends with the payload, so that the blocks are pairwise disjoint and
make up the payload. The insertion writes for the video tag that carries the
block `b` the share of `b` and one byte more than the tag had, and one turn of
the extraction writes the share of its block. -/
theorem eoc_share_partition (R : Rand) (passwd hidden table : List Nat) (n L : Nat)
    (hn : 1 ≤ n) (hL : hidden.length = L) (hL32 : L < 2 ^ 32) :
    (∀ k < n, eoc_share n (L / n) (L % n) k = if k = n - 1 then L / n + L % n else L / n) ∧
    (∀ k < n,
      eoc_block hidden n (L / n) (L % n) k =
        (hidden.drop (k * (L / n))).take (eoc_share n (L / n) (L % n) k) ∧
      (eoc_block hidden n (L / n) (L % n) k).length = eoc_share n (L / n) (L % n) k ∧
      k * (L / n) + eoc_share n (L / n) (L % n) k ≤ L) ∧
    (∀ k, k + 1 < n → k * (L / n) + eoc_share n (L / n) (L % n) k = (k + 1) * (L / n)) ∧
    (n - 1) * (L / n) + eoc_share n (L / n) (L % n) (n - 1) = L ∧
    (∀ j k, j < k → k < n → j * (L / n) + eoc_share n (L / n) (L % n) j ≤ k * (L / n)) ∧
    eoc_blocks hidden n (L / n) (L % n) n = hidden ∧
    (∀ (fuel cpt b : Nat) (t : flv_tag) (host res : List Nat), t.tag_type = 9 → t.wf →
      table[cpt]? = some b → b < n → eoc_new_size n (L / n) (L % n) b t ≤ 0xFFFFFF →
      ∃ out, out.length = t.bytes.length + 1 + eoc_share n (L / n) (L % n) b ∧
        insert_eoc_loop R passwd hidden table n (L / n) (L % n) (fuel + 1) (t.bytes ++ host)
            res cpt =
          if cpt + 1 < n then
            insert_eoc_loop R passwd hidden table n (L / n) (L % n) fuel host (res ++ out)
              (cpt + 1)
          else some (0, host, res ++ out)) ∧
    (∀ (host : List Nat) (datab : Bool) (st st1 : eoc_ext_state),
      extract_eoc_block R passwd host table datab n (L / n) (L % n) st = some st1 →
      st1.res.length = st.res.length + eoc_share n (L / n) (L % n) st.nb_block) := by
  have hsh := fun k => eoc_share_eq n L k hn hL32
  refine ⟨fun k _ => hsh k, ?_, ?_, ?_, ?_, eoc_blocks_all hidden n L hn hL hL32, ?_,
    fun host datab st st1 h => extract_eoc_block_length R passwd host table datab n _ _ st st1 h⟩
  · intro k hk
    refine ⟨?_, eoc_block_length hidden n L k hL hL32 hk, (eoc_block_end n L k hn hk hL32).1⟩
    unfold eoc_block
    rw [eoc_offset_mod n L k hk hL32]
  · intro k hk
    exact (eoc_block_end n L k hn (by omega) hL32).2.1 hk
  · exact (eoc_block_end n L (n - 1) hn (by omega) hL32).2.2 rfl
  · intro j k hjk hk
    rw [(eoc_block_end n L j hn (by omega) hL32).2.1 (by omega)]
    exact Nat.mul_le_mul_right _ hjk
  · intro fuel cpt b t host res ht hwf htab hb hfit
    have hblock := eoc_block_length hidden n L b hL hL32 hb
    refine ⟨eoc_video_out R passwd hidden n (L / n) (L % n) b t, ?_, ?_⟩
    · rw [eoc_video_out_length, hblock]
    · exact insert_eoc_loop_video R passwd hidden table n _ _ fuel cpt b t host res ht hwf htab
        hfit hblock

/-- Witness of C29 : 3 video tags and a payload of 8 bytes, hence shares of
2, 2 and 4 bytes. -/
theorem eoc_share_partition_witness :
    eoc_share 3 (8 / 3) (8 % 3) 0 = 2 ∧ eoc_share 3 (8 / 3) (8 % 3) 1 = 2 ∧
    eoc_share 3 (8 / 3) (8 % 3) 2 = 4 ∧
    eoc_blocks [1, 2, 3, 4, 5, 6, 7, 8] 3 (8 / 3) (8 % 3) 3 = [1, 2, 3, 4, 5, 6, 7, 8] :=
  ⟨((eoc_share_partition lcg [112, 119] [1, 2, 3, 4, 5, 6, 7, 8] [2, 0, 1] 3 8 (by decide) rfl
      (by decide)).1 0 (by decide)).trans (by decide),
   ((eoc_share_partition lcg [112, 119] [1, 2, 3, 4, 5, 6, 7, 8] [2, 0, 1] 3 8 (by decide) rfl
      (by decide)).1 1 (by decide)).trans (by decide),
   ((eoc_share_partition lcg [112, 119] [1, 2, 3, 4, 5, 6, 7, 8] [2, 0, 1] 3 8 (by decide) rfl
      (by decide)).1 2 (by decide)).trans (by decide),
   (eoc_share_partition lcg [112, 119] [1, 2, 3, 4, 5, 6, 7, 8] [2, 0, 1] 3 8 (by decide) rfl
      (by decide)).2.2.2.2.2.1⟩

/-- C30 : layout of a rewritten video tag. For a well-formed host, when
`insert_eoc` returns 0 the stream that it writes is made of the 13 leading
bytes, of one segment for each tag and of the bytes after the last video tag,
followed by what `write_signature` writes. The segment of a video tag whose
payload has `s` bytes and which carries the block `b`, of share `c`, is : the
type 9, the 3 bytes, most significant first, of `v`, the 7 bytes of the header
of the tag that followed the size, the `s` bytes of the payload, a byte 28,
the `c` bytes of the block masked, and the 4 bytes of the new
previous-tag-size; `v` is `s + 1 + c` reduced modulo `2 ^ 32`, hence
`s + 1 + c` itself when this sum is below `2 ^ 32`. The stream is
`nb_video_tag + hidden_length` bytes longer than the host, the signature
apart. -/
theorem insert_eoc_video_tag_layout (E : EocEnv) (infos : info_s) (e : err_code)
    (hdr : List Nat) (tags : List flv_tag) (rest : List Nat)
    (h : EocHost E infos hdr tags rest)
    (hmode : infos.mode = mode_e.STEGX_MODE_INSERT)
    (halgo : infos.algo = algo_e.STEGX_ALGO_EOC)
    (r : call_result) (hins : insert_eoc E infos e = some r) (hret : r.ret = 0) :
    ∃ segs : List (List Nat),
      r.res = hdr ++ segs.flatten ++ rest ++ (E.write_signature infos).2 ∧
      segs.length = tags.length ∧
      (∀ (i : Nat) (t : flv_tag), tags[i]? = some t → t.tag_type = 9 →
        ∃ b v c, b < infos.host.file_info.flv_nb_video_tag ∧
          c = eoc_share infos.host.file_info.flv_nb_video_tag
            (infos.hidden_length / infos.host.file_info.flv_nb_video_tag)
            (infos.hidden_length % infos.host.file_info.flv_nb_video_tag) b ∧
          v = (t.size + 1 + c) % 2 ^ 32 ∧ (t.size + 1 + c < 2 ^ 32 → v = t.size + 1 + c) ∧
          v ≤ 0xFFFFFF ∧ t.hdr6.length = 6 ∧ t.payload.length = t.size ∧
          (eoc_block infos.hidden infos.host.file_info.flv_nb_video_tag
            (infos.hidden_length / infos.host.file_info.flv_nb_video_tag)
            (infos.hidden_length % infos.host.file_info.flv_nb_video_tag) b).length = c ∧
          segs[i]? = some
            ([9, (v / 2 ^ 16) % 256, (v / 2 ^ 8) % 256, v % 256] ++ (t.ts :: t.hdr6) ++
              t.payload ++ [28] ++
              eoc_mask E.R (E.R.stegx_srand (E.R.create_seed infos.passwd))
                (eoc_block infos.hidden infos.host.file_info.flv_nb_video_tag
                  (infos.hidden_length / infos.host.file_info.flv_nb_video_tag)
                  (infos.hidden_length % infos.host.file_info.flv_nb_video_tag) b) ++
              be32_bytes (eoc_new_prev infos.host.file_info.flv_nb_video_tag
                (infos.hidden_length / infos.host.file_info.flv_nb_video_tag)
                (infos.hidden_length % infos.host.file_info.flv_nb_video_tag) b t))) ∧
      r.res.length = infos.host.host.length + infos.host.file_info.flv_nb_video_tag +
        infos.hidden_length + (E.write_signature infos).2.length := by
  obtain ⟨hfits, hres⟩ := insert_eoc_ok E infos e hdr tags rest h hmode halgo r hins hret
  refine ⟨_, hres, eoc_segments_length _ _ _ _ _ _ _ tags 0, ?_, ?_⟩
  · intro i t hget ht
    have hwf : t.wf := h.wf t (List.getElem?_mem hget)
    have hc : video_count (tags.take i) < infos.host.file_info.flv_nb_video_tag := by
      have := video_count_take_lt tags i t hget ht
      rw [h.count]
      omega
    have hb := h.table_lt _ hc
    have hfit := eoc_fits_getElem? _ _ _ _ tags 0 i t hfits hget ht
    rw [Nat.zero_add] at hfit
    have hseg := eoc_segments_getElem? E.R infos.passwd infos.hidden
      (eoc_table E infos.host.file_info.flv_nb_video_tag infos.passwd)
      infos.host.file_info.flv_nb_video_tag
      (infos.hidden_length / infos.host.file_info.flv_nb_video_tag)
      (infos.hidden_length % infos.host.file_info.flv_nb_video_tag) tags 0 i t hget
    rw [Nat.zero_add, if_neg (by simp [ht]), eoc_video_out_eq _ _ _ _ _ _ _ t ht hwf.2.1] at hseg
    refine ⟨_, _, _, hb, rfl, eoc_new_size_eq _ _ _ _ t, ?_, hfit, hwf.2.2.1, hwf.2.2.2.1,
      eoc_block_length infos.hidden _ _ _ h.length_hidden h.hidden_lt hb, hseg⟩
    intro hlt
    rw [eoc_new_size_eq, Nat.mod_eq_of_lt hlt]
  · rw [hres, ← eoc_out_eq_flatten, h.host_eq]
    simp only [List.length_append, eoc_out_length_host h]
    omega

/-- Witness of C30 : a host whose only tag is a video tag with a payload of 4
bytes, and a payload to hide of `2 ^ 32 - 2` bytes. The share of the tag is
`2 ^ 32 - 2`, the sum `s + 1 + c` is `2 ^ 32 + 3`, and the size written is
`00 00 03`. -/
theorem insert_eoc_video_tag_layout_witness :
    ∃ segs : List (List Nat),
      eoc_test_hdr ++ [9, 0, 0, 3, 7] ++ [1, 2, 3, 4, 5, 6] ++ [100, 101, 102, 103] ++ [28] ++
          eoc_mask lcg (lcg.stegx_srand (lcg.create_seed [112, 119]))
            (List.replicate (2 ^ 32 - 2) 0) ++
          [0, 0, 0, 14] ++ [] ++ [200, 201] =
        eoc_test_hdr ++ segs.flatten ++ [] ++ [200, 201] ∧
      segs.length = 1 ∧
      ∃ v c, c = 2 ^ 32 - 2 ∧ v = (4 + 1 + c) % 2 ^ 32 ∧ v = 3 ∧ 4 + 1 + c = 2 ^ 32 + 3 ∧
        Option.map (List.take 4) segs[0]? =
          some [9, (v / 2 ^ 16) % 256, (v / 2 ^ 8) % 256, v % 256] := by
  obtain ⟨segs, h1, h2, h3, _⟩ := insert_eoc_video_tag_layout eoc_test_env eoc_wrap_session
    err_code.ERR_NONE eoc_test_hdr [eoc_wrap_tag] []
    { host_eq := (List.append_nil _).symm, length_hdr := rfl, wf := by decide, ends := rfl,
      count := rfl, count_lt := by decide, length_hidden := List.length_replicate _ _,
      hidden_lt := by decide,
      hidden_bytes := fun b hb => by rw [List.eq_of_mem_replicate hb]; decide,
      perm := by decide }
    rfl rfl
    ⟨0, eoc_test_hdr ++ [9, 0, 0, 3, 7] ++ [1, 2, 3, 4, 5, 6] ++ [100, 101, 102, 103] ++ [28] ++
        eoc_mask lcg (lcg.stegx_srand (lcg.create_seed [112, 119]))
          (List.replicate (2 ^ 32 - 2) 0) ++
        [0, 0, 0, 14] ++ [] ++ [200, 201], err_code.ERR_NONE⟩
    (insert_eoc_single eoc_test_env eoc_wrap_session err_code.ERR_NONE eoc_test_hdr
      eoc_wrap_tag []
      { host_eq := (List.append_nil _).symm, length_hdr := rfl, wf := by decide, ends := rfl,
        count := rfl, count_lt := by decide, length_hidden := List.length_replicate _ _,
        hidden_lt := by decide,
        hidden_bytes := fun b hb => by rw [List.eq_of_mem_replicate hb]; decide,
        perm := by decide }
      rfl rfl 3 14 (by decide) (by decide) (by decide))
    rfl
  obtain ⟨b, v, c, hb, hc, hv, _, _, _, _, _, hseg⟩ := h3 0 eoc_wrap_tag rfl rfl
  have hb1 : b < 1 := hb
  have hb0 : b = 0 := by omega
  subst hb0
  have hc2 : c = 2 ^ 32 - 2 := hc.trans (by decide)
  have hv2 : v = (4 + 1 + c) % 2 ^ 32 := hv
  have hv3 : v = 3 := by rw [hv2, hc2]; decide
  refine ⟨segs, h1, h2, v, c, hc2, hv2, hv3, by rw [hc2]; decide, ?_⟩
  rw [hseg]
  rfl

/-! ## Claims on the direct substitution -/

/-- C26 : layout of the direct substitution. On the direct path of
`insert_lsb`, for a host that holds its header and its data region, with
`4 * L` not above `data_size` : the stream written starts with the
`header_size` bytes of the header; for every payload index `k < L` and every
`i < 4` the byte at the offset `4 * k + i` of the data is
`(host byte & 0xFC) | ((m >> (6 - 2 * i)) & 3)` where `m` is the payload byte
`k` exclusive-ored with the draw number `k` modulo 255; every byte of the data
from the offset `4 * L` on is the byte of the host; and the data region has
`data_size` bytes, after which comes what `write_signature` writes. -/
theorem insert_lsb_direct_layout (E : LsbEnv) (infos : info_s) (e : err_code)
    (hmode : infos.mode = mode_e.STEGX_MODE_INSERT)
    (halgo : infos.algo = algo_e.STEGX_ALGO_LSB)
    (htype : infos.host.type = type_e.BMP_UNCOMPRESSED ∨ infos.host.type = type_e.WAV_PCM)
    (hdirect : lsb_direct E.LENGTH_FILE_MAX infos = true)
    (hlen : infos.hidden.length = infos.hidden_length)
    (hbytes : ∀ b ∈ infos.hidden, b < 256)
    (hsize : infos.host.file_info.bmp_data_size < 2 ^ 32)
    (hcap : 4 * infos.hidden_length ≤ infos.host.file_info.bmp_data_size)
    (hhost : infos.host.file_info.bmp_header_size + infos.host.file_info.bmp_data_size
      ≤ infos.host.host.length) :
    ∃ r, insert_lsb E infos e = some r ∧
      r.res.take infos.host.file_info.bmp_header_size =
        infos.host.host.take infos.host.file_info.bmp_header_size ∧
      (∀ k i, k < infos.hidden_length → i < 4 →
        r.res[infos.host.file_info.bmp_header_size + (4 * k + i)]? = some
          ((infos.host.host.getD (infos.host.file_info.bmp_header_size + (4 * k + i)) 0
              &&& 0xFC) |||
            (((infos.hidden.getD k 0 ^^^
              ((E.R.stegx_rand (keystream_seed E.R.stegx_rand
                (E.R.stegx_srand (E.R.create_seed infos.passwd)) k)).1 % 255)) >>>
                (6 - 2 * i)) &&& 3))) ∧
      (∀ j, 4 * infos.hidden_length ≤ j → j < infos.host.file_info.bmp_data_size →
        r.res[infos.host.file_info.bmp_header_size + j]? =
          infos.host.host[infos.host.file_info.bmp_header_size + j]?) ∧
      r.res.drop (infos.host.file_info.bmp_header_size + infos.host.file_info.bmp_data_size) =
        (E.write_signature infos).2 ∧
      r.res.length = infos.host.file_info.bmp_header_size +
        infos.host.file_info.bmp_data_size + (E.write_signature infos).2.length := by
  obtain ⟨enc, ret, errno, henc, hins, hlay⟩ := insert_lsb_bmp_wav_direct_layout E.R
    E.write_signature E.LENGTH_FILE_MAX infos e hdirect hlen hbytes hsize hcap hhost
  have hA : (infos.host.host.take infos.host.file_info.bmp_header_size).length =
      infos.host.file_info.bmp_header_size := by
    rw [List.length_take]; omega
  have hT : (((infos.host.host.drop infos.host.file_info.bmp_header_size).drop
      (4 * infos.hidden_length)).take
        (infos.host.file_info.bmp_data_size - 4 * infos.hidden_length)).length =
      infos.host.file_info.bmp_data_size - 4 * infos.hidden_length := by
    simp only [List.length_take, List.length_drop]; omega
  refine ⟨⟨ret, infos.host.host.take infos.host.file_info.bmp_header_size ++ enc ++
      ((infos.host.host.drop infos.host.file_info.bmp_header_size).drop
        (4 * infos.hidden_length)).take
          (infos.host.file_info.bmp_data_size - 4 * infos.hidden_length) ++
      (E.write_signature infos).2, errno⟩, ?_, ?_, ?_, ?_, ?_, ?_⟩
  · simp only [insert_lsb, hmode, halgo, htype, ne_eq, not_true_eq_false, or_self, if_false,
      if_true]
    exact hins
  · show List.take _ (_ ++ _ ++ _ ++ _) = _
    rw [List.append_assoc, List.append_assoc, List.take_left' hA]
  · intro k i hk hi
    show (_ ++ _ ++ _ ++ _)[_]? = _
    rw [List.append_assoc, List.append_assoc,
      List.getElem?_append_right (by rw [hA]; omega), hA, Nat.add_sub_cancel_left,
      List.getElem?_append_left (by rw [henc]; omega), hlay k i hk hi,
      List.getD_eq_getElem?_getD, List.getElem?_drop, ← List.getD_eq_getElem?_getD]
  · intro j hj1 hj2
    show (_ ++ _ ++ _ ++ _)[_]? = _
    rw [List.append_assoc, List.append_assoc,
      List.getElem?_append_right (by rw [hA]; omega), hA, Nat.add_sub_cancel_left,
      List.getElem?_append_right (by rw [henc]; omega), henc,
      List.getElem?_append_left (by rw [hT]; omega), List.getElem?_take,
      if_pos (by omega), List.getElem?_drop, List.getElem?_drop]
    congr 1
    omega
  · show List.drop _ (_ ++ _ ++ _ ++ _) = _
    rw [List.drop_left' (by
      simp only [List.length_append, hA, henc, hT]
      omega)]
  · show List.length (_ ++ _ ++ _ ++ _) = _
    simp only [List.length_append, hA, henc, hT]
    omega

/-- Witness of C26 : a WAV host with a header of 2 bytes and 9 bytes of data, a
payload of 2 bytes. -/
theorem insert_lsb_direct_layout_witness :
    ∃ r, insert_lsb (test_env [1, 2]) lsb_wav_session err_code.ERR_NONE = some r ∧
      r.res.take 2 = [82, 73] ∧ r.res.drop (2 + 9) = [1, 2] ∧ r.res.length = 2 + 9 + 2 := by
  obtain ⟨r, h1, h2, _, _, h5, h6⟩ := insert_lsb_direct_layout (test_env [1, 2])
    lsb_wav_session err_code.ERR_NONE rfl rfl (Or.inr rfl) rfl rfl (by decide) (by decide)
    (by decide) (by decide)
  exact ⟨r, h1, h2, h5, h6⟩

/-! ## Claims on the frame and on the selection of `protect_data_lsb` -/

/-- C27 : frame of the scrambled substitution. With `4 * L ≤ N`, an insertion
run of `protect_data_lsb` ends and leaves the payload array as it was and a
host array of the same length; it selects `4 * L` pairwise distinct indices
below `N`; every host byte keeps its upper six bits, and a host byte whose
index is not selected is what it was. An extraction run ends and leaves the
host array as it was. -/
theorem protect_data_lsb_frame (R : Rand) (pixels data buffer passwd : List Nat)
    (N L seed0 seed1 : Nat) (hN : N < 2 ^ 32) (hpix : pixels.length = N)
    (hdata : data.length = L) (hbuf : buffer.length = L) (hcap : 4 * L ≤ N) :
    (∃ s, protect_data_lsb R pixels N data L passwd mode_e.STEGX_MODE_INSERT seed0 = some s ∧
      s.data = data ∧ s.pixels.length = N ∧
      s.trace.length = 4 * L ∧ s.trace.Nodup ∧ (∀ m ∈ s.trace, m < N) ∧
      (∀ (m p q : Nat), pixels[m]? = some p → s.pixels[m]? = some q →
        q &&& 0xFC = p &&& 0xFC) ∧
      (∀ m : Nat, m ∉ s.trace → s.pixels[m]? = pixels[m]?)) ∧
    (∃ t, protect_data_lsb R pixels N buffer L passwd mode_e.STEGX_MODE_EXTRACT seed1 = some t ∧
      t.pixels = pixels) := by
  constructor
  · obtain ⟨s, hs, hI⟩ := protect_insert_spec R pixels data passwd N L seed0 hN hpix hdata hcap
    have hfold := hs
    rw [protect_data_lsb_insert_eq] at hfold
    obtain ⟨hd, hl, hb, ext, htr, hf⟩ := lsb_fold_frame R L _ s hfold
    have htr2 : s.trace = ext := by rw [htr]; rfl
    refine ⟨s, hs, hd, hI.length_pixels, hI.inv.length_trace, hI.inv.nodup,
      fun m hm => hI.inv.lt_of_mem hm, ?_, ?_⟩
    · intro m p q hp hq
      have := hb m
      rw [hq] at this
      have hp2 : (lsb_entry R pixels N data passwd).pixels[m]? = some p := hp
      rw [hp2] at this
      simpa using this
    · intro m hm
      rw [htr2] at hm
      exact hf m hm
  · obtain ⟨t, ht, hE⟩ :=
      protect_extract_spec R pixels buffer passwd N L seed1 hN hpix hbuf hcap
    exact ⟨t, ht, hE.pixels_eq⟩

/-- Witness of C27 : a host of 9 bytes, a payload of 2 bytes. -/
theorem protect_data_lsb_frame_witness :
    (∃ s, protect_data_lsb lcg [10, 20, 30, 40, 50, 60, 70, 80, 90] 9 [0xA7, 0x1B] 2
        [112, 119] mode_e.STEGX_MODE_INSERT 0 = some s ∧
      s.data = [0xA7, 0x1B] ∧ s.pixels.length = 9 ∧
      s.trace.length = 4 * 2 ∧ s.trace.Nodup ∧ (∀ m ∈ s.trace, m < 9) ∧
      (∀ (m p q : Nat), [10, 20, 30, 40, 50, 60, 70, 80, 90][m]? = some p →
        s.pixels[m]? = some q → q &&& 0xFC = p &&& 0xFC) ∧
      (∀ m : Nat, m ∉ s.trace →
        s.pixels[m]? = [10, 20, 30, 40, 50, 60, 70, 80, 90][m]?)) ∧
    (∃ t, protect_data_lsb lcg [10, 20, 30, 40, 50, 60, 70, 80, 90] 9 [5, 5] 2
        [112, 119] mode_e.STEGX_MODE_EXTRACT 77 = some t ∧
      t.pixels = [10, 20, 30, 40, 50, 60, 70, 80, 90]) :=
  protect_data_lsb_frame lcg [10, 20, 30, 40, 50, 60, 70, 80, 90] [0xA7, 0x1B] [5, 5]
    [112, 119] 9 2 0 77 (by decide) rfl rfl rfl (by decide)

/-- C28 : selection of a unit. With `4 * L ≤ N`, a run of `protect_data_lsb`
ends, and for every draw `k < 4 * L`, in the state `c` that the `k` first draws
leave : the array `done` has `N` slots of which `r = N - k >= 1` are not used,
the modulus `hidden_length_recalcul - 1` is `r`, so that the rank is
`rang = stegx_rand() % r`; the search returns the index `m` that the run
records for this draw; `m` is below `N`, the slot `m` is not used and exactly
`rang` slots below `m` are not used. The search returns nothing when it reads
outside the array : every read of `done` is at an index below `N`. -/
theorem protect_data_lsb_unit_selection (R : Rand) (mode : mode_e)
    (pixels data passwd : List Nat) (N L seed0 : Nat) (hN : N < 2 ^ 32)
    (hpix : pixels.length = N) (hdata : data.length = L) (hcap : 4 * L ≤ N) :
    ∃ s, protect_data_lsb R pixels N data L passwd mode seed0 = some s ∧
      ∀ k < 4 * L, ∃ c m,
        sel_run R k (sel_init R N passwd) = some c ∧
        c.done.length = N ∧ live c.done = N - k ∧ 1 ≤ N - k ∧
        (c.hidden_length_recalcul + 2 ^ 32 - 1) % 2 ^ 32 = N - k ∧
        select_unit c.done ((R.stegx_rand c.seed).1 % (N - k)) = some m ∧
        s.trace[k]? = some m ∧ m < N ∧ (∃ d, c.done[m]? = some d ∧ d ≠ DONE) ∧
        live (c.done.take m) = (R.stegx_rand c.seed).1 % (N - k) := by
  obtain ⟨s, hs, hG⟩ := protect_gen_spec R mode pixels data passwd N L seed0 hN hpix hdata hcap
  refine ⟨s, hs, ?_⟩
  intro k hk
  obtain ⟨ck, m, hck, hsel, hget⟩ := sel_run_draws R _ (4 * L) s.sel hG.run k hk
  obtain ⟨c, hc, hinv⟩ := sel_run_spec R passwd hN k (by omega)
  rw [hck] at hc
  have hcc := Option.some.inj hc
  subst hcc
  obtain ⟨_, hmod, m2, d, hsel2, hd, hne, hlt, _, htake⟩ := draw_spec R hN hinv (by omega)
  rw [hmod] at hsel
  rw [hsel] at hsel2
  have hm := Option.some.inj hsel2
  subst hm
  rw [hinv.length_trace] at hget
  exact ⟨ck, m, hck, hinv.length_done, hinv.live_done, by omega, hmod, hsel, hget, hlt,
    ⟨d, hd, hne⟩, htake⟩

/-- Witness of C28 : a run over 9 host bytes for 2 payload bytes. -/
theorem protect_data_lsb_unit_selection_witness :
    ∃ s, protect_data_lsb lcg [10, 20, 30, 40, 50, 60, 70, 80, 90] 9 [0xA7, 0x1B] 2
        [112, 119] mode_e.STEGX_MODE_INSERT 0 = some s ∧
      ∀ k < 4 * 2, ∃ c m,
        sel_run lcg k (sel_init lcg 9 [112, 119]) = some c ∧
        c.done.length = 9 ∧ live c.done = 9 - k ∧ 1 ≤ 9 - k ∧
        (c.hidden_length_recalcul + 2 ^ 32 - 1) % 2 ^ 32 = 9 - k ∧
        select_unit c.done ((lcg.stegx_rand c.seed).1 % (9 - k)) = some m ∧
        s.trace[k]? = some m ∧ m < 9 ∧ (∃ d, c.done[m]? = some d ∧ d ≠ DONE) ∧
        live (c.done.take m) = (lcg.stegx_rand c.seed).1 % (9 - k) :=
  protect_data_lsb_unit_selection lcg mode_e.STEGX_MODE_INSERT
    [10, 20, 30, 40, 50, 60, 70, 80, 90] [0xA7, 0x1B] [112, 119] 9 2 0 (by decide) rfl rfl
    (by decide)

/-! ## Claims on the guards of the advisor and of the EOC engine -/

/-- C36 : finalisation of `insert_eoc`. The value that `insert_eoc` returns
does not depend on the writer of the signature : with any writer `ws` it
returns what it returns with the writer of `E`. On `eoc_test_session`, with a
writer that fails (it returns 1), `insert_eoc` has rewritten all the tags and
returns 0, with `stegx_errno` as it was. -/
theorem insert_eoc_ignores_write_signature :
    (∀ (E : EocEnv) (ws : info_s → Int × List Nat) (infos : info_s) (e : err_code),
      (insert_eoc (E.with_signature ws) infos e).map call_result.ret =
        (insert_eoc E infos e).map call_result.ret) ∧
    (eoc_sig_fails_env.write_signature eoc_test_session).1 = 1 ∧
    insert_eoc eoc_sig_fails_env eoc_test_session err_code.ERR_NONE =
      some ⟨0, eoc_test_stream.take (eoc_test_stream.length - 2), err_code.ERR_NONE⟩ ∧
    eoc_test_stream.take (eoc_test_stream.length - 2) ++ (eoc_test_env.write_signature eoc_test_session).2 =
      eoc_test_stream :=
  ⟨insert_eoc_ret_signature, rfl, by decide, by decide⟩

/-- C38 : eligibility and room to embed. A WAV-PCM host of 1000 bytes of
samples of 16 bits and a payload of `2 ^ 29` bytes : `can_use_lsb` proposes
LSB, because `hidden_length * 8` computed on 32 bits is 0, although
`4 * hidden_length = 2 ^ 31` exceeds the 1000 bytes of data; the count
`data_size - 4 * hidden_length` of the bytes that remain, computed on 32 bits
as the direct path does, is `2 ^ 31 + 1000`. The same holds for an uncompressed
BMP host of 1000 pixels of 32 bits with 4000 bytes of data. Whenever
`hidden_length * 8` is below `2 ^ 32`, eligibility does give
`4 * hidden_length <= data_size` for these two kinds of hosts. -/
theorem can_use_lsb_eligible_without_room :
    can_use_lsb (wav_capacity_session 1000 16 (2 ^ 29)) = some 0 ∧
    ¬ 4 * (wav_capacity_session 1000 16 (2 ^ 29)).hidden_length ≤
      (wav_capacity_session 1000 16 (2 ^ 29)).host.file_info.bmp_data_size ∧
    ((wav_capacity_session 1000 16 (2 ^ 29)).host.file_info.bmp_data_size + 2 ^ 32 -
      ((wav_capacity_session 1000 16 (2 ^ 29)).hidden_length * 4) % 2 ^ 32) % 2 ^ 32 =
      2 ^ 31 + 1000 ∧
    can_use_lsb
      { mode := mode_e.STEGX_MODE_INSERT, algo := algo_e.STEGX_ALGO_LSB,
        host := ⟨[], type_e.BMP_UNCOMPRESSED, file_info_u.bmp ⟨54, 4000, 32, 1000⟩⟩,
        hidden := [], hidden_length := 2 ^ 29, passwd := [] } = some 0 ∧
    ¬ 4 * 2 ^ 29 ≤ 4000 ∧ 32 * 1000 / 8 ≤ 4000 ∧ 2 ^ 29 < 2 ^ 32 - 1 ∧
    (∀ infos : info_s, infos.host.type = type_e.WAV_PCM →
      8 ≤ infos.host.file_info.wav_chunk_size → infos.hidden_length * 8 < 2 ^ 32 →
      can_use_lsb infos = some 0 →
      4 * infos.hidden_length ≤ infos.host.file_info.wav_data_size) ∧
    (∀ infos : info_s, infos.host.type = type_e.BMP_UNCOMPRESSED →
      infos.host.file_info.bmp_pixel_length * infos.host.file_info.bmp_pixel_number / 8 ≤
        infos.host.file_info.bmp_data_size →
      infos.hidden_length * 8 < 2 ^ 32 → can_use_lsb infos = some 0 →
      4 * infos.hidden_length ≤ infos.host.file_info.bmp_data_size) ∧
    can_use_lsb (wav_capacity_session 1000 16 125) = some 0 ∧
    can_use_lsb (wav_capacity_session 1000 16 126) = some 1 := by
  refine ⟨by decide, by decide, by decide, by decide, by decide, by decide, by decide,
    can_use_lsb_wav_room, can_use_lsb_bmp_room, by decide, by decide⟩

/-- C39 : the division of the WAV capacity. The inspection of a WAV-PCM host
whose field of the bits per sample holds 0, 4 or 7 returns 0 and stores this
value in `wav.chunk_size`; on the session it leaves, `can_use_lsb` divides by
`chunk_size / 8 = 0`, and so does `stegx_suggest_algo`. With a field of 8 or
of 16 bits the capacity is computed. For a WAV-PCM host the divisor is 0
exactly when the field is below 8. -/
theorem can_use_lsb_wav_divides_by_zero :
    (∀ bps ∈ [0, 4, 7],
      (fill_host_info test_host_env (wav_bps_session bps)).map
          (fun r => (r.1, r.2.host.type, r.2.host.file_info)) =
        some (0, type_e.WAV_PCM, file_info_u.wav ⟨44, 8, bps⟩) ∧
      (fill_host_info test_host_env (wav_bps_session bps)).map
          (fun r => (r.2.host.file_info.wav_chunk_size / 8, can_use_lsb r.2)) =
        some (0, none) ∧
      stegx_suggest_algo (fun i => (fill_host_info test_host_env i).getD (1, i)) (2 ^ 32 - 1)
        (wav_bps_session bps) ⟨err_code.ERR_NONE, []⟩ = none) ∧
    (∀ bps ∈ [8, 16],
      (fill_host_info test_host_env (wav_bps_session bps)).map
          (fun r => (r.1, r.2.host.type, r.2.host.file_info)) =
        some (0, type_e.WAV_PCM, file_info_u.wav ⟨44, 8, bps⟩) ∧
      (fill_host_info test_host_env (wav_bps_session bps)).map
          (fun r => (r.2.host.file_info.wav_chunk_size / 8, can_use_lsb r.2)) =
        some (bps / 8, some 0)) ∧
    (∀ infos : info_s, infos.host.type = type_e.WAV_PCM →
      (can_use_lsb infos = none ↔ infos.host.file_info.wav_chunk_size < 8)) :=
  ⟨by decide, by decide, can_use_lsb_wav_none⟩

/-- C40 : the division of the EOC engine. The inspection accepts the FLV host
of `flv_audio_session`, which has one audio tag and no video tag, and counts 0
video tags; `stegx_suggest_algo` returns 0 and marks EOC as proposed, and
`stegx_choose_algo` accepts EOC. On the session that results, `insert_eoc`
divides by `nb_video_tag = 0`. Whatever the session, `insert_eoc` and
`extract_eoc` divide by 0 as soon as `nb_video_tag` is 0, and `can_use_eoc`
proposes EOC for every FLV host. -/
theorem can_use_eoc_without_video_tag :
    (fill_host_info test_host_env flv_audio_session).map
        (fun r => (r.1, r.2.host.type, r.2.host.file_info)) =
      some (0, type_e.FLV, file_info_u.flv ⟨0, 0, 29⟩) ∧
    (stegx_suggest_algo (fun i => (fill_host_info test_host_env i).getD (1, i)) (2 ^ 32 - 1)
        flv_audio_session ⟨err_code.ERR_NONE, [false, false, false, false, false]⟩).map
        (fun r => (r.ret, r.g.stegx_propos_algos, r.infos.hidden_length)) =
      some (0, [false, true, false, true, false], 3) ∧
    [false, true, false, true, false].getD algo_e.STEGX_ALGO_EOC.index false = true ∧
    (stegx_suggest_algo (fun i => (fill_host_info test_host_env i).getD (1, i)) (2 ^ 32 - 1)
        flv_audio_session ⟨err_code.ERR_NONE, [false, false, false, false, false]⟩).map
        (fun r => (r.infos.host.file_info.flv_nb_video_tag,
          (stegx_choose_algo lcg 8 1000 r.infos algo_e.STEGX_ALGO_EOC r.g).ret,
          insert_eoc eoc_test_env
            (stegx_choose_algo lcg 8 1000 r.infos algo_e.STEGX_ALGO_EOC r.g).infos
            err_code.ERR_NONE)) =
      some (0, 0, none) ∧
    (∀ (E : EocEnv) (infos : info_s) (e : err_code),
      infos.host.file_info.flv_nb_video_tag = 0 →
      insert_eoc E infos e = none ∧ extract_eoc E infos e = none) ∧
    (∀ infos : info_s, infos.host.type = type_e.FLV → can_use_eoc infos = 0) := by
  refine ⟨by decide, by decide, by decide, by decide, ?_, ?_⟩
  · intro E infos e h
    exact ⟨insert_eoc_no_video E infos e h, extract_eoc_no_video E infos e h⟩
  · intro infos h
    simp [can_use_eoc, h]

/-! ## Claims on the keystream and on the sizes of the EOC engine -/

/-- C31 : the keystream of the EOC engine starts again for each tag. For a
well-formed host on which `insert_eoc` returns 0, the stream written is made of
the 13 leading bytes, of one segment for each tag and of what follows. The
segment of the video tag of index `i`, which is the video tag number
`c = video_count (tags.take i)` and carries the block `table[c]`, holds after
the `11 + size` bytes of its header and payload and the byte 28 the bytes
`stored i` of its share, then 4 bytes; the byte `j` of `stored i` is the byte
`j` of the block exclusive-ored with `eoc_keystream R passwd j`, the draw
number `j` after the seeding with the password modulo 255, whatever the tag.
Hence for two video tags the exclusive-or of the bytes `j` stored is the
exclusive-or of the bytes `j` of their blocks. In `extract_eoc`, each turn of
the loop appends to the result the bytes of the share that it reads (the
bytes that the turn appends when the keystream is made of zeros), the byte
`j` exclusive-ored with the same `eoc_keystream R passwd j`. -/
theorem eoc_keystream_restart (E : EocEnv) (infos : info_s) (e : err_code)
    (hdr : List Nat) (tags : List flv_tag) (rest : List Nat)
    (h : EocHost E infos hdr tags rest)
    (hmode : infos.mode = mode_e.STEGX_MODE_INSERT)
    (halgo : infos.algo = algo_e.STEGX_ALGO_EOC)
    (r : call_result) (hins : insert_eoc E infos e = some r) (hret : r.ret = 0) :
    ∃ (segs : List (List Nat)) (plain stored : Nat → List Nat),
      r.res = hdr ++ segs.flatten ++ rest ++ (E.write_signature infos).2 ∧
      segs.length = tags.length ∧
      (∀ (i : Nat) (t : flv_tag), tags[i]? = some t → t.tag_type = 9 →
        plain i = eoc_block infos.hidden infos.host.file_info.flv_nb_video_tag
          (infos.hidden_length / infos.host.file_info.flv_nb_video_tag)
          (infos.hidden_length % infos.host.file_info.flv_nb_video_tag)
          ((eoc_table E infos.host.file_info.flv_nb_video_tag infos.passwd).getD
            (video_count (tags.take i)) 0) ∧
        (∃ pre post : List Nat, pre.length = t.size + 11 ∧ post.length = 4 ∧
          segs[i]? = some (pre ++ [28] ++ stored i ++ post)) ∧
        (stored i).length = (plain i).length ∧
        ∀ (j x : Nat), (plain i)[j]? = some x →
          (stored i)[j]? = some ((x ^^^ eoc_keystream E.R infos.passwd j) % 256)) ∧
      (∀ (i1 i2 : Nat) (t1 t2 : flv_tag) (j x1 x2 : Nat),
        tags[i1]? = some t1 → t1.tag_type = 9 → tags[i2]? = some t2 → t2.tag_type = 9 →
        (plain i1)[j]? = some x1 → (plain i2)[j]? = some x2 →
        ∃ y1 y2, (stored i1)[j]? = some y1 ∧ (stored i2)[j]? = some y2 ∧
          y1 ^^^ y2 = x1 ^^^ x2) ∧
      (∀ (host table : List Nat) (datab : Bool) (n q s : Nat) (st st1 : eoc_ext_state),
        extract_eoc_block E.R infos.passwd host table datab n q s st = some st1 →
        ∃ st0, extract_eoc_block E.R.mute infos.passwd host table datab n q s
            { st with res := [] } = some st0 ∧
          st0.res.length = eoc_share n q s st.nb_block ∧
          st1.res.length = st.res.length + st0.res.length ∧
          ∀ (j x : Nat), st0.res[j]? = some x →
            st1.res[st.res.length + j]? =
              some ((x ^^^ eoc_keystream E.R infos.passwd j) % 256)) := by
  obtain ⟨_, hres⟩ := insert_eoc_ok E infos e hdr tags rest h hmode halgo r hins hret
  refine ⟨_,
    fun i => eoc_block infos.hidden infos.host.file_info.flv_nb_video_tag
      (infos.hidden_length / infos.host.file_info.flv_nb_video_tag)
      (infos.hidden_length % infos.host.file_info.flv_nb_video_tag)
      ((eoc_table E infos.host.file_info.flv_nb_video_tag infos.passwd).getD
        (video_count (tags.take i)) 0),
    fun i => eoc_mask E.R (E.R.stegx_srand (E.R.create_seed infos.passwd))
      (eoc_block infos.hidden infos.host.file_info.flv_nb_video_tag
        (infos.hidden_length / infos.host.file_info.flv_nb_video_tag)
        (infos.hidden_length % infos.host.file_info.flv_nb_video_tag)
        ((eoc_table E infos.host.file_info.flv_nb_video_tag infos.passwd).getD
          (video_count (tags.take i)) 0)),
    hres, eoc_segments_length _ _ _ _ _ _ _ tags 0, ?_, ?_, ?_⟩
  · intro i t hget ht
    obtain ⟨_, _, hseg, hpre⟩ := eoc_segment_video h i t hget ht
    exact ⟨rfl, ⟨_, _, hpre, be32_bytes_length _, hseg⟩, eoc_mask_length _ _ _,
      fun j x hx => eoc_mask_getElem? E.R infos.passwd _ j x hx⟩
  · intro i1 i2 t1 t2 j x1 x2 _ _ _ _ hx1 hx2
    refine ⟨_, _, eoc_mask_getElem? E.R infos.passwd _ j x1 hx1,
      eoc_mask_getElem? E.R infos.passwd _ j x2 hx2, ?_⟩
    exact xor_cancel_key x1 x2 _
      (h.hidden_bytes x1 (eoc_block_mem _ _ _ _ _ x1 (List.getElem?_mem hx1)))
      (h.hidden_bytes x2 (eoc_block_mem _ _ _ _ _ x2 (List.getElem?_mem hx2)))
      (eoc_keystream_lt E.R infos.passwd j)
  · intro host table datab n q s st st1 hx
    exact extract_eoc_block_keystream E.R infos.passwd host table datab n q s st st1 hx

/-- Witness of C31 : `eoc_test_session`, three video tags. The first one
carries the block `[5, 6, 7, 8]` and the third tag of the host, which is the
second video tag, the block `[1, 2]`; the bytes 0 of their shares in the stream
are 182 and 178, and `182 ^ 178 = 5 ^ 1`. -/
theorem eoc_keystream_restart_witness :
    ∃ (segs : List (List Nat)) (plain stored : Nat → List Nat),
      eoc_test_stream = eoc_test_hdr ++ segs.flatten ++ eoc_test_rest ++ [200, 201] ∧
      plain 0 = [5, 6, 7, 8] ∧ plain 2 = [1, 2] ∧
      (∃ pre post : List Nat, pre.length = 2 + 11 ∧ post.length = 4 ∧
        segs[0]? = some (pre ++ [28] ++ stored 0 ++ post)) ∧
      (∃ pre post : List Nat, pre.length = 0 + 11 ∧ post.length = 4 ∧
        segs[2]? = some (pre ++ [28] ++ stored 2 ++ post)) ∧
      ∃ y1 y2, (stored 0)[0]? = some y1 ∧ (stored 2)[0]? = some y2 ∧ y1 ^^^ y2 = 5 ^^^ 1 := by
  obtain ⟨segs, plain, stored, hres, _, hseg, hxor, _⟩ :=
    eoc_keystream_restart eoc_test_env eoc_test_session err_code.ERR_NONE
      eoc_test_hdr eoc_test_tags eoc_test_rest
      { host_eq := rfl, length_hdr := rfl, wf := by decide, ends := rfl,
        count := by decide, count_lt := by decide, length_hidden := rfl,
        hidden_lt := by decide, hidden_bytes := by decide, perm := by decide }
      rfl rfl ⟨0, eoc_test_stream, err_code.ERR_NONE⟩ (by decide) rfl
  obtain ⟨hp0, hs0, _, _⟩ := hseg 0 ⟨9, 2, 7, [1, 2, 3, 4, 5, 6], [100, 101], 13⟩ rfl rfl
  obtain ⟨hp2, hs2, _, _⟩ := hseg 2 ⟨9, 0, 7, [1, 2, 3, 4, 5, 6], [], 11⟩ rfl rfl
  have hp0b : plain 0 = [5, 6, 7, 8] := hp0.trans (by decide)
  have hp2b : plain 2 = [1, 2] := hp2.trans (by decide)
  exact ⟨segs, plain, stored, hres, hp0b, hp2b, hs0, hs2,
    hxor 0 2 ⟨9, 2, 7, [1, 2, 3, 4, 5, 6], [100, 101], 13⟩ ⟨9, 0, 7, [1, 2, 3, 4, 5, 6], [], 11⟩
      0 5 1 rfl rfl rfl rfl (by rw [hp0b]; rfl) (by rw [hp2b]; rfl)⟩

/-- C32 : the previous-tag-size of `insert_eoc`. The second test of the loop,
`data_size > 0xFFFFFFFF`, bears on the size, a 32-bit value : it is false for
every tag. For a well-formed host `insert_eoc` returns, and it returns 1
exactly when the size recomputed for some video tag does not pass the test of
line 132 (`data_size > 0xFFFFFF`), 0 otherwise : no value of a
previous-tag-size field makes it fail. When it returns 0, the segment written
for the video tag of index `i`, which carries a block of share `c`, ends with
the 4 bytes, most significant first, of `(prev + 1 + c) mod 2 ^ 32`, `prev`
being the previous-tag-size of the tag in the host. -/
theorem insert_eoc_prev_tag_size_unchecked (E : EocEnv) (infos : info_s) (e : err_code)
    (hdr : List Nat) (tags : List flv_tag) (rest : List Nat)
    (h : EocHost E infos hdr tags rest)
    (hmode : infos.mode = mode_e.STEGX_MODE_INSERT)
    (halgo : infos.algo = algo_e.STEGX_ALGO_EOC) :
    (∀ (n q s b : Nat) (t : flv_tag), ¬ eoc_new_size n q s b t > 0xFFFFFFFF) ∧
    ∃ r, insert_eoc E infos e = some r ∧
      (r.ret = 1 ↔
        ¬ eoc_fits (eoc_table E infos.host.file_info.flv_nb_video_tag infos.passwd)
          infos.host.file_info.flv_nb_video_tag
          (infos.hidden_length / infos.host.file_info.flv_nb_video_tag)
          (infos.hidden_length % infos.host.file_info.flv_nb_video_tag) tags 0) ∧
      (r.ret = 0 ↔
        eoc_fits (eoc_table E infos.host.file_info.flv_nb_video_tag infos.passwd)
          infos.host.file_info.flv_nb_video_tag
          (infos.hidden_length / infos.host.file_info.flv_nb_video_tag)
          (infos.hidden_length % infos.host.file_info.flv_nb_video_tag) tags 0) ∧
      (r.ret = 0 → ∃ segs : List (List Nat),
        r.res = hdr ++ segs.flatten ++ rest ++ (E.write_signature infos).2 ∧
        segs.length = tags.length ∧
        ∀ (i : Nat) (t : flv_tag), tags[i]? = some t → t.tag_type = 9 →
          ∃ (c p : Nat) (pre : List Nat),
            c = eoc_share infos.host.file_info.flv_nb_video_tag
              (infos.hidden_length / infos.host.file_info.flv_nb_video_tag)
              (infos.hidden_length % infos.host.file_info.flv_nb_video_tag)
              ((eoc_table E infos.host.file_info.flv_nb_video_tag infos.passwd).getD
                (video_count (tags.take i)) 0) ∧
            p = (t.prev + 1 + c) % 2 ^ 32 ∧ pre.length = t.size + 12 + c ∧
            segs[i]? = some (pre ++ be32_bytes p) ∧ be32_list (be32_bytes p) = p) := by
  refine ⟨fun n q s b t => Nat.not_lt.mpr (Nat.le_of_lt_succ (eoc_new_size_lt n q s b t)), ?_⟩
  by_cases hfits : eoc_fits (eoc_table E infos.host.file_info.flv_nb_video_tag infos.passwd)
      infos.host.file_info.flv_nb_video_tag
      (infos.hidden_length / infos.host.file_info.flv_nb_video_tag)
      (infos.hidden_length % infos.host.file_info.flv_nb_video_tag) tags 0
  · have hspec := insert_eoc_spec E infos e hdr tags rest h hmode halgo hfits
    refine ⟨_, hspec, ?_, ?_, ?_⟩
    · exact ⟨fun h1 => absurd h1 (show ¬ ((0 : Int) = 1) by decide), fun h1 => absurd hfits h1⟩
    · exact ⟨fun _ => hfits, fun _ => rfl⟩
    · intro _
      obtain ⟨_, hres⟩ := insert_eoc_ok E infos e hdr tags rest h hmode halgo _ hspec rfl
      refine ⟨_, hres, eoc_segments_length _ _ _ _ _ _ _ tags 0, ?_⟩
      intro i t hget ht
      obtain ⟨_, hblock, hseg, hpre⟩ := eoc_segment_video h i t hget ht
      rw [eoc_new_prev_eq] at hseg
      refine ⟨_, _, _, rfl, rfl, ?_, hseg,
        be32_be32_bytes_list _ (Nat.mod_lt _ (by norm_num))⟩
      rw [List.length_append, List.length_append, hpre, eoc_mask_length, hblock]
      simp only [List.length_cons, List.length_nil]
  · obtain ⟨res, hfail⟩ := insert_eoc_fail E infos e hdr tags rest h hmode halgo hfits
    refine ⟨_, hfail, ?_, ?_, ?_⟩
    · exact ⟨fun _ => hfits, fun _ => rfl⟩
    · exact ⟨fun h1 => absurd h1 (show ¬ ((1 : Int) = 0) by decide), fun h1 => absurd h1 hfits⟩
    · intro h1
      exact absurd h1 (show ¬ ((1 : Int) = 0) by decide)

/-- Witness of C32 : a host whose only tag is a video tag with a payload of 2
bytes and a previous-tag-size of `2 ^ 32 - 1`, and a payload to hide of 3
bytes. `insert_eoc` returns 0 and the previous-tag-size that it writes is
`(2 ^ 32 - 1 + 1 + 3) mod 2 ^ 32 = 3`. -/
theorem insert_eoc_prev_tag_size_unchecked_witness :
    ¬ eoc_new_size 1 3 0 0 eoc_prev_max_tag > 0xFFFFFFFF ∧
    ∃ r, insert_eoc eoc_test_env (eoc_single_session eoc_prev_max_tag 3) err_code.ERR_NONE =
        some r ∧ r.ret = 0 ∧
      ∃ (segs : List (List Nat)) (pre : List Nat),
        r.res = eoc_test_hdr ++ segs.flatten ++ [] ++ [200, 201] ∧ pre.length = 2 + 12 + 3 ∧
        segs[0]? = some (pre ++ [0, 0, 0, 3]) ∧ (2 ^ 32 - 1 + 1 + 3) % 2 ^ 32 = 3 := by
  obtain ⟨hdead, r, hr, _, h0, hsegs⟩ :=
    insert_eoc_prev_tag_size_unchecked eoc_test_env (eoc_single_session eoc_prev_max_tag 3)
      err_code.ERR_NONE eoc_test_hdr [eoc_prev_max_tag] []
      { host_eq := (List.append_nil _).symm, length_hdr := rfl, wf := by decide, ends := rfl,
        count := rfl, count_lt := by decide, length_hidden := rfl,
        hidden_lt := by decide, hidden_bytes := by decide, perm := by decide }
      rfl rfl
  have hret : r.ret = 0 := h0.mpr (by simp only [eoc_fits]; decide)
  obtain ⟨segs, hres, _, hseg⟩ := hsegs hret
  obtain ⟨c, p, pre, hc, hp, hpre, hs, _⟩ := hseg 0 eoc_prev_max_tag rfl rfl
  have hc3 : c = 3 := hc.trans (by decide)
  subst hc3
  have hp3 : p = 3 := hp.trans (by decide)
  subst hp3
  exact ⟨hdead 1 3 0 0 eoc_prev_max_tag, r, hr, hret, segs, pre, hres, hpre, hs, by decide⟩

/-! ## Claims on the assertion of `protect_data_lsb` -/

/-- C37 : the assertion of `protect_data_lsb`. `N` is the length of the host
array, below `2 ^ 32`, and `L` the number of payload bytes, so that the
function makes `4 * L` draws when none aborts; the state in which the draw
number `k + 1` starts is the one that `k` draws leave. For every `k` below
`4 * L` and below `N`, this state is reached, the assertion
`hidden_length_recalcul != 1` holds in it, the modulus is `N - k` and the draw
selects an index below `N`. The assertion holds at every draw if and only if
`4 * L <= N`, which is also when `protect_data_lsb` returns. When `4 * L > N`
the `N` first draws have selected `N` distinct indices below `N`, then
`hidden_length_recalcul` is 1 : the draw number `N + 1` stops on the
assertion, and the function does not return. -/
theorem protect_data_lsb_assertion (R : Rand) (mode : mode_e)
    (pixels data passwd : List Nat) (N L seed0 : Nat) (hN : N < 2 ^ 32)
    (hpix : pixels.length = N) (hdata : data.length = L) :
    (∀ k, k < 4 * L → k < N → ∃ c m,
      sel_run R k (sel_init R N passwd) = some c ∧ c.hidden_length_recalcul ≠ 1 ∧
      (c.hidden_length_recalcul + 2 ^ 32 - 1) % 2 ^ 32 = N - k ∧
      select_unit c.done ((R.stegx_rand c.seed).1 % (N - k)) = some m ∧ m < N) ∧
    ((∀ k, k < 4 * L → ∃ c, sel_run R k (sel_init R N passwd) = some c ∧
        c.hidden_length_recalcul ≠ 1) ↔ 4 * L ≤ N) ∧
    ((protect_data_lsb R pixels N data L passwd mode seed0).isSome = true ↔ 4 * L ≤ N) ∧
    (N < 4 * L → ∃ c, sel_run R N (sel_init R N passwd) = some c ∧
      c.hidden_length_recalcul = 1 ∧ c.trace.length = N ∧ c.trace.Nodup ∧
      (∀ m ∈ c.trace, m < N) ∧ sel_pair R c = none ∧
      protect_data_lsb R pixels N data L passwd mode seed0 = none) := by
  have hdraw : ∀ k, k < N → ∃ c m,
      sel_run R k (sel_init R N passwd) = some c ∧ c.hidden_length_recalcul ≠ 1 ∧
      (c.hidden_length_recalcul + 2 ^ 32 - 1) % 2 ^ 32 = N - k ∧
      select_unit c.done ((R.stegx_rand c.seed).1 % (N - k)) = some m ∧ m < N := by
    intro k hk
    obtain ⟨c, hc, hinv⟩ := sel_run_spec R passwd hN k (Nat.le_of_lt hk)
    obtain ⟨hne1, hmod, m, d, hsel, _, _, hlt, _, _⟩ := draw_spec R hN hinv hk
    exact ⟨c, m, hc, hne1, hmod, hsel, hlt⟩
  refine ⟨fun k _ hk => hdraw k hk, ?_, ?_, ?_⟩
  · constructor
    · intro hall
      by_contra hcap
      obtain ⟨c, hc, hne⟩ := hall N (by omega)
      obtain ⟨c2, hc2, h1, _⟩ := sel_run_exhausted R passwd hN
      rw [hc] at hc2
      have hcc := Option.some.inj hc2
      subst hcc
      exact hne h1
    · intro hcap k hk
      obtain ⟨c, _, hc, hne, _⟩ := hdraw k (by omega)
      exact ⟨c, hc, hne⟩
  · constructor
    · intro hsome
      by_contra hcap
      rw [protect_abort R mode pixels data passwd N L seed0 hN hpix hdata (by omega)] at hsome
      exact absurd hsome (by decide)
    · intro hcap
      obtain ⟨s, hs, _⟩ := protect_gen_spec R mode pixels data passwd N L seed0 hN hpix hdata hcap
      rw [hs]
      rfl
  · intro hcap
    obtain ⟨c, hc, h1, hlen, hnd, hlt, hab⟩ := sel_run_exhausted R passwd hN
    exact ⟨c, hc, h1, hlen, hnd, hlt, hab,
      protect_abort R mode pixels data passwd N L seed0 hN hpix hdata hcap⟩

/-- Witness of C37 : a host array of 3 bytes and one payload byte, hence 4
draws; the 3 first ones select the 3 indices and the fourth one stops on the
assertion. -/
theorem protect_data_lsb_assertion_witness :
    ∃ c, sel_run lcg 3 (sel_init lcg 3 [112, 119]) = some c ∧
      c.hidden_length_recalcul = 1 ∧ c.trace.length = 3 ∧ c.trace.Nodup ∧
      (∀ m ∈ c.trace, m < 3) ∧ sel_pair lcg c = none ∧
      protect_data_lsb lcg [10, 20, 30] 3 [0xA7] 1 [112, 119] mode_e.STEGX_MODE_INSERT 0 = none :=
  (protect_data_lsb_assertion lcg mode_e.STEGX_MODE_INSERT [10, 20, 30] [0xA7] [112, 119] 3 1 0
    (by decide) rfl rfl).2.2.2 (by decide)

/-! ## Claims on the MP3 extraction -/

/-- C35 : bound of the output of the MP3 extraction. `hidden_length` is a
32-bit number. Whatever the host, the MP3 branch of `extract_lsb` returns and
the result stream holds at most `hidden_length` bytes. The loop on the headers,
started in a state where `s`, the number of bytes written, is the length of
the result and is not above `hidden_length`, returns a result that extends
what was written and holds at most `hidden_length` bytes; one header makes it
write at most one byte. As soon as `s` has reached `hidden_length` the loop
ends at the evaluation of its condition, whatever follows in the host : no
other header is decoded, no frame is skipped and nothing is written. -/
theorem extract_lsb_mp3_output_bound (R : Rand) (M : Mp3Env) (infos : info_s) (e : err_code)
    (hL : infos.hidden_length < 2 ^ 32) :
    (∃ r, extract_lsb_mp3 R M infos e = some r ∧ r.res.length ≤ infos.hidden_length) ∧
    (infos.mode = mode_e.STEGX_MODE_EXTRACT → infos.algo = algo_e.STEGX_ALGO_LSB →
      infos.host.type = type_e.MP3 → ∀ E : LsbEnv, E.R = R → E.M = M →
      ∃ r, extract_lsb E infos e = some r ∧ r.res.length ≤ infos.hidden_length) ∧
    (∀ (fuel : Nat) (host : List Nat) (st : mp3_ext_state), host.length < fuel →
      st.res.length = st.s → st.s ≤ infos.hidden_length →
      ∃ code res, mp3_extract_frames M infos.hidden_length fuel host st = some (code, res) ∧
        res.length ≤ infos.hidden_length ∧ st.res <+: res) ∧
    (∀ (hdr : Nat) (st : mp3_ext_state),
      (mp3_extract_bits M hdr (List.range MP3_HDR_NB_BITS_MODIF) st).res.length ≤
        st.res.length + 1) ∧
    (∀ (fuel : Nat) (host : List Nat) (st : mp3_ext_state), infos.hidden_length ≤ st.s →
      mp3_extract_frames M infos.hidden_length (fuel + 1) host st = some (0, st.res)) := by
  have hmain : ∃ r, extract_lsb_mp3 R M infos e = some r ∧
      r.res.length ≤ infos.hidden_length := by
    obtain ⟨code, res, hrun, hb, _⟩ := mp3_extract_frames_bound M infos.hidden_length hL
      ((infos.host.host.drop infos.host.file_info.mp3_fr_frst_adr).length + 1)
      (infos.host.host.drop infos.host.file_info.mp3_fr_frst_adr)
      { b := 0, b_cnt := 8, s := 0, seed := M.srand (R.create_seed infos.passwd), res := [] }
      (Nat.lt_succ_self _) rfl (Nat.zero_le _)
    refine ⟨⟨code, res, e⟩, ?_, hb⟩
    simp only [extract_lsb_mp3, hrun]
  refine ⟨hmain, ?_, mp3_extract_frames_bound M infos.hidden_length hL, ?_,
    fun fuel host st h => mp3_extract_frames_stop M infos.hidden_length fuel host st h⟩
  · intro hmode halgo htype E hR hM
    obtain ⟨r, hr, hb⟩ := hmain
    refine ⟨r, ?_, hb⟩
    have h1 : ¬ (infos.mode ≠ mode_e.STEGX_MODE_EXTRACT ∨ infos.algo ≠ algo_e.STEGX_ALGO_LSB) := by
      simp [hmode, halgo]
    simp only [extract_lsb, h1, if_false, htype, reduceCtorEq, or_self, if_true, hR, hM, hr]
  · intro hdr st
    rcases mp3_extract_bits_header M hdr st with ⟨h1, _⟩ | ⟨h1, _, _⟩
    · rw [h1]; omega
    · rw [h1]

/-- Witness of C35 : a host of 8 frame headers that carry the 3 bytes `ABC`,
followed by 4 bytes. With `hidden_length = 3` the three bytes are written,
with `hidden_length = 2` the two first ones only. -/
theorem extract_lsb_mp3_output_bound_witness :
    (∃ r, extract_lsb_mp3 lcg (test_env []).M (mp3_extract_session 2) err_code.ERR_NONE =
        some r ∧ r.res.length ≤ 2) ∧
    extract_lsb_mp3 lcg (test_env []).M (mp3_extract_session 2) err_code.ERR_NONE =
      some ⟨0, [0x41, 0x42], err_code.ERR_NONE⟩ ∧
    extract_lsb_mp3 lcg (test_env []).M (mp3_extract_session 3) err_code.ERR_NONE =
      some ⟨0, [0x41, 0x42, 0x43], err_code.ERR_NONE⟩ :=
  ⟨(extract_lsb_mp3_output_bound lcg (test_env []).M (mp3_extract_session 2) err_code.ERR_NONE
    (by decide)).1, by decide, by decide⟩

/-! ## Claims on the MP3 insertion -/

/-- C33 : the header that the MP3 insertion rewrites. Each mask `mp3_mask[c]`
has, among the 32 bits, all of them set but the bit `mp3_shift[c]`, and the
positions are 2, 3 and 8. For a header `h` of 32 bits and any state of the
payload (`b_cnt <= 8`), the inner loop run on `h` leaves a header of 32 bits
whose bits other than the bits 2, 3 and 8 are those of `h`; it hides
`min 3 n` bits, `n` being the number of bits that are left to hide; the slot
`k` (bit `mp3_shift[k]`) holds the bit number `k` of the bits to hide, which
are the bits left of the byte in progress then the bits of the masked bytes
that follow, each byte giving its bits from the least significant one on; a
slot for which no bit is left keeps the bit of `h`; and when the payload is
exhausted the header is `h`. This header is the one that the loop on the
frames writes. -/
theorem mp3_header_frame (M : Mp3Env) (h b b_cnt seed : Nat) (hidden : List Nat) (eof : Bool)
    (hh : h < 2 ^ 32) (hb : b_cnt ≤ 8) :
    (∀ c < MP3_HDR_NB_BITS_MODIF, ∀ i : Nat,
      (mp3_mask.getD c 0).testBit i = (decide (i < 32) && !decide (i = mp3_shift.getD c 0))) ∧
    mp3_shift = [2, 3, 8] ∧
    (mp3_insert_bits M (MP3_HDR_NB_BITS_MODIF + 1) ⟨h, 0, b, b_cnt, seed, hidden, eof⟩).hdr <
      2 ^ 32 ∧
    (∀ i : Nat, i ≠ 2 → i ≠ 3 → i ≠ 8 →
      (mp3_insert_bits M (MP3_HDR_NB_BITS_MODIF + 1)
        ⟨h, 0, b, b_cnt, seed, hidden, eof⟩).hdr.testBit i = h.testBit i) ∧
    (mp3_insert_bits M (MP3_HDR_NB_BITS_MODIF + 1) ⟨h, 0, b, b_cnt, seed, hidden, eof⟩).hdr_cnt =
      min MP3_HDR_NB_BITS_MODIF
        (mp3_pending M.rand ⟨h, 0, b, b_cnt, seed, hidden, eof⟩).length ∧
    (∀ k x : Nat, k < MP3_HDR_NB_BITS_MODIF →
      (mp3_pending M.rand ⟨h, 0, b, b_cnt, seed, hidden, eof⟩)[k]? = some x →
      (mp3_insert_bits M (MP3_HDR_NB_BITS_MODIF + 1)
        ⟨h, 0, b, b_cnt, seed, hidden, eof⟩).hdr.testBit (mp3_shift.getD k 0) =
          decide (x = 1)) ∧
    (∀ k : Nat, k < MP3_HDR_NB_BITS_MODIF →
      (mp3_pending M.rand ⟨h, 0, b, b_cnt, seed, hidden, eof⟩).length ≤ k →
      (mp3_insert_bits M (MP3_HDR_NB_BITS_MODIF + 1)
        ⟨h, 0, b, b_cnt, seed, hidden, eof⟩).hdr.testBit (mp3_shift.getD k 0) =
          h.testBit (mp3_shift.getD k 0)) ∧
    (b_cnt = 0 → hidden = [] →
      (mp3_insert_bits M (MP3_HDR_NB_BITS_MODIF + 1) ⟨h, 0, b, b_cnt, seed, hidden, eof⟩).hdr =
        h) ∧
    (∀ m i : Nat, i < 8 → (byte_bits m 8)[i]? = some ((m >>> i) &&& 1)) ∧
    (∀ (fuel b0 b1 b2 b3 hdr_var : Nat) (host1 res : List Nat), be32 b0 b1 b2 b3 = h →
      M.mp3_mpeg_hdr_test h = true →
      mp3_insert_frames M (fuel + 1) (b0 :: b1 :: b2 :: b3 :: host1) res hdr_var b b_cnt seed
          hidden eof =
        match mp3_mpeg_fr_write M
            (mp3_insert_bits M (MP3_HDR_NB_BITS_MODIF + 1)
              ⟨h, 0, b, b_cnt, seed, hidden, eof⟩).hdr host1
            (res ++ be32_bytes (mp3_insert_bits M (MP3_HDR_NB_BITS_MODIF + 1)
              ⟨h, 0, b, b_cnt, seed, hidden, eof⟩).hdr) with
        | (0, host2, res2) =>
          mp3_insert_frames M fuel host2 res2
            (M.stegx_htobe32 (mp3_insert_bits M (MP3_HDR_NB_BITS_MODIF + 1)
              ⟨h, 0, b, b_cnt, seed, hidden, eof⟩).hdr)
            (mp3_insert_bits M (MP3_HDR_NB_BITS_MODIF + 1) ⟨h, 0, b, b_cnt, seed, hidden, eof⟩).b
            (mp3_insert_bits M (MP3_HDR_NB_BITS_MODIF + 1)
              ⟨h, 0, b, b_cnt, seed, hidden, eof⟩).b_cnt
            (mp3_insert_bits M (MP3_HDR_NB_BITS_MODIF + 1)
              ⟨h, 0, b, b_cnt, seed, hidden, eof⟩).seed
            (mp3_insert_bits M (MP3_HDR_NB_BITS_MODIF + 1)
              ⟨h, 0, b, b_cnt, seed, hidden, eof⟩).hidden
            (mp3_insert_bits M (MP3_HDR_NB_BITS_MODIF + 1)
              ⟨h, 0, b, b_cnt, seed, hidden, eof⟩).feof_hidden
        | (_, host2, res2) =>
          some ⟨1, host2, res2,
            (mp3_insert_bits M (MP3_HDR_NB_BITS_MODIF + 1)
              ⟨h, 0, b, b_cnt, seed, hidden, eof⟩).hdr,
            (mp3_insert_bits M (MP3_HDR_NB_BITS_MODIF + 1)
              ⟨h, 0, b, b_cnt, seed, hidden, eof⟩).hidden,
            (mp3_insert_bits M (MP3_HDR_NB_BITS_MODIF + 1)
              ⟨h, 0, b, b_cnt, seed, hidden, eof⟩).feof_hidden⟩) := by
  obtain ⟨p1, p2, _, _⟩ := mp3_insert_bits_pending M (MP3_HDR_NB_BITS_MODIF + 1)
    ⟨h, 0, b, b_cnt, seed, hidden, eof⟩ hb (Nat.zero_le _) (Nat.lt_succ_self _)
  simp only [Nat.sub_zero, Nat.zero_add] at p1 p2
  have hbits : ∀ x ∈ (mp3_pending M.rand ⟨h, 0, b, b_cnt, seed, hidden, eof⟩).take
      MP3_HDR_NB_BITS_MODIF, x ≤ 1 :=
    fun x hx => mp3_pending_le_one M.rand _ x (List.mem_of_mem_take hx)
  have hlen : 0 + ((mp3_pending M.rand ⟨h, 0, b, b_cnt, seed, hidden, eof⟩).take
      MP3_HDR_NB_BITS_MODIF).length ≤ MP3_HDR_NB_BITS_MODIF := by
    rw [List.length_take]; omega
  obtain ⟨e1, e2, e3⟩ := mp3_embed_spec _ h 0 hbits hlen hh
  have hslot : ∀ k : Nat, k < MP3_HDR_NB_BITS_MODIF →
      mp3_shift.getD k 0 = 2 ∨ mp3_shift.getD k 0 = 3 ∨ mp3_shift.getD k 0 = 8 := by
    intro k hk
    have hk3 : k < 3 := hk
    interval_cases k <;> decide
  refine ⟨fun c hc i => mp3_mask_testBit c hc i, rfl, by rw [p1]; exact e1, ?_, p2, ?_, ?_, ?_,
    fun m i hi => byte_bits_getElem? 8 m i hi, ?_⟩
  · intro i h2 h3 h8
    rw [p1]
    apply e2
    intro k _ hk heq
    have hk3 : k < MP3_HDR_NB_BITS_MODIF := by
      rw [List.length_take] at hk; omega
    rcases hslot k hk3 with hs | hs | hs <;> rw [hs] at heq <;> omega
  · intro k x hk hget
    rw [p1]
    have := e3 k x (by rw [List.getElem?_take_of_lt hk]; exact hget)
    rwa [Nat.zero_add] at this
  · intro k hk hle
    rw [p1]
    apply e2
    intro k2 _ hk2 heq
    rw [List.length_take] at hk2
    have := mp3_shift_injective k k2 hk (by omega) heq
    omega
  · intro h0 hnil
    rw [p1, ((mp3_pending_nil M.rand _ hb).mpr ⟨h0, hnil⟩), List.take_nil, mp3_embed]
  · intro fuel b0 b1 b2 b3 hdr_var host1 res hbe ht
    subst hbe
    simp only [mp3_insert_frames, ht, if_true]

/-- Witness of C33 : the header `FF FB 90 00` and a payload whose next byte is
`0x41`, with the generator `lcg`. -/
theorem mp3_header_frame_witness :
    (mp3_insert_bits (test_env []).M (MP3_HDR_NB_BITS_MODIF + 1)
      ⟨0xFFFB9000, 0, 0, 0, 5, [0x41], false⟩).hdr < 2 ^ 32 ∧
    (∀ i : Nat, i ≠ 2 → i ≠ 3 → i ≠ 8 →
      (mp3_insert_bits (test_env []).M (MP3_HDR_NB_BITS_MODIF + 1)
        ⟨0xFFFB9000, 0, 0, 0, 5, [0x41], false⟩).hdr.testBit i = (0xFFFB9000).testBit i) ∧
    (mp3_insert_bits (test_env []).M (MP3_HDR_NB_BITS_MODIF + 1)
      ⟨0xFFFB9000, 0, 0, 0, 5, [0x41], false⟩).hdr_cnt = 3 :=
  ⟨(mp3_header_frame (test_env []).M 0xFFFB9000 0 0 5 [0x41] false (by decide) (by decide)).2.2.1,
    (mp3_header_frame (test_env []).M 0xFFFB9000 0 0 5 [0x41] false (by decide)
      (by decide)).2.2.2.1, by decide⟩

/-- C34 : the MP3 insertion masks each payload byte exactly once. The loop on
the frames, started as `insert_lsb` starts it, writes what the specification
says : each header that passes the test receives the next 3 bits of the
stream of the bits of the masked payload, in which the byte `k` of the payload
is exclusive-ored with the draw number `k` of the generator modulo 255 and
gives its 8 bits from the least significant one on. Header by header : the
bits that are left to hide after a header are those that were left before it
but the ones that it received, whatever the state, in particular when a byte
has been read with the header saturated. Such a byte is read without being
masked and without any draw; the first turn of the next header masks it, with
one draw, before its first bit is hidden; the turns that hide its other bits
neither mask it nor draw. -/
theorem mp3_mask_exactly_once (M : Mp3Env) :
    (∀ (fuel : Nat) (host res : List Nat) (seed : Nat) (hidden : List Nat),
      (mp3_insert_frames M fuel host res 0 0 0 seed hidden false).map
          (fun x => (x.code, x.host, x.res, x.hdr)) =
        mp3_spec_frames M fuel host res 0 (bit_stream (xor_keystream M.rand seed hidden))) ∧
    (∀ (seed : Nat) (hidden : List Nat) (k : Nat),
      (xor_keystream M.rand seed hidden)[k]? = hidden[k]?.map
        (fun b => (b ^^^ ((M.rand (keystream_seed M.rand seed k)).1 % 255)) % 256)) ∧
    (∀ st : mp3_ins_state, st.hdr_cnt = 0 → st.b_cnt ≤ 8 →
      mp3_pending M.rand (mp3_insert_bits M (MP3_HDR_NB_BITS_MODIF + 1) st) =
        (mp3_pending M.rand st).drop MP3_HDR_NB_BITS_MODIF ∧
      (mp3_insert_bits M (MP3_HDR_NB_BITS_MODIF + 1) st).hdr =
        mp3_embed st.hdr 0 ((mp3_pending M.rand st).take MP3_HDR_NB_BITS_MODIF) ∧
      (mp3_insert_bits M (MP3_HDR_NB_BITS_MODIF + 1) st).b_cnt ≤ 8) ∧
    (∀ (fuel hdr b seed x : Nat) (rest : List Nat) (eof : Bool),
      mp3_insert_bits M (fuel + 1) ⟨hdr, MP3_HDR_NB_BITS_MODIF, b, 0, seed, x :: rest, eof⟩ =
        ⟨hdr, MP3_HDR_NB_BITS_MODIF, x, 8, seed, rest, eof⟩ ∧
      mp3_pending M.rand ⟨hdr, MP3_HDR_NB_BITS_MODIF, x, 8, seed, rest, eof⟩ =
        bit_stream (xor_keystream M.rand seed (x :: rest))) ∧
    (∀ (fuel hdr c x seed : Nat) (rest : List Nat) (eof : Bool), c < MP3_HDR_NB_BITS_MODIF →
      mp3_insert_bits M (fuel + 1) ⟨hdr, c, x, 8, seed, rest, eof⟩ =
        mp3_insert_bits M fuel
          ⟨((hdr &&& mp3_mask.getD c 0) |||
              ((((x ^^^ ((M.rand seed).1 % 255)) % 256) &&& 1) <<< mp3_shift.getD c 0)) % 2 ^ 32,
            c + 1, ((x ^^^ ((M.rand seed).1 % 255)) % 256) >>> 1, 7, (M.rand seed).2, rest,
            eof⟩) ∧
    (∀ (fuel hdr c b bc seed : Nat) (rest : List Nat) (eof : Bool),
      c < MP3_HDR_NB_BITS_MODIF → 0 < bc → bc < 8 →
      mp3_insert_bits M (fuel + 1) ⟨hdr, c, b, bc, seed, rest, eof⟩ =
        mp3_insert_bits M fuel
          ⟨((hdr &&& mp3_mask.getD c 0) ||| ((b &&& 1) <<< mp3_shift.getD c 0)) % 2 ^ 32,
            c + 1, b >>> 1, bc - 1, seed, rest, eof⟩) ∧
    (insert_lsb (test_env [])
      { mode := mode_e.STEGX_MODE_INSERT, algo := algo_e.STEGX_ALGO_LSB,
        host := ⟨[255, 251, 144, 0, 255, 251, 144, 0, 255, 251, 144, 0, 255, 251, 144, 0,
                  255, 251, 144, 0, 255, 251, 144, 0],
          type_e.MP3, file_info_u.mp3 ⟨0, 6, 24⟩⟩,
        hidden := [0x41, 0x42], hidden_length := 2, passwd := [112, 119] }
      err_code.ERR_NONE).map call_result.res =
      some ((List.range 6).flatMap fun i => be32_bytes (mp3_embed 0xFFFB9000 0
        (((bit_stream (xor_keystream lcg.stegx_rand
          (lcg.stegx_srand (lcg.create_seed [112, 119])) [0x41, 0x42])).drop (3 * i)).take 3)))
    := by
  refine ⟨?_, fun seed hidden k => xor_keystream_getElem? M.rand hidden seed k, ?_, ?_, ?_, ?_,
    by decide⟩
  · intro fuel host res seed hidden
    exact mp3_insert_frames_spec M fuel host res 0 0 0 seed hidden false (Nat.zero_le _)
  · intro st hc hb
    obtain ⟨p1, _, p3, p4⟩ := mp3_insert_bits_pending M (MP3_HDR_NB_BITS_MODIF + 1) st hb
      (by omega) (Nat.lt_succ_of_le (Nat.sub_le _ _))
    rw [hc, Nat.sub_zero] at p1 p3
    exact ⟨p3, p1, p4⟩
  · intro fuel hdr b seed x rest eof
    constructor
    · simp [mp3_insert_bits]
    · simp [mp3_pending]
  · intro fuel hdr c x seed rest eof hc
    simp [mp3_insert_bits, hc]
  · intro fuel hdr c b bc seed rest eof hc h0 h8
    have hne0 : ¬ bc = 0 := by omega
    have hne8 : ¬ bc = 8 := by omega
    simp [mp3_insert_bits, hc, hne0, hne8]

end StegX
